import Mathlib

/-!
Verification of the regexpp fork: AST assembler (`src/parser.ts`,
class `RegExpParserState`), parse cache (`src/cache.ts`) and fast paths
(`src/fast-paths.ts`).

The JavaScript code mutates a graph of AST node objects that carry parent
pointers and intrusive back-links.  We embed it shallowly as a heap of
node records indexed by natural-number ids (`NodeId`); object mutation is
modelled by updating the heap at an id, `new Error("UnknownError")` (and
the one reachable `TypeError`) by `Except.error ()`.  All sources used in
the theorems are ASCII, so Lean characters coincide with UTF-16 code
units and `String.slice` is modelled by drop/take on the character list.
-/

namespace Regexpp
set_option maxHeartbeats 1000000

/-- JS `source.slice(a, b)` on code-unit indices (ASCII sources). -/
def sliceCU (s : String) (a b : Nat) : String :=
  String.mk ((s.data.drop a).take (b - a))

/-- `HYPHEN_MINUS` from `src/unicode.ts`. -/
def HYPHEN_MINUS : Nat := 45

/-- Edge-assertion kind (`^` or `$`). -/
inductive EdgeK where
  | start
  | fin
deriving DecidableEq, Repr

/-- Escape character-set kind (`\d`, `\s`, `\w`). -/
inductive EscK where
  | digit
  | space
  | word
deriving DecidableEq, Repr

/-- Lookaround kind. -/
inductive LookK where
  | lookahead
  | lookbehind
deriving DecidableEq, Repr

/-- A backreference's `ref` field: a number or a name. -/
inductive Ref where
  | num (k : Nat)
  | name (s : String)
deriving DecidableEq, Repr

/-- A backreference's `resolved` field.  `dummy` models the shared
`DUMMY_CAPTURING_GROUP` placeholder installed at construction;
`one` models a single CapturingGroup object; `many` a list of groups. -/
inductive Resolved where
  | dummy
  | one (g : Nat)
  | many (gs : List Nat)
deriving DecidableEq, Repr

/-- The record passed to `onRegExpFlags`. -/
structure FlagsRec where
  global : Bool
  ignoreCase : Bool
  multiline : Bool
  unicode : Bool
  sticky : Bool
  dotAll : Bool
  hasIndices : Bool
  unicodeSets : Bool
deriving DecidableEq, Repr

/-- The `type` tag of an AST node together with its scalar fields.
The JS `Assertion` type (one `type` string, several `kind`s) is split
into three constructors by `kind` group; `onQuantifier` treats all three
as assertions, matching `element.type === "Assertion"`. -/
inductive NKind where
  | regExpLiteral
  | flagsK (f : FlagsRec)
  | pattern
  | alternative
  | group
  | modifiers
  | modifierFlags (ignoreCase multiline dotAll : Bool)
  | capturingGroup (name : Option String)
  | quantifier (min : Nat) (max : Option Nat) (greedy : Bool)
  | assertionEdge (kind : EdgeK)
  | assertionWord (negate : Bool)
  | assertionLook (kind : LookK) (negate : Bool)
  | characterSetAny
  | characterSetEscape (kind : EscK) (negate : Bool)
  | characterSetProperty (key : String) (value : Option String)
      (negate : Bool) (strings : Bool)
  | character (value : Nat)
  | backreference (ref : Ref) (ambiguous : Bool) (resolved : Resolved)
  | characterClass (negate : Bool) (unicodeSets : Bool)
  | characterClassRange
  | expressionCharacterClass (negate : Bool)
  | classIntersection
  | classSubtraction
  | classStringDisjunction
  | stringAlternative
deriving DecidableEq, Repr

/-- One AST node object on the heap.  `children` is the node's ordered
list of structural children: `alternatives` for Pattern / Group /
CapturingGroup / LookaroundAssertion / ClassStringDisjunction,
`elements` for Alternative / CharacterClass / StringAlternative,
`[element]` for Quantifier, `[min, max]` for CharacterClassRange,
`[left, right]` for ClassIntersection / ClassSubtraction,
`[expression]` for ExpressionCharacterClass, and
`[pattern, flags]` for RegExpLiteral.  `references` is the intrusive
back-link list of a CapturingGroup; `modifiersF` / `addF` / `removeF`
are the `modifiers`, `add` and `remove` object fields. -/
structure NodeObj where
  kind : NKind
  parent : Option Nat
  nstart : Nat
  nend : Nat
  raw : String
  children : List Nat
  references : List Nat := []
  modifiersF : Option Nat := none
  addF : Option Nat := none
  removeF : Option Nat := none
deriving DecidableEq, Repr

/-- State of `RegExpParserState`.  `node = none` models the typeless
`DUMMY_PATTERN` cursor; `flagsv = none` the `DUMMY_FLAGS`. -/
structure PState where
  heap : List NodeObj := []
  node : Option Nat := none
  flagsv : Option Nat := none
  backreferences : List Nat := []
  capturingGroups : List Nat := []
  exprBuffer : List (Nat × Nat) := []
  source : String := ""
  strict : Bool := false
  ecmaVersion : Nat := 2025
deriving DecidableEq, Repr

def getN (s : PState) (i : Nat) : Option NodeObj := s.heap.get? i

def setN (s : PState) (i : Nat) (o : NodeObj) : PState :=
  { s with heap := s.heap.set i o }

/-- Allocate a fresh node object; yields the state and the new id. -/
def alloc (s : PState) (o : NodeObj) : PState × Nat :=
  ({ s with heap := s.heap ++ [o] }, s.heap.length)

/-- `Map.get` on `_expressionBufferMap`. -/
def bufGet (m : List (Nat × Nat)) (k : Nat) : Option Nat :=
  (m.find? (fun p => p.1 == k)).map (fun p => p.2)

/-- `Map.set` on `_expressionBufferMap` (only `get`/`delete` observe it,
so the entry order is irrelevant). -/
def bufSet (m : List (Nat × Nat)) (k v : Nat) : List (Nat × Nat) :=
  (k, v) :: m.filter (fun p => !(p.1 == k))

/-- `Map.delete` on `_expressionBufferMap`. -/
def bufDel (m : List (Nat × Nat)) (k : Nat) : List (Nat × Nat) :=
  m.filter (fun p => !(p.1 == k))

def isAssertionK : NKind → Bool
  | .assertionEdge _ => true
  | .assertionWord _ => true
  | .assertionLook _ _ => true
  | _ => false

def isQuantifierK : NKind → Bool
  | .quantifier _ _ _ => true
  | _ => false

def isCharacterClassK : NKind → Bool
  | .characterClass _ _ => true
  | _ => false

def isCapturingGroupK : NKind → Bool
  | .capturingGroup _ => true
  | _ => false

/-- The `unicodeSets` field of a CharacterClass kind (`false` elsewhere,
matching an undefined field read in JS). -/
def classUnicodeSetsK : NKind → Bool
  | .characterClass _ u => u
  | _ => false

/-- `isClassSetOperand` from `src/parser.ts`. -/
def isClassSetOperandK : NKind → Bool
  | .character _ => true
  | .characterSetAny => true
  | .characterSetEscape _ _ => true
  | .characterSetProperty _ _ _ _ => true
  | .characterClass _ _ => true
  | .expressionCharacterClass _ => true
  | .classStringDisjunction => true
  | _ => false

/-- Push a fresh child node onto the cursor node's child list
(`parent.elements.push(node)` / `parent.alternatives.push(node)`). -/
def pushChild (s : PState) (pid : Nat) (p : NodeObj) (o : NodeObj) :
    PState × Nat :=
  let r := alloc s o
  (setN r.1 pid { p with children := p.children ++ [r.2] }, r.2)

/-- Same as `pushChild` but also makes the new node the cursor
(the `Enter` pattern `this._node = node`). -/
def pushChildFocus (s : PState) (pid : Nat) (p : NodeObj) (o : NodeObj) :
    PState × Nat :=
  let r := pushChild s pid p o
  ({ r.1 with node := some r.2 }, r.2)

/-- Finalize `end`/`raw` on node `i` and pop the cursor to its parent
(the `Leave` pattern). -/
def leaveToParent (s : PState) (i : Nat) (o : NodeObj) (start fin : Nat) :
    PState :=
  let s1 := setN s i { o with nend := fin, raw := sliceCU s.source start fin }
  { s1 with node := o.parent }

/-- `onRegExpFlags` from `src/parser.ts`. -/
def onRegExpFlags (s : PState) (start fin : Nat) (f : FlagsRec) : PState :=
  let r := alloc s
    { kind := .flagsK f, parent := none, nstart := start, nend := fin,
      raw := sliceCU s.source start fin, children := [] }
  { r.1 with flagsv := some r.2 }

/-- `onPatternEnter`. -/
def onPatternEnter (s : PState) (start : Nat) : PState :=
  let r := alloc s
    { kind := .pattern, parent := none, nstart := start, nend := start,
      raw := "", children := [] }
  { r.1 with node := some r.2, backreferences := [], capturingGroups := [] }

def groupName (s : PState) (gid : Nat) : Option String :=
  match getN s gid with
  | some g =>
    match g.kind with
    | .capturingGroup n => n
    | _ => none
  | none => none

/-- `group.references.push(reference)`; a missing group object would be
the JS `TypeError` on `undefined.references`, modelled as an error. -/
def pushReference (s : PState) (gid rid : Nat) : Except Unit PState :=
  match getN s gid with
  | some g => .ok (setN s gid { g with references := g.references ++ [rid] })
  | none => .error ()

/-- One iteration of the resolution loop in `onPatternLeave`.  For a
numeric `ref` the JS code builds `[this._capturingGroups[ref - 1]]`; when
the index is out of range that is `[undefined]`, the single-group branch
stores `undefined` in `resolved` and then crashes with a `TypeError` on
`undefined.references.push`, modelled as `.error ()`. -/
def resolveOne (s : PState) (rid : Nat) : Except Unit PState :=
  match getN s rid with
  | none => .error ()
  | some r =>
    match r.kind with
    | .backreference ref _ _ =>
      match ref with
      | .num k =>
        match s.capturingGroups.get? (k - 1) with
        | some gid =>
          let s1 := setN s rid { r with kind := .backreference ref false (.one gid) }
          pushReference s1 gid rid
        | none => .error ()
      | .name n =>
        let gids := s.capturingGroups.filter (fun g => groupName s g == some n)
        match gids with
        | [gid] =>
          let s1 := setN s rid { r with kind := .backreference ref false (.one gid) }
          pushReference s1 gid rid
        | _ =>
          let s1 := setN s rid { r with kind := .backreference ref true (.many gids) }
          gids.foldlM (fun st g => pushReference st g rid) s1
    | _ => .error ()

/-- `onPatternLeave`: finalize `end`/`raw`, then resolve every pending
backreference in order. -/
def onPatternLeave (s : PState) (start fin : Nat) : Except Unit PState :=
  let s1 :=
    match s.node with
    | some i =>
      match getN s i with
      | some o => setN s i { o with nend := fin, raw := sliceCU s.source start fin }
      | none => s
    | none => s
  s1.backreferences.foldlM resolveOne s1

/-- `onAlternativeEnter`. -/
def onAlternativeEnter (s : PState) (start : Nat) : Except Unit PState :=
  match s.node with
  | none => .error ()
  | some pid =>
    match getN s pid with
    | none => .error ()
    | some p =>
      if isAssertionK p.kind ∨ p.kind = .pattern ∨ p.kind = .group ∨
          isCapturingGroupK p.kind then
        .ok (pushChildFocus s pid p
          { kind := .alternative, parent := some pid, nstart := start,
            nend := start, raw := "", children := [] }).1
      else .error ()

/-- `onAlternativeLeave`. -/
def onAlternativeLeave (s : PState) (start fin : Nat) : Except Unit PState :=
  match s.node with
  | none => .error ()
  | some i =>
    match getN s i with
    | none => .error ()
    | some o =>
      if o.kind = .alternative then .ok (leaveToParent s i o start fin)
      else .error ()

/-- Check that the cursor node's parent has the given node type
(`node.parent.type !== "..."` patterns). -/
def parentKindIs (s : PState) (o : NodeObj) (f : NKind → Bool) : Bool :=
  match o.parent with
  | some p =>
    match getN s p with
    | some po => f po.kind
    | none => false
  | none => false

/-- `onGroupEnter`. -/
def onGroupEnter (s : PState) (start : Nat) : Except Unit PState :=
  match s.node with
  | none => .error ()
  | some pid =>
    match getN s pid with
    | none => .error ()
    | some p =>
      if p.kind = .alternative then
        .ok (pushChildFocus s pid p
          { kind := .group, parent := some pid, nstart := start,
            nend := start, raw := "", children := [], modifiersF := none }).1
      else .error ()

/-- `onGroupLeave`. -/
def onGroupLeave (s : PState) (start fin : Nat) : Except Unit PState :=
  match s.node with
  | none => .error ()
  | some i =>
    match getN s i with
    | none => .error ()
    | some o =>
      if o.kind = .group ∧ parentKindIs s o (fun k => k = .alternative) then
        .ok (leaveToParent s i o start fin)
      else .error ()

/-- `onModifiersEnter`. -/
def onModifiersEnter (s : PState) (start : Nat) : Except Unit PState :=
  match s.node with
  | none => .error ()
  | some pid =>
    match getN s pid with
    | none => .error ()
    | some p =>
      if p.kind = .group then
        let r := alloc s
          { kind := .modifiers, parent := some pid, nstart := start,
            nend := start, raw := "", children := [] }
        let s2 := setN r.1 pid { p with modifiersF := some r.2 }
        .ok { s2 with node := some r.2 }
      else .error ()

/-- `onModifiersLeave`. -/
def onModifiersLeave (s : PState) (start fin : Nat) : Except Unit PState :=
  match s.node with
  | none => .error ()
  | some i =>
    match getN s i with
    | none => .error ()
    | some o =>
      if o.kind = .modifiers ∧ parentKindIs s o (fun k => k = .group) then
        .ok (leaveToParent s i o start fin)
      else .error ()

/-- `onAddModifiers`. -/
def onAddModifiers (s : PState) (start fin : Nat) (ic ml da : Bool) :
    Except Unit PState :=
  match s.node with
  | none => .error ()
  | some pid =>
    match getN s pid with
    | none => .error ()
    | some p =>
      if p.kind = .modifiers then
        let r := alloc s
          { kind := .modifierFlags ic ml da, parent := some pid,
            nstart := start, nend := fin,
            raw := sliceCU s.source start fin, children := [] }
        .ok (setN r.1 pid { p with addF := some r.2 })
      else .error ()

/-- `onRemoveModifiers`. -/
def onRemoveModifiers (s : PState) (start fin : Nat) (ic ml da : Bool) :
    Except Unit PState :=
  match s.node with
  | none => .error ()
  | some pid =>
    match getN s pid with
    | none => .error ()
    | some p =>
      if p.kind = .modifiers then
        let r := alloc s
          { kind := .modifierFlags ic ml da, parent := some pid,
            nstart := start, nend := fin,
            raw := sliceCU s.source start fin, children := [] }
        .ok (setN r.1 pid { p with removeF := some r.2 })
      else .error ()

/-- `onCapturingGroupEnter`. -/
def onCapturingGroupEnter (s : PState) (start : Nat) (name : Option String) :
    Except Unit PState :=
  match s.node with
  | none => .error ()
  | some pid =>
    match getN s pid with
    | none => .error ()
    | some p =>
      if p.kind = .alternative then
        let r := pushChildFocus s pid p
          { kind := .capturingGroup name, parent := some pid, nstart := start,
            nend := start, raw := "", children := [], references := [] }
        .ok { r.1 with capturingGroups := r.1.capturingGroups ++ [r.2] }
      else .error ()

/-- `onCapturingGroupLeave`. -/
def onCapturingGroupLeave (s : PState) (start fin : Nat) : Except Unit PState :=
  match s.node with
  | none => .error ()
  | some i =>
    match getN s i with
    | none => .error ()
    | some o =>
      if isCapturingGroupK o.kind ∧
          parentKindIs s o (fun k => k = .alternative) then
        .ok (leaveToParent s i o start fin)
      else .error ()

/-- `onQuantifier`: pop the last element of the cursor alternative and
wrap it in a fresh Quantifier node.  The `start` parameter is unused,
exactly as in the source (the node start is `element.start`). -/
def onQuantifier (s : PState) (_start fin min : Nat) (max : Option Nat)
    (greedy : Bool) : Except Unit PState :=
  match s.node with
  | none => .error ()
  | some pid =>
    match getN s pid with
    | none => .error ()
    | some p =>
      if p.kind = .alternative then
        match p.children.getLast? with
        | none => .error ()
        | some eid =>
          match getN s eid with
          | none => .error ()
          | some e =>
            if isQuantifierK e.kind ∨
                (isAssertionK e.kind ∧ e.kind ≠ .assertionLook .lookahead true ∧
                  e.kind ≠ .assertionLook .lookahead false) then
              .error ()
            else
              let r := alloc s
                { kind := .quantifier min max greedy, parent := some pid,
                  nstart := e.nstart, nend := fin,
                  raw := sliceCU s.source e.nstart fin, children := [eid] }
              let s2 := setN r.1 pid
                { p with children := p.children.dropLast ++ [r.2] }
              .ok (setN s2 eid { e with parent := some r.2 })
      else .error ()

/-- `onLookaroundAssertionEnter`. -/
def onLookaroundAssertionEnter (s : PState) (start : Nat) (kind : LookK)
    (negate : Bool) : Except Unit PState :=
  match s.node with
  | none => .error ()
  | some pid =>
    match getN s pid with
    | none => .error ()
    | some p =>
      if p.kind = .alternative then
        .ok (pushChildFocus s pid p
          { kind := .assertionLook kind negate, parent := some pid,
            nstart := start, nend := start, raw := "", children := [] }).1
      else .error ()

/-- `onLookaroundAssertionLeave` (checks `node.type === "Assertion"`). -/
def onLookaroundAssertionLeave (s : PState) (start fin : Nat) :
    Except Unit PState :=
  match s.node with
  | none => .error ()
  | some i =>
    match getN s i with
    | none => .error ()
    | some o =>
      if isAssertionK o.kind ∧ parentKindIs s o (fun k => k = .alternative) then
        .ok (leaveToParent s i o start fin)
      else .error ()

/-- `onEdgeAssertion`. -/
def onEdgeAssertion (s : PState) (start fin : Nat) (kind : EdgeK) :
    Except Unit PState :=
  match s.node with
  | none => .error ()
  | some pid =>
    match getN s pid with
    | none => .error ()
    | some p =>
      if p.kind = .alternative then
        .ok (pushChild s pid p
          { kind := .assertionEdge kind, parent := some pid, nstart := start,
            nend := fin, raw := sliceCU s.source start fin, children := [] }).1
      else .error ()

/-- `onWordBoundaryAssertion`. -/
def onWordBoundaryAssertion (s : PState) (start fin : Nat) (negate : Bool) :
    Except Unit PState :=
  match s.node with
  | none => .error ()
  | some pid =>
    match getN s pid with
    | none => .error ()
    | some p =>
      if p.kind = .alternative then
        .ok (pushChild s pid p
          { kind := .assertionWord negate, parent := some pid, nstart := start,
            nend := fin, raw := sliceCU s.source start fin, children := [] }).1
      else .error ()

/-- `onAnyCharacterSet`. -/
def onAnyCharacterSet (s : PState) (start fin : Nat) : Except Unit PState :=
  match s.node with
  | none => .error ()
  | some pid =>
    match getN s pid with
    | none => .error ()
    | some p =>
      if p.kind = .alternative then
        .ok (pushChild s pid p
          { kind := .characterSetAny, parent := some pid, nstart := start,
            nend := fin, raw := sliceCU s.source start fin, children := [] }).1
      else .error ()

/-- `onEscapeCharacterSet`. -/
def onEscapeCharacterSet (s : PState) (start fin : Nat) (kind : EscK)
    (negate : Bool) : Except Unit PState :=
  match s.node with
  | none => .error ()
  | some pid =>
    match getN s pid with
    | none => .error ()
    | some p =>
      if p.kind = .alternative ∨ isCharacterClassK p.kind then
        .ok (pushChild s pid p
          { kind := .characterSetEscape kind negate, parent := some pid,
            nstart := start, nend := fin,
            raw := sliceCU s.source start fin, children := [] }).1
      else .error ()

/-- `onUnicodePropertyCharacterSet`. -/
def onUnicodePropertyCharacterSet (s : PState) (start fin : Nat) (key : String)
    (value : Option String) (negate strings : Bool) : Except Unit PState :=
  match s.node with
  | none => .error ()
  | some pid =>
    match getN s pid with
    | none => .error ()
    | some p =>
      if p.kind = .alternative ∨ isCharacterClassK p.kind then
        if strings ∧
            ((isCharacterClassK p.kind ∧ !classUnicodeSetsK p.kind) ∨
              negate ∨ value ≠ none) then
          .error ()
        else
          .ok (pushChild s pid p
            { kind := .characterSetProperty key value negate strings,
              parent := some pid, nstart := start, nend := fin,
              raw := sliceCU s.source start fin, children := [] }).1
      else .error ()

/-- `onCharacter`. -/
def onCharacter (s : PState) (start fin value : Nat) : Except Unit PState :=
  match s.node with
  | none => .error ()
  | some pid =>
    match getN s pid with
    | none => .error ()
    | some p =>
      if p.kind = .alternative ∨ isCharacterClassK p.kind ∨
          p.kind = .stringAlternative then
        .ok (pushChild s pid p
          { kind := .character value, parent := some pid, nstart := start,
            nend := fin, raw := sliceCU s.source start fin, children := [] }).1
      else .error ()

/-- `onBackreference`. -/
def onBackreference (s : PState) (start fin : Nat) (ref : Ref) :
    Except Unit PState :=
  match s.node with
  | none => .error ()
  | some pid =>
    match getN s pid with
    | none => .error ()
    | some p =>
      if p.kind = .alternative then
        let r := pushChild s pid p
          { kind := .backreference ref false .dummy, parent := some pid,
            nstart := start, nend := fin,
            raw := sliceCU s.source start fin, children := [] }
        .ok { r.1 with backreferences := r.1.backreferences ++ [r.2] }
      else .error ()

/-- `onCharacterClassEnter`. -/
def onCharacterClassEnter (s : PState) (start : Nat) (negate uset : Bool) :
    Except Unit PState :=
  match s.node with
  | none => .error ()
  | some pid =>
    match getN s pid with
    | none => .error ()
    | some p =>
      if p.kind = .alternative ∨ (classUnicodeSetsK p.kind ∧ uset) then
        .ok (pushChildFocus s pid p
          { kind := .characterClass negate uset, parent := some pid,
            nstart := start, nend := start, raw := "", children := [] }).1
      else .error ()

/-- `onCharacterClassLeave`: finalize the class, then perform the buffered
expression-class restructure when an intersection/subtraction was built. -/
def onCharacterClassLeave (s : PState) (start fin : Nat) : Except Unit PState :=
  match s.node with
  | none => .error ()
  | some nid =>
    match getN s nid with
    | none => .error ()
    | some n0 =>
      match n0.kind with
      | .characterClass neg _ =>
        match n0.parent with
        | none => .error ()
        | some pid =>
          match getN s pid with
          | none => .error ()
          | some p0 =>
            if p0.kind = .alternative ∨ isCharacterClassK p0.kind then
              let n1 : NodeObj :=
                { n0 with nend := fin, raw := sliceCU s.source start fin }
              let s2 := { setN s nid n1 with node := some pid }
              match bufGet s2.exprBuffer nid with
              | none => .ok s2
              | some eid =>
                if n1.children ≠ [] then .error ()
                else
                  let s3 := { s2 with exprBuffer := bufDel s2.exprBuffer nid }
                  let r := alloc s3
                    { kind := .expressionCharacterClass neg, parent := some pid,
                      nstart := n1.nstart, nend := n1.nend, raw := n1.raw,
                      children := [eid] }
                  match getN r.1 eid with
                  | none => .error ()
                  | some e0 =>
                    let s5 := setN r.1 eid { e0 with parent := some r.2 }
                    match getN s5 pid with
                    | none => .error ()
                    | some p1 =>
                      match p1.children.getLast? with
                      | some lastId =>
                        if lastId = nid then
                          .ok (setN s5 pid
                            { p1 with children := p1.children.dropLast ++ [r.2] })
                        else .error ()
                      | none => .error ()
            else .error ()
      | _ => .error ()

/-- `onCharacterClassRange`: pop `max`, (in non-`v` mode) the hyphen, and
`min`, and push a fresh range node wrapping them. -/
def onCharacterClassRange (s : PState) (start fin : Nat) : Except Unit PState :=
  match s.node with
  | none => .error ()
  | some pid =>
    match getN s pid with
    | none => .error ()
    | some p =>
      match p.kind with
      | .characterClass _ uset =>
        match p.children.getLast? with
        | none => .error ()
        | some maxId =>
          match getN s maxId with
          | none => .error ()
          | some mx =>
            match mx.kind with
            | .character _ =>
              let elems1 := p.children.dropLast
              let rest : Option (List Nat) :=
                if uset then some elems1
                else
                  match elems1.getLast? with
                  | none => none
                  | some hid =>
                    match getN s hid with
                    | some h =>
                      if h.kind = .character HYPHEN_MINUS then
                        some elems1.dropLast
                      else none
                    | none => none
              match rest with
              | none => .error ()
              | some elems2 =>
                match elems2.getLast? with
                | none => .error ()
                | some minId =>
                  match getN s minId with
                  | none => .error ()
                  | some mn =>
                    match mn.kind with
                    | .character _ =>
                      let r := alloc s
                        { kind := .characterClassRange, parent := some pid,
                          nstart := start, nend := fin,
                          raw := sliceCU s.source start fin,
                          children := [minId, maxId] }
                      let s2 := setN r.1 minId { mn with parent := some r.2 }
                      let s3 :=
                        match getN s2 maxId with
                        | some mx2 => setN s2 maxId { mx2 with parent := some r.2 }
                        | none => s2
                      .ok (setN s3 pid
                        { p with children := elems2.dropLast ++ [r.2] })
                    | _ => .error ()
            | _ => .error ()
      | _ => .error ()

/-- `onClassIntersection`: take `right` from the element list and `left`
from the buffered expression (or the element list), reject a mixed
subtraction, and buffer the new intersection node. -/
def onClassIntersection (s : PState) (start fin : Nat) : Except Unit PState :=
  match s.node with
  | none => .error ()
  | some pid =>
    match getN s pid with
    | none => .error ()
    | some p =>
      match p.kind with
      | .characterClass _ uset =>
        if !uset then .error ()
        else
          match p.children.getLast? with
          | none => .error ()
          | some rid =>
            let elems1 := p.children.dropLast
            let lr : Option (Nat × List Nat) :=
              match bufGet s.exprBuffer pid with
              | some l => some (l, elems1)
              | none =>
                match elems1.getLast? with
                | some l => some (l, elems1.dropLast)
                | none => none
            match lr with
            | none => .error ()
            | some (lid, elems2) =>
              match getN s lid, getN s rid with
              | some l, some r =>
                if l.kind = .classSubtraction ∨
                    ¬(l.kind = .classIntersection ∨ isClassSetOperandK l.kind) ∨
                    ¬isClassSetOperandK r.kind then
                  .error ()
                else
                  let a := alloc s
                    { kind := .classIntersection, parent := some pid,
                      nstart := start, nend := fin,
                      raw := sliceCU s.source start fin,
                      children := [lid, rid] }
                  let s2 := setN a.1 lid { l with parent := some a.2 }
                  let s3 :=
                    match getN s2 rid with
                    | some r2 => setN s2 rid { r2 with parent := some a.2 }
                    | none => s2
                  let s4 := setN s3 pid { p with children := elems2 }
                  .ok { s4 with exprBuffer := bufSet s4.exprBuffer pid a.2 }
              | _, _ => .error ()
      | _ => .error ()

/-- `onClassSubtraction`: mirror image of `onClassIntersection`. -/
def onClassSubtraction (s : PState) (start fin : Nat) : Except Unit PState :=
  match s.node with
  | none => .error ()
  | some pid =>
    match getN s pid with
    | none => .error ()
    | some p =>
      match p.kind with
      | .characterClass _ uset =>
        if !uset then .error ()
        else
          match p.children.getLast? with
          | none => .error ()
          | some rid =>
            let elems1 := p.children.dropLast
            let lr : Option (Nat × List Nat) :=
              match bufGet s.exprBuffer pid with
              | some l => some (l, elems1)
              | none =>
                match elems1.getLast? with
                | some l => some (l, elems1.dropLast)
                | none => none
            match lr with
            | none => .error ()
            | some (lid, elems2) =>
              match getN s lid, getN s rid with
              | some l, some r =>
                if l.kind = .classIntersection ∨
                    ¬(l.kind = .classSubtraction ∨ isClassSetOperandK l.kind) ∨
                    ¬isClassSetOperandK r.kind then
                  .error ()
                else
                  let a := alloc s
                    { kind := .classSubtraction, parent := some pid,
                      nstart := start, nend := fin,
                      raw := sliceCU s.source start fin,
                      children := [lid, rid] }
                  let s2 := setN a.1 lid { l with parent := some a.2 }
                  let s3 :=
                    match getN s2 rid with
                    | some r2 => setN s2 rid { r2 with parent := some a.2 }
                    | none => s2
                  let s4 := setN s3 pid { p with children := elems2 }
                  .ok { s4 with exprBuffer := bufSet s4.exprBuffer pid a.2 }
              | _, _ => .error ()
      | _ => .error ()

/-- `onClassStringDisjunctionEnter`. -/
def onClassStringDisjunctionEnter (s : PState) (start : Nat) :
    Except Unit PState :=
  match s.node with
  | none => .error ()
  | some pid =>
    match getN s pid with
    | none => .error ()
    | some p =>
      match p.kind with
      | .characterClass _ uset =>
        if uset then
          .ok (pushChildFocus s pid p
            { kind := .classStringDisjunction, parent := some pid,
              nstart := start, nend := start, raw := "", children := [] }).1
        else .error ()
      | _ => .error ()

/-- `onClassStringDisjunctionLeave`. -/
def onClassStringDisjunctionLeave (s : PState) (start fin : Nat) :
    Except Unit PState :=
  match s.node with
  | none => .error ()
  | some i =>
    match getN s i with
    | none => .error ()
    | some o =>
      if o.kind = .classStringDisjunction ∧
          parentKindIs s o isCharacterClassK then
        .ok (leaveToParent s i o start fin)
      else .error ()

/-- `onStringAlternativeEnter`. -/
def onStringAlternativeEnter (s : PState) (start : Nat) : Except Unit PState :=
  match s.node with
  | none => .error ()
  | some pid =>
    match getN s pid with
    | none => .error ()
    | some p =>
      if p.kind = .classStringDisjunction then
        .ok (pushChildFocus s pid p
          { kind := .stringAlternative, parent := some pid, nstart := start,
            nend := start, raw := "", children := [] }).1
      else .error ()

/-- `onStringAlternativeLeave`. -/
def onStringAlternativeLeave (s : PState) (start fin : Nat) :
    Except Unit PState :=
  match s.node with
  | none => .error ()
  | some i =>
    match getN s i with
    | none => .error ()
    | some o =>
      if o.kind = .stringAlternative then .ok (leaveToParent s i o start fin)
      else .error ()

/-- The builder-event vocabulary emitted by the Validator. -/
inductive Ev where
  | regExpFlags (s e : Nat) (f : FlagsRec)
  | patternEnter (s : Nat)
  | patternLeave (s e : Nat)
  | alternativeEnter (s : Nat)
  | alternativeLeave (s e : Nat)
  | groupEnter (s : Nat)
  | groupLeave (s e : Nat)
  | modifiersEnter (s : Nat)
  | modifiersLeave (s e : Nat)
  | addModifiers (s e : Nat) (ic ml da : Bool)
  | removeModifiers (s e : Nat) (ic ml da : Bool)
  | capturingGroupEnter (s : Nat) (name : Option String)
  | capturingGroupLeave (s e : Nat)
  | quantifier (s e min : Nat) (max : Option Nat) (greedy : Bool)
  | lookaroundEnter (s : Nat) (kind : LookK) (negate : Bool)
  | lookaroundLeave (s e : Nat)
  | edgeAssertion (s e : Nat) (kind : EdgeK)
  | wordBoundaryAssertion (s e : Nat) (negate : Bool)
  | anyCharacterSet (s e : Nat)
  | escapeCharacterSet (s e : Nat) (kind : EscK) (negate : Bool)
  | unicodePropertySet (s e : Nat) (key : String) (value : Option String)
      (negate strings : Bool)
  | character (s e v : Nat)
  | backreference (s e : Nat) (ref : Ref)
  | characterClassEnter (s : Nat) (negate uset : Bool)
  | characterClassLeave (s e : Nat)
  | characterClassRange (s e : Nat)
  | classIntersection (s e : Nat)
  | classSubtraction (s e : Nat)
  | classStringDisjunctionEnter (s : Nat)
  | classStringDisjunctionLeave (s e : Nat)
  | stringAlternativeEnter (s : Nat)
  | stringAlternativeLeave (s e : Nat)
deriving DecidableEq, Repr

/-- Dispatch one builder event to its `RegExpParserState` handler. -/
def step (s : PState) : Ev → Except Unit PState
  | .regExpFlags a b f => .ok (onRegExpFlags s a b f)
  | .patternEnter a => .ok (onPatternEnter s a)
  | .patternLeave a b => onPatternLeave s a b
  | .alternativeEnter a => onAlternativeEnter s a
  | .alternativeLeave a b => onAlternativeLeave s a b
  | .groupEnter a => onGroupEnter s a
  | .groupLeave a b => onGroupLeave s a b
  | .modifiersEnter a => onModifiersEnter s a
  | .modifiersLeave a b => onModifiersLeave s a b
  | .addModifiers a b ic ml da => onAddModifiers s a b ic ml da
  | .removeModifiers a b ic ml da => onRemoveModifiers s a b ic ml da
  | .capturingGroupEnter a n => onCapturingGroupEnter s a n
  | .capturingGroupLeave a b => onCapturingGroupLeave s a b
  | .quantifier a b mi ma g => onQuantifier s a b mi ma g
  | .lookaroundEnter a k n => onLookaroundAssertionEnter s a k n
  | .lookaroundLeave a b => onLookaroundAssertionLeave s a b
  | .edgeAssertion a b k => onEdgeAssertion s a b k
  | .wordBoundaryAssertion a b n => onWordBoundaryAssertion s a b n
  | .anyCharacterSet a b => onAnyCharacterSet s a b
  | .escapeCharacterSet a b k n => onEscapeCharacterSet s a b k n
  | .unicodePropertySet a b k v n st => onUnicodePropertyCharacterSet s a b k v n st
  | .character a b v => onCharacter s a b v
  | .backreference a b r => onBackreference s a b r
  | .characterClassEnter a n u => onCharacterClassEnter s a n u
  | .characterClassLeave a b => onCharacterClassLeave s a b
  | .characterClassRange a b => onCharacterClassRange s a b
  | .classIntersection a b => onClassIntersection s a b
  | .classSubtraction a b => onClassSubtraction s a b
  | .classStringDisjunctionEnter a => onClassStringDisjunctionEnter s a
  | .classStringDisjunctionLeave a b => onClassStringDisjunctionLeave s a b
  | .stringAlternativeEnter a => onStringAlternativeEnter s a
  | .stringAlternativeLeave a b => onStringAlternativeLeave s a b

/-- Run a list of builder events through the assembler. -/
def run (s : PState) (evs : List Ev) : Except Unit PState :=
  evs.foldlM step s

/-- Initial parser state for a given source and options. -/
def initState (source : String) (strict : Bool) (ecmaVersion : Nat) : PState :=
  { heap := [], node := none, flagsv := none, backreferences := [],
    capturingGroups := [], exprBuffer := [], source := source,
    strict := strict, ecmaVersion := ecmaVersion }

/-! ### Fast paths (`src/fast-paths.ts`) -/

/-- `charCodeAt`: the UTF-16 code unit of a character (all characters in
theorems here are ASCII, where code unit and code point coincide). -/
def charCodeAt (c : Char) : Nat := c.toNat

/-- Membership in the character class `[a-zA-Z0-9_]`. -/
def isWordCharCU (c : Char) : Bool :=
  (decide ('a' ≤ c) && decide (c ≤ 'z')) ||
  (decide ('A' ≤ c) && decide (c ≤ 'Z')) ||
  (decide ('0' ≤ c) && decide (c ≤ '9')) || (c == '_')

/-- `isSimpleLiteral`: models the test `/^[a-zA-Z0-9_]+$/.test(pattern)`. -/
def isSimpleLiteral (pattern : String) : Bool :=
  (decide (pattern.length ≠ 0)) && pattern.data.all isWordCharCU

/-- `createSimpleLiteralAST`: one Pattern with one Alternative of one
Character node per code unit; character ids are 0 .. n-1, the Alternative
gets id n and the Pattern id n+1 (parents fixed up as in the source). -/
def createSimpleLiteralAST (pattern : String) (start fin : Nat) :
    List NodeObj × Nat :=
  let cs := pattern.data
  let n := cs.length
  let chars : List NodeObj := (List.range n).map (fun i =>
    { kind := .character (charCodeAt (cs.getD i ' ')), parent := some n,
      nstart := start + i, nend := start + i + 1,
      raw := String.mk [cs.getD i ' '], children := [] })
  let alt : NodeObj :=
    { kind := .alternative, parent := some (n + 1), nstart := start,
      nend := fin, raw := pattern, children := List.range n }
  let pat : NodeObj :=
    { kind := .pattern, parent := none, nstart := start, nend := fin,
      raw := pattern, children := [n] }
  (chars ++ [alt, pat], n + 1)

/-- `tryFastPath`. -/
def tryFastPath (source : String) (start fin : Nat) :
    Option (List NodeObj × Nat) :=
  let patternStr := sliceCU source start fin
  if isSimpleLiteral patternStr then
    some (createSimpleLiteralAST patternStr start fin)
  else none

/-- JS `pattern.includes(c)` for a one-character needle. -/
def containsChar (p : String) (c : Char) : Bool := p.data.contains c

/-- `getPatternComplexity`. -/
def getPatternComplexity (p : String) : Nat :=
  (if containsChar p '(' then 10 else 0) +
  (if containsChar p '[' then 5 else 0) +
  (if containsChar p '\x7b' then 5 else 0) +
  (if containsChar p '\\' then 3 else 0) +
  (if containsChar p '|' then 2 else 0) +
  (if containsChar p '*' || containsChar p '+' then 2 else 0) +
  (if containsChar p '?' then 1 else 0)

/-- `shouldCache`. -/
def shouldCache (p : String) : Bool :=
  decide (getPatternComplexity p ≥ 5) || decide (p.length > 10)

/-! ### Parse cache (`src/cache.ts`)

The `LRUCache` is modelled as an association list with `Map` get/set
semantics; the timestamp bookkeeping and capacity eviction are omitted
because every scenario below stays far under the capacities (500 / 1000 /
200 entries). -/

def lruGet {V : Type} (c : List (String × V)) (k : String) : Option V :=
  (c.find? (fun p => p.1 == k)).map (fun p => p.2)

def lruSet {V : Type} (c : List (String × V)) (k : String) (v : V) :
    List (String × V) :=
  (k, v) :: c.filter (fun p => !(p.1 == k))

/-- The optional-field options object passed to `generateCacheKey`. -/
structure KeyOpts where
  strict : Option Bool := none
  ecmaVersion : Option Nat := none
  unicode : Option Bool := none
  unicodeSets : Option Bool := none
deriving DecidableEq, Repr

def boolStr (b : Bool) : String := if b then "true" else "false"

/-- Decimal digits of a number (a reduction-friendly variant of
`Nat.repr`; the fuel covers every number below 10 ^ 24, far beyond any
`ecmaVersion`). -/
def natDec : Nat → Nat → String
  | 0, _ => ""
  | fuel + 1, n =>
    if n < 10 then String.mk [Char.ofNat (48 + n)]
    else natDec fuel (n / 10) ++ String.mk [Char.ofNat (48 + n % 10)]

/-- JS number-to-string coercion for the (integral) `ecmaVersion`. -/
def natToString (n : Nat) : String := natDec 24 n

/-- `generateCacheKey`: the template literal
`source.slice(start,end) + "|strict|ecmaVersion|unicode|unicodeSets"`
with `?? false` / `?? 2025` defaults (absent `options` yields no suffix). -/
def generateCacheKey (source : String) (start fin : Nat)
    (options : Option KeyOpts) : String :=
  let optStr :=
    match options with
    | some o =>
      "|" ++ boolStr (o.strict.getD false) ++ "|" ++
      natToString (o.ecmaVersion.getD 2025) ++ "|" ++
      boolStr (o.unicode.getD false) ++ "|" ++
      boolStr (o.unicodeSets.getD false)
    | none => ""
  sliceCU source start fin ++ optStr

/-! ### `cloneAST` (`src/cache.ts`)

`cloneAST` is `JSON.parse(JSON.stringify(node, replacer), reviver)`
followed by a parent-link fixup.  The replacer drops every `parent` key,
replaces `Infinity` by a sentinel string (which the reviver restores;
modelled directly by `J.jinf`), and returns `undefined` for any object it
has already visited, which JSON.stringify turns into an omitted key
inside objects and `null` inside arrays.  `fixParents` afterwards only
rewrites `parent` links, so the structural content of the clone is
exactly the JSON tree computed here.  Node ids play the role of JS
object identity; the field lists and their order come from the object
literals in `src/parser.ts`.  Array objects (element lists etc.) each
occur exactly once in the graph, so their own `seen` entries are
unobservable and are not tracked. -/

/-- A JSON value as produced by the clone round trip. -/
inductive J where
  | jnull
  | jbool (b : Bool)
  | jnum (n : Nat)
  | jinf
  | jstr (s : String)
  | jarr (xs : List J)
  | jobj (fs : List (String × J))
deriving BEq, Repr

/-- A JS field value before serialization. -/
inductive FVal where
  | vnull
  | vbool (b : Bool)
  | vnum (n : Nat)
  | vinfty
  | vstr (s : String)
  | vref (i : Nat)
  | varr (ids : List Nat)
  | vdummy
deriving Repr

def refOpt : Option Nat → FVal
  | some i => .vref i
  | none => .vnull

def optStrF : Option String → FVal
  | some s => .vstr s
  | none => .vnull

/-- The fields of a node object, in JS property-insertion order, as
written by the construction sites in `src/parser.ts`. -/
def fieldsOf (o : NodeObj) : List (String × FVal) :=
  let base : List (String × FVal) :=
    [("type",
      .vstr (match o.kind with
        | .regExpLiteral => "RegExpLiteral"
        | .flagsK _ => "Flags"
        | .pattern => "Pattern"
        | .alternative => "Alternative"
        | .group => "Group"
        | .modifiers => "Modifiers"
        | .modifierFlags _ _ _ => "ModifierFlags"
        | .capturingGroup _ => "CapturingGroup"
        | .quantifier _ _ _ => "Quantifier"
        | .assertionEdge _ => "Assertion"
        | .assertionWord _ => "Assertion"
        | .assertionLook _ _ => "Assertion"
        | .characterSetAny => "CharacterSet"
        | .characterSetEscape _ _ => "CharacterSet"
        | .characterSetProperty _ _ _ _ => "CharacterSet"
        | .character _ => "Character"
        | .backreference _ _ _ => "Backreference"
        | .characterClass _ _ => "CharacterClass"
        | .characterClassRange => "CharacterClassRange"
        | .expressionCharacterClass _ => "ExpressionCharacterClass"
        | .classIntersection => "ClassIntersection"
        | .classSubtraction => "ClassSubtraction"
        | .classStringDisjunction => "ClassStringDisjunction"
        | .stringAlternative => "StringAlternative")),
     ("parent", .vnull), ("start", .vnum o.nstart), ("end", .vnum o.nend),
     ("raw", .vstr o.raw)]
  base ++
  (match o.kind with
   | .regExpLiteral =>
     [("pattern", refOpt (o.children.get? 0)), ("flags", refOpt (o.children.get? 1))]
   | .flagsK f =>
     [("global", .vbool f.global), ("ignoreCase", .vbool f.ignoreCase),
      ("multiline", .vbool f.multiline), ("unicode", .vbool f.unicode),
      ("sticky", .vbool f.sticky), ("dotAll", .vbool f.dotAll),
      ("hasIndices", .vbool f.hasIndices), ("unicodeSets", .vbool f.unicodeSets)]
   | .pattern => [("alternatives", .varr o.children)]
   | .alternative => [("elements", .varr o.children)]
   | .group =>
     [("modifiers", refOpt o.modifiersF), ("alternatives", .varr o.children)]
   | .modifiers => [("add", refOpt o.addF), ("remove", refOpt o.removeF)]
   | .modifierFlags ic ml da =>
     [("ignoreCase", .vbool ic), ("multiline", .vbool ml), ("dotAll", .vbool da)]
   | .capturingGroup name =>
     [("name", optStrF name), ("alternatives", .varr o.children),
      ("references", .varr o.references)]
   | .quantifier mi ma g =>
     [("min", .vnum mi),
      ("max", match ma with | some m => .vnum m | none => .vinfty),
      ("greedy", .vbool g), ("element", refOpt (o.children.get? 0))]
   | .assertionEdge k =>
     [("kind", .vstr (match k with | .start => "start" | .fin => "end"))]
   | .assertionWord n => [("kind", .vstr "word"), ("negate", .vbool n)]
   | .assertionLook k n =>
     [("kind", .vstr (match k with
        | .lookahead => "lookahead"
        | .lookbehind => "lookbehind")),
      ("negate", .vbool n), ("alternatives", .varr o.children)]
   | .characterSetAny => [("kind", .vstr "any")]
   | .characterSetEscape k n =>
     [("kind", .vstr (match k with
        | .digit => "digit"
        | .space => "space"
        | .word => "word")),
      ("negate", .vbool n)]
   | .characterSetProperty key value negate strings =>
     [("kind", .vstr "property"), ("strings", .vbool strings),
      ("key", .vstr key), ("value", optStrF value), ("negate", .vbool negate)]
   | .character v => [("value", .vnum v)]
   | .backreference ref amb res =>
     [("ref", match ref with | .num k => .vnum k | .name n => .vstr n),
      ("ambiguous", .vbool amb),
      ("resolved", match res with
        | .dummy => .vdummy
        | .one g => .vref g
        | .many gs => .varr gs)]
   | .characterClass neg u =>
     [("unicodeSets", .vbool u), ("negate", .vbool neg),
      ("elements", .varr o.children)]
   | .characterClassRange =>
     [("min", refOpt (o.children.get? 0)), ("max", refOpt (o.children.get? 1))]
   | .expressionCharacterClass neg =>
     [("negate", .vbool neg), ("expression", refOpt (o.children.get? 0))]
   | .classIntersection =>
     [("left", refOpt (o.children.get? 0)), ("right", refOpt (o.children.get? 1))]
   | .classSubtraction =>
     [("left", refOpt (o.children.get? 0)), ("right", refOpt (o.children.get? 1))]
   | .classStringDisjunction => [("alternatives", .varr o.children)]
   | .stringAlternative => [("elements", .varr o.children)])

mutual

/-- Serialize one JS value; `none` is the replacer returning `undefined`
(already-seen object).  The fuel only bounds recursion depth. -/
def serVal (h : List NodeObj) : Nat → List Nat → FVal → Option J × List Nat
  | 0, seen, _ => (none, seen)
  | _ + 1, seen, .vnull => (some .jnull, seen)
  | _ + 1, seen, .vbool b => (some (.jbool b), seen)
  | _ + 1, seen, .vnum n => (some (.jnum n), seen)
  | _ + 1, seen, .vinfty => (some .jinf, seen)
  | _ + 1, seen, .vstr s => (some (.jstr s), seen)
  | _ + 1, seen, .vdummy => (some (.jobj []), seen)
  | fuel + 1, seen, .vref i =>
    if i ∈ seen then (none, seen)
    else
      match h.get? i with
      | none => (none, seen)
      | some o =>
        let r := serFields h fuel (seen ++ [i]) (fieldsOf o)
        (some (.jobj r.1), r.2)
  | fuel + 1, seen, .varr ids =>
    let r := serArr h fuel seen ids
    (some (.jarr r.1), r.2)

/-- Serialize the fields of one object, dropping `parent` keys and keys
whose value serialized to `undefined`. -/
def serFields (h : List NodeObj) :
    Nat → List Nat → List (String × FVal) → List (String × J) × List Nat
  | 0, seen, _ => ([], seen)
  | _ + 1, seen, [] => ([], seen)
  | fuel + 1, seen, (k, v) :: rest =>
    if k == "parent" then serFields h fuel seen rest
    else
      let r := serVal h fuel seen v
      let t := serFields h fuel r.2 rest
      (match r.1 with
       | some j => (k, j) :: t.1
       | none => t.1,
       t.2)

/-- Serialize an array of object references; an already-seen element
becomes `null`. -/
def serArr (h : List NodeObj) :
    Nat → List Nat → List Nat → List J × List Nat
  | 0, seen, _ => ([], seen)
  | _ + 1, seen, [] => ([], seen)
  | fuel + 1, seen, i :: rest =>
    let r := serVal h fuel seen (.vref i)
    let t := serArr h fuel r.2 rest
    ((r.1.getD .jnull) :: t.1, t.2)

end

/-- `cloneAST` from `src/cache.ts` on a heap node: the JSON round trip
(the reviver restores Infinity, and `fixParents` only rewrites `parent`
links, which serialization already dropped).  The fuel is ample for any
heap: `JSON.stringify` terminates because the replacer marks every
visited object, so a recursion path visits each object at most once and
spends at most its field count (at most 13) plus two steps there. -/
def cloneAST (h : List NodeObj) (root : Nat) : Option J :=
  (serVal h (16 * (h.length + 2)) [] (.vref root)).1

/-- Field access on a cloned JSON object. -/
def jGet : J → String → Option J
  | .jobj fs, k => (fs.find? (fun p => p.1 == k)).map (fun p => p.2)
  | _, _ => none

/-- Index access on a cloned JSON array. -/
def jIdx : J → Nat → Option J
  | .jarr xs, i => xs.get? i
  | _, _ => none

/-! ### Parser entry points (`src/parser.ts`, class `RegExpParser`)

The Validator (`src/validator.ts`) is not part of the sources; wherever a
parse reaches `this._validator.validate…`, the validator is represented
by the builder-event stream it would emit (an explicit argument). -/

/-- Parser construction options (`strict` defaulted to false,
`ecmaVersion` to 2025 in the constructor). -/
structure ParserOpts where
  strict : Bool := false
  ecmaVersion : Nat := 2025
deriving DecidableEq, Repr

/-- The result of `parseLiteral`: a freshly assembled heap AST, or a
cache hit (which the source returns as `cloneAST(cached)`). -/
inductive LitResult where
  | fresh (h : List NodeObj) (root : Nat)
  | cachedHit (j : Option J)
deriving Repr

/-- `RegExpParser.parseLiteral`: cache probe keyed by
`generateCacheKey(source, start, end, {strict, ecmaVersion})`, else
validate (the event stream), read `this._state.pattern` /
`this._state.flags` (which throw unless the cursor is a Pattern and the
flags were set), build the RegExpLiteral node, fix the two parent links,
and cache when `shouldCache` approves. -/
def parseLiteral (p : ParserOpts)
    (cache : List (String × (List NodeObj × Nat))) (source : String)
    (start fin : Nat) (evs : List Ev) :
    Except Unit (LitResult × List (String × (List NodeObj × Nat))) :=
  let key := generateCacheKey source start fin
    (some { strict := some p.strict, ecmaVersion := some p.ecmaVersion })
  match lruGet cache key with
  | some hr => .ok (.cachedHit (cloneAST hr.1 hr.2), cache)
  | none =>
    match run (initState source p.strict p.ecmaVersion) evs with
    | .error _ => .error ()
    | .ok st =>
      match st.node with
      | none => .error ()
      | some patId =>
        match getN st patId with
        | none => .error ()
        | some pat =>
          if pat.kind ≠ .pattern then .error ()
          else
            match st.flagsv with
            | none => .error ()
            | some flId =>
              match getN st flId with
              | none => .error ()
              | some fl =>
                if (match fl.kind with | .flagsK _ => false | _ => true) then
                  .error ()
                else
                  let a := alloc st
                    { kind := .regExpLiteral, parent := none, nstart := start,
                      nend := fin, raw := source, children := [patId, flId] }
                  let st2 := setN a.1 patId { pat with parent := some a.2 }
                  let st3 := setN st2 flId { fl with parent := some a.2 }
                  let cache2 :=
                    if shouldCache (sliceCU source start fin) then
                      lruSet cache key (st3.heap, a.2)
                    else cache
                  .ok (.fresh st3.heap a.2, cache2)

/-- `RegExpParser.parseFlags` with `getCachedFlags` / `setCachedFlags`
from `src/cache.ts`: the flags-cache key is only `source.slice(start,
end)`, no parser options appear anywhere on this path.  A hit returns
`cloneAST(cached)`; for the flat Flags object the JSON round trip keeps
every primitive field and `fixParents` resets `parent` to null.  On a
miss the validator runs (represented by the Flags node `oracle` that
`this._state.flags` would hold) and the result is stored. -/
def parseFlags (cache : List (String × NodeObj)) (source : String)
    (start fin : Nat) (oracle : NodeObj) : NodeObj × List (String × NodeObj) :=
  let key := sliceCU source start fin
  match lruGet cache key with
  | some f => ({ f with parent := none }, cache)
  | none => (oracle, lruSet cache key oracle)

/-- The result of `parsePattern`. -/
inductive PatResult where
  | fastR (h : List NodeObj) (root : Nat)
  | cachedR (j : Option J)
  | parsedR (h : List NodeObj) (root : Nat)
deriving Repr

/-- The normalized `flags` argument of `parsePattern`. -/
structure PatFlags where
  unicode : Option Bool := none
  unicodeSets : Option Bool := none
deriving DecidableEq, Repr

/-- `RegExpParser.parsePattern`: try `tryFastPath` first (returning
before the cache or validator are consulted), then the pattern cache
keyed by the merged `{strict, ecmaVersion, unicode, unicodeSets}`
options, then validate and assemble, caching when worthwhile. -/
def parsePattern (p : ParserOpts)
    (cache : List (String × (List NodeObj × Nat))) (source : String)
    (start fin : Nat) (flags : PatFlags) (evs : List Ev) :
    Except Unit (PatResult × List (String × (List NodeObj × Nat))) :=
  match tryFastPath source start fin with
  | some hr => .ok (.fastR hr.1 hr.2, cache)
  | none =>
    let key := generateCacheKey source start fin
      (some { strict := some p.strict, ecmaVersion := some p.ecmaVersion,
              unicode := flags.unicode, unicodeSets := flags.unicodeSets })
    match lruGet cache key with
    | some hr => .ok (.cachedR (cloneAST hr.1 hr.2), cache)
    | none =>
      match run (initState source p.strict p.ecmaVersion) evs with
      | .error _ => .error ()
      | .ok st =>
        match st.node with
        | none => .error ()
        | some patId =>
          match getN st patId with
          | none => .error ()
          | some pat =>
            if pat.kind ≠ .pattern then .error ()
            else
              let cache2 :=
                if shouldCache (sliceCU source start fin) then
                  lruSet cache key (st.heap, patId)
                else cache
              .ok (.parsedR st.heap patId, cache2)

/-! ### Structural view of a heap AST

`Tree` forgets node identity, `parent` links and the intrusive
`references` / `resolved` back-links: it is the structural content
compared by "equal under structural comparison (ignoring parent
identity)".  The kind tag keeps the scalar fields. -/

/-- The kind tag without backreference resolution state (which is
identity-based). -/
def stripResolution : NKind → NKind
  | .backreference ref _ _ => .backreference ref false .dummy
  | k => k

inductive Tree where
  | mk (kind : NKind) (nstart nend : Nat) (raw : String)
      (children : List Tree) (mods addM remM : Option Tree)
deriving Repr

/-- Extract the structural tree below node `i` (fuel bounds depth). -/
def toTree (h : List NodeObj) : Nat → Nat → Option Tree
  | 0, _ => none
  | fuel + 1, i =>
    match h.get? i with
    | none => none
    | some o =>
      let om : Option (Option Tree) :=
        match o.modifiersF with
        | none => some none
        | some j => (toTree h fuel j).map some
      let oa : Option (Option Tree) :=
        match o.addF with
        | none => some none
        | some j => (toTree h fuel j).map some
      let orm : Option (Option Tree) :=
        match o.removeF with
        | none => some none
        | some j => (toTree h fuel j).map some
      match o.children.mapM (toTree h fuel), om, oa, orm with
      | some cs, some m, some a, some r =>
        some (.mk (stripResolution o.kind) o.nstart o.nend o.raw cs m a r)
      | _, _, _, _ => none

/-- Modelled from the spec: the builder-event stream the Validator (not
among the sources) emits for a pattern slice consisting solely of word
characters `[a-zA-Z0-9_]+` — one Pattern enter/leave pair, one
Alternative enter/leave pair, and one Character event per code unit with
its code point value (spec sections 4.2.8, 4.3 and scenario 1; the same
stream for every flag combination, since ASCII word characters are
single code units in every mode). -/
def simpleStream (source : String) (start fin : Nat) : List Ev :=
  [Ev.patternEnter start, Ev.alternativeEnter start] ++
  ((List.range (fin - start)).map (fun i =>
    Ev.character (start + i) (start + i + 1)
      (charCodeAt (source.data.getD (start + i) ' ')))) ++
  [Ev.alternativeLeave start fin, Ev.patternLeave start fin]

/-- The canonical structural tree of a simple-literal parse. -/
def simpleTree (source : String) (start fin : Nat) : Tree :=
  .mk .pattern start fin (sliceCU source start fin)
    [.mk .alternative start fin (sliceCU source start fin)
      ((List.range (fin - start)).map (fun i =>
        Tree.mk (.character (charCodeAt (source.data.getD (start + i) ' ')))
          (start + i) (start + i + 1)
          (String.mk [source.data.getD (start + i) ' ']) [] none none none))
      none none none] none none none

/-! ### Instrumented runner: the Validator offset contract

Modelled from the spec: the Validator emits a strictly properly-nested
event stream whose offsets advance monotonically left-to-right through
the source; every `Leave(start, end)` carries the start of the node being
closed, leaf events carry the extent of the consumed lexeme, and the
wrapping events (`CharacterClassRange`, `ClassIntersection`,
`ClassSubtraction`) carry the extent of the wrapped operands (spec
sections 3.3, 4.2.8 and 8).  `evOk` checks one event against the current
assembler state and scan position, and `evPos` advances the position. -/

def cursorObj (s : PState) : Option NodeObj :=
  match s.node with
  | some i => getN s i
  | none => none

def cursorStart (s : PState) : Option Nat :=
  (cursorObj s).map (fun o => o.nstart)

/-- The `end` offset of the last element of the cursor node (used as
`right` / `max` by the wrapping handlers). -/
def lastChildEnd (s : PState) : Option Nat :=
  match cursorObj s with
  | some p =>
    match p.children.getLast? with
    | some c => (getN s c).map (fun o => o.nend)
    | none => none
  | none => none

/-- The `start` offset of the `min` character the range handler pops. -/
def rangeMinStart (s : PState) : Option Nat :=
  match cursorObj s with
  | some p =>
    let elems1 := p.children.dropLast
    let sel :=
      if classUnicodeSetsK p.kind then elems1.getLast?
      else elems1.dropLast.getLast?
    match sel with
    | some c => (getN s c).map (fun o => o.nstart)
    | none => none
  | none => none

/-- The `start` offset of the `left` operand the set-operation handlers
select (the buffered expression, else the second-to-last element). -/
def opLeftStart (s : PState) : Option Nat :=
  match s.node with
  | some pid =>
    match getN s pid with
    | some p =>
      let lid :=
        match bufGet s.exprBuffer pid with
        | some l => some l
        | none => p.children.dropLast.getLast?
      match lid with
      | some l => (getN s l).map (fun o => o.nstart)
      | none => none
    | none => none
  | none => none

def optLe (o : Option Nat) (b : Nat) : Bool :=
  match o with
  | some m => decide (m ≤ b)
  | none => true

/-- The `end` offset of the `min` character the range handler pops (the
validator reports a range whose operands abut: `min.end ≤ max.start`,
the hyphen standing between them). -/
def rangeMinEnd (s : PState) : Option Nat :=
  match cursorObj s with
  | some p =>
    let elems1 := p.children.dropLast
    let sel :=
      if classUnicodeSetsK p.kind then elems1.getLast?
      else elems1.dropLast.getLast?
    match sel with
    | some c => (getN s c).map (fun o => o.nend)
    | none => none
  | none => none

/-- The `end` offset of the `left` operand the set-operation handlers
select (the operator separates the operands: `left.end ≤ right.start`). -/
def opLeftEnd (s : PState) : Option Nat :=
  match s.node with
  | some pid =>
    match getN s pid with
    | some p =>
      let lid :=
        match bufGet s.exprBuffer pid with
        | some l => some l
        | none => p.children.dropLast.getLast?
      match lid with
      | some l => (getN s l).map (fun o => o.nend)
      | none => none
    | none => none
  | none => none

/-- The `start` offset of the last element of the cursor node. -/
def lastChildStart (s : PState) : Option Nat :=
  match cursorObj s with
  | some p =>
    match p.children.getLast? with
    | some c => (getN s c).map (fun o => o.nstart)
    | none => none
  | none => none

def optLeO (x y : Option Nat) : Bool :=
  match x, y with
  | some u, some v => decide (u ≤ v)
  | _, _ => false

/-- One-event offset-contract check (see the section comment). -/
def evOk (s : PState) (pos : Nat) : Ev → Bool
  | .regExpFlags a b _ => decide (pos ≤ a) && decide (a ≤ b)
  | .patternEnter a => (s.node == none) && decide (pos ≤ a)
  | .alternativeEnter a => decide (pos ≤ a)
  | .groupEnter a => decide (pos ≤ a)
  | .modifiersEnter a => decide (pos ≤ a)
  | .capturingGroupEnter a _ => decide (pos ≤ a)
  | .lookaroundEnter a _ _ => decide (pos ≤ a)
  | .characterClassEnter a _ _ => decide (pos ≤ a)
  | .classStringDisjunctionEnter a => decide (pos ≤ a)
  | .stringAlternativeEnter a => decide (pos ≤ a)
  | .patternLeave a b => (cursorStart s == some a) && decide (pos ≤ b)
  | .alternativeLeave a b => (cursorStart s == some a) && decide (pos ≤ b)
  | .groupLeave a b => (cursorStart s == some a) && decide (pos ≤ b)
  | .modifiersLeave a b => (cursorStart s == some a) && decide (pos ≤ b)
  | .capturingGroupLeave a b => (cursorStart s == some a) && decide (pos ≤ b)
  | .lookaroundLeave a b => (cursorStart s == some a) && decide (pos ≤ b)
  | .characterClassLeave a b => (cursorStart s == some a) && decide (pos ≤ b)
  | .classStringDisjunctionLeave a b =>
    (cursorStart s == some a) && decide (pos ≤ b)
  | .stringAlternativeLeave a b => (cursorStart s == some a) && decide (pos ≤ b)
  | .addModifiers a b _ _ _ => decide (pos ≤ a) && decide (a ≤ b)
  | .removeModifiers a b _ _ _ => decide (pos ≤ a) && decide (a ≤ b)
  | .edgeAssertion a b _ => decide (pos ≤ a) && decide (a ≤ b)
  | .wordBoundaryAssertion a b _ => decide (pos ≤ a) && decide (a ≤ b)
  | .anyCharacterSet a b => decide (pos ≤ a) && decide (a ≤ b)
  | .escapeCharacterSet a b _ _ => decide (pos ≤ a) && decide (a ≤ b)
  | .unicodePropertySet a b _ _ _ _ => decide (pos ≤ a) && decide (a ≤ b)
  | .character a b _ => decide (pos ≤ a) && decide (a ≤ b)
  | .backreference a b _ => decide (pos ≤ a) && decide (a ≤ b)
  | .quantifier _ b _ _ _ => decide (pos ≤ b)
  | .characterClassRange a b =>
    (rangeMinStart s == some a) && optLeO (rangeMinEnd s) (lastChildStart s) &&
    optLe (lastChildEnd s) b && decide (pos ≤ b)
  | .classIntersection a b =>
    (opLeftStart s == some a) && optLeO (opLeftEnd s) (lastChildStart s) &&
    optLe (lastChildEnd s) b && decide (pos ≤ b)
  | .classSubtraction a b =>
    (opLeftStart s == some a) && optLeO (opLeftEnd s) (lastChildStart s) &&
    optLe (lastChildEnd s) b && decide (pos ≤ b)

/-- The scan position after an event. -/
def evPos : Ev → Nat
  | .regExpFlags _ b _ => b
  | .patternEnter a => a
  | .alternativeEnter a => a
  | .groupEnter a => a
  | .modifiersEnter a => a
  | .capturingGroupEnter a _ => a
  | .lookaroundEnter a _ _ => a
  | .characterClassEnter a _ _ => a
  | .classStringDisjunctionEnter a => a
  | .stringAlternativeEnter a => a
  | .patternLeave _ b => b
  | .alternativeLeave _ b => b
  | .groupLeave _ b => b
  | .modifiersLeave _ b => b
  | .capturingGroupLeave _ b => b
  | .lookaroundLeave _ b => b
  | .characterClassLeave _ b => b
  | .classStringDisjunctionLeave _ b => b
  | .stringAlternativeLeave _ b => b
  | .addModifiers _ b _ _ _ => b
  | .removeModifiers _ b _ _ _ => b
  | .edgeAssertion _ b _ => b
  | .wordBoundaryAssertion _ b _ => b
  | .anyCharacterSet _ b => b
  | .escapeCharacterSet _ b _ _ => b
  | .unicodePropertySet _ b _ _ _ _ => b
  | .character _ b _ => b
  | .backreference _ b _ => b
  | .quantifier _ b _ _ _ => b
  | .characterClassRange _ b => b
  | .classIntersection _ b => b
  | .classSubtraction _ b => b

/-- One contract-checked assembler step. -/
def gstep (c : PState × Nat) (ev : Ev) : Option (PState × Nat) :=
  if evOk c.1 c.2 ev then
    match step c.1 ev with
    | .ok s2 => some (s2, evPos ev)
    | .error _ => none
  else none

/-- Contract-checked run. -/
def grun (c : PState × Nat) (evs : List Ev) : Option (PState × Nat) :=
  evs.foldlM gstep c

/-! ### Concrete scenario for claim C1: `parseLiteral("/(a)\1/")` twice -/

/-- Modelled from the spec: the event stream the Validator emits for the
literal `/(a)\1/` (spec sections 4.2.8, 4.3 and scenario 5: a capturing
group containing `a`, then a numeric backreference `\1`, then the empty
flags). -/
def c1Stream : List Ev :=
  [.patternEnter 1, .alternativeEnter 1,
   .capturingGroupEnter 1 none, .alternativeEnter 2, .character 2 3 97,
   .alternativeLeave 2 3, .capturingGroupLeave 1 4,
   .backreference 4 6 (.num 1),
   .alternativeLeave 1 6, .patternLeave 1 6,
   .regExpFlags 7 7 ⟨false, false, false, false, false, false, false, false⟩]

def c1Source : String := "/(a)\\1/"

/-- First `parseLiteral` call on an empty cache. -/
def c1First : Except Unit (LitResult × List (String × (List NodeObj × Nat))) :=
  parseLiteral {} [] c1Source 0 7 c1Stream

/-- The heap AST the first call returns. -/
def c1Heap : List NodeObj :=
  match c1First with
  | .ok (.fresh h _, _) => h
  | _ => []

/-- The cache state after the first call. -/
def c1Cache : List (String × (List NodeObj × Nat)) :=
  match c1First with
  | .ok (_, c) => c
  | .error _ => []

/-- Second `parseLiteral` call with the same arguments. -/
def c1Second : Except Unit (LitResult × List (String × (List NodeObj × Nat))) :=
  parseLiteral {} c1Cache c1Source 0 7 c1Stream

/-- The structural JSON content of the AST the second call returns. -/
def c1CloneJ : Option J :=
  match c1Second with
  | .ok (.cachedHit j, _) => j
  | _ => none

/-- The `elements` array of the single alternative of the cloned AST. -/
def c1ElemsOfClone : Option J := do
  let j ← c1CloneJ
  let p ← jGet j "pattern"
  let alts ← jGet p "alternatives"
  let a0 ← jIdx alts 0
  jGet a0 "elements"

/-- The Backreference copy that survives inside the cloned group's
`references` array. -/
def c1RefCopy : Option J := do
  let j ← c1CloneJ
  let p ← jGet j "pattern"
  let alts ← jGet p "alternatives"
  let a0 ← jIdx alts 0
  let es ← jGet a0 "elements"
  let g ← jIdx es 0
  let refs ← jGet g "references"
  jIdx refs 0

/-- The heap AST of `/(a)\1/` spelled out (equal to `c1Heap`; also the
value the first call stores in the cache). -/
def c1HeapLit : List NodeObj :=
  [{ kind := .pattern, parent := some 7, nstart := 1, nend := 6,
     raw := "(a)\\1", children := [1] },
   { kind := .alternative, parent := some 0, nstart := 1, nend := 6,
     raw := "(a)\\1", children := [2, 5] },
   { kind := .capturingGroup none, parent := some 1, nstart := 1, nend := 4,
     raw := "(a)", children := [3], references := [5] },
   { kind := .alternative, parent := some 2, nstart := 2, nend := 3,
     raw := "a", children := [4] },
   { kind := .character 97, parent := some 3, nstart := 2, nend := 3,
     raw := "a", children := [] },
   { kind := .backreference (.num 1) false (.one 2), parent := some 1,
     nstart := 4, nend := 6, raw := "\\1", children := [] },
   { kind := .flagsK ⟨false, false, false, false, false, false, false, false⟩,
     parent := some 7, nstart := 7, nend := 7, raw := "", children := [] },
   { kind := .regExpLiteral, parent := none, nstart := 0, nend := 7,
     raw := "/(a)\\1/", children := [0, 6] }]

/-- The literal cache contents after the first call. -/
def c1CacheLit : List (String × (List NodeObj × Nat)) :=
  [("/(a)\\1/|false|2025|false|false", (c1HeapLit, 7))]

/-! ### Concrete scenario for claim C9: the flags cache and options -/

/-- The Flags node that `this._state.flags` holds after validating the
flags text `v` (a parser with `ecmaVersion` 2024 accepts it). -/
def c9FlagsV : NodeObj :=
  { kind := .flagsK ⟨false, false, false, false, false, false, false, true⟩,
    parent := none, nstart := 0, nend := 1, raw := "v", children := [] }

/-! ### Predicates for the invariant claims -/

/-- All structural child slots of a node: the `children` collection plus
the `modifiers` / `add` / `remove` object fields. -/
def childIds (o : NodeObj) : List Nat :=
  o.children ++ o.modifiersF.toList ++ o.addF.toList ++ o.removeF.toList

mutual

/-- Concatenation of `raw` over a depth-first left-to-right traversal
of the AST below node `i`. -/
def dfsRaw (h : List NodeObj) : Nat → Nat → String
  | 0, _ => ""
  | fuel + 1, i =>
    match h.get? i with
    | none => ""
    | some o => o.raw ++ dfsRawList h fuel (childIds o)

def dfsRawList (h : List NodeObj) : Nat → List Nat → String
  | 0, _ => ""
  | _ + 1, [] => ""
  | fuel + 1, i :: rest => dfsRaw h fuel i ++ dfsRawList h fuel rest

end

/-- The constructor tag of a kind, forgetting payloads. -/
def kindTag : NKind → Nat
  | .regExpLiteral => 0
  | .flagsK _ => 1
  | .pattern => 2
  | .alternative => 3
  | .group => 4
  | .modifiers => 5
  | .modifierFlags _ _ _ => 6
  | .capturingGroup _ => 7
  | .quantifier _ _ _ => 8
  | .assertionEdge _ => 9
  | .assertionWord _ => 10
  | .assertionLook _ _ => 11
  | .characterSetAny => 12
  | .characterSetEscape _ _ => 13
  | .characterSetProperty _ _ _ _ => 14
  | .character _ => 15
  | .backreference _ _ _ => 16
  | .characterClass _ _ => 17
  | .characterClassRange => 18
  | .expressionCharacterClass _ => 19
  | .classIntersection => 20
  | .classSubtraction => 21
  | .classStringDisjunction => 22
  | .stringAlternative => 23

/-- The set-operation tag: intersection `true`, subtraction `false`. -/
def opTagOf : NKind → Option Bool
  | .classIntersection => some true
  | .classSubtraction => some false
  | _ => none

def isExprClassK : NKind → Bool
  | .expressionCharacterClass _ => true
  | _ => false

/-- Node `j` is a class-set operand on heap `h`. -/
def Operand (h : List NodeObj) (j : Nat) : Prop :=
  ∃ o, h.get? j = some o ∧ isClassSetOperandK o.kind = true

/-- A homogeneous left-leaning chain of set operations of one tag `b`:
every internal node is the operator of tag `b`, every right child and
the leftmost leaf are class-set operands. -/
inductive Chain (h : List NodeObj) (b : Bool) : Nat → Prop where
  | base {i : Nat} {o : NodeObj} {l r : Nat} :
      h.get? i = some o → opTagOf o.kind = some b → o.children = [l, r] →
      Operand h l → Operand h r → Chain h b i
  | step {i : Nat} {o : NodeObj} {l r : Nat} :
      h.get? i = some o → opTagOf o.kind = some b → o.children = [l, r] →
      Chain h b l → Operand h r → Chain h b i

/-- Homogeneous chain of either tag. -/
def HomogChain (h : List NodeObj) (e : Nat) : Prop :=
  Chain h true e ∨ Chain h false e

/-- Heap evolution that preserves chain structure: every node keeps its
operand-ness and operation tag, and operator nodes keep their operands. -/
def chainSafe (h h' : List NodeObj) : Prop :=
  ∀ i o, h.get? i = some o → ∃ o', h'.get? i = some o' ∧
    opTagOf o'.kind = opTagOf o.kind ∧
    isClassSetOperandK o'.kind = isClassSetOperandK o.kind ∧
    ((opTagOf o.kind).isSome → o'.children = o.children)

/-- Assembler-state invariant for claim C6: child ids stay inside the
heap, buffered expressions and the expressions of finished
ExpressionCharacterClass nodes are homogeneous chains, and set-operation
nodes only ever hang below set-operation or ExpressionCharacterClass
nodes. -/
structure Inv6 (s : PState) : Prop where
  bound : ∀ i o, s.heap.get? i = some o → ∀ c ∈ o.children,
    c < s.heap.length
  selfFree : ∀ i o, s.heap.get? i = some o → i ∉ o.children
  buf : ∀ pr ∈ s.exprBuffer, HomogChain s.heap pr.2
  expr : ∀ i o neg, s.heap.get? i = some o →
    o.kind = .expressionCharacterClass neg →
    ∃ e, o.children = [e] ∧ HomogChain s.heap e
  noOp : ∀ i o, s.heap.get? i = some o → opTagOf o.kind = none →
    isExprClassK o.kind = false →
    ∀ c ∈ o.children, ∀ co, s.heap.get? c = some co → opTagOf co.kind = none

/-- Skeleton-preserving heap evolution: same length, and every node
keeps its operation tag, operand-ness, expression-class-ness and child
list (fields such as `end`, `raw`, `parent`, `references` may change). -/
def skelEq (h h2 : List NodeObj) : Prop :=
  h2.length = h.length ∧
  ∀ i o, h.get? i = some o → ∃ o2, h2.get? i = some o2 ∧
    opTagOf o2.kind = opTagOf o.kind ∧
    isClassSetOperandK o2.kind = isClassSetOperandK o.kind ∧
    isExprClassK o2.kind = isExprClassK o.kind ∧
    o2.children = o.children

/-- Heap evolution that preserves every structural field and the kind
constructor (used across the backreference-resolution loop, which only
rewrites resolution payloads and reference back-links). -/
def shapePres (h h' : List NodeObj) : Prop :=
  h'.length = h.length ∧
  ∀ i o, h.get? i = some o → ∃ o', h'.get? i = some o' ∧
    kindTag o'.kind = kindTag o.kind ∧ o'.parent = o.parent ∧
    o'.nstart = o.nstart ∧ o'.nend = o.nend ∧ o'.raw = o.raw ∧
    o'.children = o.children ∧ o'.modifiersF = o.modifiersF ∧
    o'.addF = o.addF ∧ o'.removeF = o.removeF

/-! ## Theorems -/

/-! ### Heap access lemmas -/

/-- Witness pre-state for the intersection mixing error: a `v`-mode
CharacterClass at 0 whose buffered left operand 1 is a ClassSubtraction. -/
def c6MixIntState : PState :=
  { heap := [
      { kind := .characterClass false true, parent := none, nstart := 0,
        nend := 0, raw := "", children := [1] },
      { kind := .classSubtraction, parent := some 0, nstart := 0, nend := 0,
        raw := "", children := [] } ],
    node := some 0, exprBuffer := [(0, 1)], source := "[a--b&&c]" }

/-- Mirror witness pre-state for the subtraction mixing error. -/
def c6MixSubState : PState :=
  { heap := [
      { kind := .characterClass false true, parent := none, nstart := 0,
        nend := 0, raw := "", children := [1] },
      { kind := .classIntersection, parent := some 0, nstart := 0, nend := 0,
        raw := "", children := [] } ],
    node := some 0, exprBuffer := [(0, 1)], source := "[a&&b--c]" }

/-- Builder events of `/[a&&b]/v`. -/
def c6Evs : List Ev :=
  [.patternEnter 0, .alternativeEnter 0, .characterClassEnter 0 false true,
   .character 1 2 97, .character 4 5 98, .classIntersection 1 5,
   .characterClassLeave 0 6, .alternativeLeave 0 6, .patternLeave 0 6]

/-- The assembler state after running `c6Evs`. -/
def c6FinalState : PState :=
  match run (initState "[a&&b]" false 2024) c6Evs with
  | .ok st => st
  | .error _ => initState "" false 2024

/-- The ExpressionCharacterClass node assembled for `/[a&&b]/v`. -/
def c6ExprNode : NodeObj :=
  { kind := .expressionCharacterClass false, parent := some 1, nstart := 0,
    nend := 6, raw := "[a&&b]", children := [5] }

/-- The character segment of `simpleStream`, recursively. -/
def charEvsR (src : String) (a : Nat) : Nat → List Ev
  | 0 => []
  | n + 1 => .character a (a + 1) (charCodeAt (src.data.getD a ' ')) ::
      charEvsR src (a + 1) n

/-- The Character nodes the assembler allocates for that segment. -/
def charNodesR (src : String) (pid a : Nat) : Nat → List NodeObj
  | 0 => []
  | n + 1 =>
    { kind := .character (charCodeAt (src.data.getD a ' ')),
      parent := some pid, nstart := a, nend := a + 1,
      raw := sliceCU src a (a + 1), children := [] } ::
      charNodesR src pid (a + 1) n

/-- State transformer of the character segment: one `pushChild` per
code unit under the cursor node `pid`. -/
def charFold (src : String) (pid a : Nat) : Nat → PState → PState
  | 0, s => s
  | n + 1, s =>
    match getN s pid with
    | some A =>
      charFold src pid (a + 1) n (pushChild s pid A
        { kind := .character (charCodeAt (src.data.getD a ' ')),
          parent := some pid, nstart := a, nend := a + 1,
          raw := sliceCU src a (a + 1), children := [] }).1
    | none => s

/-- The heap the assembler reaches on the simple-literal stream. -/
def simpleHeap (source : String) (start fin : Nat) : List NodeObj :=
  { kind := .pattern, parent := none, nstart := start, nend := fin,
    raw := sliceCU source start fin, children := [1] } ::
  { kind := .alternative, parent := some 0, nstart := start, nend := fin,
    raw := sliceCU source start fin,
    children := List.range' 2 (fin - start) } ::
  charNodesR source 1 start (fin - start)

/-- The cursor chain: the node ids from the cursor up through `parent`
links to a parentless root. -/
inductive PathTo (s : PState) : Nat → List Nat → Prop where
  | root {i : Nat} {o : NodeObj} : getN s i = some o → o.parent = none →
      PathTo s i [i]
  | step {i p : Nat} {o : NodeObj} {rest : List Nat} :
      getN s i = some o → o.parent = some p → PathTo s p rest →
      PathTo s i (i :: rest)

/-- `P` is exactly the current cursor chain (empty iff no cursor). -/
def PathOk (s : PState) (P : List Nat) : Prop :=
  match s.node with
  | none => P = []
  | some i => PathTo s i P

/-- Offset/parent invariant of the contract-checked assembler for
claims C7 and C8: `P` is the cursor chain (the currently open nodes),
every node's `raw` is the source slice of its extent, extents are
ordered and bounded by the scan position, list children are distinct
and point back to their parent, a parent starts no later than any node
pointing to it, a closed node pointing to a closed parent ends within
it, and each buffered expression points to its class and sits in no
child list. -/
structure GInv (s : PState) (pos : Nat) (P : List Nat) : Prop where
  path : PathOk s P
  nodup : P.Nodup
  raws : ∀ i o, getN s i = some o → o.raw = sliceCU s.source o.nstart o.nend
  bounds : ∀ i o, getN s i = some o → o.nstart ≤ o.nend ∧ o.nend ≤ pos
  kids : ∀ i o, getN s i = some o → ∀ c ∈ o.children,
    ∃ co, getN s c = some co ∧ co.parent = some i
  kidsNodup : ∀ i o, getN s i = some o → o.children.Nodup
  pstart : ∀ i o p, getN s i = some o → o.parent = some p →
    ∃ po, getN s p = some po ∧ po.nstart ≤ o.nstart
  closedEnd : ∀ i o p po, getN s i = some o → i ∉ P → o.parent = some p →
    getN s p = some po → p ∉ P → o.nend ≤ po.nend
  buf : ∀ pr ∈ s.exprBuffer, ∃ eo, getN s pr.2 = some eo ∧
    eo.parent = some pr.1
  bufNotChild : ∀ pr ∈ s.exprBuffer, ∀ j jo, getN s j = some jo →
    pr.2 ∉ jo.children

/-! ### C7/C8 helper definitions -/

/-- Heap evolution that keeps every structural field the offset
invariant reads (the backreference-resolution loop only rewrites
resolution payloads and reference back-links). -/
def fieldPres (s s2 : PState) : Prop :=
  s2.node = s.node ∧ s2.source = s.source ∧ s2.exprBuffer = s.exprBuffer ∧
  s2.heap.length = s.heap.length ∧
  ∀ j o, getN s j = some o → ∃ o2, getN s2 j = some o2 ∧
    o2.parent = o.parent ∧ o2.nstart = o.nstart ∧ o2.nend = o.nend ∧
    o2.raw = o.raw ∧ o2.children = o.children

/-- Concrete states and nodes for the C7/C8 witnesses and
counterexamples. -/
def c7St : PState × Nat :=
  (grun (initState "ab" false 2024, 0) (simpleStream "ab" 0 2)).getD
    (initState "ab" false 2024, 0)

def c7Node : NodeObj :=
  { kind := .character 97, parent := some 1, nstart := 0, nend := 1,
    raw := "a", children := [] }

def c7FNode : NodeObj :=
  { kind := .character 97, parent := some 2, nstart := 0, nend := 1,
    raw := "a", children := [] }

def c8Evs : List Ev := [.patternEnter 0, .alternativeEnter 0,
  .character 0 1 97, .alternativeLeave 0 1, .alternativeEnter 2,
  .alternativeLeave 2 2, .patternLeave 0 2]

def c8St : PState × Nat :=
  (grun (initState "a|" false 2024, 0) c8Evs).getD
    (initState "a|" false 2024, 0)

def c8PatNode : NodeObj :=
  { kind := .pattern, parent := none, nstart := 0, nend := 2, raw := "a|",
    children := [1, 3] }

def c8Alt1Node : NodeObj :=
  { kind := .alternative, parent := some 0, nstart := 0, nend := 1,
    raw := "a", children := [2] }

def c8CharNode : NodeObj :=
  { kind := .character 97, parent := some 1, nstart := 0, nend := 1,
    raw := "a", children := [] }

def c8EmptyAltNode : NodeObj :=
  { kind := .alternative, parent := some 0, nstart := 2, nend := 2,
    raw := "", children := [] }

theorem getN_lt {s : PState} {i : Nat} {o : NodeObj} (h : getN s i = some o) :
    i < s.heap.length := by
  by_contra hlt
  rw [getN, List.get?_eq_none.mpr (Nat.le_of_not_lt hlt)] at h
  exact Option.noConfusion h

theorem getN_setN_self {s : PState} {i : Nat} {o0 : NodeObj} (o : NodeObj)
    (h : getN s i = some o0) : getN (setN s i o) i = some o := by
  have hl := getN_lt h
  simp [getN, setN, List.get?_eq_getElem?, List.getElem?_set_self', hl,
    List.getElem?_eq_getElem]

theorem getN_setN_ne {s : PState} (i : Nat) {j : Nat} (o : NodeObj)
    (h : i ≠ j) : getN (setN s i o) j = getN s j := by
  simp [getN, setN, List.get?_eq_getElem?, List.getElem?_set_ne h]

theorem length_setN (s : PState) (i : Nat) (o : NodeObj) :
    (setN s i o).heap.length = s.heap.length := by
  simp [setN]

theorem getN_alloc_self (s : PState) (o : NodeObj) :
    getN (alloc s o).1 (alloc s o).2 = some o := by
  simp [getN, alloc, List.get?_eq_getElem?, List.getElem?_concat_length]

theorem getN_alloc_of_lt {s : PState} {j : Nat} (o : NodeObj)
    (h : j < s.heap.length) : getN (alloc s o).1 j = getN s j := by
  simp [getN, alloc, List.get?_eq_getElem?, List.getElem?_append, h]

theorem length_alloc (s : PState) (o : NodeObj) :
    (alloc s o).1.heap.length = s.heap.length + 1 := by
  simp [alloc]

/-! Unconditional rewriting forms of the heap accessors, plus the
projections untouched by `setN` / `alloc`; together they let `simp`
evaluate handler outputs over an abstract pre-state. -/

@[simp] theorem getN_setN (s : PState) (i : Nat) (o : NodeObj) (j : Nat) :
    getN (setN s i o) j =
      if i = j ∧ i < s.heap.length then some o else getN s j := by
  by_cases hij : i = j
  · subst hij
    by_cases hlt : i < s.heap.length
    · rw [if_pos ⟨rfl, hlt⟩]
      simp [getN, setN, List.get?_eq_getElem?, List.getElem?_set_self', hlt,
        List.getElem?_eq_getElem]
    · rw [if_neg (fun h => hlt h.2)]
      rw [getN, setN]
      simp only [List.set_eq_of_length_le (Nat.le_of_not_lt hlt)]
      rfl
  · rw [if_neg (fun h => hij h.1)]
    exact getN_setN_ne i o hij
@[simp] theorem getN_alloc (s : PState) (o : NodeObj) (j : Nat) :
    getN (alloc s o).1 j =
      if j = s.heap.length then some o else getN s j := by
  by_cases hj : j = s.heap.length
  · subst hj
    rw [if_pos rfl]
    exact getN_alloc_self s o
  · rw [if_neg hj]
    rcases Nat.lt_or_ge j s.heap.length with hlt | hge
    · exact getN_alloc_of_lt o hlt
    · have hgt : s.heap.length < j := Nat.lt_of_le_of_ne hge (Ne.symm hj)
      rw [getN, getN, List.get?_eq_none.mpr, List.get?_eq_none.mpr]
      · exact Nat.le_of_lt hgt
      · show (s.heap ++ [o]).length ≤ j
        simpa using hgt

@[simp] theorem setN_heap_length (s : PState) (i : Nat) (o : NodeObj) :
    (setN s i o).heap.length = s.heap.length := by
  simp [setN]
@[simp] theorem alloc_heap_length (s : PState) (o : NodeObj) :
    (alloc s o).1.heap.length = s.heap.length + 1 := by
  simp [alloc]
@[simp] theorem alloc_snd (s : PState) (o : NodeObj) :
    (alloc s o).2 = s.heap.length := rfl
@[simp] theorem setN_node (s : PState) (i : Nat) (o : NodeObj) :
    (setN s i o).node = s.node := rfl
@[simp] theorem setN_source (s : PState) (i : Nat) (o : NodeObj) :
    (setN s i o).source = s.source := rfl
@[simp] theorem setN_exprBuffer (s : PState) (i : Nat) (o : NodeObj) :
    (setN s i o).exprBuffer = s.exprBuffer := rfl
@[simp] theorem setN_backreferences (s : PState) (i : Nat) (o : NodeObj) :
    (setN s i o).backreferences = s.backreferences := rfl
@[simp] theorem setN_capturingGroups (s : PState) (i : Nat) (o : NodeObj) :
    (setN s i o).capturingGroups = s.capturingGroups := rfl
@[simp] theorem setN_flagsv (s : PState) (i : Nat) (o : NodeObj) :
    (setN s i o).flagsv = s.flagsv := rfl
@[simp] theorem alloc_node (s : PState) (o : NodeObj) :
    (alloc s o).1.node = s.node := rfl
@[simp] theorem alloc_source (s : PState) (o : NodeObj) :
    (alloc s o).1.source = s.source := rfl
@[simp] theorem alloc_exprBuffer (s : PState) (o : NodeObj) :
    (alloc s o).1.exprBuffer = s.exprBuffer := rfl
@[simp] theorem alloc_backreferences (s : PState) (o : NodeObj) :
    (alloc s o).1.backreferences = s.backreferences := rfl
@[simp] theorem alloc_capturingGroups (s : PState) (o : NodeObj) :
    (alloc s o).1.capturingGroups = s.capturingGroups := rfl
@[simp] theorem alloc_flagsv (s : PState) (o : NodeObj) :
    (alloc s o).1.flagsv = s.flagsv := rfl


@[simp] theorem getN_mk (h : List NodeObj) (n f : Option Nat)
    (b c : List Nat) (e : List (Nat × Nat)) (src : String) (st : Bool)
    (ec : Nat) (j : Nat) :
    getN ⟨h, n, f, b, c, e, src, st, ec⟩ j = h.get? j := rfl

@[simp] theorem heap_get?_set (s : PState) (i : Nat) (o : NodeObj) (j : Nat) :
    ((setN s i o).heap).get? j =
      if i = j ∧ i < s.heap.length then some o else getN s j :=
  getN_setN s i o j

@[simp] theorem heap_get?_alloc (s : PState) (o : NodeObj) (j : Nat) :
    (((alloc s o).1).heap).get? j =
      if j = s.heap.length then some o else getN s j :=
  getN_alloc s o j

theorem bufGet_bufDel (m : List (Nat × Nat)) (k : Nat) :
    bufGet (bufDel m k) k = none := by
  induction m with
  | nil => rfl
  | cons a m ih =>
    by_cases ha : a.1 = k
    · simp [bufDel, List.filter_cons, ha]
      exact ih
    · have hfa : (a.1 == k) = false := by simp [ha]
      simp only [bufDel, List.filter_cons, hfa, Bool.not_false, ite_true,
        eq_self_iff_true]
      simp only [bufGet, List.find?, hfa]
      exact ih

/-! ### Claims C2 and C3: backreference resolution at Pattern-leave -/

/-- The effect of the `for (const group of groups)
group.references.push(reference)` loop over a list of distinct live
group ids. -/
theorem pushReference_fold (rid : Nat) :
    ∀ (l : List Nat) (s : PState), l.Nodup →
    (∀ g ∈ l, ∃ o, getN s g = some o) →
    ∃ s2, l.foldlM (fun st g => pushReference st g rid) s = .ok s2 ∧
      (∀ g ∈ l, ∀ o, getN s g = some o →
        getN s2 g = some { o with references := o.references ++ [rid] }) ∧
      (∀ j, j ∉ l → getN s2 j = getN s j) := by
  intro l
  induction l with
  | nil =>
    intro s _ _
    exact ⟨s, rfl, by simp, fun j _ => rfl⟩
  | cons g rest ih =>
    intro s hnd hex
    obtain ⟨o, ho⟩ := hex g (by simp)
    have hnd' : rest.Nodup := (List.nodup_cons.mp hnd).2
    have hgrest : g ∉ rest := (List.nodup_cons.mp hnd).1
    set s1 := setN s g { o with references := o.references ++ [rid] } with hs1
    have hex' : ∀ g' ∈ rest, ∃ o', getN s1 g' = some o' := by
      intro g' hg'
      obtain ⟨o', ho'⟩ := hex g' (by simp [hg'])
      refine ⟨o', ?_⟩
      rw [hs1, getN_setN_ne g _ (fun hgg => hgrest (hgg ▸ hg'))]
      exact ho'
    obtain ⟨s2, hrun, hupd, hrest⟩ := ih s1 hnd' hex'
    refine ⟨s2, ?_, ?_, ?_⟩
    · rw [List.foldlM_cons]
      have : pushReference s g rid = .ok s1 := by
        rw [pushReference, ho, hs1]
      rw [this]
      exact hrun
    · intro g' hg' o' ho'
      rcases List.mem_cons.mp hg' with hgg | hgr
      · subst hgg
        have : o' = o := by
          rw [ho] at ho'
          exact (Option.some.inj ho').symm
        subst this
        rw [hrest g' hgrest, hs1, getN_setN_self _ ho]
      · have hne : g ≠ g' := fun hgg => hgrest (hgg ▸ hgr)
        have ho1 : getN s1 g' = some o' := by
          rw [hs1, getN_setN_ne g _ hne]
          exact ho'
        exact hupd g' hgr o' ho1
    · intro j hj
      rw [hrest j (fun hjr => hj (by simp [hjr])),
        hs1, getN_setN_ne g _ (fun hgj => hj (by simp [hgj.symm]))]

/-- C2: at Pattern-leave, each pending Backreference is resolved by the
loop body `resolveOne` (applied to every pending reference in order by
`onPatternLeave`): a numeric ref `k` selects the k-th capturing group of
the emission-order list (1-based), a named ref selects all capturing
groups carrying that name; exactly one match sets `resolved` to that
group with `ambiguous = false`, several matches set `resolved` to the
group list with `ambiguous = true`, and the reference is appended to the
`references` list of every matched group (and nothing else changes). -/
theorem c2_backreference_resolution (s : PState) (rid : Nat) (r : NodeObj)
    (ref : Ref) (amb : Bool) (res : Resolved)
    (hr : getN s rid = some r) (hk : r.kind = .backreference ref amb res) :
    (∀ k gid g, ref = .num k → s.capturingGroups.get? (k - 1) = some gid →
      gid ≠ rid → getN s gid = some g →
      ∃ s2, resolveOne s rid = .ok s2 ∧
        getN s2 rid = some { r with kind := .backreference ref false (.one gid) } ∧
        getN s2 gid = some { g with references := g.references ++ [rid] } ∧
        ∀ j, j ≠ rid → j ≠ gid → getN s2 j = getN s j) ∧
    (∀ n gid g, ref = .name n →
      s.capturingGroups.filter (fun g => groupName s g == some n) = [gid] →
      gid ≠ rid → getN s gid = some g →
      ∃ s2, resolveOne s rid = .ok s2 ∧
        getN s2 rid = some { r with kind := .backreference ref false (.one gid) } ∧
        getN s2 gid = some { g with references := g.references ++ [rid] } ∧
        ∀ j, j ≠ rid → j ≠ gid → getN s2 j = getN s j) ∧
    (∀ n g1 g2 grest, ref = .name n →
      s.capturingGroups.filter (fun g => groupName s g == some n) =
        g1 :: g2 :: grest →
      (g1 :: g2 :: grest).Nodup → rid ∉ g1 :: g2 :: grest →
      (∀ g ∈ g1 :: g2 :: grest, ∃ o, getN s g = some o) →
      ∃ s2, resolveOne s rid = .ok s2 ∧
        getN s2 rid =
          some { r with kind := .backreference ref true (.many (g1 :: g2 :: grest)) } ∧
        (∀ g ∈ g1 :: g2 :: grest, ∀ o, getN s g = some o →
          getN s2 g = some { o with references := o.references ++ [rid] }) ∧
        ∀ j, j ≠ rid → j ∉ g1 :: g2 :: grest → getN s2 j = getN s j) := by
  refine ⟨?_, ?_, ?_⟩
  · intro k gid g hrefn hget hne hg
    subst hrefn
    set s1 := setN s rid { r with kind := .backreference (.num k) false (.one gid) }
      with hs1
    have hg1 : getN s1 gid = some g := by
      rw [hs1, getN_setN_ne rid _ (Ne.symm hne)]
      exact hg
    refine ⟨setN s1 gid { g with references := g.references ++ [rid] }, ?_, ?_, ?_, ?_⟩
    · simp only [resolveOne, hr, hk, hget, pushReference, hg1]
    · rw [getN_setN_ne gid _ hne, hs1, getN_setN_self _ hr]
    · exact getN_setN_self _ hg1
    · intro j hjr hjg
      rw [getN_setN_ne gid _ (Ne.symm hjg), hs1, getN_setN_ne rid _ (Ne.symm hjr)]
  · intro n gid g hrefn hfilter hne hg
    subst hrefn
    set s1 := setN s rid { r with kind := .backreference (.name n) false (.one gid) }
      with hs1
    have hg1 : getN s1 gid = some g := by
      rw [hs1, getN_setN_ne rid _ (Ne.symm hne)]
      exact hg
    refine ⟨setN s1 gid { g with references := g.references ++ [rid] }, ?_, ?_, ?_, ?_⟩
    · simp only [resolveOne, hr, hk, hfilter, pushReference, hg1]
    · rw [getN_setN_ne gid _ hne, hs1, getN_setN_self _ hr]
    · exact getN_setN_self _ hg1
    · intro j hjr hjg
      rw [getN_setN_ne gid _ (Ne.symm hjg), hs1, getN_setN_ne rid _ (Ne.symm hjr)]
  · intro n g1 g2 grest hrefn hfilter hnd hrid hex
    subst hrefn
    set s1 := setN s rid
      { r with kind := .backreference (.name n) true (.many (g1 :: g2 :: grest)) }
      with hs1
    have hex1 : ∀ g ∈ g1 :: g2 :: grest, ∃ o, getN s1 g = some o := by
      intro g hg
      obtain ⟨o, ho⟩ := hex g hg
      exact ⟨o, by rw [hs1, getN_setN_ne rid _ (fun hgg => hrid (hgg ▸ hg))]; exact ho⟩
    obtain ⟨s2, hrun, hupd, hrest⟩ :=
      pushReference_fold rid (g1 :: g2 :: grest) s1 hnd hex1
    refine ⟨s2, ?_, ?_, ?_, ?_⟩
    · simp only [resolveOne, hr, hk, hfilter]
      exact hrun
    · rw [hrest rid hrid, hs1, getN_setN_self _ hr]
    · intro g hg o ho
      have ho1 : getN s1 g = some o := by
        rw [hs1, getN_setN_ne rid _ (fun hgg => hrid (hgg ▸ hg))]
        exact ho
      exact hupd g hg o ho1
    · intro j hjr hjg
      rw [hrest j hjg, hs1, getN_setN_ne rid _ (Ne.symm hjr)]

/-- C2 witness: a concrete state with two capturing groups both named
`n` and a pending named backreference; the theorem resolves it
ambiguously to both groups and appends the back-links. -/
theorem c2_backreference_resolution_witness :
    ∃ s2, resolveOne
        { heap :=
            [{ kind := .backreference (.name "n") false .dummy, parent := none,
               nstart := 0, nend := 2, raw := "", children := [] },
             { kind := .capturingGroup (some "n"), parent := none, nstart := 2,
               nend := 4, raw := "", children := [] },
             { kind := .capturingGroup (some "n"), parent := none, nstart := 4,
               nend := 6, raw := "", children := [] }],
          capturingGroups := [1, 2] } 0 = .ok s2 ∧
      (getN s2 0).map (fun o => o.kind) =
        some (NKind.backreference (.name "n") true (.many [1, 2])) ∧
      (getN s2 1).map (fun o => o.references) = some [0] ∧
      (getN s2 2).map (fun o => o.references) = some [0] := by
  obtain ⟨s2, hrun, hrid, hupd, -⟩ :=
    (c2_backreference_resolution
      { heap :=
          [{ kind := .backreference (.name "n") false .dummy, parent := none,
             nstart := 0, nend := 2, raw := "", children := [] },
           { kind := .capturingGroup (some "n"), parent := none, nstart := 2,
             nend := 4, raw := "", children := [] },
           { kind := .capturingGroup (some "n"), parent := none, nstart := 4,
             nend := 6, raw := "", children := [] }],
        capturingGroups := [1, 2] } 0
      { kind := .backreference (.name "n") false .dummy, parent := none,
        nstart := 0, nend := 2, raw := "", children := [] }
      (.name "n") false .dummy rfl rfl).2.2
      "n" 1 2 [] rfl (by decide) (by decide) (by decide)
      (by
        intro g hg
        simp only [List.mem_cons, List.not_mem_nil, or_false] at hg
        rcases hg with rfl | rfl
        · exact ⟨_, rfl⟩
        · exact ⟨_, rfl⟩)
  refine ⟨s2, hrun, ?_, ?_, ?_⟩
  · rw [hrid]
    rfl
  · rw [hupd 1 (by decide) _ rfl]
    rfl
  · rw [hupd 2 (by decide) _ rfl]
    rfl

/-- C3 counterexample: the claim says an empty match set at
Pattern-leave is treated as a fatal internal invariant violation rather
than completing silently; feeding the assembler a (validator-rejected,
but assembler-accepted) stream with a named backreference and no
capturing group, `onPatternLeave` completes without any error and the
Backreference ends up with `ambiguous = true` and `resolved = []`. -/
theorem c3_empty_match_set_completes_silently :
    (match run (initState "ab" false 2025)
        [.patternEnter 0, .alternativeEnter 0,
         .backreference 0 2 (.name "x"),
         .alternativeLeave 0 2, .patternLeave 0 2] with
     | .ok st => (getN st 2).map (fun o => o.kind)
     | .error _ => none) =
      some (NKind.backreference (.name "x") true (.many [])) := by
  decide

/-- C3 (amended): at Pattern-leave a pending named Backreference whose
candidate set is empty is not an error: the loop body completes
silently, setting `ambiguous = true` and `resolved` to the empty list,
and appends the reference to no group (the heap changes at the
reference node only). -/
theorem c3_empty_match_set_resolution (s : PState) (rid : Nat) (r : NodeObj)
    (n : String) (amb : Bool) (res : Resolved)
    (hr : getN s rid = some r) (hk : r.kind = .backreference (.name n) amb res)
    (hempty : s.capturingGroups.filter (fun g => groupName s g == some n) = []) :
    resolveOne s rid =
      .ok (setN s rid { r with kind := .backreference (.name n) true (.many []) }) := by
  simp only [resolveOne, hr, hk, hempty]
  rfl

/-- C3 witness: the amended statement applied to the concrete state of
the counterexample run. -/
theorem c3_empty_match_set_resolution_witness :
    resolveOne
        { heap :=
            [{ kind := .backreference (.name "x") false .dummy, parent := none,
               nstart := 0, nend := 2, raw := "", children := [] }],
          capturingGroups := [] } 0 =
      .ok (setN
        { heap :=
            [{ kind := .backreference (.name "x") false .dummy, parent := none,
               nstart := 0, nend := 2, raw := "", children := [] }],
          capturingGroups := [] } 0
        { kind := .backreference (.name "x") true (.many []), parent := none,
          nstart := 0, nend := 2, raw := "", children := [] }) :=
  c3_empty_match_set_resolution
    { heap :=
        [{ kind := .backreference (.name "x") false .dummy, parent := none,
           nstart := 0, nend := 2, raw := "", children := [] }],
      capturingGroups := [] } 0
    { kind := .backreference (.name "x") false .dummy, parent := none,
      nstart := 0, nend := 2, raw := "", children := [] }
    "x" false .dummy rfl rfl rfl

/-! ### Claim C4: quantifier attachment -/

/-- C4: on a Quantifier event over a cursor Alternative, the assembler
pops the last element `e`, pushes a fresh Quantifier node whose
`element` is `e`, whose `start` is `e.start`, whose min/max/greedy are
the event values and whose parent is the Alternative, rewiring `e`'s
parent to the Quantifier; it errors when there is no preceding element,
when it is already a Quantifier, or when it is an Assertion other than
lookahead. -/
theorem c4_quantifier_wraps_last_element (s : PState) (pid : Nat)
    (p : NodeObj) (hn : s.node = some pid) (hp : getN s pid = some p)
    (halt : p.kind = .alternative) :
    (p.children.getLast? = none →
      ∀ st fin mi ma g, onQuantifier s st fin mi ma g = .error ()) ∧
    (∀ eid e, p.children.getLast? = some eid → getN s eid = some e →
      isQuantifierK e.kind = true →
      ∀ st fin mi ma g, onQuantifier s st fin mi ma g = .error ()) ∧
    (∀ eid e, p.children.getLast? = some eid → getN s eid = some e →
      isAssertionK e.kind = true →
      (∀ neg, e.kind ≠ .assertionLook .lookahead neg) →
      ∀ st fin mi ma g, onQuantifier s st fin mi ma g = .error ()) ∧
    (∀ eid e, p.children.getLast? = some eid → getN s eid = some e →
      eid ≠ pid → isQuantifierK e.kind = false →
      (isAssertionK e.kind = false ∨ ∃ neg, e.kind = .assertionLook .lookahead neg) →
      ∀ st fin mi ma g, ∃ s2,
        onQuantifier s st fin mi ma g = .ok s2 ∧
        getN s2 s.heap.length = some
          { kind := .quantifier mi ma g, parent := some pid,
            nstart := e.nstart, nend := fin,
            raw := sliceCU s.source e.nstart fin, children := [eid] } ∧
        (∃ p2, getN s2 pid = some p2 ∧
          p2.children = p.children.dropLast ++ [s.heap.length]) ∧
        (∃ e2, getN s2 eid = some e2 ∧ e2.parent = some s.heap.length ∧
          e2.kind = e.kind ∧ e2.nstart = e.nstart ∧ e2.nend = e.nend)) := by
  have hguard : ∀ e : NodeObj, isQuantifierK e.kind = false →
      (isAssertionK e.kind = false ∨ ∃ neg, e.kind = .assertionLook .lookahead neg) →
      ¬(isQuantifierK e.kind = true ∨
        (isAssertionK e.kind = true ∧ e.kind ≠ .assertionLook .lookahead true ∧
          e.kind ≠ .assertionLook .lookahead false)) := by
    intro e hq ha
    rintro (hcq | ⟨hca, hne1, hne2⟩)
    · rw [hq] at hcq
      exact Bool.noConfusion hcq
    · rcases ha with hfa | ⟨neg, hne⟩
      · rw [hfa] at hca
        exact Bool.noConfusion hca
      · cases neg
        · exact hne2 hne
        · exact hne1 hne
  refine ⟨?_, ?_, ?_, ?_⟩
  · intro hlast st fin mi ma g
    simp [onQuantifier, hn, hp, halt, hlast]
  · intro eid e hlast he hq st fin mi ma g
    simp [onQuantifier, hn, hp, halt, hlast, he, hq]
  · intro eid e hlast he ha hne st fin mi ma g
    simp [onQuantifier, hn, hp, halt, hlast, he, ha, hne true, hne false]
  · intro eid e hlast he heidne hq ha st fin mi ma g
    have hnq : ¬(isQuantifierK e.kind = true ∨
        (isAssertionK e.kind = true ∧ e.kind ≠ .assertionLook .lookahead true ∧
          e.kind ≠ .assertionLook .lookahead false)) := hguard e hq ha
    simp only [onQuantifier, hn, hp, hlast, he]
    rw [if_pos halt, if_neg hnq]
    have hpl := getN_lt hp
    have hel := getN_lt he
    set q : NodeObj :=
      { kind := .quantifier mi ma g, parent := some pid, nstart := e.nstart,
        nend := fin, raw := sliceCU s.source e.nstart fin, children := [eid] }
      with hq2
    have hga : getN (alloc s q).1 pid = some p := by
      rw [getN_alloc_of_lt _ hpl]
      exact hp
    have hqid : (alloc s q).2 = s.heap.length := rfl
    refine ⟨_, rfl, ?_, ?_, ?_⟩
    · have h1 : getN (setN (alloc s q).1 pid
          { p with children := p.children.dropLast ++ [(alloc s q).2] })
          (alloc s q).2 = some q := by
        rw [getN_setN_ne pid _ (by rw [hqid]; exact Nat.ne_of_lt hpl)]
        exact getN_alloc_self s q
      rw [getN_setN_ne eid _ (Nat.ne_of_lt hel)]
      rw [hqid] at h1
      exact h1
    · refine ⟨{ p with children := p.children.dropLast ++ [s.heap.length] }, ?_, rfl⟩
      rw [getN_setN_ne eid _ heidne]
      have := getN_setN_self (s := (alloc s q).1) (i := pid)
        { p with children := p.children.dropLast ++ [(alloc s q).2] } hga
      rw [hqid] at this
      exact this
    · refine ⟨{ e with parent := some s.heap.length }, ?_, rfl, rfl, rfl, rfl⟩
      have hge : getN (setN (alloc s q).1 pid
          { p with children := p.children.dropLast ++ [(alloc s q).2] }) eid
          = some e := by
        rw [getN_setN_ne pid _ heidne.symm, getN_alloc_of_lt _ hel]
        exact he
      have := getN_setN_self (i := eid) { e with parent := some (alloc s q).2 } hge
      rw [hqid] at this
      exact this

/-- C4 witness: wrapping the single Character of the alternative of
pattern `a*` in a Quantifier. -/
theorem c4_quantifier_wraps_last_element_witness :
    ∃ s2, onQuantifier
        { heap :=
            [{ kind := .alternative, parent := none, nstart := 0, nend := 0,
               raw := "", children := [1] },
             { kind := .character 97, parent := some 0, nstart := 0, nend := 1,
               raw := "a", children := [] }],
          node := some 0, source := "a*" } 0 2 0 none true = .ok s2 ∧
      getN s2 2 = some
        { kind := .quantifier 0 none true, parent := some 0, nstart := 0,
          nend := 2, raw := "a*", children := [1] } ∧
      (∃ p2, getN s2 0 = some p2 ∧ p2.children = [2]) ∧
      (∃ e2, getN s2 1 = some e2 ∧ e2.parent = some 2 ∧
        e2.kind = .character 97 ∧ e2.nstart = 0 ∧ e2.nend = 1) := by
  obtain ⟨s2, hrun, hq, hp2, he2⟩ :=
    (c4_quantifier_wraps_last_element
      { heap :=
          [{ kind := .alternative, parent := none, nstart := 0, nend := 0,
             raw := "", children := [1] },
           { kind := .character 97, parent := some 0, nstart := 0, nend := 1,
             raw := "a", children := [] }],
        node := some 0, source := "a*" } 0
      { kind := .alternative, parent := none, nstart := 0, nend := 0,
        raw := "", children := [1] } rfl rfl rfl).2.2.2 1
      { kind := .character 97, parent := some 0, nstart := 0, nend := 1,
        raw := "a", children := [] }
      rfl rfl (by decide) rfl (Or.inl rfl) 0 2 0 none true
  exact ⟨s2, hrun, by simpa using hq, by simpa using hp2, by simpa using he2⟩

/-! ### Claim C5: expression character class restructure -/

/-- C5: at CharacterClass-leave with a buffered set operation, an empty
element list lets the assembler replace the class in its parent's
element list with an ExpressionCharacterClass whose `expression` is the
buffered subtree and whose start, end, raw, negate and parent equal the
finalized class's; a buffered operation with a non-empty element list is
an internal error. -/
theorem c5_expression_class_restructure (s : PState) (nid : Nat)
    (n0 : NodeObj) (neg uset : Bool) (pid : Nat) (p0 : NodeObj) (eid : Nat)
    (hn : s.node = some nid) (hno : getN s nid = some n0)
    (hk : n0.kind = .characterClass neg uset)
    (hpar : n0.parent = some pid) (hpo : getN s pid = some p0)
    (hpk : p0.kind = .alternative ∨ isCharacterClassK p0.kind = true)
    (hbuf : bufGet s.exprBuffer nid = some eid)
    (hne : nid ≠ pid) (hen : eid ≠ nid) (hep : eid ≠ pid) :
    (n0.children ≠ [] → ∀ a b, onCharacterClassLeave s a b = .error ()) ∧
    (n0.children = [] → ∀ e0, getN s eid = some e0 →
      p0.children.getLast? = some nid →
      ∀ a b, ∃ s2, onCharacterClassLeave s a b = .ok s2 ∧
        s2.node = some pid ∧
        getN s2 nid = some
          { n0 with nend := b, raw := sliceCU s.source a b } ∧
        getN s2 s.heap.length = some
          { kind := .expressionCharacterClass neg, parent := some pid,
            nstart := n0.nstart, nend := b, raw := sliceCU s.source a b,
            children := [eid] } ∧
        (∃ e2, getN s2 eid = some e2 ∧ e2.parent = some s.heap.length ∧
          e2.kind = e0.kind) ∧
        (∃ p2, getN s2 pid = some p2 ∧
          p2.children = p0.children.dropLast ++ [s.heap.length]) ∧
        bufGet s2.exprBuffer nid = none) := by
  have hnl := getN_lt hno
  have hpl := getN_lt hpo
  refine ⟨?_, ?_⟩
  · intro hnonempty a b
    simp only [onCharacterClassLeave, hn, hno, hk, hpar, hpo]
    rw [if_pos hpk]
    simp only [setN_exprBuffer, hbuf]
    rw [if_pos (by simpa using hnonempty)]
  · intro hempty e0 he0 hlastp a b
    have hel := getN_lt he0
    simp only [onCharacterClassLeave, hn, hno, hk, hpar, hpo]
    rw [if_pos hpk]
    simp only [setN_exprBuffer, hbuf]
    rw [if_neg (by simp [hempty])]
    repeat simp only [getN_setN, getN_alloc, getN_mk, heap_get?_set,
      heap_get?_alloc, setN_heap_length, alloc_heap_length, alloc_snd,
      Nat.ne_of_lt hel, Nat.ne_of_lt hnl, Nat.ne_of_lt hpl,
      Nat.lt_succ_of_lt hel, Nat.lt_succ_of_lt hnl, Nat.lt_succ_of_lt hpl,
      Ne.symm hen, hne, hep, Ne.symm hep, Ne.symm hne, hen,
      he0, hpo, hlastp, hnl, hpl, hel,
      and_true, and_false, true_and, false_and,
      ite_true, ite_false, eq_self_iff_true, not_true, not_false_iff]
    refine ⟨_, rfl, ?_⟩
    repeat simp only [getN_setN, getN_alloc, getN_mk, heap_get?_set,
      heap_get?_alloc, setN_heap_length, alloc_heap_length, alloc_snd,
      setN_node, alloc_node, setN_exprBuffer, alloc_exprBuffer,
      bufGet_bufDel,
      Nat.ne_of_lt hel, Nat.ne_of_lt hnl, Nat.ne_of_lt hpl,
      Nat.lt_succ_of_lt hel, Nat.lt_succ_of_lt hnl, Nat.lt_succ_of_lt hpl,
      Ne.symm hen, hne, hep, Ne.symm hep, Ne.symm hne, hen,
      he0, hpo, hlastp, hnl, hpl, hel,
      and_true, and_false, true_and, false_and,
      ite_true, ite_false, eq_self_iff_true, not_true, not_false_iff,
      Option.some.injEq, exists_eq_left, exists_eq_left]
    exact ⟨⟨_, rfl, rfl, rfl⟩, ⟨_, rfl, rfl⟩⟩

/-- C5 witness: a `v`-mode class whose single buffered intersection
turns it into an ExpressionCharacterClass (event stream for
`[a&&b]`-like contents, heap prepared accordingly). -/
theorem c5_expression_class_restructure_witness :
    ∃ s2, onCharacterClassLeave
        { heap :=
            [{ kind := .alternative, parent := none, nstart := 0, nend := 0,
               raw := "", children := [1] },
             { kind := .characterClass false true, parent := some 0,
               nstart := 0, nend := 0, raw := "", children := [] },
             { kind := .classIntersection, parent := some 1, nstart := 1,
               nend := 5, raw := "a&&b", children := [3, 4] },
             { kind := .character 97, parent := some 2, nstart := 1, nend := 2,
               raw := "a", children := [] },
             { kind := .character 98, parent := some 2, nstart := 4, nend := 5,
               raw := "b", children := [] }],
          node := some 1, exprBuffer := [(1, 2)],
          source := "[a&&b]" } 0 6 = .ok s2 ∧
      s2.node = some 0 ∧
      getN s2 5 = some
        { kind := .expressionCharacterClass false, parent := some 0,
          nstart := 0, nend := 6, raw := "[a&&b]", children := [2] } ∧
      (∃ e2, getN s2 2 = some e2 ∧ e2.parent = some 5 ∧
        e2.kind = .classIntersection) ∧
      (∃ p2, getN s2 0 = some p2 ∧ p2.children = [5]) ∧
      bufGet s2.exprBuffer 1 = none := by
  obtain ⟨s2, hrun, hnode, -, hnew, he2, hp2, hbuf⟩ :=
    (c5_expression_class_restructure
      { heap :=
          [{ kind := .alternative, parent := none, nstart := 0, nend := 0,
             raw := "", children := [1] },
           { kind := .characterClass false true, parent := some 0,
             nstart := 0, nend := 0, raw := "", children := [] },
           { kind := .classIntersection, parent := some 1, nstart := 1,
             nend := 5, raw := "a&&b", children := [3, 4] },
           { kind := .character 97, parent := some 2, nstart := 1, nend := 2,
             raw := "a", children := [] },
           { kind := .character 98, parent := some 2, nstart := 4, nend := 5,
             raw := "b", children := [] }],
        node := some 1, exprBuffer := [(1, 2)],
        source := "[a&&b]" } 1
      { kind := .characterClass false true, parent := some 0, nstart := 0,
        nend := 0, raw := "", children := [] }
      false true 0
      { kind := .alternative, parent := none, nstart := 0, nend := 0,
        raw := "", children := [1] } 2
      rfl rfl rfl rfl rfl (Or.inl rfl) rfl (by decide) (by decide)
      (by decide)).2 rfl
      { kind := .classIntersection, parent := some 1, nstart := 1, nend := 5,
        raw := "a&&b", children := [3, 4] } rfl rfl 0 6
  refine ⟨s2, hrun, hnode, by simpa using hnew, ?_, by simpa using hp2, hbuf⟩
  obtain ⟨e2, h1, h2, h3⟩ := he2
  exact ⟨e2, h1, by simpa using h2, h3⟩

/-- C1: the claim asserts that two `parseLiteral` calls with the same
arguments always return structurally equal ASTs and that a cache hit is
a deep copy preserving every field, including each Backreference's
resolved group and each CapturingGroup's references list.  Evaluating
the code on `/(a)\1/` (cached, since it contains `(`): the first call's
AST has the Backreference as the second element of the alternative with
`resolved` pointing at the group, but the second (cache-served) call
returns a clone in which that element is `null` (the `seen`-set of
`cloneAST`'s JSON replacer had already serialized the Backreference
inside the group's `references` array) and the surviving Backreference
copy has no `resolved` field at all.  The two results are not
structurally equal and the clone does not preserve every field. -/
theorem c1_cached_literal_clone_drops_backreference :
    c1Cache = c1CacheLit ∧
    (match c1Second with
     | .ok (.cachedHit (some _), _) => true
     | _ => false) = true ∧
    (c1Heap.get? 1).map (fun o => (o.kind, o.children)) =
      some (NKind.alternative, [2, 5]) ∧
    (c1Heap.get? 5).map (fun o => o.kind) =
      some (NKind.backreference (.num 1) false (.one 2)) ∧
    (c1ElemsOfClone >>= fun e => jIdx e 1) = some J.jnull ∧
    (c1RefCopy >>= fun b => jGet b "type") = some (J.jstr "Backreference") ∧
    (c1RefCopy >>= fun b => jGet b "resolved") = none := by
  have hc : c1Cache = c1CacheLit := by decide
  refine ⟨hc, ?_, by decide, by decide, ?_, ?_, ?_⟩
  · simp only [c1Second, hc]
    decide
  · simp only [c1ElemsOfClone, c1CloneJ, c1Second, hc]
    rfl
  · simp only [c1RefCopy, c1CloneJ, c1Second, hc]
    rfl
  · simp only [c1RefCopy, c1CloneJ, c1Second, hc]
    rfl


/-- C9: the claim asserts that a cached parse result is only returned
for a matching full key `(slice, strict, ecmaVersion, unicode,
unicodeSets)`, so `parseFlags` calls made by parsers with different
`strict` / `ecmaVersion` options are never served from each other's
cache entries.  The flags cache in `src/cache.ts` is keyed by the source
slice alone (`getCachedFlags` / `setCachedFlags` take no options, unlike
`generateCacheKey`), so after one parser caches the flags text `v`,
a `parseFlags` call by any other parser — whatever its options and
whatever its own validator would produce (`oracle2`) — is answered from
that entry. -/
theorem c9_flags_cache_shared_across_parser_options :
    ∀ oracle2 : NodeObj,
      (parseFlags [] "v" 0 1 c9FlagsV).1 = c9FlagsV ∧
      (parseFlags [] "v" 0 1 c9FlagsV).2 = [("v", c9FlagsV)] ∧
      (parseFlags ((parseFlags [] "v" 0 1 c9FlagsV).2) "v" 0 1 oracle2).1 =
        { c9FlagsV with parent := none } ∧
      (parseFlags ((parseFlags [] "v" 0 1 c9FlagsV).2) "v" 0 1 oracle2).2 =
        [("v", c9FlagsV)] := by
  intro oracle2
  refine ⟨rfl, rfl, rfl, rfl⟩


/-! ### Claim C6: homogeneity of class-set operator chains -/

/-- `chainSafe` transports operand-hood. -/
theorem Operand_of_chainSafe {h h2 : List NodeObj} (hcs : chainSafe h h2)
    {j : Nat} (hj : Operand h j) : Operand h2 j := by
  obtain ⟨o, ho, hk⟩ := hj
  obtain ⟨o2, ho2, -, hopnd, -⟩ := hcs j o ho
  exact ⟨o2, ho2, by rw [hopnd, hk]⟩

/-- `chainSafe` transports homogeneous chains. -/
theorem Chain_of_chainSafe {h h2 : List NodeObj} (hcs : chainSafe h h2)
    {b : Bool} {i : Nat} (hc : Chain h b i) : Chain h2 b i := by
  induction hc with
  | base ho htag hch hl hr =>
    obtain ⟨o2, ho2, htag2, -, hch2⟩ := hcs _ _ ho
    exact Chain.base ho2 (htag2.trans htag)
      ((hch2 (by rw [htag]; rfl)).trans hch)
      (Operand_of_chainSafe hcs hl) (Operand_of_chainSafe hcs hr)
  | step ho htag hch _ hr ih =>
    obtain ⟨o2, ho2, htag2, -, hch2⟩ := hcs _ _ ho
    exact Chain.step ho2 (htag2.trans htag)
      ((hch2 (by rw [htag]; rfl)).trans hch)
      ih (Operand_of_chainSafe hcs hr)

theorem HomogChain_of_chainSafe {h h2 : List NodeObj} (hcs : chainSafe h h2)
    {e : Nat} (hc : HomogChain h e) : HomogChain h2 e := by
  rcases hc with hc | hc
  · exact Or.inl (Chain_of_chainSafe hcs hc)
  · exact Or.inr (Chain_of_chainSafe hcs hc)

theorem chainSafe_trans {h1 h2 h3 : List NodeObj} (a : chainSafe h1 h2)
    (b : chainSafe h2 h3) : chainSafe h1 h3 := by
  intro i o ho
  obtain ⟨o2, ho2, t1, p1, c1⟩ := a i o ho
  obtain ⟨o3, ho3, t2, p2, c2⟩ := b i o2 ho2
  refine ⟨o3, ho3, t2.trans t1, p2.trans p1, fun hs => ?_⟩
  rw [c2 (by rw [t1]; exact hs), c1 hs]

theorem chainSafe_allocH (s : PState) (o : NodeObj) :
    chainSafe s.heap ((alloc s o).1).heap := by
  intro i oi hi
  have hlt : i < s.heap.length := getN_lt (s := s) (i := i) hi
  refine ⟨oi, ?_, rfl, rfl, fun _ => rfl⟩
  show ((alloc s o).1).heap.get? i = some oi
  rw [heap_get?_alloc, if_neg (Nat.ne_of_lt hlt)]
  exact hi

theorem chainSafe_setNH (s : PState) (i : Nat) {oi : NodeObj} (o2 : NodeObj)
    (hi : getN s i = some oi)
    (h1 : opTagOf o2.kind = opTagOf oi.kind)
    (h2 : isClassSetOperandK o2.kind = isClassSetOperandK oi.kind)
    (h3 : (opTagOf oi.kind).isSome → o2.children = oi.children) :
    chainSafe s.heap ((setN s i o2).heap) := by
  intro j oj hj
  by_cases hij : i = j
  · subst hij
    have : oi = oj := Option.some.inj ((hi.symm).trans hj)
    subst this
    refine ⟨o2, ?_, h1, h2, h3⟩
    show ((setN s i o2).heap).get? i = some o2
    rw [heap_get?_set, if_pos ⟨rfl, getN_lt (s := s) (i := i) hi⟩]
  · refine ⟨oj, ?_, rfl, rfl, fun _ => rfl⟩
    show ((setN s i o2).heap).get? j = some oj
    rw [heap_get?_set, if_neg (fun hc => hij hc.1)]
    exact hj

theorem skelEq_chainSafe {h h2 : List NodeObj} (hs : skelEq h h2) :
    chainSafe h h2 := by
  intro i o ho
  obtain ⟨o2, ho2, t, p, -, c⟩ := hs.2 i o ho
  exact ⟨o2, ho2, t, p, fun _ => c⟩

theorem skelEq_refl (h : List NodeObj) : skelEq h h :=
  ⟨rfl, fun _ o ho => ⟨o, ho, rfl, rfl, rfl, rfl⟩⟩

theorem skelEq_trans {h1 h2 h3 : List NodeObj} (a : skelEq h1 h2)
    (b : skelEq h2 h3) : skelEq h1 h3 := by
  refine ⟨b.1.trans a.1, fun i o ho => ?_⟩
  obtain ⟨o2, ho2, t1, p1, e1, c1⟩ := a.2 i o ho
  obtain ⟨o3, ho3, t2, p2, e2, c2⟩ := b.2 i o2 ho2
  exact ⟨o3, ho3, t2.trans t1, p2.trans p1, e2.trans e1, c2.trans c1⟩

theorem skelEq_setNH (s : PState) (i : Nat) {oi : NodeObj} (o2 : NodeObj)
    (hi : getN s i = some oi)
    (h1 : opTagOf o2.kind = opTagOf oi.kind)
    (h2 : isClassSetOperandK o2.kind = isClassSetOperandK oi.kind)
    (h3 : isExprClassK o2.kind = isExprClassK oi.kind)
    (h4 : o2.children = oi.children) :
    skelEq s.heap ((setN s i o2).heap) := by
  refine ⟨by rw [setN_heap_length], fun j oj hj => ?_⟩
  by_cases hij : i = j
  · subst hij
    have : oi = oj := Option.some.inj ((hi.symm).trans hj)
    subst this
    refine ⟨o2, ?_, h1, h2, h3, h4⟩
    show ((setN s i o2).heap).get? i = some o2
    rw [heap_get?_set, if_pos ⟨rfl, getN_lt (s := s) (i := i) hi⟩]
  · refine ⟨oj, ?_, rfl, rfl, rfl, rfl⟩
    show ((setN s i o2).heap).get? j = some oj
    rw [heap_get?_set, if_neg (fun hc => hij hc.1)]
    exact hj

/-- A heap lookup succeeds strictly below the length. -/
theorem get?_lt_exists {h : List NodeObj} {i : Nat} (hi : i < h.length) :
    ∃ o, h.get? i = some o := by
  cases hg : h.get? i with
  | none => exact absurd (List.get?_eq_none.mp hg) (Nat.not_le_of_lt hi)
  | some o => exact ⟨o, rfl⟩

theorem skelEq_back {h h2 : List NodeObj} (hs : skelEq h h2) {i : Nat}
    {o2 : NodeObj} (ho2 : h2.get? i = some o2) :
    ∃ o, h.get? i = some o ∧
      opTagOf o2.kind = opTagOf o.kind ∧
      isClassSetOperandK o2.kind = isClassSetOperandK o.kind ∧
      isExprClassK o2.kind = isExprClassK o.kind ∧
      o2.children = o.children := by
  have hi : i < h.length := by
    have h2i : i < h2.length := by
      by_contra hc
      rw [List.get?_eq_none.mpr (Nat.le_of_not_lt hc)] at ho2
      exact Option.noConfusion ho2
    rw [← hs.1]; exact h2i
  obtain ⟨o, ho⟩ := get?_lt_exists hi
  obtain ⟨o2x, ho2x, t, p, e, c⟩ := hs.2 i o ho
  have : o2x = o2 := Option.some.inj ((ho2x.symm).trans ho2)
  subst this
  exact ⟨o, ho, t, p, e, c⟩

theorem exprClassK_inv {k : NKind} (hk : isExprClassK k = true) :
    ∃ n, k = .expressionCharacterClass n := by
  cases k <;> simp [isExprClassK] at hk ⊢

/-- Skeleton-preserving state evolutions that keep (a subset of) the
expression buffer preserve `Inv6`. -/
theorem inv6_skelEq {s s2 : PState} (h6 : Inv6 s)
    (hs : skelEq s.heap s2.heap)
    (hb : ∀ pr, pr ∈ s2.exprBuffer → pr ∈ s.exprBuffer) : Inv6 s2 := by
  have hcs := skelEq_chainSafe hs
  refine ⟨?_, ?_, ?_, ?_, ?_⟩
  · intro i o2 ho2 c hc
    obtain ⟨o, ho, -, -, -, hch⟩ := skelEq_back hs ho2
    rw [hs.1]
    exact h6.bound i o ho c (hch ▸ hc)
  · intro i o2 ho2
    obtain ⟨o, ho, -, -, -, hch⟩ := skelEq_back hs ho2
    rw [hch]
    exact h6.selfFree i o ho
  · intro pr hpr
    exact HomogChain_of_chainSafe hcs (h6.buf pr (hb pr hpr))
  · intro i o2 neg ho2 hk
    obtain ⟨o, ho, -, -, he, hch⟩ := skelEq_back hs ho2
    have : isExprClassK o.kind = true := by
      rw [← he, hk]; rfl
    obtain ⟨n, hn⟩ := exprClassK_inv this
    obtain ⟨e, hce, hhc⟩ := h6.expr i o n ho hn
    exact ⟨e, hch.trans hce, HomogChain_of_chainSafe hcs hhc⟩
  · intro i o2 ho2 htag hex c hc co2 hco2
    obtain ⟨o, ho, ht, -, he, hch⟩ := skelEq_back hs ho2
    obtain ⟨co, hco, hto, -, -, -⟩ := skelEq_back hs hco2
    rw [hto]
    exact h6.noOp i o ho (ht ▸ htag) (he ▸ hex) c (hch ▸ hc) co hco

/-- `Inv6` only looks at the heap and the expression buffer. -/
theorem inv6_congr {s s2 : PState} (h6 : Inv6 s) (hh : s2.heap = s.heap)
    (he : s2.exprBuffer = s.exprBuffer) : Inv6 s2 := by
  refine ⟨?_, ?_, ?_, ?_, ?_⟩ <;> rw [hh]
  · exact h6.bound
  · exact h6.selfFree
  · rw [he]; exact h6.buf
  · exact h6.expr
  · exact h6.noOp

/-- Allocating a fresh non-operator, non-expression-class node preserves
`Inv6` when its children already live in the heap and are non-operators. -/
theorem inv6_ext {s : PState} (h6 : Inv6 s) (o : NodeObj)
    (ho1 : opTagOf o.kind = none) (ho2 : isExprClassK o.kind = false)
    (ho3 : ∀ c ∈ o.children, c < s.heap.length ∧
      ∀ co, s.heap.get? c = some co → opTagOf co.kind = none) :
    Inv6 (alloc s o).1 := by
  have hcs := chainSafe_allocH s o
  have hget : ∀ j, ((alloc s o).1).heap.get? j =
      if j = s.heap.length then some o else s.heap.get? j := by
    intro j; rw [heap_get?_alloc]; rfl
  refine ⟨?_, ?_, ?_, ?_, ?_⟩
  · intro i oi hoi c hc
    rw [alloc_heap_length]
    rw [hget] at hoi
    by_cases hi : i = s.heap.length
    · rw [if_pos hi] at hoi
      cases hoi
      exact Nat.lt_succ_of_lt (ho3 c hc).1
    · rw [if_neg hi] at hoi
      exact Nat.lt_succ_of_lt (h6.bound i oi hoi c hc)
  · intro i oi hoi hmem
    rw [hget] at hoi
    by_cases hi : i = s.heap.length
    · rw [if_pos hi] at hoi
      cases hoi
      exact absurd (hi ▸ (ho3 i hmem).1) (Nat.lt_irrefl _)
    · rw [if_neg hi] at hoi
      exact h6.selfFree i oi hoi hmem
  · intro pr hpr
    exact HomogChain_of_chainSafe hcs (h6.buf pr hpr)
  · intro i oi neg hoi hk
    rw [hget] at hoi
    by_cases hi : i = s.heap.length
    · rw [if_pos hi] at hoi
      cases hoi
      rw [hk] at ho2
      exact absurd ho2 (by simp [isExprClassK])
    · rw [if_neg hi] at hoi
      obtain ⟨e, hce, hhc⟩ := h6.expr i oi neg hoi hk
      exact ⟨e, hce, HomogChain_of_chainSafe hcs hhc⟩
  · intro i oi hoi htag hex c hc co hco
    rw [hget] at hoi
    rw [hget] at hco
    by_cases hi : i = s.heap.length
    · rw [if_pos hi] at hoi
      cases hoi
      by_cases hcn : c = s.heap.length
      · rw [if_pos hcn] at hco
        cases hco
        exact ho1
      · rw [if_neg hcn] at hco
        exact (ho3 c hc).2 co hco
    · rw [if_neg hi] at hoi
      by_cases hcn : c = s.heap.length
      · exact absurd (hcn ▸ h6.bound i oi hoi c hc) (Nat.lt_irrefl _)
      · rw [if_neg hcn] at hco
        exact h6.noOp i oi hoi htag hex c hc co hco

/-- Replacing the node at `pid` by a non-operator, non-expression-class
node of the same kind flags, whose children are in-bounds non-operators,
preserves `Inv6`. -/
theorem inv6_setNode {s : PState} {pid : Nat} {pold : NodeObj} (h6 : Inv6 s)
    (hold : getN s pid = some pold) (q : NodeObj)
    (hkq : opTagOf q.kind = opTagOf pold.kind)
    (hk2 : isClassSetOperandK q.kind = isClassSetOperandK pold.kind)
    (hqtag : opTagOf q.kind = none) (hqex : isExprClassK q.kind = false)
    (hqself : pid ∉ q.children)
    (hq : ∀ c ∈ q.children, c < s.heap.length ∧
      ∀ co, s.heap.get? c = some co → opTagOf co.kind = none) :
    Inv6 (setN s pid q) := by
  have hpl : pid < s.heap.length := getN_lt (s := s) (i := pid) hold
  have hcs : chainSafe s.heap ((setN s pid q).heap) :=
    chainSafe_setNH s pid q hold hkq hk2
      (fun hs => absurd hs (by rw [hkq] at hqtag; rw [hqtag]; simp))
  have hget : ∀ j, ((setN s pid q).heap).get? j =
      if pid = j then some q else s.heap.get? j := by
    intro j
    rw [heap_get?_set]
    by_cases hj : pid = j
    · rw [if_pos ⟨hj, hpl⟩, if_pos hj]
    · rw [if_neg (fun hc => hj hc.1), if_neg hj]
      rfl
  refine ⟨?_, ?_, ?_, ?_, ?_⟩
  · intro i oi hoi c hc
    rw [setN_heap_length]
    rw [hget] at hoi
    by_cases hi : pid = i
    · rw [if_pos hi] at hoi
      cases hoi
      exact (hq c hc).1
    · rw [if_neg hi] at hoi
      exact h6.bound i oi hoi c hc
  · intro i oi hoi hmem
    rw [hget] at hoi
    by_cases hi : pid = i
    · rw [if_pos hi] at hoi
      cases hoi
      exact hqself (hi ▸ hmem)
    · rw [if_neg hi] at hoi
      exact h6.selfFree i oi hoi hmem
  · intro pr hpr
    exact HomogChain_of_chainSafe hcs (h6.buf pr hpr)
  · intro i oi neg hoi hk
    rw [hget] at hoi
    by_cases hi : pid = i
    · rw [if_pos hi] at hoi
      cases hoi
      rw [hk] at hqex
      exact absurd hqex (by simp [isExprClassK])
    · rw [if_neg hi] at hoi
      obtain ⟨e, hce, hhc⟩ := h6.expr i oi neg hoi hk
      exact ⟨e, hce, HomogChain_of_chainSafe hcs hhc⟩
  · intro i oi hoi htag hex c hc co hco
    rw [hget] at hoi
    rw [hget] at hco
    by_cases hcp : pid = c
    · rw [if_pos hcp] at hco
      cases hco
      exact hqtag
    · rw [if_neg hcp] at hco
      by_cases hi : pid = i
      · rw [if_pos hi] at hoi
        cases hoi
        exact (hq c hc).2 co hco
      · rw [if_neg hi] at hoi
        exact h6.noOp i oi hoi htag hex c hc co hco

/-- `pushChild` preserves `Inv6` for a fresh childless non-operator node
under a non-operator, non-expression-class parent. -/
theorem inv6_pushChild {s : PState} {pid : Nat} {p : NodeObj} (h6 : Inv6 s)
    (hp : getN s pid = some p) (hptag : opTagOf p.kind = none)
    (hpex : isExprClassK p.kind = false) (o : NodeObj)
    (ho1 : opTagOf o.kind = none) (ho2 : isExprClassK o.kind = false)
    (ho3 : o.children = []) : Inv6 (pushChild s pid p o).1 := by
  have hpl : pid < s.heap.length := getN_lt (s := s) (i := pid) hp
  have h6A : Inv6 (alloc s o).1 :=
    inv6_ext h6 o ho1 ho2
      (by rw [ho3]; intro c hc; exact absurd hc (List.not_mem_nil c))
  have hpA : getN (alloc s o).1 pid = some p := by
    show ((alloc s o).1).heap.get? pid = some p
    rw [heap_get?_alloc, if_neg (Nat.ne_of_lt hpl)]
    exact hp
  refine inv6_setNode h6A hpA _ rfl rfl hptag hpex ?_ ?_
  · intro hmem
    rcases List.mem_append.mp hmem with hm | hm
    · exact h6.selfFree pid p hp hm
    · have : pid = (alloc s o).2 := by simpa using hm
      rw [alloc_snd] at this
      exact absurd (this ▸ hpl) (Nat.lt_irrefl _)
  intro c hc
  rw [alloc_heap_length]
  rcases List.mem_append.mp hc with hcold | hcnew
  · refine ⟨Nat.lt_succ_of_lt (h6.bound pid p hp c hcold), ?_⟩
    intro co hco
    rw [heap_get?_alloc] at hco
    by_cases hcn : c = s.heap.length
    · rw [if_pos hcn] at hco
      cases hco
      exact ho1
    · rw [if_neg hcn] at hco
      exact h6.noOp pid p hp hptag hpex c hcold co hco
  · have : c = (alloc s o).2 := by simpa using hcnew
    subst this
    rw [alloc_snd]
    refine ⟨Nat.lt_succ_self _, ?_⟩
    intro co hco
    rw [heap_get?_alloc, if_pos rfl] at hco
    cases hco
    exact ho1

/-- `pushChildFocus` differs from `pushChild` only in the cursor. -/
theorem inv6_pushChildFocus {s : PState} {pid : Nat} {p : NodeObj}
    (h6 : Inv6 s) (hp : getN s pid = some p)
    (hptag : opTagOf p.kind = none) (hpex : isExprClassK p.kind = false)
    (o : NodeObj) (ho1 : opTagOf o.kind = none)
    (ho2 : isExprClassK o.kind = false) (ho3 : o.children = []) :
    Inv6 (pushChildFocus s pid p o).1 :=
  inv6_congr (inv6_pushChild h6 hp hptag hpex o ho1 ho2 ho3) rfl rfl

/-- `pushChild` under state-record rewrapping (extra bookkeeping fields
such as `backreferences` / `capturingGroups` / the cursor do not matter
to `Inv6`). -/
theorem inv6_pushChildWrap {s s2 : PState} {pid : Nat} {p : NodeObj}
    (h6 : Inv6 s) (hp : getN s pid = some p)
    (hptag : opTagOf p.kind = none) (hpex : isExprClassK p.kind = false)
    (o : NodeObj)
    (hh : s2.heap = (pushChild s pid p o).1.heap)
    (he : s2.exprBuffer = (pushChild s pid p o).1.exprBuffer)
    (ho1 : opTagOf o.kind = none) (ho2 : isExprClassK o.kind = false)
    (ho3 : o.children = []) : Inv6 s2 :=
  inv6_congr (inv6_pushChild h6 hp hptag hpex o ho1 ho2 ho3) hh he

/-- `leaveToParent` preserves `Inv6`. -/
theorem inv6_leaveToParent {s : PState} {i : Nat} {o : NodeObj} (h6 : Inv6 s)
    (ho : getN s i = some o) (start fin : Nat) :
    Inv6 (leaveToParent s i o start fin) := by
  refine inv6_skelEq h6 ?_ (fun pr hpr => hpr)
  exact skelEq_setNH s i _ ho rfl rfl rfl rfl


theorem flags_isAssertionK {k : NKind} (h : isAssertionK k = true) :
    opTagOf k = none ∧ isExprClassK k = false := by
  cases k <;> simp [isAssertionK, opTagOf, isExprClassK] at h ⊢

theorem flags_isCapturingGroupK {k : NKind} (h : isCapturingGroupK k = true) :
    opTagOf k = none ∧ isExprClassK k = false := by
  cases k <;> simp [isCapturingGroupK, opTagOf, isExprClassK] at h ⊢

theorem flags_isCharacterClassK {k : NKind} (h : isCharacterClassK k = true) :
    opTagOf k = none ∧ isExprClassK k = false := by
  cases k <;> simp [isCharacterClassK, opTagOf, isExprClassK] at h ⊢

theorem flags_classUnicodeSetsK {k : NKind} (h : classUnicodeSetsK k = true) :
    opTagOf k = none ∧ isExprClassK k = false := by
  cases k <;> simp [classUnicodeSetsK, opTagOf, isExprClassK] at h ⊢

theorem noChildren_ok {s : PState} (o : NodeObj) (ho3 : o.children = []) :
    ∀ c ∈ o.children, c < s.heap.length ∧
      ∀ co, s.heap.get? c = some co → opTagOf co.kind = none := by
  rw [ho3]
  intro c hc
  exact absurd hc (List.not_mem_nil c)

theorem inv6_onAlternativeEnter {s s2 : PState} {a : Nat} (h6 : Inv6 s)
    (hok : onAlternativeEnter s a = .ok s2) : Inv6 s2 := by
  cases hn : s.node with
  | none => simp [onAlternativeEnter, hn] at hok
  | some pid =>
  cases hp : getN s pid with
  | none => simp [onAlternativeEnter, hn, hp] at hok
  | some p =>
  simp only [onAlternativeEnter, hn, hp] at hok
  by_cases hg : isAssertionK p.kind = true ∨ p.kind = .pattern ∨
      p.kind = .group ∨ isCapturingGroupK p.kind = true
  · rw [if_pos hg] at hok
    injection hok with h2
    subst h2
    have hflags : opTagOf p.kind = none ∧ isExprClassK p.kind = false := by
      rcases hg with hk | hk | hk | hk
      · exact flags_isAssertionK hk
      · rw [hk]; exact ⟨rfl, rfl⟩
      · rw [hk]; exact ⟨rfl, rfl⟩
      · exact flags_isCapturingGroupK hk
    exact inv6_pushChildFocus h6 hp hflags.1 hflags.2 _ rfl rfl rfl
  · rw [if_neg hg] at hok
    simp at hok

theorem inv6_onAlternativeLeave {s s2 : PState} {a b : Nat} (h6 : Inv6 s)
    (hok : onAlternativeLeave s a b = .ok s2) : Inv6 s2 := by
  cases hn : s.node with
  | none => simp [onAlternativeLeave, hn] at hok
  | some i =>
  cases ho : getN s i with
  | none => simp [onAlternativeLeave, hn, ho] at hok
  | some o =>
  simp only [onAlternativeLeave, hn, ho] at hok
  by_cases hk : o.kind = .alternative
  · rw [if_pos hk] at hok
    injection hok with h2
    subst h2
    exact inv6_leaveToParent h6 ho a b
  · rw [if_neg hk] at hok
    simp at hok

theorem inv6_onGroupEnter {s s2 : PState} {a : Nat} (h6 : Inv6 s)
    (hok : onGroupEnter s a = .ok s2) : Inv6 s2 := by
  cases hn : s.node with
  | none => simp [onGroupEnter, hn] at hok
  | some pid =>
  cases hp : getN s pid with
  | none => simp [onGroupEnter, hn, hp] at hok
  | some p =>
  simp only [onGroupEnter, hn, hp] at hok
  by_cases hk : p.kind = .alternative
  · rw [if_pos hk] at hok
    injection hok with h2
    subst h2
    exact inv6_pushChildFocus h6 hp (by rw [hk]; rfl) (by rw [hk]; rfl)
      _ rfl rfl rfl
  · rw [if_neg hk] at hok
    simp at hok

theorem inv6_onGroupLeave {s s2 : PState} {a b : Nat} (h6 : Inv6 s)
    (hok : onGroupLeave s a b = .ok s2) : Inv6 s2 := by
  cases hn : s.node with
  | none => simp [onGroupLeave, hn] at hok
  | some i =>
  cases ho : getN s i with
  | none => simp [onGroupLeave, hn, ho] at hok
  | some o =>
  simp only [onGroupLeave, hn, ho] at hok
  by_cases hk : o.kind = .group ∧ parentKindIs s o (fun k => k = .alternative) = true
  · rw [if_pos hk] at hok
    injection hok with h2
    subst h2
    exact inv6_leaveToParent h6 ho a b
  · rw [if_neg hk] at hok
    simp at hok

theorem inv6_onModifiersEnter {s s2 : PState} {a : Nat} (h6 : Inv6 s)
    (hok : onModifiersEnter s a = .ok s2) : Inv6 s2 := by
  cases hn : s.node with
  | none => simp [onModifiersEnter, hn] at hok
  | some pid =>
  cases hp : getN s pid with
  | none => simp [onModifiersEnter, hn, hp] at hok
  | some p =>
  simp only [onModifiersEnter, hn, hp] at hok
  by_cases hk : p.kind = .group
  · rw [if_pos hk] at hok
    injection hok with h2
    subst h2
    have hpl : pid < s.heap.length := getN_lt (s := s) (i := pid) hp
    have h6A : Inv6 (alloc s
        { kind := .modifiers, parent := some pid, nstart := a,
          nend := a, raw := "", children := [] }).1 :=
      inv6_ext h6 _ rfl rfl (noChildren_ok _ rfl)
    have hpA : getN (alloc s
        { kind := .modifiers, parent := some pid, nstart := a,
          nend := a, raw := "", children := [] }).1 pid = some p := by
      rw [getN_alloc, if_neg (Nat.ne_of_lt hpl)]
      exact hp
    refine inv6_skelEq h6A ?_ (fun pr hpr => hpr)
    exact skelEq_setNH _ pid _ hpA rfl rfl rfl rfl
  · rw [if_neg hk] at hok
    simp at hok

theorem inv6_onModifiersLeave {s s2 : PState} {a b : Nat} (h6 : Inv6 s)
    (hok : onModifiersLeave s a b = .ok s2) : Inv6 s2 := by
  cases hn : s.node with
  | none => simp [onModifiersLeave, hn] at hok
  | some i =>
  cases ho : getN s i with
  | none => simp [onModifiersLeave, hn, ho] at hok
  | some o =>
  simp only [onModifiersLeave, hn, ho] at hok
  by_cases hk : o.kind = .modifiers ∧ parentKindIs s o (fun k => k = .group) = true
  · rw [if_pos hk] at hok
    injection hok with h2
    subst h2
    exact inv6_leaveToParent h6 ho a b
  · rw [if_neg hk] at hok
    simp at hok

theorem inv6_onAddModifiers {s s2 : PState} {a b : Nat} {ic ml da : Bool}
    (h6 : Inv6 s) (hok : onAddModifiers s a b ic ml da = .ok s2) : Inv6 s2 := by
  cases hn : s.node with
  | none => simp [onAddModifiers, hn] at hok
  | some pid =>
  cases hp : getN s pid with
  | none => simp [onAddModifiers, hn, hp] at hok
  | some p =>
  simp only [onAddModifiers, hn, hp] at hok
  by_cases hk : p.kind = .modifiers
  · rw [if_pos hk] at hok
    injection hok with h2
    subst h2
    have hpl : pid < s.heap.length := getN_lt (s := s) (i := pid) hp
    have h6A : Inv6 (alloc s
        { kind := .modifierFlags ic ml da, parent := some pid, nstart := a,
          nend := b, raw := sliceCU s.source a b, children := [] }).1 :=
      inv6_ext h6 _ rfl rfl (noChildren_ok _ rfl)
    have hpA : getN (alloc s
        { kind := .modifierFlags ic ml da, parent := some pid, nstart := a,
          nend := b, raw := sliceCU s.source a b, children := [] }).1 pid
        = some p := by
      rw [getN_alloc, if_neg (Nat.ne_of_lt hpl)]
      exact hp
    refine inv6_skelEq h6A ?_ (fun pr hpr => hpr)
    exact skelEq_setNH _ pid _ hpA rfl rfl rfl rfl
  · rw [if_neg hk] at hok
    simp at hok

theorem inv6_onRemoveModifiers {s s2 : PState} {a b : Nat} {ic ml da : Bool}
    (h6 : Inv6 s) (hok : onRemoveModifiers s a b ic ml da = .ok s2) :
    Inv6 s2 := by
  cases hn : s.node with
  | none => simp [onRemoveModifiers, hn] at hok
  | some pid =>
  cases hp : getN s pid with
  | none => simp [onRemoveModifiers, hn, hp] at hok
  | some p =>
  simp only [onRemoveModifiers, hn, hp] at hok
  by_cases hk : p.kind = .modifiers
  · rw [if_pos hk] at hok
    injection hok with h2
    subst h2
    have hpl : pid < s.heap.length := getN_lt (s := s) (i := pid) hp
    have h6A : Inv6 (alloc s
        { kind := .modifierFlags ic ml da, parent := some pid, nstart := a,
          nend := b, raw := sliceCU s.source a b, children := [] }).1 :=
      inv6_ext h6 _ rfl rfl (noChildren_ok _ rfl)
    have hpA : getN (alloc s
        { kind := .modifierFlags ic ml da, parent := some pid, nstart := a,
          nend := b, raw := sliceCU s.source a b, children := [] }).1 pid
        = some p := by
      rw [getN_alloc, if_neg (Nat.ne_of_lt hpl)]
      exact hp
    refine inv6_skelEq h6A ?_ (fun pr hpr => hpr)
    exact skelEq_setNH _ pid _ hpA rfl rfl rfl rfl
  · rw [if_neg hk] at hok
    simp at hok

theorem inv6_onCapturingGroupEnter {s s2 : PState} {a : Nat}
    {name : Option String} (h6 : Inv6 s)
    (hok : onCapturingGroupEnter s a name = .ok s2) : Inv6 s2 := by
  cases hn : s.node with
  | none => simp [onCapturingGroupEnter, hn] at hok
  | some pid =>
  cases hp : getN s pid with
  | none => simp [onCapturingGroupEnter, hn, hp] at hok
  | some p =>
  simp only [onCapturingGroupEnter, hn, hp] at hok
  by_cases hk : p.kind = .alternative
  · rw [if_pos hk] at hok
    injection hok with h2
    subst h2
    exact inv6_pushChildWrap h6 hp (by rw [hk]; rfl) (by rw [hk]; rfl)
      _ rfl rfl rfl rfl rfl
  · rw [if_neg hk] at hok
    simp at hok

theorem inv6_onCapturingGroupLeave {s s2 : PState} {a b : Nat} (h6 : Inv6 s)
    (hok : onCapturingGroupLeave s a b = .ok s2) : Inv6 s2 := by
  cases hn : s.node with
  | none => simp [onCapturingGroupLeave, hn] at hok
  | some i =>
  cases ho : getN s i with
  | none => simp [onCapturingGroupLeave, hn, ho] at hok
  | some o =>
  simp only [onCapturingGroupLeave, hn, ho] at hok
  by_cases hk : isCapturingGroupK o.kind = true ∧
      parentKindIs s o (fun k => k = .alternative) = true
  · rw [if_pos hk] at hok
    injection hok with h2
    subst h2
    exact inv6_leaveToParent h6 ho a b
  · rw [if_neg hk] at hok
    simp at hok

theorem inv6_onLookaroundAssertionEnter {s s2 : PState} {a : Nat} {k : LookK}
    {neg : Bool} (h6 : Inv6 s)
    (hok : onLookaroundAssertionEnter s a k neg = .ok s2) : Inv6 s2 := by
  cases hn : s.node with
  | none => simp [onLookaroundAssertionEnter, hn] at hok
  | some pid =>
  cases hp : getN s pid with
  | none => simp [onLookaroundAssertionEnter, hn, hp] at hok
  | some p =>
  simp only [onLookaroundAssertionEnter, hn, hp] at hok
  by_cases hk : p.kind = .alternative
  · rw [if_pos hk] at hok
    injection hok with h2
    subst h2
    exact inv6_pushChildFocus h6 hp (by rw [hk]; rfl) (by rw [hk]; rfl)
      _ rfl rfl rfl
  · rw [if_neg hk] at hok
    simp at hok

theorem inv6_onLookaroundAssertionLeave {s s2 : PState} {a b : Nat}
    (h6 : Inv6 s) (hok : onLookaroundAssertionLeave s a b = .ok s2) :
    Inv6 s2 := by
  cases hn : s.node with
  | none => simp [onLookaroundAssertionLeave, hn] at hok
  | some i =>
  cases ho : getN s i with
  | none => simp [onLookaroundAssertionLeave, hn, ho] at hok
  | some o =>
  simp only [onLookaroundAssertionLeave, hn, ho] at hok
  by_cases hk : isAssertionK o.kind = true ∧
      parentKindIs s o (fun k => k = .alternative) = true
  · rw [if_pos hk] at hok
    injection hok with h2
    subst h2
    exact inv6_leaveToParent h6 ho a b
  · rw [if_neg hk] at hok
    simp at hok

theorem inv6_onEdgeAssertion {s s2 : PState} {a b : Nat} {k : EdgeK}
    (h6 : Inv6 s) (hok : onEdgeAssertion s a b k = .ok s2) : Inv6 s2 := by
  cases hn : s.node with
  | none => simp [onEdgeAssertion, hn] at hok
  | some pid =>
  cases hp : getN s pid with
  | none => simp [onEdgeAssertion, hn, hp] at hok
  | some p =>
  simp only [onEdgeAssertion, hn, hp] at hok
  by_cases hk : p.kind = .alternative
  · rw [if_pos hk] at hok
    injection hok with h2
    subst h2
    exact inv6_pushChild h6 hp (by rw [hk]; rfl) (by rw [hk]; rfl)
      _ rfl rfl rfl
  · rw [if_neg hk] at hok
    simp at hok

theorem inv6_onWordBoundaryAssertion {s s2 : PState} {a b : Nat} {neg : Bool}
    (h6 : Inv6 s) (hok : onWordBoundaryAssertion s a b neg = .ok s2) :
    Inv6 s2 := by
  cases hn : s.node with
  | none => simp [onWordBoundaryAssertion, hn] at hok
  | some pid =>
  cases hp : getN s pid with
  | none => simp [onWordBoundaryAssertion, hn, hp] at hok
  | some p =>
  simp only [onWordBoundaryAssertion, hn, hp] at hok
  by_cases hk : p.kind = .alternative
  · rw [if_pos hk] at hok
    injection hok with h2
    subst h2
    exact inv6_pushChild h6 hp (by rw [hk]; rfl) (by rw [hk]; rfl)
      _ rfl rfl rfl
  · rw [if_neg hk] at hok
    simp at hok

theorem inv6_onAnyCharacterSet {s s2 : PState} {a b : Nat} (h6 : Inv6 s)
    (hok : onAnyCharacterSet s a b = .ok s2) : Inv6 s2 := by
  cases hn : s.node with
  | none => simp [onAnyCharacterSet, hn] at hok
  | some pid =>
  cases hp : getN s pid with
  | none => simp [onAnyCharacterSet, hn, hp] at hok
  | some p =>
  simp only [onAnyCharacterSet, hn, hp] at hok
  by_cases hk : p.kind = .alternative
  · rw [if_pos hk] at hok
    injection hok with h2
    subst h2
    exact inv6_pushChild h6 hp (by rw [hk]; rfl) (by rw [hk]; rfl)
      _ rfl rfl rfl
  · rw [if_neg hk] at hok
    simp at hok

theorem inv6_onEscapeCharacterSet {s s2 : PState} {a b : Nat} {k : EscK}
    {neg : Bool} (h6 : Inv6 s)
    (hok : onEscapeCharacterSet s a b k neg = .ok s2) : Inv6 s2 := by
  cases hn : s.node with
  | none => simp [onEscapeCharacterSet, hn] at hok
  | some pid =>
  cases hp : getN s pid with
  | none => simp [onEscapeCharacterSet, hn, hp] at hok
  | some p =>
  simp only [onEscapeCharacterSet, hn, hp] at hok
  by_cases hg : p.kind = .alternative ∨ isCharacterClassK p.kind = true
  · rw [if_pos hg] at hok
    injection hok with h2
    subst h2
    have hflags : opTagOf p.kind = none ∧ isExprClassK p.kind = false := by
      rcases hg with hk | hk
      · rw [hk]; exact ⟨rfl, rfl⟩
      · exact flags_isCharacterClassK hk
    exact inv6_pushChild h6 hp hflags.1 hflags.2 _ rfl rfl rfl
  · rw [if_neg hg] at hok
    simp at hok

theorem inv6_onUnicodePropertyCharacterSet {s s2 : PState} {a b : Nat}
    {key : String} {value : Option String} {neg strings : Bool} (h6 : Inv6 s)
    (hok : onUnicodePropertyCharacterSet s a b key value neg strings
      = .ok s2) : Inv6 s2 := by
  cases hn : s.node with
  | none => simp [onUnicodePropertyCharacterSet, hn] at hok
  | some pid =>
  cases hp : getN s pid with
  | none => simp [onUnicodePropertyCharacterSet, hn, hp] at hok
  | some p =>
  simp only [onUnicodePropertyCharacterSet, hn, hp] at hok
  by_cases hg : p.kind = .alternative ∨ isCharacterClassK p.kind = true
  · rw [if_pos hg] at hok
    by_cases hg2 : strings = true ∧
        (isCharacterClassK p.kind = true ∧ (!classUnicodeSetsK p.kind) = true ∨
          neg = true ∨ value ≠ none)
    · rw [if_pos hg2] at hok
      simp at hok
    · rw [if_neg hg2] at hok
      injection hok with h2
      subst h2
      have hflags : opTagOf p.kind = none ∧ isExprClassK p.kind = false := by
        rcases hg with hk | hk
        · rw [hk]; exact ⟨rfl, rfl⟩
        · exact flags_isCharacterClassK hk
      exact inv6_pushChild h6 hp hflags.1 hflags.2 _ rfl rfl rfl
  · rw [if_neg hg] at hok
    simp at hok

theorem inv6_onCharacter {s s2 : PState} {a b v : Nat} (h6 : Inv6 s)
    (hok : onCharacter s a b v = .ok s2) : Inv6 s2 := by
  cases hn : s.node with
  | none => simp [onCharacter, hn] at hok
  | some pid =>
  cases hp : getN s pid with
  | none => simp [onCharacter, hn, hp] at hok
  | some p =>
  simp only [onCharacter, hn, hp] at hok
  by_cases hg : p.kind = .alternative ∨ isCharacterClassK p.kind = true ∨
      p.kind = .stringAlternative
  · rw [if_pos hg] at hok
    injection hok with h2
    subst h2
    have hflags : opTagOf p.kind = none ∧ isExprClassK p.kind = false := by
      rcases hg with hk | hk | hk
      · rw [hk]; exact ⟨rfl, rfl⟩
      · exact flags_isCharacterClassK hk
      · rw [hk]; exact ⟨rfl, rfl⟩
    exact inv6_pushChild h6 hp hflags.1 hflags.2 _ rfl rfl rfl
  · rw [if_neg hg] at hok
    simp at hok

theorem inv6_onBackreference {s s2 : PState} {a b : Nat} {ref : Ref}
    (h6 : Inv6 s) (hok : onBackreference s a b ref = .ok s2) : Inv6 s2 := by
  cases hn : s.node with
  | none => simp [onBackreference, hn] at hok
  | some pid =>
  cases hp : getN s pid with
  | none => simp [onBackreference, hn, hp] at hok
  | some p =>
  simp only [onBackreference, hn, hp] at hok
  by_cases hk : p.kind = .alternative
  · rw [if_pos hk] at hok
    injection hok with h2
    subst h2
    exact inv6_pushChildWrap h6 hp (by rw [hk]; rfl) (by rw [hk]; rfl)
      _ rfl rfl rfl rfl rfl
  · rw [if_neg hk] at hok
    simp at hok

theorem inv6_onCharacterClassEnter {s s2 : PState} {a : Nat} {neg uset : Bool}
    (h6 : Inv6 s) (hok : onCharacterClassEnter s a neg uset = .ok s2) :
    Inv6 s2 := by
  cases hn : s.node with
  | none => simp [onCharacterClassEnter, hn] at hok
  | some pid =>
  cases hp : getN s pid with
  | none => simp [onCharacterClassEnter, hn, hp] at hok
  | some p =>
  simp only [onCharacterClassEnter, hn, hp] at hok
  by_cases hg : p.kind = .alternative ∨ (classUnicodeSetsK p.kind = true ∧ uset = true)
  · rw [if_pos hg] at hok
    injection hok with h2
    subst h2
    have hflags : opTagOf p.kind = none ∧ isExprClassK p.kind = false := by
      rcases hg with hk | hk
      · rw [hk]; exact ⟨rfl, rfl⟩
      · exact flags_classUnicodeSetsK hk.1
    exact inv6_pushChildFocus h6 hp hflags.1 hflags.2 _ rfl rfl rfl
  · rw [if_neg hg] at hok
    simp at hok

theorem inv6_onClassStringDisjunctionEnter {s s2 : PState} {a : Nat}
    (h6 : Inv6 s) (hok : onClassStringDisjunctionEnter s a = .ok s2) :
    Inv6 s2 := by
  cases hn : s.node with
  | none => simp [onClassStringDisjunctionEnter, hn] at hok
  | some pid =>
  cases hp : getN s pid with
  | none => simp [onClassStringDisjunctionEnter, hn, hp] at hok
  | some p =>
  cases hk : p.kind with
  | characterClass cneg uset =>
    simp only [onClassStringDisjunctionEnter, hn, hp, hk] at hok
    by_cases hu : uset = true
    · rw [if_pos hu] at hok
      injection hok with h2
      subst h2
      exact inv6_pushChildFocus h6 hp (by rw [hk]; rfl) (by rw [hk]; rfl)
        _ rfl rfl rfl
    · rw [if_neg hu] at hok
      simp at hok
  | _ => simp [onClassStringDisjunctionEnter, hn, hp, hk] at hok

theorem inv6_onClassStringDisjunctionLeave {s s2 : PState} {a b : Nat}
    (h6 : Inv6 s) (hok : onClassStringDisjunctionLeave s a b = .ok s2) :
    Inv6 s2 := by
  cases hn : s.node with
  | none => simp [onClassStringDisjunctionLeave, hn] at hok
  | some i =>
  cases ho : getN s i with
  | none => simp [onClassStringDisjunctionLeave, hn, ho] at hok
  | some o =>
  simp only [onClassStringDisjunctionLeave, hn, ho] at hok
  by_cases hk : o.kind = .classStringDisjunction ∧
      parentKindIs s o isCharacterClassK = true
  · rw [if_pos hk] at hok
    injection hok with h2
    subst h2
    exact inv6_leaveToParent h6 ho a b
  · rw [if_neg hk] at hok
    simp at hok

theorem inv6_onStringAlternativeEnter {s s2 : PState} {a : Nat} (h6 : Inv6 s)
    (hok : onStringAlternativeEnter s a = .ok s2) : Inv6 s2 := by
  cases hn : s.node with
  | none => simp [onStringAlternativeEnter, hn] at hok
  | some pid =>
  cases hp : getN s pid with
  | none => simp [onStringAlternativeEnter, hn, hp] at hok
  | some p =>
  simp only [onStringAlternativeEnter, hn, hp] at hok
  by_cases hk : p.kind = .classStringDisjunction
  · rw [if_pos hk] at hok
    injection hok with h2
    subst h2
    exact inv6_pushChildFocus h6 hp (by rw [hk]; rfl) (by rw [hk]; rfl)
      _ rfl rfl rfl
  · rw [if_neg hk] at hok
    simp at hok

theorem inv6_onStringAlternativeLeave {s s2 : PState} {a b : Nat}
    (h6 : Inv6 s) (hok : onStringAlternativeLeave s a b = .ok s2) :
    Inv6 s2 := by
  cases hn : s.node with
  | none => simp [onStringAlternativeLeave, hn] at hok
  | some i =>
  cases ho : getN s i with
  | none => simp [onStringAlternativeLeave, hn, ho] at hok
  | some o =>
  simp only [onStringAlternativeLeave, hn, ho] at hok
  by_cases hk : o.kind = .stringAlternative
  · rw [if_pos hk] at hok
    injection hok with h2
    subst h2
    exact inv6_leaveToParent h6 ho a b
  · rw [if_neg hk] at hok
    simp at hok

theorem inv6_allocWrap {s s2 : PState} (h6 : Inv6 s) (o : NodeObj)
    (hh : s2.heap = (alloc s o).1.heap)
    (he : s2.exprBuffer = (alloc s o).1.exprBuffer)
    (ho1 : opTagOf o.kind = none) (ho2 : isExprClassK o.kind = false)
    (ho3 : o.children = []) : Inv6 s2 :=
  inv6_congr (inv6_ext h6 o ho1 ho2 (noChildren_ok o ho3)) hh he

theorem inv6_onRegExpFlags {s : PState} {a b : Nat} {f : FlagsRec}
    (h6 : Inv6 s) : Inv6 (onRegExpFlags s a b f) :=
  inv6_allocWrap h6 _ rfl rfl rfl rfl rfl

theorem inv6_onPatternEnter {s : PState} {a : Nat} (h6 : Inv6 s) :
    Inv6 (onPatternEnter s a) :=
  inv6_allocWrap h6 _ rfl rfl rfl rfl rfl


theorem pushReference_skelEq {st st2 : PState} {gid rid : Nat}
    (h : pushReference st gid rid = .ok st2) :
    skelEq st.heap st2.heap ∧ st2.exprBuffer = st.exprBuffer := by
  cases hg : getN st gid with
  | none => simp [pushReference, hg] at h
  | some g =>
    simp only [pushReference, hg] at h
    injection h with h2
    subst h2
    exact ⟨skelEq_setNH st gid _ hg rfl rfl rfl rfl, rfl⟩

theorem pushReference_foldlM_skelEq (rid : Nat) :
    ∀ (gids : List Nat) (st st2 : PState),
      gids.foldlM (fun st g => pushReference st g rid) st = .ok st2 →
      skelEq st.heap st2.heap ∧ st2.exprBuffer = st.exprBuffer := by
  intro gids
  induction gids with
  | nil =>
    intro st st2 h
    injection h with h2
    subst h2
    exact ⟨skelEq_refl _, rfl⟩
  | cons g rest ih =>
    intro st st2 h
    rw [List.foldlM_cons] at h
    cases hg : pushReference st g rid with
    | error e =>
      rw [hg] at h
      exact Except.noConfusion h
    | ok st1 =>
      rw [hg] at h
      obtain ⟨hs1, hb1⟩ := pushReference_skelEq hg
      obtain ⟨hs2, hb2⟩ := ih st1 st2 h
      exact ⟨skelEq_trans hs1 hs2, hb2.trans hb1⟩

theorem resolveOne_skelEq {st st2 : PState} {rid : Nat}
    (h : resolveOne st rid = .ok st2) :
    skelEq st.heap st2.heap ∧ st2.exprBuffer = st.exprBuffer := by
  cases hr : getN st rid with
  | none => simp [resolveOne, hr] at h
  | some r =>
  cases hk : r.kind with
  | backreference ref amb res =>
    cases ref with
    | num k =>
      simp only [resolveOne, hr, hk] at h
      cases hcg : st.capturingGroups.get? (k - 1) with
      | none => rw [hcg] at h; simp at h
      | some gid =>
        rw [hcg] at h
        have hskel1 : skelEq st.heap
            ((setN st rid { r with
              kind := .backreference (.num k) false (.one gid) }).heap) := by
          refine skelEq_setNH st rid _ hr ?_ ?_ ?_ rfl
          · simp [hk, opTagOf]
          · simp [hk, isClassSetOperandK]
          · simp [hk, isExprClassK]
        obtain ⟨hs2, hb2⟩ := pushReference_skelEq h
        exact ⟨skelEq_trans hskel1 hs2, hb2⟩
    | name n =>
      simp only [resolveOne, hr, hk] at h
      cases hg : st.capturingGroups.filter
          (fun g => groupName st g == some n) with
      | nil =>
        simp only [hg] at h
        have hskel1 : skelEq st.heap
            ((setN st rid { r with
              kind := .backreference (.name n) true (.many []) }).heap) := by
          refine skelEq_setNH st rid _ hr ?_ ?_ ?_ rfl
          · simp [hk, opTagOf]
          · simp [hk, isClassSetOperandK]
          · simp [hk, isExprClassK]
        obtain ⟨hs2, hb2⟩ := pushReference_foldlM_skelEq rid [] _ _ h
        exact ⟨skelEq_trans hskel1 hs2, hb2⟩
      | cons g1 grest =>
        cases grest with
        | nil =>
          simp only [hg] at h
          have hskel1 : skelEq st.heap
              ((setN st rid { r with
                kind := .backreference (.name n) false (.one g1) }).heap) := by
            refine skelEq_setNH st rid _ hr ?_ ?_ ?_ rfl
            · simp [hk, opTagOf]
            · simp [hk, isClassSetOperandK]
            · simp [hk, isExprClassK]
          obtain ⟨hs2, hb2⟩ := pushReference_skelEq h
          exact ⟨skelEq_trans hskel1 hs2, hb2⟩
        | cons g2 grest2 =>
          simp only [hg] at h
          have hskel1 : skelEq st.heap
              ((setN st rid { r with
                kind := .backreference (.name n) true
                  (.many (g1 :: g2 :: grest2)) }).heap) := by
            refine skelEq_setNH st rid _ hr ?_ ?_ ?_ rfl
            · simp [hk, opTagOf]
            · simp [hk, isClassSetOperandK]
            · simp [hk, isExprClassK]
          obtain ⟨hs2, hb2⟩ :=
            pushReference_foldlM_skelEq rid (g1 :: g2 :: grest2) _ _ h
          exact ⟨skelEq_trans hskel1 hs2, hb2⟩
  | _ => simp [resolveOne, hr, hk] at h

theorem resolveOne_foldlM_skelEq :
    ∀ (rids : List Nat) (st st2 : PState),
      rids.foldlM resolveOne st = .ok st2 →
      skelEq st.heap st2.heap ∧ st2.exprBuffer = st.exprBuffer := by
  intro rids
  induction rids with
  | nil =>
    intro st st2 h
    injection h with h2
    subst h2
    exact ⟨skelEq_refl _, rfl⟩
  | cons rid rest ih =>
    intro st st2 h
    rw [List.foldlM_cons] at h
    cases hr : resolveOne st rid with
    | error e =>
      rw [hr] at h
      exact Except.noConfusion h
    | ok st1 =>
      rw [hr] at h
      obtain ⟨hs1, hb1⟩ := resolveOne_skelEq hr
      obtain ⟨hs2, hb2⟩ := ih st1 st2 h
      exact ⟨skelEq_trans hs1 hs2, hb2.trans hb1⟩

theorem inv6_onPatternLeave {s s2 : PState} {a b : Nat} (h6 : Inv6 s)
    (hok : onPatternLeave s a b = .ok s2) : Inv6 s2 := by
  cases hn : s.node with
  | none =>
    simp only [onPatternLeave, hn] at hok
    obtain ⟨hs, hb⟩ := resolveOne_foldlM_skelEq _ _ _ hok
    exact inv6_skelEq h6 hs (fun pr hpr => hb ▸ hpr)
  | some i =>
    cases ho : getN s i with
    | none =>
      simp only [onPatternLeave, hn, ho] at hok
      obtain ⟨hs, hb⟩ := resolveOne_foldlM_skelEq _ _ _ hok
      exact inv6_skelEq h6 hs (fun pr hpr => hb ▸ hpr)
    | some o =>
      simp only [onPatternLeave, hn, ho] at hok
      obtain ⟨hs, hb⟩ := resolveOne_foldlM_skelEq _ _ _ hok
      have hskel0 : skelEq s.heap
          ((setN s i
            { o with nend := b, raw := sliceCU s.source a b }).heap) :=
        skelEq_setNH s i _ ho rfl rfl rfl rfl
      refine inv6_skelEq h6 (skelEq_trans hskel0 hs) ?_
      intro pr hpr
      rw [hb] at hpr
      exact hpr

theorem mem_of_getLast?_eq {l : List Nat} {x : Nat}
    (h : l.getLast? = some x) : x ∈ l :=
  List.mem_of_mem_getLast? (Option.mem_def.mpr h)

theorem inv6_onQuantifier {s s2 : PState} {a b mi : Nat} {ma : Option Nat}
    {g : Bool} (h6 : Inv6 s) (hok : onQuantifier s a b mi ma g = .ok s2) :
    Inv6 s2 := by
  cases hn : s.node with
  | none => simp [onQuantifier, hn] at hok
  | some pid =>
  cases hp : getN s pid with
  | none => simp [onQuantifier, hn, hp] at hok
  | some p =>
  simp only [onQuantifier, hn, hp] at hok
  by_cases hk : p.kind = .alternative
  · rw [if_pos hk] at hok
    cases hl : p.children.getLast? with
    | none =>
      simp only [hl] at hok
      exact Except.noConfusion hok
    | some eid =>
    simp only [hl] at hok
    cases he : getN s eid with
    | none =>
      simp only [he] at hok
      exact Except.noConfusion hok
    | some e =>
    simp only [he] at hok
    by_cases hq : isQuantifierK e.kind = true ∨
        (isAssertionK e.kind = true ∧ e.kind ≠ .assertionLook .lookahead true ∧
          e.kind ≠ .assertionLook .lookahead false)
    · rw [if_pos hq] at hok
      exact Except.noConfusion hok
    · rw [if_neg hq] at hok
      injection hok with h2
      subst h2
      have heidmem : eid ∈ p.children := mem_of_getLast?_eq hl
      have hptag : opTagOf p.kind = none := by rw [hk]; rfl
      have hpex : isExprClassK p.kind = false := by rw [hk]; rfl
      have heno : opTagOf e.kind = none :=
        h6.noOp pid p hp hptag hpex eid heidmem e he
      have hel : eid < s.heap.length := h6.bound pid p hp eid heidmem
      have hpl : pid < s.heap.length := getN_lt (s := s) (i := pid) hp
      have hnep : eid ≠ pid := fun hq2 =>
        h6.selfFree pid p hp (hq2 ▸ heidmem)
      set Q : NodeObj :=
        { kind := .quantifier mi ma g, parent := some pid, nstart := e.nstart,
          nend := b, raw := sliceCU s.source e.nstart b,
          children := [eid] } with hQ
      have h6A : Inv6 (alloc s Q).1 := by
        refine inv6_ext h6 Q rfl rfl ?_
        intro c hc
        have hce : c = eid := by
          rw [hQ] at hc
          simpa using hc
        subst hce
        refine ⟨hel, ?_⟩
        intro co hco
        have : e = co := Option.some.inj ((he.symm).trans hco)
        subst this
        exact heno
      have hpA : getN (alloc s Q).1 pid = some p := by
        rw [getN_alloc, if_neg (Nat.ne_of_lt hpl)]
        exact hp
      have h6B : Inv6 (setN (alloc s Q).1 pid
          { p with children := p.children.dropLast ++ [(alloc s Q).2] }) := by
        refine inv6_setNode h6A hpA _ rfl rfl hptag hpex ?_ ?_
        · intro hmem
          rcases List.mem_append.mp hmem with hm | hm
          · exact h6.selfFree pid p hp ((List.dropLast_sublist _).subset hm)
          · have : pid = (alloc s Q).2 := by simpa using hm
            rw [alloc_snd] at this
            exact absurd (this ▸ hpl) (Nat.lt_irrefl _)
        · intro c hc
          rw [alloc_heap_length]
          rcases List.mem_append.mp hc with hm | hm
          · have hcm : c ∈ p.children := (List.dropLast_sublist _).subset hm
            refine ⟨Nat.lt_succ_of_lt (h6.bound pid p hp c hcm), ?_⟩
            intro co hco
            rw [heap_get?_alloc] at hco
            by_cases hcn : c = s.heap.length
            · rw [if_pos hcn] at hco
              cases hco
              rfl
            · rw [if_neg hcn] at hco
              exact h6.noOp pid p hp hptag hpex c hcm co hco
          · have : c = (alloc s Q).2 := by simpa using hm
            subst this
            rw [alloc_snd]
            refine ⟨Nat.lt_succ_self _, ?_⟩
            intro co hco
            rw [heap_get?_alloc, if_pos rfl] at hco
            cases hco
            rfl
      have heB : getN (setN (alloc s Q).1 pid
          { p with children := p.children.dropLast ++ [(alloc s Q).2] })
          eid = some e := by
        rw [getN_setN, if_neg (fun hc => (Ne.symm hnep) hc.1),
          getN_alloc, if_neg (Nat.ne_of_lt hel)]
        exact he
      exact inv6_skelEq h6B
        (skelEq_setNH _ eid _ heB rfl rfl rfl rfl) (fun pr hpr => hpr)
  · rw [if_neg hk] at hok
    simp at hok

theorem inv6_onCharacterClassRange {s s2 : PState} {a b : Nat} (h6 : Inv6 s)
    (hok : onCharacterClassRange s a b = .ok s2) : Inv6 s2 := by
  cases hn : s.node with
  | none => simp [onCharacterClassRange, hn] at hok
  | some pid =>
  cases hp : getN s pid with
  | none => simp [onCharacterClassRange, hn, hp] at hok
  | some p =>
  cases hk : p.kind
  all_goals try (simp only [onCharacterClassRange, hn, hp, hk] at hok; exact Except.noConfusion hok)
  rename_i cneg uset
  simp only [onCharacterClassRange, hn, hp, hk] at hok
  cases hl : p.children.getLast? with
  | none =>
    simp only [hl] at hok
    exact Except.noConfusion hok
  | some maxId =>
  simp only [hl] at hok
  cases hmx : getN s maxId with
  | none =>
    simp only [hmx] at hok
    exact Except.noConfusion hok
  | some mx =>
  simp only [hmx] at hok
  cases hmxk : mx.kind
  all_goals try (simp only [hmxk] at hok; exact Except.noConfusion hok)
  rename_i v
  simp only [hmxk] at hok
  have hmaxmem : maxId ∈ p.children := mem_of_getLast?_eq hl
  have hptag : opTagOf p.kind = none := by rw [hk]; rfl
  have hpex : isExprClassK p.kind = false := by rw [hk]; rfl
  have hpl : pid < s.heap.length := getN_lt (s := s) (i := pid) hp
  -- split on the uset / trailing-hyphen selector of the operand list
  split at hok
  · exact Except.noConfusion hok
  rename_i elems2 heq
  have helems2 : elems2 ⊆ p.children := by
    split at heq
    · injection heq with h3
      subst h3
      exact (List.dropLast_sublist _).subset
    · split at heq
      · exact Option.noConfusion heq
      · rename_i hid hh
        split at heq
        · split at heq
          · injection heq with h3
            subst h3
            intro x hx
            exact (List.dropLast_sublist _).subset
              ((List.dropLast_sublist _).subset hx)
          · exact Option.noConfusion heq
        · exact Option.noConfusion heq
  cases hmn : elems2.getLast? with
  | none =>
    simp only [hmn] at hok
    exact Except.noConfusion hok
  | some minId =>
  simp only [hmn] at hok
  cases hmno : getN s minId with
  | none =>
    simp only [hmno] at hok
    exact Except.noConfusion hok
  | some mn =>
  simp only [hmno] at hok
  cases hmnk : mn.kind
  all_goals try (simp only [hmnk] at hok; exact Except.noConfusion hok)
  rename_i v2
  simp only [hmnk] at hok
  injection hok with h2
  subst h2
  rw [← hmnk]
  have hminmem : minId ∈ p.children := helems2 (mem_of_getLast?_eq hmn)
  have hminl : minId < s.heap.length := h6.bound pid p hp minId hminmem
  have hmaxl : maxId < s.heap.length := h6.bound pid p hp maxId hmaxmem
  set R : NodeObj :=
    { kind := .characterClassRange, parent := some pid, nstart := a,
      nend := b, raw := sliceCU s.source a b,
      children := [minId, maxId] } with hR
  have h6A : Inv6 (alloc s R).1 := by
    refine inv6_ext h6 R rfl rfl ?_
    intro c hc
    have hcc : c = minId ∨ c = maxId := by
      rw [hR] at hc
      simpa using hc
    rcases hcc with hce | hce <;> subst hce
    · refine ⟨hminl, ?_⟩
      intro co hco
      have : mn = co := Option.some.inj ((hmno.symm).trans hco)
      subst this
      rw [hmnk]
      rfl
    · refine ⟨hmaxl, ?_⟩
      intro co hco
      have : mx = co := Option.some.inj ((hmx.symm).trans hco)
      subst this
      rw [hmxk]
      rfl
  -- parent rewires on min and max are skeleton-preserving
  have h6C : Inv6 (match getN (setN (alloc s R).1 minId
        { mn with parent := some (alloc s R).2 }) maxId with
      | some mx2 => setN (setN (alloc s R).1 minId
          { mn with parent := some (alloc s R).2 }) maxId
          { mx2 with parent := some (alloc s R).2 }
      | none => setN (alloc s R).1 minId
          { mn with parent := some (alloc s R).2 }) := by
    have hmnA : getN (alloc s R).1 minId = some mn := by
      rw [getN_alloc, if_neg (Nat.ne_of_lt hminl)]
      exact hmno
    have h6B : Inv6 (setN (alloc s R).1 minId
        { mn with parent := some (alloc s R).2 }) :=
      inv6_skelEq h6A (skelEq_setNH _ minId _ hmnA rfl rfl rfl rfl)
        (fun pr hpr => hpr)
    cases hmx2 : getN (setN (alloc s R).1 minId
        { mn with parent := some (alloc s R).2 }) maxId with
    | none => exact h6B
    | some mx2 =>
      exact inv6_skelEq h6B (skelEq_setNH _ maxId _ hmx2 rfl rfl rfl rfl)
        (fun pr hpr => hpr)
  -- finally the class children are replaced by a sublist plus the range
  refine inv6_setNode h6C ?_ _ (by rw [hk]) (by rw [hk]) rfl rfl ?_ ?_
  · show getN _ pid = some p
    cases hmx2 : getN (setN (alloc s R).1 minId
        { mn with parent := some (alloc s R).2 }) maxId with
    | none =>
      simp only [hmx2]
      rw [getN_setN, if_neg ?_, getN_alloc, if_neg (Nat.ne_of_lt hpl)]
      · exact hp
      · intro hc
        exact h6.selfFree pid p hp (hc.1 ▸ hminmem)
    | some mx2 =>
      simp only [hmx2]
      rw [getN_setN, if_neg ?_, getN_setN, if_neg ?_,
        getN_alloc, if_neg (Nat.ne_of_lt hpl)]
      · exact hp
      · intro hc
        exact h6.selfFree pid p hp (hc.1 ▸ hminmem)
      · intro hc
        exact h6.selfFree pid p hp (hc.1 ▸ hmaxmem)
  · intro hmem
    rcases List.mem_append.mp hmem with hm | hm
    · exact h6.selfFree pid p hp
        (helems2 ((List.dropLast_sublist _).subset hm))
    · have : pid = (alloc s R).2 := by simpa using hm
      rw [alloc_snd] at this
      exact absurd (this ▸ hpl) (Nat.lt_irrefl _)
  · intro c hc
    have hlen : (match getN (setN (alloc s R).1 minId
          { mn with parent := some (alloc s R).2 }) maxId with
        | some mx2 => setN (setN (alloc s R).1 minId
            { mn with parent := some (alloc s R).2 }) maxId
            { mx2 with parent := some (alloc s R).2 }
        | none => setN (alloc s R).1 minId
            { mn with parent := some (alloc s R).2 }).heap.length
        = s.heap.length + 1 := by
      cases hmx2 : getN (setN (alloc s R).1 minId
          { mn with parent := some (alloc s R).2 }) maxId with
      | none =>
        simp only [hmx2]
        rw [setN_heap_length, alloc_heap_length]
      | some mx2 =>
        simp only [hmx2]
        rw [setN_heap_length, setN_heap_length, alloc_heap_length]
    rw [hlen]
    have hgetC : ∀ j co, (match getN (setN (alloc s R).1 minId
          { mn with parent := some (alloc s R).2 }) maxId with
        | some mx2 => setN (setN (alloc s R).1 minId
            { mn with parent := some (alloc s R).2 }) maxId
            { mx2 with parent := some (alloc s R).2 }
        | none => setN (alloc s R).1 minId
            { mn with parent := some (alloc s R).2 }).heap.get? j = some co →
        opTagOf co.kind = opTagOf R.kind ∨
        ∃ co0, s.heap.get? j = some co0 ∧ opTagOf co.kind = opTagOf co0.kind := by
      intro j co hco
      cases hmx2 : getN (setN (alloc s R).1 minId
          { mn with parent := some (alloc s R).2 }) maxId with
      | none =>
        simp only [hmx2] at hco
        rw [heap_get?_set] at hco
        by_cases hjm : minId = j ∧ minId < ((alloc s R).1).heap.length
        · rw [if_pos hjm] at hco
          cases hco
          exact Or.inr ⟨mn, hjm.1 ▸ hmno, rfl⟩
        · rw [if_neg hjm] at hco
          rw [show getN (alloc s R).1 j = ((alloc s R).1).heap.get? j from rfl,
            heap_get?_alloc] at hco
          by_cases hjn : j = s.heap.length
          · rw [if_pos hjn] at hco
            cases hco
            exact Or.inl rfl
          · rw [if_neg hjn] at hco
            exact Or.inr ⟨co, hco, rfl⟩
      | some mx2 =>
        simp only [hmx2] at hco
        rw [heap_get?_set] at hco
        by_cases hjx : maxId = j ∧
            maxId < ((setN (alloc s R).1 minId
              { mn with parent := some (alloc s R).2 })).heap.length
        · rw [if_pos hjx] at hco
          cases hco
          -- mx2 read back from the min-rewired heap
          rw [getN_setN] at hmx2
          by_cases hxm : minId = maxId ∧ minId < ((alloc s R).1).heap.length
          · rw [if_pos hxm] at hmx2
            cases hmx2
            exact Or.inr ⟨mn, hjx.1 ▸ hxm.1 ▸ hmno, rfl⟩
          · rw [if_neg hxm] at hmx2
            rw [getN_alloc] at hmx2
            by_cases hxn : maxId = s.heap.length
            · rw [if_pos hxn] at hmx2
              cases hmx2
              exact Or.inl rfl
            · rw [if_neg hxn] at hmx2
              exact Or.inr ⟨mx2, hjx.1 ▸ hmx2, rfl⟩
        · rw [if_neg hjx] at hco
          rw [show getN (setN (alloc s R).1 minId
              { mn with parent := some (alloc s R).2 }) j
              = ((setN (alloc s R).1 minId
                { mn with parent := some (alloc s R).2 })).heap.get? j
              from rfl, heap_get?_set] at hco
          by_cases hjm : minId = j ∧ minId < ((alloc s R).1).heap.length
          · rw [if_pos hjm] at hco
            cases hco
            exact Or.inr ⟨mn, hjm.1 ▸ hmno, rfl⟩
          · rw [if_neg hjm] at hco
            rw [show getN (alloc s R).1 j = ((alloc s R).1).heap.get? j
              from rfl, heap_get?_alloc] at hco
            by_cases hjn : j = s.heap.length
            · rw [if_pos hjn] at hco
              cases hco
              exact Or.inl rfl
            · rw [if_neg hjn] at hco
              exact Or.inr ⟨co, hco, rfl⟩
    rcases List.mem_append.mp hc with hm | hm
    · have hcm : c ∈ p.children :=
        helems2 ((List.dropLast_sublist _).subset hm)
      refine ⟨Nat.lt_succ_of_lt (h6.bound pid p hp c hcm), ?_⟩
      intro co hco
      rcases hgetC c co hco with hnew | ⟨co0, hco0, heq⟩
      · rw [hnew, hR]
        rfl
      · rw [heq]
        exact h6.noOp pid p hp hptag hpex c hcm co0 hco0
    · have : c = (alloc s R).2 := by simpa using hm
      subst this
      rw [alloc_snd]
      refine ⟨Nat.lt_succ_self _, ?_⟩
      intro co hco
      rcases hgetC _ co hco with hnew | ⟨co0, hco0, heq⟩
      · rw [hnew, hR]
        rfl
      · exfalso
        rw [List.get?_eq_none.mpr (Nat.le_refl _)] at hco0
        exact Option.noConfusion hco0

theorem chain_head {h : List NodeObj} {b : Bool} {i : Nat}
    (hc : Chain h b i) :
    ∃ o, h.get? i = some o ∧ opTagOf o.kind = some b := by
  cases hc with
  | base ho htag _ _ _ => exact ⟨_, ho, htag⟩
  | step ho htag _ _ _ => exact ⟨_, ho, htag⟩

theorem homog_head {h : List NodeObj} {e : Nat} (hc : HomogChain h e) :
    ∃ o bb, h.get? e = some o ∧ opTagOf o.kind = some bb := by
  rcases hc with hc | hc
  · obtain ⟨o, ho, ht⟩ := chain_head hc
    exact ⟨o, true, ho, ht⟩
  · obtain ⟨o, ho, ht⟩ := chain_head hc
    exact ⟨o, false, ho, ht⟩

theorem bufGet_mem {m : List (Nat × Nat)} {k v : Nat}
    (h : bufGet m k = some v) : (k, v) ∈ m := by
  unfold bufGet at h
  cases hf : m.find? (fun p => p.1 == k) with
  | none => rw [hf] at h; exact Option.noConfusion h
  | some pr =>
    rw [hf] at h
    injection h with h2
    have hm := List.mem_of_find?_eq_some hf
    have hk : pr.1 = k := by
      have := List.find?_some hf
      simpa using this
    have : (k, v) = pr := by
      rw [← hk, ← h2]
    rw [this]
    exact hm

theorem bufDel_subset {m : List (Nat × Nat)} {k : Nat} {pr : Nat × Nat}
    (h : pr ∈ bufDel m k) : pr ∈ m :=
  List.mem_of_mem_filter h

theorem bufSet_mem {m : List (Nat × Nat)} {k v : Nat} {pr : Nat × Nat}
    (h : pr ∈ bufSet m k v) : pr = (k, v) ∨ pr ∈ m := by
  unfold bufSet at h
  rcases List.mem_cons.mp h with h1 | h1
  · exact Or.inl h1
  · exact Or.inr (List.mem_of_mem_filter h1)

/-- Allocating an ExpressionCharacterClass node whose single child is a
buffered homogeneous chain preserves `Inv6`. -/
theorem inv6_extExprClass {s : PState} (h6 : Inv6 s) {eid : Nat}
    (o : NodeObj) (hkind : ∃ n, o.kind = .expressionCharacterClass n)
    (hch : o.children = [eid]) (hc : HomogChain s.heap eid) :
    Inv6 (alloc s o).1 := by
  obtain ⟨neg0, hkind⟩ := hkind
  obtain ⟨eo, bb, heo, -⟩ := homog_head hc
  have hel : eid < s.heap.length :=
    getN_lt (s := s) (i := eid) heo
  have hcs := chainSafe_allocH s o
  have hget : ∀ j, ((alloc s o).1).heap.get? j =
      if j = s.heap.length then some o else s.heap.get? j := by
    intro j; rw [heap_get?_alloc]; rfl
  refine ⟨?_, ?_, ?_, ?_, ?_⟩
  · intro i oi hoi c hcm
    rw [alloc_heap_length]
    rw [hget] at hoi
    by_cases hi : i = s.heap.length
    · rw [if_pos hi] at hoi
      cases hoi
      rw [hch] at hcm
      have : c = eid := by simpa using hcm
      subst this
      exact Nat.lt_succ_of_lt hel
    · rw [if_neg hi] at hoi
      exact Nat.lt_succ_of_lt (h6.bound i oi hoi c hcm)
  · intro i oi hoi hmem
    rw [hget] at hoi
    by_cases hi : i = s.heap.length
    · rw [if_pos hi] at hoi
      cases hoi
      rw [hch] at hmem
      have : i = eid := by simpa using hmem
      exact absurd ((this.symm.trans hi) ▸ hel) (Nat.lt_irrefl _)
    · rw [if_neg hi] at hoi
      exact h6.selfFree i oi hoi hmem
  · intro pr hpr
    exact HomogChain_of_chainSafe hcs (h6.buf pr hpr)
  · intro i oi neg hoi hk
    rw [hget] at hoi
    by_cases hi : i = s.heap.length
    · rw [if_pos hi] at hoi
      cases hoi
      exact ⟨eid, hch, HomogChain_of_chainSafe hcs hc⟩
    · rw [if_neg hi] at hoi
      obtain ⟨e, hce, hhc⟩ := h6.expr i oi neg hoi hk
      exact ⟨e, hce, HomogChain_of_chainSafe hcs hhc⟩
  · intro i oi hoi htag hex c hcm co hco
    rw [hget] at hoi
    rw [hget] at hco
    by_cases hi : i = s.heap.length
    · rw [if_pos hi] at hoi
      cases hoi
      rw [hkind] at hex
      exact absurd hex (by simp [isExprClassK])
    · rw [if_neg hi] at hoi
      by_cases hcn : c = s.heap.length
      · exact absurd (hcn ▸ h6.bound i oi hoi c hcm) (Nat.lt_irrefl _)
      · rw [if_neg hcn] at hco
        exact h6.noOp i oi hoi htag hex c hcm co hco

theorem inv6_onCharacterClassLeave {s s2 : PState} {a b : Nat} (h6 : Inv6 s)
    (hok : onCharacterClassLeave s a b = .ok s2) : Inv6 s2 := by
  cases hn : s.node with
  | none => simp [onCharacterClassLeave, hn] at hok
  | some nid =>
  cases hno : getN s nid with
  | none => simp [onCharacterClassLeave, hn, hno] at hok
  | some n0 =>
  cases hkn : n0.kind
  all_goals try (simp only [onCharacterClassLeave, hn, hno, hkn] at hok; exact Except.noConfusion hok)
  rename_i neg uset0
  simp only [onCharacterClassLeave, hn, hno, hkn] at hok
  cases hpar : n0.parent with
  | none =>
    simp only [hpar] at hok
    exact Except.noConfusion hok
  | some pid =>
  simp only [hpar] at hok
  cases hpo : getN s pid with
  | none =>
    simp only [hpo] at hok
    exact Except.noConfusion hok
  | some p0 =>
  simp only [hpo] at hok
  by_cases hguard : p0.kind = .alternative ∨ isCharacterClassK p0.kind = true
  case neg =>
    rw [if_neg hguard] at hok
    exact Except.noConfusion hok
  rw [if_pos hguard] at hok
  have hskel0 : skelEq s.heap ((setN s nid
      { kind := NKind.characterClass neg uset0, parent := some pid,
        nstart := n0.nstart, nend := b, raw := sliceCU s.source a b,
        children := n0.children, references := n0.references,
        modifiersF := n0.modifiersF, addF := n0.addF,
        removeF := n0.removeF }).heap) :=
    skelEq_setNH s nid _ hno (by rw [hkn]) (by rw [hkn]) (by rw [hkn]) rfl
  simp only [setN_exprBuffer] at hok
  cases hbuf : bufGet s.exprBuffer nid with
  | none =>
    simp only [hbuf] at hok
    injection hok with h2
    subst h2
    exact inv6_skelEq h6 hskel0 (fun pr hpr => hpr)
  | some eid =>
  simp only [hbuf] at hok
  by_cases hch : n0.children = []
  case neg =>
    rw [if_pos (by simpa using hch)] at hok
    exact Except.noConfusion hok
  rw [if_neg (by simp [hch])] at hok
  have hnl : nid < s.heap.length := getN_lt (s := s) (i := nid) hno
  have hpl : pid < s.heap.length := getN_lt (s := s) (i := pid) hpo
  have hchain : HomogChain s.heap eid := h6.buf (nid, eid) (bufGet_mem hbuf)
  obtain ⟨eo, bb, heo, hetag⟩ := homog_head hchain
  have hel : eid < s.heap.length := getN_lt (s := s) (i := eid) heo
  have hen : eid ≠ nid := by
    intro h
    subst h
    have : eo = n0 := Option.some.inj ((heo.symm).trans hno)
    subst this
    rw [hkn] at hetag
    exact Option.noConfusion hetag
  have hp0tag : opTagOf p0.kind = none ∧ isExprClassK p0.kind = false := by
    rcases hguard with hg | hg
    · rw [hg]; exact ⟨rfl, rfl⟩
    · exact flags_isCharacterClassK hg
  have hep : eid ≠ pid := by
    intro h
    subst h
    have : eo = p0 := Option.some.inj ((heo.symm).trans hpo)
    subst this
    rw [hp0tag.1] at hetag
    exact Option.noConfusion hetag
  -- the restructure: split through the remaining matches
  split at hok
  · exact Except.noConfusion hok
  rename_i e0 he0
  split at hok
  · exact Except.noConfusion hok
  rename_i p1 hp1
  split at hok
  all_goals try exact Except.noConfusion hok
  rename_i lastId hlast
  by_cases hlid : lastId = nid
  case neg =>
    rw [if_neg hlid] at hok
    exact Except.noConfusion hok
  rw [if_pos hlid] at hok
  injection hok with h2
  subst h2
  have hn0tag : opTagOf n0.kind = none := by rw [hkn]; rfl
  have hn0ex : isExprClassK n0.kind = false := by rw [hkn]; rfl
  have hp1x := hp1
  rw [getN_setN, if_neg (fun hc => hep hc.1), getN_alloc] at hp1x
  simp only [setN_heap_length] at hp1x
  rw [if_neg (Nat.ne_of_lt hpl), getN_mk, heap_get?_set] at hp1x
  have hp1flags : opTagOf p1.kind = none ∧ isExprClassK p1.kind = false ∧
      pid ∉ p1.children ∧ ∀ c ∈ p1.children, c < s.heap.length ∧ c ≠ eid ∧
        ∀ co, s.heap.get? c = some co → opTagOf co.kind = none := by
    by_cases hnp : nid = pid
    · rw [if_pos ⟨hnp, hnl⟩] at hp1x
      injection hp1x with hv
      subst hv
      refine ⟨rfl, rfl, hnp ▸ h6.selfFree nid n0 hno, ?_⟩
      intro c hc
      refine ⟨h6.bound nid n0 hno c hc, ?_, ?_⟩
      · intro hce
        subst hce
        have := h6.noOp nid n0 hno hn0tag hn0ex c hc eo heo
        rw [this] at hetag
        exact Option.noConfusion hetag
      · intro co hco
        exact h6.noOp nid n0 hno hn0tag hn0ex c hc co hco
    · rw [if_neg (fun hc => hnp hc.1)] at hp1x
      have : p0 = p1 := Option.some.inj ((hpo.symm).trans hp1x)
      subst this
      refine ⟨hp0tag.1, hp0tag.2, h6.selfFree pid p0 hpo, ?_⟩
      intro c hc
      refine ⟨h6.bound pid p0 hpo c hc, ?_, ?_⟩
      · intro hce
        subst hce
        have := h6.noOp pid p0 hpo hp0tag.1 hp0tag.2 c hc eo heo
        rw [this] at hetag
        exact Option.noConfusion hetag
      · intro co hco
        exact h6.noOp pid p0 hpo hp0tag.1 hp0tag.2 c hc co hco
  refine inv6_setNode
    (inv6_skelEq ?h6r1
      (skelEq_setNH _ eid _ he0 (by rfl) (by rfl) (by rfl) (by rfl))
      (fun pr hpr => hpr))
    hp1 _ rfl rfl hp1flags.1 hp1flags.2.1 ?self ?hq
  case h6r1 =>
    refine inv6_extExprClass ?h6s3 _ (by exact ⟨neg, rfl⟩) (by rfl) ?chain
    case h6s3 =>
      exact inv6_skelEq h6 hskel0 (fun pr hpr => bufDel_subset hpr)
    case chain =>
      exact HomogChain_of_chainSafe (skelEq_chainSafe hskel0) hchain
  case self =>
    intro hmem
    rcases List.mem_append.mp hmem with hm | hm
    · exact hp1flags.2.2.1 ((List.dropLast_sublist _).subset hm)
    · rw [List.mem_singleton] at hm
      rw [alloc_snd] at hm
      simp only [setN_heap_length] at hm
      exact absurd (hm ▸ hpl) (Nat.lt_irrefl _)
  case hq =>
    intro c hc
    rcases List.mem_append.mp hc with hm | hm
    · obtain ⟨hcl, hcne, hcnop⟩ :=
        hp1flags.2.2.2 c ((List.dropLast_sublist _).subset hm)
      constructor
      · rw [setN_heap_length, alloc_heap_length]
        simp only [setN_heap_length]
        exact Nat.lt_succ_of_lt hcl
      · intro co hco
        rw [heap_get?_set, if_neg (fun hx => Ne.symm hcne hx.1),
          getN_alloc] at hco
        simp only [setN_heap_length] at hco
        rw [if_neg (Nat.ne_of_lt hcl), getN_mk, heap_get?_set] at hco
        by_cases hnc : nid = c
        · rw [if_pos ⟨hnc, hnl⟩] at hco
          cases hco
          rfl
        · rw [if_neg (fun hx => hnc hx.1)] at hco
          exact hcnop co hco
    · rw [List.mem_singleton] at hm
      subst hm
      rw [alloc_snd]
      simp only [setN_heap_length]
      constructor
      · rw [alloc_heap_length]
        simp only [setN_heap_length]
        exact Nat.lt_succ_self _
      · intro co hco
        rw [heap_get?_set, if_neg (fun hx => Nat.ne_of_lt hel hx.1),
          getN_alloc] at hco
        simp only [setN_heap_length, if_true] at hco
        cases hco
        rfl

theorem opTag_some_false {k : NKind} (h : opTagOf k = some false) :
    k = .classSubtraction := by
  cases k <;> simp [opTagOf] at h ⊢

theorem opTag_some_true {k : NKind} (h : opTagOf k = some true) :
    k = .classIntersection := by
  cases k <;> simp [opTagOf] at h ⊢

theorem opTag_some_flags {k : NKind} {bb : Bool} (h : opTagOf k = some bb) :
    isClassSetOperandK k = false ∧ isExprClassK k = false := by
  cases k <;> simp [opTagOf, isClassSetOperandK, isExprClassK] at h ⊢

/-- Allocating a fresh set-operation node whose two children are
in-bounds preserves `Inv6`. -/
theorem inv6_extOp {s : PState} (h6 : Inv6 s) {lid rid : Nat} (o : NodeObj)
    {bb : Bool} (htag : opTagOf o.kind = some bb)
    (hch : o.children = [lid, rid])
    (hl : lid < s.heap.length) (hr : rid < s.heap.length) :
    Inv6 (alloc s o).1 := by
  have hcs := chainSafe_allocH s o
  have hget : ∀ j, ((alloc s o).1).heap.get? j =
      if j = s.heap.length then some o else s.heap.get? j := by
    intro j; rw [heap_get?_alloc]; rfl
  refine ⟨?_, ?_, ?_, ?_, ?_⟩
  · intro i oi hoi c hcm
    rw [alloc_heap_length]
    rw [hget] at hoi
    by_cases hi : i = s.heap.length
    · rw [if_pos hi] at hoi
      cases hoi
      rw [hch] at hcm
      rcases List.mem_cons.mp hcm with hc1 | hc1
      · subst hc1; exact Nat.lt_succ_of_lt hl
      · have : c = rid := by simpa using hc1
        subst this; exact Nat.lt_succ_of_lt hr
    · rw [if_neg hi] at hoi
      exact Nat.lt_succ_of_lt (h6.bound i oi hoi c hcm)
  · intro i oi hoi hmem
    rw [hget] at hoi
    by_cases hi : i = s.heap.length
    · rw [if_pos hi] at hoi
      cases hoi
      rw [hch] at hmem
      rcases List.mem_cons.mp hmem with hc1 | hc1
      · exact absurd ((hc1.symm.trans hi) ▸ hl) (Nat.lt_irrefl _)
      · have : i = rid := by simpa using hc1
        exact absurd ((this.symm.trans hi) ▸ hr) (Nat.lt_irrefl _)
    · rw [if_neg hi] at hoi
      exact h6.selfFree i oi hoi hmem
  · intro pr hpr
    exact HomogChain_of_chainSafe hcs (h6.buf pr hpr)
  · intro i oi neg hoi hk
    rw [hget] at hoi
    by_cases hi : i = s.heap.length
    · rw [if_pos hi] at hoi
      cases hoi
      rw [hk] at htag
      exact absurd htag (by simp [opTagOf])
    · rw [if_neg hi] at hoi
      obtain ⟨e, hce, hhc⟩ := h6.expr i oi neg hoi hk
      exact ⟨e, hce, HomogChain_of_chainSafe hcs hhc⟩
  · intro i oi hoi htag2 hex c hcm co hco
    rw [hget] at hoi
    rw [hget] at hco
    by_cases hi : i = s.heap.length
    · rw [if_pos hi] at hoi
      cases hoi
      rw [htag] at htag2
      exact Option.noConfusion htag2
    · rw [if_neg hi] at hoi
      by_cases hcn : c = s.heap.length
      · exact absurd (hcn ▸ h6.bound i oi hoi c hcm) (Nat.lt_irrefl _)
      · rw [if_neg hcn] at hco
        exact h6.noOp i oi hoi htag2 hex c hcm co hco

/-- Replacing the expression buffer with chains over the same heap
preserves `Inv6`. -/
theorem inv6_setBuf {s : PState} (h6 : Inv6 s) (nb : List (Nat × Nat))
    (hb : ∀ pr ∈ nb, HomogChain s.heap pr.2) :
    Inv6 { s with exprBuffer := nb } := by
  refine ⟨h6.bound, h6.selfFree, ?_, h6.expr, h6.noOp⟩
  intro pr hpr
  exact hb pr hpr

/-- Finishing a class-set operation: with the operator node already
allocated and its operands reparented (state `sC`), trimming the
parent's child list and buffering the operator preserves `Inv6`. -/
theorem inv6_classOpFinish {s sC : PState} {pid : Nat} {p : NodeObj}
    (h6 : Inv6 s) (h6C : Inv6 sC) (csC : chainSafe s.heap sC.heap)
    (hp : getN s pid = some p) (hpC : getN sC pid = some p)
    (hptag : opTagOf p.kind = none) (hpex : isExprClassK p.kind = false)
    {nid : Nat} {OP : NodeObj} {bb : Bool}
    (hOPC : getN sC nid = some OP)
    (hOPk : opTagOf OP.kind = some bb) {lid rid : Nat}
    (hOPc : OP.children = [lid, rid])
    (hleft : Chain s.heap bb lid ∨ Operand s.heap lid)
    {r : NodeObj} (hgr : getN s rid = some r)
    (hropnd : isClassSetOperandK r.kind = true)
    {elems2 : List Nat} (hsub : ∀ c ∈ elems2, c ∈ p.children) :
    Inv6 { setN sC pid { p with children := elems2 } with
      exprBuffer := bufSet s.exprBuffer pid nid } := by
  have hnp : pid ≠ nid := by
    intro h
    rw [h] at hpC
    have hpo : p = OP := Option.some.inj (hpC.symm.trans hOPC)
    rw [hpo, hOPk] at hptag
    exact Option.noConfusion hptag
  have csD : chainSafe sC.heap
      ((setN sC pid { p with children := elems2 }).heap) :=
    chainSafe_setNH sC pid _ hpC rfl rfl
      (fun hs => absurd hs (by rw [hptag]; simp))
  have csSD : chainSafe s.heap
      ((setN sC pid { p with children := elems2 }).heap) :=
    chainSafe_trans csC csD
  have hOPD : ((setN sC pid { p with children := elems2 }).heap).get? nid
      = some OP := by
    rw [heap_get?_set, if_neg (fun hc => hnp hc.1)]
    exact hOPC
  have hropD : Operand ((setN sC pid { p with children := elems2 }).heap)
      rid := Operand_of_chainSafe csSD ⟨r, hgr, hropnd⟩
  have hchainNew : Chain ((setN sC pid { p with children := elems2 }).heap)
      bb nid := by
    rcases hleft with hch | hop
    · exact Chain.step hOPD hOPk hOPc (Chain_of_chainSafe csSD hch) hropD
    · exact Chain.base hOPD hOPk hOPc (Operand_of_chainSafe csSD hop) hropD
  have hbuf : ∀ pr ∈ bufSet s.exprBuffer pid nid,
      HomogChain ((setN sC pid { p with children := elems2 }).heap) pr.2 := by
    intro pr hpr
    rcases bufSet_mem hpr with h1 | h1
    · rw [h1]
      cases bb with
      | true => exact Or.inl hchainNew
      | false => exact Or.inr hchainNew
    · exact HomogChain_of_chainSafe csSD (h6.buf pr h1)
  refine inv6_setBuf
    (inv6_setNode h6C hpC { p with children := elems2 } rfl rfl hptag hpex
      ?_ ?_) _ hbuf
  · intro hm
    exact h6.selfFree pid p hp (hsub _ hm)
  · intro c hc
    have hcp := hsub c hc
    obtain ⟨co0, hco0⟩ := get?_lt_exists (h6.bound pid p hp c hcp)
    obtain ⟨co1, hco1, ht, -, -⟩ := csC c co0 hco0
    refine ⟨getN_lt hco1, ?_⟩
    intro co hco
    have hcoeq : co1 = co := Option.some.inj (hco1.symm.trans hco)
    rw [← hcoeq, ht]
    exact h6.noOp pid p hp hptag hpex c hcp co0 hco0

/-- Common success shape of the two class-set-operation handlers:
allocate the operator node, reparent its operands, trim the parent's
child list and buffer the operator. -/
theorem inv6_classOp {s : PState} {pid lid rid : Nat} {p l r r2 : NodeObj}
    {OP : NodeObj} {bb : Bool} (elems2 : List Nat) {s2 : PState}
    (h6 : Inv6 s)
    (hr2 : getN (setN (alloc s OP).1 lid
      { l with parent := some (alloc s OP).2 }) rid = some r2)
    (hs2h : s2.heap = (setN (setN (setN (alloc s OP).1 lid
      { l with parent := some (alloc s OP).2 }) rid
      { r2 with parent := some (alloc s OP).2 }) pid
      { p with children := elems2 }).heap)
    (hs2b : s2.exprBuffer = bufSet s.exprBuffer pid (alloc s OP).2)
    (hOPk : opTagOf OP.kind = some bb) (hOPc : OP.children = [lid, rid])
    (hp : getN s pid = some p) (hptag : opTagOf p.kind = none)
    (hpex : isExprClassK p.kind = false)
    (hgl : getN s lid = some l) (hgr : getN s rid = some r)
    (hrmem : rid ∈ p.children) (hplid : pid ≠ lid)
    (hsub : ∀ c ∈ elems2, c ∈ p.children)
    (hleft : Chain s.heap bb lid ∨ Operand s.heap lid)
    (hropnd : isClassSetOperandK r.kind = true) :
    Inv6 s2 := by
  have hllt : lid < s.heap.length := getN_lt hgl
  have hrlt : rid < s.heap.length := getN_lt hgr
  have hplt : pid < s.heap.length := getN_lt hp
  have hrp : rid ≠ pid := fun hc => h6.selfFree pid p hp (hc ▸ hrmem)
  have hlp : lid ≠ pid := fun hc => hplid hc.symm
  have h6A : Inv6 (alloc s OP).1 := inv6_extOp h6 OP hOPk hOPc hllt hrlt
  have hglA : getN (alloc s OP).1 lid = some l := by
    rw [getN_alloc, if_neg (Nat.ne_of_lt hllt)]
    exact hgl
  have skB := skelEq_setNH (alloc s OP).1 lid
    { l with parent := some (alloc s OP).2 } hglA rfl rfl rfl rfl
  have h6B : Inv6 (setN (alloc s OP).1 lid
      { l with parent := some (alloc s OP).2 }) :=
    inv6_skelEq h6A skB (fun pr hpr => hpr)
  have skC := skelEq_setNH (setN (alloc s OP).1 lid
    { l with parent := some (alloc s OP).2 }) rid
    { r2 with parent := some (alloc s OP).2 } hr2 rfl rfl rfl rfl
  have h6C : Inv6 (setN (setN (alloc s OP).1 lid
      { l with parent := some (alloc s OP).2 }) rid
      { r2 with parent := some (alloc s OP).2 }) :=
    inv6_skelEq h6B skC (fun pr hpr => hpr)
  have csC : chainSafe s.heap (setN (setN (alloc s OP).1 lid
      { l with parent := some (alloc s OP).2 }) rid
      { r2 with parent := some (alloc s OP).2 }).heap :=
    chainSafe_trans (chainSafe_allocH s OP)
      (chainSafe_trans (skelEq_chainSafe skB) (skelEq_chainSafe skC))
  have hpC : getN (setN (setN (alloc s OP).1 lid
      { l with parent := some (alloc s OP).2 }) rid
      { r2 with parent := some (alloc s OP).2 }) pid = some p := by
    rw [getN_setN, if_neg (fun hc => hrp hc.1), getN_setN,
      if_neg (fun hc => hlp hc.1), getN_alloc,
      if_neg (Nat.ne_of_lt hplt)]
    exact hp
  have hOPC : getN (setN (setN (alloc s OP).1 lid
      { l with parent := some (alloc s OP).2 }) rid
      { r2 with parent := some (alloc s OP).2 }) s.heap.length = some OP := by
    rw [getN_setN, if_neg (fun hc => Nat.ne_of_lt hrlt hc.1), getN_setN,
      if_neg (fun hc => Nat.ne_of_lt hllt hc.1), getN_alloc, if_pos rfl]
  refine inv6_congr (inv6_classOpFinish h6 h6C csC hp hpC hptag hpex hOPC
    hOPk hOPc hleft hgr hropnd hsub) ?_ ?_
  · rw [hs2h]
  · rw [hs2b]
    rfl

theorem inv6_onClassIntersection {s s2 : PState} {a b : Nat} (h6 : Inv6 s)
    (hok : onClassIntersection s a b = .ok s2) : Inv6 s2 := by
  cases hn : s.node with
  | none => simp [onClassIntersection, hn] at hok
  | some pid =>
  cases hp : getN s pid with
  | none => simp [onClassIntersection, hn, hp] at hok
  | some p =>
  cases hk : p.kind
  all_goals try (simp only [onClassIntersection, hn, hp, hk] at hok; exact Except.noConfusion hok)
  rename_i cneg uset
  simp only [onClassIntersection, hn, hp, hk] at hok
  cases hu : uset with
  | false =>
    simp only [hu, Bool.not_false, if_true] at hok
    exact Except.noConfusion hok
  | true =>
  simp only [hu, Bool.not_true] at hok
  rw [if_neg Bool.false_ne_true] at hok
  cases hrid : p.children.getLast? with
  | none =>
    simp only [hrid] at hok
    exact Except.noConfusion hok
  | some rid =>
  simp only [hrid] at hok
  split at hok
  · exact Except.noConfusion hok
  rename_i lid elems2 heq
  split at hok
  · rename_i l r hgl hgr
    by_cases hmix : l.kind = NKind.classSubtraction ∨
        ¬(l.kind = NKind.classIntersection ∨ isClassSetOperandK l.kind = true) ∨
        ¬isClassSetOperandK r.kind = true
    · rw [if_pos hmix] at hok
      exact Except.noConfusion hok
    rw [if_neg hmix] at hok
    push_neg at hmix
    obtain ⟨hm1, hm2, hm3⟩ := hmix
    split at hok
    · rename_i r2 heq2
      injection hok with hs2e
      subst hs2e
      split at heq
      · rename_i l0 hbg
        simp only [Option.some.injEq, Prod.mk.injEq] at heq
        obtain ⟨heqa, heqb⟩ := heq
        rw [heqa] at hbg
        subst heqb
        have hhc : HomogChain s.heap lid := h6.buf (pid, lid) (bufGet_mem hbg)
        have hplid : pid ≠ lid := by
          intro hple
          obtain ⟨o, bb2, ho, ht⟩ := homog_head hhc
          have hol : o = l := Option.some.inj (ho.symm.trans hgl)
          rw [hple] at hp
          have hpl : p = l := Option.some.inj (hp.symm.trans hgl)
          rw [hol, ← hpl, hk] at ht
          simp [opTagOf] at ht
        have hleft : Chain s.heap true lid ∨ Operand s.heap lid := by
          rcases hhc with hch | hch
          · exact Or.inl hch
          · obtain ⟨o, ho, ht⟩ := chain_head hch
            have hol : o = l := Option.some.inj (ho.symm.trans hgl)
            rw [hol] at ht
            exact absurd (opTag_some_false ht) hm1
        refine inv6_classOp p.children.dropLast h6 heq2 ?_ ?_ rfl rfl hp
          ?_ ?_ hgl hgr (mem_of_getLast?_eq hrid) hplid ?_ hleft hm3
        · rw [hk, hu]
        · rfl
        · simp [hk, opTagOf]
        · simp [hk, isExprClassK]
        · intro c hc
          exact (List.dropLast_sublist _).subset hc
      · rename_i hbg
        split at heq
        · rename_i l0 hgl2
          simp only [Option.some.injEq, Prod.mk.injEq] at heq
          obtain ⟨heqa, heqb⟩ := heq
          rw [heqa] at hgl2
          subst heqb
          have hlmem : lid ∈ p.children :=
            (List.dropLast_sublist _).subset (mem_of_getLast?_eq hgl2)
          have hltag : opTagOf l.kind = none :=
            h6.noOp pid p hp (by simp [hk, opTagOf])
              (by simp [hk, isExprClassK]) lid hlmem l hgl
          have hplid : pid ≠ lid := by
            intro hple
            exact h6.selfFree pid p hp (by rw [hple]; exact hlmem)
          have hleft : Chain s.heap true lid ∨ Operand s.heap lid := by
            rcases hm2 with hint | hopnd
            · rw [hint] at hltag
              exact absurd hltag (by simp [opTagOf])
            · exact Or.inr ⟨l, hgl, hopnd⟩
          refine inv6_classOp p.children.dropLast.dropLast h6 heq2 ?_ ?_
            rfl rfl hp ?_ ?_ hgl hgr (mem_of_getLast?_eq hrid) hplid
            ?_ hleft hm3
          · rw [hk, hu]
          · rfl
          · simp [hk, opTagOf]
          · simp [hk, isExprClassK]
          · intro c hc
            exact (List.dropLast_sublist _).subset
              ((List.dropLast_sublist _).subset hc)
        · exact Option.noConfusion heq
    · rename_i heq2
      exfalso
      simp only [getN_setN, getN_alloc, alloc_heap_length] at heq2
      split at heq2
      · exact Option.noConfusion heq2
      · split at heq2
        · exact Option.noConfusion heq2
        · rw [hgr] at heq2
          exact Option.noConfusion heq2
  · exact Except.noConfusion hok
theorem inv6_onClassSubtraction {s s2 : PState} {a b : Nat} (h6 : Inv6 s)
    (hok : onClassSubtraction s a b = .ok s2) : Inv6 s2 := by
  cases hn : s.node with
  | none => simp [onClassSubtraction, hn] at hok
  | some pid =>
  cases hp : getN s pid with
  | none => simp [onClassSubtraction, hn, hp] at hok
  | some p =>
  cases hk : p.kind
  all_goals try (simp only [onClassSubtraction, hn, hp, hk] at hok; exact Except.noConfusion hok)
  rename_i cneg uset
  simp only [onClassSubtraction, hn, hp, hk] at hok
  cases hu : uset with
  | false =>
    simp only [hu, Bool.not_false, if_true] at hok
    exact Except.noConfusion hok
  | true =>
  simp only [hu, Bool.not_true] at hok
  rw [if_neg Bool.false_ne_true] at hok
  cases hrid : p.children.getLast? with
  | none =>
    simp only [hrid] at hok
    exact Except.noConfusion hok
  | some rid =>
  simp only [hrid] at hok
  split at hok
  · exact Except.noConfusion hok
  rename_i lid elems2 heq
  split at hok
  · rename_i l r hgl hgr
    by_cases hmix : l.kind = NKind.classIntersection ∨
        ¬(l.kind = NKind.classSubtraction ∨ isClassSetOperandK l.kind = true) ∨
        ¬isClassSetOperandK r.kind = true
    · rw [if_pos hmix] at hok
      exact Except.noConfusion hok
    rw [if_neg hmix] at hok
    push_neg at hmix
    obtain ⟨hm1, hm2, hm3⟩ := hmix
    split at hok
    · rename_i r2 heq2
      injection hok with hs2e
      subst hs2e
      split at heq
      · rename_i l0 hbg
        simp only [Option.some.injEq, Prod.mk.injEq] at heq
        obtain ⟨heqa, heqb⟩ := heq
        rw [heqa] at hbg
        subst heqb
        have hhc : HomogChain s.heap lid := h6.buf (pid, lid) (bufGet_mem hbg)
        have hplid : pid ≠ lid := by
          intro hple
          obtain ⟨o, bb2, ho, ht⟩ := homog_head hhc
          have hol : o = l := Option.some.inj (ho.symm.trans hgl)
          rw [hple] at hp
          have hpl : p = l := Option.some.inj (hp.symm.trans hgl)
          rw [hol, ← hpl, hk] at ht
          simp [opTagOf] at ht
        have hleft : Chain s.heap false lid ∨ Operand s.heap lid := by
          rcases hhc with hch | hch
          · obtain ⟨o, ho, ht⟩ := chain_head hch
            have hol : o = l := Option.some.inj (ho.symm.trans hgl)
            rw [hol] at ht
            exact absurd (opTag_some_true ht) hm1
          · exact Or.inl hch
        refine inv6_classOp p.children.dropLast h6 heq2 ?_ ?_ rfl rfl hp
          ?_ ?_ hgl hgr (mem_of_getLast?_eq hrid) hplid ?_ hleft hm3
        · rw [hk, hu]
        · rfl
        · simp [hk, opTagOf]
        · simp [hk, isExprClassK]
        · intro c hc
          exact (List.dropLast_sublist _).subset hc
      · rename_i hbg
        split at heq
        · rename_i l0 hgl2
          simp only [Option.some.injEq, Prod.mk.injEq] at heq
          obtain ⟨heqa, heqb⟩ := heq
          rw [heqa] at hgl2
          subst heqb
          have hlmem : lid ∈ p.children :=
            (List.dropLast_sublist _).subset (mem_of_getLast?_eq hgl2)
          have hltag : opTagOf l.kind = none :=
            h6.noOp pid p hp (by simp [hk, opTagOf])
              (by simp [hk, isExprClassK]) lid hlmem l hgl
          have hplid : pid ≠ lid := by
            intro hple
            exact h6.selfFree pid p hp (by rw [hple]; exact hlmem)
          have hleft : Chain s.heap false lid ∨ Operand s.heap lid := by
            rcases hm2 with hint | hopnd
            · rw [hint] at hltag
              exact absurd hltag (by simp [opTagOf])
            · exact Or.inr ⟨l, hgl, hopnd⟩
          refine inv6_classOp p.children.dropLast.dropLast h6 heq2 ?_ ?_
            rfl rfl hp ?_ ?_ hgl hgr (mem_of_getLast?_eq hrid) hplid
            ?_ hleft hm3
          · rw [hk, hu]
          · rfl
          · simp [hk, opTagOf]
          · simp [hk, isExprClassK]
          · intro c hc
            exact (List.dropLast_sublist _).subset
              ((List.dropLast_sublist _).subset hc)
        · exact Option.noConfusion heq
    · rename_i heq2
      exfalso
      simp only [getN_setN, getN_alloc, alloc_heap_length] at heq2
      split at heq2
      · exact Option.noConfusion heq2
      · split at heq2
        · exact Option.noConfusion heq2
        · rw [hgr] at heq2
          exact Option.noConfusion heq2
  · exact Except.noConfusion hok

/-- One dispatched builder event preserves `Inv6`. -/
theorem inv6_step {s s2 : PState} {ev : Ev} (h6 : Inv6 s)
    (hok : step s ev = .ok s2) : Inv6 s2 := by
  cases ev with
  | regExpFlags a b f =>
    injection hok with h2
    subst h2
    exact inv6_onRegExpFlags h6
  | patternEnter a =>
    injection hok with h2
    subst h2
    exact inv6_onPatternEnter h6
  | patternLeave a b => exact inv6_onPatternLeave h6 hok
  | alternativeEnter a => exact inv6_onAlternativeEnter h6 hok
  | alternativeLeave a b => exact inv6_onAlternativeLeave h6 hok
  | groupEnter a => exact inv6_onGroupEnter h6 hok
  | groupLeave a b => exact inv6_onGroupLeave h6 hok
  | modifiersEnter a => exact inv6_onModifiersEnter h6 hok
  | modifiersLeave a b => exact inv6_onModifiersLeave h6 hok
  | addModifiers a b ic ml da => exact inv6_onAddModifiers h6 hok
  | removeModifiers a b ic ml da => exact inv6_onRemoveModifiers h6 hok
  | capturingGroupEnter a n => exact inv6_onCapturingGroupEnter h6 hok
  | capturingGroupLeave a b => exact inv6_onCapturingGroupLeave h6 hok
  | quantifier a b mi ma g => exact @inv6_onQuantifier s s2 a b mi ma g h6 hok
  | lookaroundEnter a k n => exact inv6_onLookaroundAssertionEnter h6 hok
  | lookaroundLeave a b => exact inv6_onLookaroundAssertionLeave h6 hok
  | edgeAssertion a b k => exact inv6_onEdgeAssertion h6 hok
  | wordBoundaryAssertion a b n => exact inv6_onWordBoundaryAssertion h6 hok
  | anyCharacterSet a b => exact inv6_onAnyCharacterSet h6 hok
  | escapeCharacterSet a b k n => exact inv6_onEscapeCharacterSet h6 hok
  | unicodePropertySet a b k v n st =>
    exact inv6_onUnicodePropertyCharacterSet h6 hok
  | character a b v => exact inv6_onCharacter h6 hok
  | backreference a b r => exact inv6_onBackreference h6 hok
  | characterClassEnter a n u => exact inv6_onCharacterClassEnter h6 hok
  | characterClassLeave a b => exact inv6_onCharacterClassLeave h6 hok
  | characterClassRange a b => exact inv6_onCharacterClassRange h6 hok
  | classIntersection a b => exact inv6_onClassIntersection h6 hok
  | classSubtraction a b => exact inv6_onClassSubtraction h6 hok
  | classStringDisjunctionEnter a =>
    exact inv6_onClassStringDisjunctionEnter h6 hok
  | classStringDisjunctionLeave a b =>
    exact inv6_onClassStringDisjunctionLeave h6 hok
  | stringAlternativeEnter a => exact inv6_onStringAlternativeEnter h6 hok
  | stringAlternativeLeave a b => exact inv6_onStringAlternativeLeave h6 hok

/-- A whole successful event run preserves `Inv6`. -/
theorem inv6_run {evs : List Ev} : ∀ {s s2 : PState}, Inv6 s →
    run s evs = .ok s2 → Inv6 s2 := by
  induction evs with
  | nil =>
    intro s s2 h6 hok
    rw [run, List.foldlM_nil] at hok
    injection hok with h2
    subst h2
    exact h6
  | cons ev evs ih =>
    intro s s2 h6 hok
    rw [run, List.foldlM_cons] at hok
    cases hstep : step s ev with
    | error e =>
      rw [hstep] at hok
      exact Except.noConfusion hok
    | ok s1 =>
      rw [hstep] at hok
      exact ih (inv6_step h6 hstep) hok

/-- The initial assembler state satisfies `Inv6`. -/
theorem inv6_initState (src : String) (strict : Bool) (ecma : Nat) :
    Inv6 (initState src strict ecma) := by
  refine ⟨?_, ?_, ?_, ?_, ?_⟩
  · intro i o h
    simp [initState] at h
  · intro i o h
    simp [initState] at h
  · intro pr hpr
    simp [initState] at hpr
  · intro i o neg h hk
    simp [initState] at h
  · intro i o h ht hx
    simp [initState] at h

/-- C6: class-set operators are never mixed inside one CharacterClass —
`onClassIntersection` errors when the accumulated (buffered) left
operand is a ClassSubtraction, `onClassSubtraction` errors when it is a
ClassIntersection, and in every state assembled by a successful run the
expression of an ExpressionCharacterClass node is a homogeneous chain of
only ClassIntersection or only ClassSubtraction nodes. -/
theorem c6_class_set_operator_homogeneity :
    (∀ (s : PState) (a b pid rid lid : Nat) (p l : NodeObj),
      s.node = some pid → getN s pid = some p →
      (∃ neg, p.kind = NKind.characterClass neg true) →
      p.children.getLast? = some rid →
      bufGet s.exprBuffer pid = some lid →
      getN s lid = some l → l.kind = NKind.classSubtraction →
      onClassIntersection s a b = .error ()) ∧
    (∀ (s : PState) (a b pid rid lid : Nat) (p l : NodeObj),
      s.node = some pid → getN s pid = some p →
      (∃ neg, p.kind = NKind.characterClass neg true) →
      p.children.getLast? = some rid →
      bufGet s.exprBuffer pid = some lid →
      getN s lid = some l → l.kind = NKind.classIntersection →
      onClassSubtraction s a b = .error ()) ∧
    (∀ (src : String) (strict : Bool) (ecma : Nat) (evs : List Ev)
      (s2 : PState), run (initState src strict ecma) evs = .ok s2 →
      ∀ (i : Nat) (o : NodeObj) (neg : Bool), getN s2 i = some o →
      o.kind = NKind.expressionCharacterClass neg →
      ∃ e, o.children = [e] ∧
        (Chain s2.heap true e ∨ Chain s2.heap false e)) := by
  refine ⟨?_, ?_, ?_⟩
  · intro s a b pid rid lid p l hn hp hex hrid hbg hgl hlk
    obtain ⟨neg, hk⟩ := hex
    simp only [onClassIntersection, hn, hp, hk, Bool.not_true, hrid, hbg, hgl]
    rw [if_neg Bool.false_ne_true]
    cases hgr : getN s rid with
    | none => simp [hgr]
    | some r =>
      simp only [hgr]
      split
      · rfl
      · rename_i hcond
        exact absurd (Or.inl hlk) hcond
  · intro s a b pid rid lid p l hn hp hex hrid hbg hgl hlk
    obtain ⟨neg, hk⟩ := hex
    simp only [onClassSubtraction, hn, hp, hk, Bool.not_true, hrid, hbg, hgl]
    rw [if_neg Bool.false_ne_true]
    cases hgr : getN s rid with
    | none => simp [hgr]
    | some r =>
      simp only [hgr]
      split
      · rfl
      · rename_i hcond
        exact absurd (Or.inl hlk) hcond
  · intro src strict ecma evs s2 hok i o neg hio hkind
    exact (inv6_run (inv6_initState src strict ecma) hok).expr i o neg
      hio hkind

/-- C6 witness: both mixing errors fire on concrete mixed states, and
the `/[a&&b]/v` run yields an ExpressionCharacterClass whose expression
is a homogeneous chain. -/
theorem c6_class_set_operator_homogeneity_witness :
    onClassIntersection c6MixIntState 5 9 = .error () ∧
    onClassSubtraction c6MixSubState 5 9 = .error () ∧
    (∃ e, c6ExprNode.children = [e] ∧
      (Chain c6FinalState.heap true e ∨ Chain c6FinalState.heap false e)) := by
  refine ⟨?_, ?_, ?_⟩
  · exact c6_class_set_operator_homogeneity.1 c6MixIntState 5 9 0 1 1 _ _
      rfl rfl ⟨false, rfl⟩ rfl rfl rfl rfl
  · exact c6_class_set_operator_homogeneity.2.1 c6MixSubState 5 9 0 1 1 _ _
      rfl rfl ⟨false, rfl⟩ rfl rfl rfl rfl
  · exact c6_class_set_operator_homogeneity.2.2 "[a&&b]" false 2024 c6Evs
      c6FinalState rfl 6 c6ExprNode false rfl rfl


/-! ### Claim C10: the simple-literal fast path -/

/-- A one-code-unit slice is the singleton of the indexed character. -/
theorem slice_one {src : String} {j : Nat} (h : j < src.data.length) :
    sliceCU src j (j + 1) = String.mk [src.data.getD j ' '] := by
  have hj : src.data[j]? = some src.data[j] := List.getElem?_eq_getElem h
  unfold sliceCU
  congr 1
  rw [Nat.add_sub_cancel_left, List.drop_eq_getElem_cons h]
  rw [show (1 : Nat) = 0 + 1 from rfl, List.take_succ_cons, List.take_zero]
  simp [List.getD, hj]

/-- `toTree` at fuel 1 on a childless node without modifier links. -/
theorem toTree_leaf {H : List NodeObj} {j : Nat} {o : NodeObj}
    (hj : H.get? j = some o) (hc : o.children = []) (hm : o.modifiersF = none)
    (ha : o.addF = none) (hr : o.removeF = none) :
    toTree H 1 j = some (.mk (stripResolution o.kind) o.nstart o.nend o.raw
      [] none none none) := by
  have hj2 : H[j]? = some o := by rw [← List.get?_eq_getElem?]; exact hj
  simp [toTree, hj2, hc, hm, ha, hr]
  rfl

/-- `toTree` unfolding for a node without modifier links whose child
traversal is known. -/
theorem toTree_node {H : List NodeObj} {j : Nat} {o : NodeObj} {fuel : Nat}
    {ts : List Tree}
    (hj : H.get? j = some o) (hm : o.modifiersF = none)
    (ha : o.addF = none) (hr : o.removeF = none)
    (hcs : o.children.mapM (toTree H fuel) = some ts) :
    toTree H (fuel + 1) j = some (.mk (stripResolution o.kind) o.nstart
      o.nend o.raw ts none none none) := by
  simp only [toTree, hj, hm, ha, hr, hcs]

/-- Child traversal over consecutive ids whose subtrees are known. -/
theorem mapM_toTree_range' {H : List NodeObj} :
    ∀ (n : Nat) (f : Nat → Tree) (k : Nat),
    (∀ i, i < n → toTree H 1 (k + i) = some (f i)) →
    (List.range' k n).mapM (toTree H 1) = some ((List.range n).map f) := by
  intro n
  induction n with
  | zero =>
    intro f k h
    rfl
  | succ n ih =>
    intro f k h
    have h0 := h 0 (Nat.succ_pos n)
    rw [Nat.add_zero] at h0
    have hrest := ih (fun i => f (i + 1)) (k + 1) (fun i hi => by
      have h2 := h (i + 1) (Nat.succ_lt_succ hi)
      rwa [show k + (i + 1) = k + 1 + i by omega] at h2)
    rw [List.range'_succ, List.mapM_cons, h0, hrest, List.range_succ_eq_map]
    simp [List.map_map, Function.comp]
/-- The structural tree of the fast-path AST, for any pattern string. -/
theorem toTree_createSimple (P : String) (start fin : Nat) :
    toTree (createSimpleLiteralAST P start fin).1 3
      (createSimpleLiteralAST P start fin).2 =
    some (.mk .pattern start fin P
      [.mk .alternative start fin P
        ((List.range P.data.length).map (fun i =>
          Tree.mk (.character (charCodeAt (P.data.getD i ' ')))
            (start + i) (start + i + 1)
            (String.mk [P.data.getD i ' ']) [] none none none))
        none none none] none none none) := by
  have hclen : ((List.range P.data.length).map (fun i =>
      ({ kind := .character (charCodeAt (P.data.getD i ' ')),
         parent := some P.data.length, nstart := start + i,
         nend := start + i + 1, raw := String.mk [P.data.getD i ' '],
         children := [] } : NodeObj))).length = P.data.length := by
    simp
  have hgetc : ∀ i, i < P.data.length →
      (createSimpleLiteralAST P start fin).1.get? i = some
        { kind := .character (charCodeAt (P.data.getD i ' ')),
          parent := some P.data.length, nstart := start + i,
          nend := start + i + 1, raw := String.mk [P.data.getD i ' '],
          children := [] } := by
    intro i hi
    simp only [createSimpleLiteralAST]
    rw [List.get?_append (by rw [hclen]; exact hi), List.get?_map,
      List.get?_range hi]
    rfl
  have hgeta : (createSimpleLiteralAST P start fin).1.get? P.data.length =
      some
        { kind := .alternative, parent := some (P.data.length + 1),
          nstart := start, nend := fin, raw := P,
          children := List.range P.data.length } := by
    simp only [createSimpleLiteralAST]
    rw [List.get?_append_right (by rw [hclen]), hclen, Nat.sub_self]
    rfl
  have hgetp : (createSimpleLiteralAST P start fin).1.get?
      (P.data.length + 1) = some
        { kind := .pattern, parent := none,
          nstart := start, nend := fin, raw := P,
          children := [P.data.length] } := by
    simp only [createSimpleLiteralAST]
    rw [List.get?_append_right (by rw [hclen]; omega), hclen,
      Nat.add_sub_cancel_left]
    rfl
  have haltT : toTree (createSimpleLiteralAST P start fin).1 2
      P.data.length = some (.mk .alternative start fin P
        ((List.range P.data.length).map (fun i =>
          Tree.mk (.character (charCodeAt (P.data.getD i ' ')))
            (start + i) (start + i + 1)
            (String.mk [P.data.getD i ' ']) [] none none none))
        none none none) := by
    have hmap : (List.range P.data.length).mapM
        (toTree (createSimpleLiteralAST P start fin).1 1) =
        some ((List.range P.data.length).map (fun i =>
          Tree.mk (.character (charCodeAt (P.data.getD i ' ')))
            (start + i) (start + i + 1)
            (String.mk [P.data.getD i ' ']) [] none none none)) := by
      conv_lhs => rw [List.range_eq_range']
      refine mapM_toTree_range' P.data.length _ 0 ?_
      intro i hi
      rw [Nat.zero_add]
      exact toTree_leaf (hgetc i hi) rfl rfl rfl rfl
    exact toTree_node hgeta rfl rfl rfl hmap
  have hroot : (createSimpleLiteralAST P start fin).2 =
      P.data.length + 1 := rfl
  have hcs1 : ([P.data.length] : List Nat).mapM
      (toTree (createSimpleLiteralAST P start fin).1 2) =
      some [.mk .alternative start fin P
        ((List.range P.data.length).map (fun i =>
          Tree.mk (.character (charCodeAt (P.data.getD i ' ')))
            (start + i) (start + i + 1)
            (String.mk [P.data.getD i ' ']) [] none none none))
        none none none] := by
    rw [List.mapM_cons, haltT]
    rfl
  rw [hroot]
  exact toTree_node hgetp rfl rfl rfl hcs1

theorem charEvsR_eq (src : String) : ∀ (n a : Nat),
    (List.range n).map (fun i => Ev.character (a + i) (a + i + 1)
      (charCodeAt (src.data.getD (a + i) ' '))) = charEvsR src a n := by
  intro n
  induction n with
  | zero => intro a; rfl
  | succ n ih =>
    intro a
    rw [List.range_succ_eq_map, List.map_cons, List.map_map, charEvsR]
    simp only [Nat.add_zero]
    congr 1
    rw [← ih (a + 1)]
    apply List.map_congr_left
    intro i hi
    have h1 : a + (i + 1) = a + 1 + i := by omega
    simp only [Function.comp, Nat.succ_eq_add_one, h1]

theorem charNodesR_length (src : String) (pid : Nat) : ∀ (n a : Nat),
    (charNodesR src pid a n).length = n := by
  intro n
  induction n with
  | zero => intro a; rfl
  | succ n ih =>
    intro a
    rw [charNodesR]
    simp [ih (a + 1)]

theorem charNodesR_get? (src : String) (pid : Nat) : ∀ (n a i : Nat),
    i < n → (charNodesR src pid a n).get? i = some
      { kind := .character (charCodeAt (src.data.getD (a + i) ' ')),
        parent := some pid, nstart := a + i, nend := a + i + 1,
        raw := sliceCU src (a + i) (a + i + 1), children := [] } := by
  intro n
  induction n with
  | zero =>
    intro a i hi
    exact absurd hi (Nat.not_lt_zero i)
  | succ n ih =>
    intro a i hi
    cases i with
    | zero =>
      rw [charNodesR]
      simp
    | succ i =>
      rw [charNodesR]
      have h1 : a + (i + 1) = a + 1 + i := by omega
      rw [List.get?_cons_succ, ih (a + 1) i (Nat.lt_of_succ_lt_succ hi), h1]

theorem charFold_node (src : String) (pid : Nat) : ∀ (n a : Nat) (s : PState),
    (charFold src pid a n s).node = s.node := by
  intro n
  induction n with
  | zero => intro a s; rfl
  | succ n ih =>
    intro a s
    cases hA : getN s pid with
    | none => simp only [charFold, hA]
    | some A =>
      simp only [charFold, hA]
      rw [ih]
      rfl

theorem charFold_source (src : String) (pid : Nat) :
    ∀ (n a : Nat) (s : PState),
    (charFold src pid a n s).source = s.source := by
  intro n
  induction n with
  | zero => intro a s; rfl
  | succ n ih =>
    intro a s
    cases hA : getN s pid with
    | none => simp only [charFold, hA]
    | some A =>
      simp only [charFold, hA]
      rw [ih]
      rfl

theorem charFold_backreferences (src : String) (pid : Nat) :
    ∀ (n a : Nat) (s : PState),
    (charFold src pid a n s).backreferences = s.backreferences := by
  intro n
  induction n with
  | zero => intro a s; rfl
  | succ n ih =>
    intro a s
    cases hA : getN s pid with
    | none => simp only [charFold, hA]
    | some A =>
      simp only [charFold, hA]
      rw [ih]
      rfl
theorem set_self {α : Type} (l : List α) (i : Nat) (x : α)
    (h : l.get? i = some x) : l.set i x = l := by
  have hl : i < l.length := by
    by_contra hc
    rw [List.get?_eq_none.mpr (Nat.le_of_not_lt hc)] at h
    exact Option.noConfusion h
  apply List.ext_getElem?
  intro n
  rw [List.getElem?_set]
  by_cases hin : i = n
  · subst hin
    rw [if_pos rfl, ← List.get?_eq_getElem?, h]
    simp [hl]
  · rw [if_neg hin]

theorem pushChild_getN_parent {s : PState} {pid : Nat} {p : NodeObj}
    (o : NodeObj) (hp : getN s pid = some p) :
    getN (pushChild s pid p o).1 pid =
      some { p with children := p.children ++ [(alloc s o).2] } := by
  show getN (setN (alloc s o).1 pid _) pid = _
  have hpa : getN (alloc s o).1 pid = some p := by
    rw [getN_alloc, if_neg (Nat.ne_of_lt (getN_lt hp))]
    exact hp
  exact getN_setN_self _ hpa

theorem run_charEvsR (src : String) (pid : Nat) : ∀ (n a : Nat) (s : PState)
    (A : NodeObj), s.node = some pid → getN s pid = some A →
    A.kind = .alternative → s.source = src →
    run s (charEvsR src a n) = .ok (charFold src pid a n s) := by
  intro n
  induction n with
  | zero =>
    intro a s A hn hA hk hsrc
    rfl
  | succ n ih =>
    intro a s A hn hA hk hsrc
    have hstep : step s (Ev.character a (a + 1)
        (charCodeAt (src.data.getD a ' '))) =
        .ok (pushChild s pid A
          { kind := .character (charCodeAt (src.data.getD a ' ')),
            parent := some pid, nstart := a, nend := a + 1,
            raw := sliceCU src a (a + 1), children := [] }).1 := by
      show onCharacter s a (a + 1) (charCodeAt (src.data.getD a ' ')) = _
      simp only [onCharacter, hn, hA]
      rw [if_pos (Or.inl hk), hsrc]
    have hA2 := pushChild_getN_parent
      { kind := .character (charCodeAt (src.data.getD a ' ')),
        parent := some pid, nstart := a, nend := a + 1,
        raw := sliceCU src a (a + 1), children := [] } hA
    have hrest := ih (a + 1) _ _ (by rw [← hn]; rfl) hA2 hk (by rw [← hsrc]; rfl)
    rw [charEvsR, run, List.foldlM_cons, hstep]
    rw [charFold, hA]
    exact hrest
theorem charFold_heap (src : String) (pid : Nat) : ∀ (n a : Nat) (s : PState)
    (A : NodeObj), getN s pid = some A →
    (charFold src pid a n s).heap =
      s.heap.set pid
        { A with
          children := A.children ++ List.range' s.heap.length n } ++
        charNodesR src pid a n := by
  intro n
  induction n with
  | zero =>
    intro a s A hA
    simp only [charFold, charNodesR, List.range', List.append_nil]
    have he : ({ A with children := A.children } : NodeObj) = A := rfl
    rw [he, set_self s.heap pid A hA]
  | succ n ih =>
    intro a s A hA
    have hpl : pid < s.heap.length := getN_lt hA
    simp only [charFold, hA]
    have hA2 := pushChild_getN_parent
      { kind := .character (charCodeAt (src.data.getD a ' ')),
        parent := some pid, nstart := a, nend := a + 1,
        raw := sliceCU src a (a + 1), children := [] } hA
    rw [ih (a + 1) _ _ hA2]
    have h1 : (pushChild s pid A
        { kind := .character (charCodeAt (src.data.getD a ' ')),
          parent := some pid, nstart := a, nend := a + 1,
          raw := sliceCU src a (a + 1), children := [] }).1.heap =
        (s.heap ++
          [({ kind := .character (charCodeAt (src.data.getD a ' ')),
              parent := some pid, nstart := a, nend := a + 1,
              raw := sliceCU src a (a + 1), children := [] } : NodeObj)]).set
          pid
          { A with
            children := A.children ++
              [(alloc s
                { kind := .character (charCodeAt (src.data.getD a ' ')),
                  parent := some pid, nstart := a, nend := a + 1,
                  raw := sliceCU src a (a + 1), children := [] }).2] } := rfl
    rw [h1, List.set_set, List.set_append_left _ _ hpl]
    simp only [charNodesR, List.length_set, List.length_append,
      List.length_cons, List.length_nil, List.append_assoc,
      List.singleton_append, List.range'_succ, alloc_snd, Nat.add_zero,
      Nat.zero_add]
theorem charFold_eq_setHeap (src : String) (pid : Nat) :
    ∀ (n a : Nat) (s : PState),
    charFold src pid a n s = { s with heap := (charFold src pid a n s).heap } := by
  intro n
  induction n with
  | zero => intro a s; rfl
  | succ n ih =>
    intro a s
    cases hA : getN s pid with
    | none => simp only [charFold, hA]
    | some A =>
      simp only [charFold, hA]
      rw [ih (a + 1)]
      rfl

/-- Running the spec-modelled simple-literal stream: the assembler
produces one Pattern over one Alternative over one Character node per
code unit, and its structural tree is `simpleTree`. -/
theorem run_simpleStream (source : String) (start fin : Nat) (strict : Bool)
    (ecma : Nat) (hsf : start ≤ fin) (hfl : fin ≤ source.data.length) :
    ∃ st, run (initState source strict ecma) (simpleStream source start fin) =
      .ok st ∧ st.node = some 0 ∧
      toTree st.heap 3 0 = some (simpleTree source start fin) := by
  refine
    ⟨{ heap := simpleHeap source start fin, node := some 0, flagsv := none,
       backreferences := [], capturingGroups := [], exprBuffer := [],
       source := source, strict := strict, ecmaVersion := ecma },
     ?_, rfl, ?_⟩
  · show run
      { heap :=
        { kind := .pattern, parent := none, nstart := start, nend := start,
          raw := "", children := [1] } ::
        [{ kind := .alternative, parent := some 0, nstart := start,
           nend := start, raw := "", children := [] }],
        node := some 1, flagsv := none, backreferences := [],
        capturingGroups := [], exprBuffer := [], source := source,
        strict := strict, ecmaVersion := ecma }
      ((List.range (fin - start)).map (fun i =>
        Ev.character (start + i) (start + i + 1)
          (charCodeAt (source.data.getD (start + i) ' '))) ++
       [Ev.alternativeLeave start fin, Ev.patternLeave start fin]) = _
    rw [charEvsR_eq source (fin - start) start]
    rw [run, List.foldlM_append]
    have hSF0 : charFold source 1 start (fin - start)
        { heap :=
          { kind := .pattern, parent := none, nstart := start, nend := start,
            raw := "", children := [1] } ::
          [{ kind := .alternative, parent := some 0, nstart := start,
             nend := start, raw := "", children := [] }],
          node := some 1, flagsv := none, backreferences := [],
          capturingGroups := [], exprBuffer := [], source := source,
          strict := strict, ecmaVersion := ecma } =
        { heap :=
          { kind := .pattern, parent := none, nstart := start, nend := start,
            raw := "", children := [1] } ::
          { kind := .alternative, parent := some 0, nstart := start,
            nend := start, raw := "",
            children := List.range' 2 (fin - start) } ::
          charNodesR source 1 start (fin - start),
          node := some 1, flagsv := none, backreferences := [],
          capturingGroups := [], exprBuffer := [], source := source,
          strict := strict, ecmaVersion := ecma } := by
      rw [charFold_eq_setHeap, charFold_heap source 1 (fin - start) start
        { heap :=
          { kind := .pattern, parent := none, nstart := start, nend := start,
            raw := "", children := [1] } ::
          [{ kind := .alternative, parent := some 0, nstart := start,
             nend := start, raw := "", children := [] }],
          node := some 1, flagsv := none, backreferences := [],
          capturingGroups := [], exprBuffer := [], source := source,
          strict := strict, ecmaVersion := ecma }
        { kind := .alternative, parent := some 0, nstart := start,
          nend := start, raw := "", children := [] } rfl]
      rfl
    have hmid : List.foldlM step
        { heap :=
          { kind := .pattern, parent := none, nstart := start, nend := start,
            raw := "", children := [1] } ::
          [{ kind := .alternative, parent := some 0, nstart := start,
             nend := start, raw := "", children := [] }],
          node := some 1, flagsv := none, backreferences := [],
          capturingGroups := [], exprBuffer := [], strict := strict,
          source := source, ecmaVersion := ecma }
        (charEvsR source start (fin - start)) = .ok
        { heap :=
          { kind := .pattern, parent := none, nstart := start, nend := start,
            raw := "", children := [1] } ::
          { kind := .alternative, parent := some 0, nstart := start,
            nend := start, raw := "",
            children := List.range' 2 (fin - start) } ::
          charNodesR source 1 start (fin - start),
          node := some 1, flagsv := none, backreferences := [],
          capturingGroups := [], exprBuffer := [], source := source,
          strict := strict, ecmaVersion := ecma } := by
      have h := run_charEvsR source 1 (fin - start) start
        { heap :=
          { kind := .pattern, parent := none, nstart := start, nend := start,
            raw := "", children := [1] } ::
          [{ kind := .alternative, parent := some 0, nstart := start,
             nend := start, raw := "", children := [] }],
          node := some 1, flagsv := none, backreferences := [],
          capturingGroups := [], exprBuffer := [], source := source,
          strict := strict, ecmaVersion := ecma }
        { kind := .alternative, parent := some 0, nstart := start,
          nend := start, raw := "", children := [] } rfl rfl rfl rfl
      rw [hSF0] at h
      exact h
    rw [hmid]
    rfl
  · show toTree (simpleHeap source start fin) 3 0 =
      some (simpleTree source start fin)
    have hgetc : ∀ i, i < fin - start →
        (simpleHeap source start fin).get? (2 + i) = some
          { kind := .character (charCodeAt (source.data.getD (start + i) ' ')),
            parent := some 1, nstart := start + i, nend := start + i + 1,
            raw := sliceCU source (start + i) (start + i + 1),
            children := [] } := by
      intro i hi
      rw [simpleHeap, show 2 + i = i + 1 + 1 by omega, List.get?_cons_succ,
        List.get?_cons_succ]
      exact charNodesR_get? source 1 (fin - start) start i hi
    have hchars : (List.range' 2 (fin - start)).mapM
        (toTree (simpleHeap source start fin) 1) =
        some ((List.range (fin - start)).map (fun i =>
          Tree.mk (.character (charCodeAt (source.data.getD (start + i) ' ')))
            (start + i) (start + i + 1)
            (String.mk [source.data.getD (start + i) ' ']) []
            none none none)) := by
      refine mapM_toTree_range' (fin - start) _ 2 ?_
      intro i hi
      have hlt : start + i < source.data.length := by omega
      have h2 : toTree (simpleHeap source start fin) 1 (2 + i) = some
          (.mk (.character (charCodeAt (source.data.getD (start + i) ' ')))
            (start + i) (start + i + 1)
            (sliceCU source (start + i) (start + i + 1)) [] none none none) :=
        toTree_leaf (hgetc i hi) rfl rfl rfl rfl
      rw [slice_one hlt] at h2
      exact h2
    have hget1 : (simpleHeap source start fin).get? 1 = some
        { kind := .alternative, parent := some 0, nstart := start,
          nend := fin, raw := sliceCU source start fin,
          children := List.range' 2 (fin - start) } := rfl
    have halt : toTree (simpleHeap source start fin) 2 1 = some
        (.mk .alternative start fin (sliceCU source start fin)
          ((List.range (fin - start)).map (fun i =>
            Tree.mk (.character
                (charCodeAt (source.data.getD (start + i) ' ')))
              (start + i) (start + i + 1)
              (String.mk [source.data.getD (start + i) ' ']) []
              none none none)) none none none) :=
      toTree_node hget1 rfl rfl rfl hchars
    have hget0 : (simpleHeap source start fin).get? 0 = some
        { kind := .pattern, parent := none, nstart := start, nend := fin,
          raw := sliceCU source start fin, children := [1] } := rfl
    have hcs0 : ([1] : List Nat).mapM
        (toTree (simpleHeap source start fin) 2) = some
        [.mk .alternative start fin (sliceCU source start fin)
          ((List.range (fin - start)).map (fun i =>
            Tree.mk (.character
                (charCodeAt (source.data.getD (start + i) ' ')))
              (start + i) (start + i + 1)
              (String.mk [source.data.getD (start + i) ' ']) []
              none none none)) none none none] := by
      rw [List.mapM_cons, halt]
      rfl
    exact toTree_node hget0 rfl rfl rfl hcs0
/-- C10: on a word-character slice, `parsePattern` returns the
fast-path AST before cache or validator are consulted (for every event
oracle and every option/flag combination, with the cache unchanged);
that AST is one Pattern over one Alternative over single-code-unit
Character nodes (`simpleTree`); and the full validator-plus-assembler
path on the spec-modelled stream yields a structurally equal AST
(`toTree` ignores node identity and `parent` links). -/
theorem c10_simple_literal_fast_path (source : String) (start fin : Nat)
    (p : ParserOpts) (cache : List (String × (List NodeObj × Nat)))
    (flags : PatFlags) (evs : List Ev)
    (hsimple : isSimpleLiteral (sliceCU source start fin) = true)
    (hsf : start ≤ fin) (hfl : fin ≤ source.data.length) :
    parsePattern p cache source start fin flags evs =
      .ok (.fastR (createSimpleLiteralAST (sliceCU source start fin)
          start fin).1
        (createSimpleLiteralAST (sliceCU source start fin) start fin).2,
        cache) ∧
    toTree (createSimpleLiteralAST (sliceCU source start fin) start fin).1 3
      (createSimpleLiteralAST (sliceCU source start fin) start fin).2 =
      some (simpleTree source start fin) ∧
    (∃ st, run (initState source p.strict p.ecmaVersion)
        (simpleStream source start fin) = .ok st ∧ st.node = some 0 ∧
      toTree st.heap 3 0 = some (simpleTree source start fin)) := by
  refine ⟨?_, ?_, ?_⟩
  · simp only [parsePattern, tryFastPath, hsimple, if_true]
  · have hlen : (sliceCU source start fin).data.length = fin - start := by
      show ((source.data.drop start).take (fin - start)).length = fin - start
      rw [List.length_take, List.length_drop]
      omega
    have hgd : ∀ i ∈ List.range (fin - start),
        Tree.mk (.character
            (charCodeAt ((sliceCU source start fin).data.getD i ' ')))
          (start + i) (start + i + 1)
          (String.mk [(sliceCU source start fin).data.getD i ' '])
          ([] : List Tree) none none none =
        Tree.mk (.character (charCodeAt (source.data.getD (start + i) ' ')))
          (start + i) (start + i + 1)
          (String.mk [source.data.getD (start + i) ' '])
          ([] : List Tree) none none none := by
      intro i hi
      have hi2 := List.mem_range.mp hi
      have hdata : (sliceCU source start fin).data =
          (source.data.drop start).take (fin - start) := rfl
      have hgd2 : (sliceCU source start fin).data.getD i ' ' =
          source.data.getD (start + i) ' ' := by
        rw [hdata, List.getD, List.getD, List.get?_eq_getElem?,
          List.get?_eq_getElem?, List.getElem?_take_of_lt hi2,
          List.getElem?_drop]
      rw [hgd2]
    rw [toTree_createSimple, simpleTree, hlen, List.map_congr_left hgd]
  · exact run_simpleStream source start fin p.strict p.ecmaVersion hsf hfl
/-- C10 witness: the slice `"ab"` takes the fast path with an unchanged
cache, its AST is the canonical simple tree, and the assembler run on
the modelled stream agrees. -/
theorem c10_simple_literal_fast_path_witness :
    parsePattern {} [] "ab" 0 2 {} [] =
      .ok (.fastR (createSimpleLiteralAST (sliceCU "ab" 0 2) 0 2).1
        (createSimpleLiteralAST (sliceCU "ab" 0 2) 0 2).2, []) ∧
    toTree (createSimpleLiteralAST (sliceCU "ab" 0 2) 0 2).1 3
      (createSimpleLiteralAST (sliceCU "ab" 0 2) 0 2).2 =
      some (simpleTree "ab" 0 2) ∧
    (∃ st, run (initState "ab" ({} : ParserOpts).strict
        ({} : ParserOpts).ecmaVersion) (simpleStream "ab" 0 2) = .ok st ∧
      st.node = some 0 ∧ toTree st.heap 3 0 = some (simpleTree "ab" 0 2)) :=
  c10_simple_literal_fast_path "ab" 0 2 {} [] {} [] (by decide) (by decide)
    (by decide)

/-! ### C7/C8 helper lemmas -/

theorem sliceCU_self (src : String) (a : Nat) : sliceCU src a a = "" := by
  simp [sliceCU]

theorem nodup_getLast?_not_mem_dropLast {l : List Nat} {x : Nat}
    (hnd : l.Nodup) (hx : l.getLast? = some x) : x ∉ l.dropLast := by
  intro hmem
  have hsplit : l.dropLast ++ [x] = l := List.dropLast_append_getLast? x hx
  rw [← hsplit] at hnd
  rcases List.nodup_append.mp hnd with ⟨-, -, hdisj⟩
  exact hdisj hmem (List.mem_singleton_self x)

theorem PathTo_head {s : PState} {i : Nat} {P : List Nat}
    (h : PathTo s i P) : ∃ r, P = i :: r := by
  cases h with
  | root h1 h2 => exact ⟨[], rfl⟩
  | step h1 h2 h3 => exact ⟨_, rfl⟩

theorem PathTo_mem_lt {s : PState} {i : Nat} {P : List Nat}
    (h : PathTo s i P) : ∀ j ∈ P, j < s.heap.length := by
  induction h with
  | root h1 h2 =>
    intro j hj
    rw [List.mem_singleton] at hj
    subst hj
    exact getN_lt h1
  | step h1 h2 h3 ih =>
    intro j hj
    rcases List.mem_cons.mp hj with hj | hj
    · subst hj
      exact getN_lt h1
    · exact ih j hj

theorem PathTo_suffix {s : PState} {i : Nat} {P : List Nat}
    (h : PathTo s i P) : ∀ j ∈ P, ∃ Q, Q <:+ P ∧ PathTo s j Q := by
  induction h with
  | root h1 h2 =>
    intro j hj
    rw [List.mem_singleton] at hj
    subst hj
    exact ⟨[j], List.suffix_refl _, PathTo.root h1 h2⟩
  | step h1 h2 h3 ih =>
    intro j hj
    rcases List.mem_cons.mp hj with hj | hj
    · subst hj
      exact ⟨_, List.suffix_refl _, PathTo.step h1 h2 h3⟩
    · rcases ih j hj with ⟨Q, hQ, hp⟩
      exact ⟨Q, hQ.trans (List.suffix_cons _ _), hp⟩

theorem PathTo_parent_mem {s : PState} {i : Nat} {P : List Nat}
    (h : PathTo s i P) : ∀ j ∈ P, ∀ jo q, getN s j = some jo →
      jo.parent = some q → q ∈ P := by
  induction h with
  | root h1 h2 =>
    intro j hj jo q hget hq
    rw [List.mem_singleton] at hj
    subst hj
    rw [h1] at hget
    injection hget with he
    subst he
    rw [h2] at hq
    exact Option.noConfusion hq
  | step h1 h2 h3 ih =>
    intro j hj jo q hget hq
    rcases List.mem_cons.mp hj with hj | hj
    · subst hj
      rw [h1] at hget
      injection hget with he
      subst he
      rw [h2] at hq
      injection hq with he
      subst he
      rcases PathTo_head h3 with ⟨r, hr⟩
      subst hr
      exact List.mem_cons_of_mem _ (List.mem_cons_self _ _)
    · exact List.mem_cons_of_mem _ (ih j hj jo q hget hq)

/-- A node whose `parent` pointer is the chain head is not on the
chain. -/
theorem child_not_mem {s : PState} {pid : Nat} {P : List Nat} {c : Nat}
    {co : NodeObj} (hpath : PathTo s pid P) (hnd : P.Nodup)
    (hco : getN s c = some co) (hcp : co.parent = some pid) : c ∉ P := by
  intro hc
  rcases PathTo_head hpath with ⟨t, ht⟩
  have hpidt : pid ∉ t := by
    rw [ht] at hnd
    exact (List.nodup_cons.mp hnd).1
  rcases PathTo_suffix hpath c hc with ⟨Q, hQ, hPc⟩
  cases hPc with
  | root h1 h2 =>
    rw [hco] at h1
    injection h1 with he
    subst he
    rw [hcp] at h2
    exact Option.noConfusion h2
  | step h1 h2 h3 =>
    rw [hco] at h1
    injection h1 with he
    subst he
    rw [hcp] at h2
    injection h2 with he
    subst he
    rcases PathTo_head h3 with ⟨r, hr⟩
    subst hr
    rw [ht] at hQ
    rcases List.suffix_cons_iff.mp hQ with heq | hsuf
    · have hmem : pid ∈ t := by
        have h2' := (List.cons.injEq _ _ _ _).mp heq
        rw [← h2'.2]
        exact List.mem_cons_self _ _
      exact hpidt hmem
    · have hmem : pid ∈ t :=
        hsuf.subset (List.mem_cons_of_mem _ (List.mem_cons_self _ _))
      exact hpidt hmem

theorem PathTo_transport {s s2 : PState} {i : Nat} {P : List Nat}
    (h : PathTo s i P)
    (hpres : ∀ j ∈ P, ∀ jo, getN s j = some jo →
      ∃ jo2, getN s2 j = some jo2 ∧ jo2.parent = jo.parent) :
    PathTo s2 i P := by
  induction h with
  | root h1 h2 =>
    rcases hpres _ (List.mem_singleton_self _) _ h1 with ⟨o2, ho2, hp⟩
    exact PathTo.root ho2 (hp.trans h2)
  | step h1 h2 h3 ih =>
    rcases hpres _ (List.mem_cons_self _ _) _ h1 with ⟨o2, ho2, hp⟩
    exact PathTo.step ho2 (hp.trans h2)
      (ih (fun j hj jo hjo => hpres j (List.mem_cons_of_mem _ hj) jo hjo))

theorem fieldPres_refl (s : PState) : fieldPres s s :=
  ⟨rfl, rfl, rfl, rfl, fun j o h => ⟨o, h, rfl, rfl, rfl, rfl, rfl⟩⟩

theorem fieldPres_trans {s1 s2 s3 : PState} (h12 : fieldPres s1 s2)
    (h23 : fieldPres s2 s3) : fieldPres s1 s3 := by
  obtain ⟨hn12, hs12, he12, hl12, hf12⟩ := h12
  obtain ⟨hn23, hs23, he23, hl23, hf23⟩ := h23
  refine ⟨hn23.trans hn12, hs23.trans hs12, he23.trans he12,
    hl23.trans hl12, ?_⟩
  intro j o h
  rcases hf12 j o h with ⟨o2, ho2, hp2, hs2, hn2, hr2, hc2⟩
  rcases hf23 j o2 ho2 with ⟨o3, ho3, hp3, hs3, hn3, hr3, hc3⟩
  exact ⟨o3, ho3, hp3.trans hp2, hs3.trans hs2, hn3.trans hn2,
    hr3.trans hr2, hc3.trans hc2⟩

/-- The reverse direction of `fieldPres`: every node of the evolved
heap comes from a node of the old heap with the same structural
fields. -/
theorem fieldPres_back {s s2 : PState} (h : fieldPres s s2) :
    ∀ j o2, getN s2 j = some o2 → ∃ o, getN s j = some o ∧
      o2.parent = o.parent ∧ o2.nstart = o.nstart ∧ o2.nend = o.nend ∧
      o2.raw = o.raw ∧ o2.children = o.children := by
  intro j o2 ho2
  obtain ⟨-, -, -, hl, hf⟩ := h
  have hlt : j < s.heap.length := by
    rw [← hl]
    exact getN_lt ho2
  have ho : getN s j = some (s.heap.get ⟨j, hlt⟩) := List.get?_eq_get hlt
  rcases hf j _ ho with ⟨o2', ho2', hp, hs, hn, hr, hc⟩
  rw [ho2] at ho2'
  injection ho2' with he
  subst he
  exact ⟨_, ho, hp, hs, hn, hr, hc⟩

/-- `GInv` transports across a structural-field-preserving evolution. -/
theorem GInv_fieldPres {s s2 : PState} {pos : Nat} {P : List Nat}
    (hg : GInv s pos P) (hf : fieldPres s s2) : GInv s2 pos P := by
  obtain ⟨hnode, hsrc, hbuf, hlen, hfwd⟩ := hf
  have hback := fieldPres_back ⟨hnode, hsrc, hbuf, hlen, hfwd⟩
  refine ⟨?_, hg.nodup, ?_, ?_, ?_, ?_, ?_, ?_, ?_, ?_⟩
  · show PathOk s2 P
    rw [PathOk, hnode]
    have hp := hg.path
    rw [PathOk] at hp
    cases hsn : s.node with
    | none =>
      rw [hsn] at hp
      exact hp
    | some i =>
      rw [hsn] at hp
      exact PathTo_transport hp
        (fun j hj jo hjo => by
          rcases hfwd j jo hjo with ⟨jo2, hjo2, hpp, -⟩
          exact ⟨jo2, hjo2, hpp⟩)
  · intro i o2 h
    rcases hback i o2 h with ⟨o, ho, hp, hs, hn, hr, hc⟩
    rw [hsrc, hr, hs, hn]
    exact hg.raws i o ho
  · intro i o2 h
    rcases hback i o2 h with ⟨o, ho, hp, hs, hn, hr, hc⟩
    rw [hs, hn]
    exact hg.bounds i o ho
  · intro i o2 h c hc
    rcases hback i o2 h with ⟨o, ho, hp, hs, hn, hr, hcs⟩
    rw [hcs] at hc
    rcases hg.kids i o ho c hc with ⟨co, hco, hcp⟩
    rcases hfwd c co hco with ⟨co2, hco2, hcp2, -⟩
    exact ⟨co2, hco2, hcp2.trans hcp⟩
  · intro i o2 h
    rcases hback i o2 h with ⟨o, ho, hp, hs, hn, hr, hcs⟩
    rw [hcs]
    exact hg.kidsNodup i o ho
  · intro i o2 p h hp2
    rcases hback i o2 h with ⟨o, ho, hp, hs, hn, hr, hcs⟩
    rw [hp] at hp2
    rcases hg.pstart i o p ho hp2 with ⟨po, hpo, hps⟩
    rcases hfwd p po hpo with ⟨po2, hpo2, hpp2, hps2, hrest⟩
    refine ⟨po2, hpo2, ?_⟩
    rw [hps2, hs]
    exact hps
  · intro i o2 p po2 h hip hp2 hpo2 hpp
    rcases hback i o2 h with ⟨o, ho, hpar, hs, hn, hr, hcs⟩
    rcases hback p po2 hpo2 with ⟨po, hpo, -, -, hpn, -, -⟩
    rw [hpar] at hp2
    rw [hn, hpn]
    exact hg.closedEnd i o p po ho hip hp2 hpo hpp
  · intro pr hpr
    rw [hbuf] at hpr
    rcases hg.buf pr hpr with ⟨eo, heo, hep⟩
    rcases hfwd pr.2 eo heo with ⟨eo2, heo2, hep2, -⟩
    exact ⟨eo2, heo2, hep2.trans hep⟩
  · intro pr hpr j jo2 hj
    rw [hbuf] at hpr
    rcases hback j jo2 hj with ⟨jo, hjo, -, -, -, -, hcs⟩
    rw [hcs]
    exact hg.bufNotChild pr hpr j jo hjo



theorem fieldPres_setN {s : PState} {i : Nat} {o : NodeObj} (o2 : NodeObj)
    (h : getN s i = some o) (hp : o2.parent = o.parent)
    (hs : o2.nstart = o.nstart) (hn : o2.nend = o.nend) (hr : o2.raw = o.raw)
    (hc : o2.children = o.children) : fieldPres s (setN s i o2) := by
  refine ⟨rfl, rfl, rfl, by simp, ?_⟩
  intro j jo hj
  by_cases hij : i = j
  · subst hij
    rw [h] at hj
    injection hj with he
    subst he
    exact ⟨o2, getN_setN_self o2 h, hp, hs, hn, hr, hc⟩
  · refine ⟨jo, ?_, rfl, rfl, rfl, rfl, rfl⟩
    rw [getN_setN_ne i o2 hij]
    exact hj

theorem pushReference_fieldPres {s s2 : PState} {gid rid : Nat}
    (h : pushReference s gid rid = .ok s2) : fieldPres s s2 := by
  rw [pushReference] at h
  split at h
  · rename_i g hg
    injection h with he
    subst he
    exact fieldPres_setN _ hg rfl rfl rfl rfl rfl
  · exact Except.noConfusion h

theorem pushReference_foldlM_fieldPres (rid : Nat) :
    ∀ (gids : List Nat) (st st2 : PState),
      gids.foldlM (fun st g => pushReference st g rid) st = .ok st2 →
      fieldPres st st2 := by
  intro gids
  induction gids with
  | nil =>
    intro st st2 h
    injection h with h2
    subst h2
    exact fieldPres_refl st
  | cons g rest ih =>
    intro st st2 h
    rw [List.foldlM_cons] at h
    cases hg : pushReference st g rid with
    | error e =>
      rw [hg] at h
      exact Except.noConfusion h
    | ok st1 =>
      rw [hg] at h
      exact fieldPres_trans (pushReference_fieldPres hg) (ih st1 st2 h)

theorem resolveOne_fieldPres {st st2 : PState} {rid : Nat}
    (h : resolveOne st rid = .ok st2) : fieldPres st st2 := by
  cases hr : getN st rid with
  | none => simp [resolveOne, hr] at h
  | some r =>
  cases hk : r.kind with
  | backreference ref amb res =>
    cases ref with
    | num k =>
      simp only [resolveOne, hr, hk] at h
      cases hcg : st.capturingGroups.get? (k - 1) with
      | none =>
        simp only [hcg] at h
        exact Except.noConfusion h
      | some gid =>
        simp only [hcg] at h
        exact fieldPres_trans
          (fieldPres_setN
            { r with kind := .backreference (.num k) false (.one gid) }
            hr rfl rfl rfl rfl rfl)
          (pushReference_fieldPres h)
    | name n =>
      simp only [resolveOne, hr, hk] at h
      cases hg : st.capturingGroups.filter
          (fun g => groupName st g == some n) with
      | nil =>
        simp only [hg] at h
        exact fieldPres_trans
          (fieldPres_setN
            { r with kind := .backreference (.name n) true (.many []) }
            hr rfl rfl rfl rfl rfl)
          (pushReference_foldlM_fieldPres rid [] _ _ h)
      | cons g1 grest =>
        cases grest with
        | nil =>
          simp only [hg] at h
          exact fieldPres_trans
            (fieldPres_setN
              { r with kind := .backreference (.name n) false (.one g1) }
              hr rfl rfl rfl rfl rfl)
            (pushReference_fieldPres h)
        | cons g2 grest2 =>
          simp only [hg] at h
          exact fieldPres_trans
            (fieldPres_setN
              { r with
                kind := .backreference (.name n) true
                  (.many (g1 :: g2 :: grest2)) }
              hr rfl rfl rfl rfl rfl)
            (pushReference_foldlM_fieldPres rid (g1 :: g2 :: grest2) _ _ h)
  | _ => simp [resolveOne, hr, hk] at h

theorem resolveOne_foldlM_fieldPres :
    ∀ (rids : List Nat) (st st2 : PState),
      rids.foldlM resolveOne st = .ok st2 → fieldPres st st2 := by
  intro rids
  induction rids with
  | nil =>
    intro st st2 h
    injection h with h2
    subst h2
    exact fieldPres_refl st
  | cons rid rest ih =>
    intro st st2 h
    rw [List.foldlM_cons] at h
    cases hr : resolveOne st rid with
    | error e =>
      rw [hr] at h
      exact Except.noConfusion h
    | ok st1 =>
      rw [hr] at h
      exact fieldPres_trans (resolveOne_fieldPres hr) (ih st1 st2 h)

/-- `pushChild` of a fresh node under the cursor preserves the offset
invariant, for any node whose extent is `[a, b]` at or beyond the scan
position with `raw` the matching slice. -/
theorem ginv_pushChild {s : PState} {pos : Nat} {P : List Nat} {pid : Nat}
    {p : NodeObj} {a b : Nat} (o : NodeObj) (hg : GInv s pos P)
    (hn : s.node = some pid) (hp : getN s pid = some p)
    (hpa : pos ≤ a) (hab : a ≤ b)
    (hop : o.parent = some pid) (hos : o.nstart = a) (hoe : o.nend = b)
    (hor : o.raw = sliceCU s.source a b) (hoc : o.children = []) :
    GInv (pushChild s pid p o).1 b P := by
  have hL : pid < s.heap.length := getN_lt hp
  have hpP : PathTo s pid P := by
    have h := hg.path
    rw [PathOk, hn] at h
    exact h
  have hpidP : pid ∈ P := by
    rcases PathTo_head hpP with ⟨t, ht⟩
    rw [ht]
    exact List.mem_cons_self _ _
  have hmemlt := PathTo_mem_lt hpP
  have hget : ∀ j, getN (pushChild s pid p o).1 j =
      if j = pid then some { p with children := p.children ++ [s.heap.length] }
      else if j = s.heap.length then some o else getN s j := by
    intro j
    show getN (setN (alloc s o).1 pid
      { p with children := p.children ++ [(alloc s o).2] }) j = _
    rw [getN_setN]
    by_cases hj : j = pid
    · subst hj
      rw [if_pos ⟨rfl, by rw [alloc_heap_length]; exact Nat.lt_succ_of_lt hL⟩,
        if_pos rfl]
      rfl
    · rw [if_neg (fun hh => hj hh.1.symm), if_neg hj, getN_alloc]
  refine ⟨?_, hg.nodup, ?_, ?_, ?_, ?_, ?_, ?_, ?_, ?_⟩
  · show PathOk (pushChild s pid p o).1 P
    have hnode2 : (pushChild s pid p o).1.node = some pid := hn
    rw [PathOk, hnode2]
    refine PathTo_transport hpP ?_
    intro j hj jo hjo
    by_cases hjp : j = pid
    · subst hjp
      rw [hp] at hjo
      injection hjo with he
      subst he
      refine ⟨{ p with children := p.children ++ [s.heap.length] }, ?_, rfl⟩
      rw [hget, if_pos rfl]
    · refine ⟨jo, ?_, rfl⟩
      have hjL : j ≠ s.heap.length := fun h2 =>
        Nat.lt_irrefl _ (h2 ▸ hmemlt j hj)
      rw [hget, if_neg hjp, if_neg hjL]
      exact hjo
  · intro i oi h
    rw [hget] at h
    by_cases hip : i = pid
    · rw [if_pos hip] at h
      injection h with he
      subst he
      exact hg.raws pid p hp
    · by_cases hiL : i = s.heap.length
      · rw [if_neg hip, if_pos hiL] at h
        injection h with he
        subst he
        rw [hor, hos, hoe]
        rfl
      · rw [if_neg hip, if_neg hiL] at h
        exact hg.raws i oi h
  · intro i oi h
    rw [hget] at h
    by_cases hip : i = pid
    · rw [if_pos hip] at h
      injection h with he
      subst he
      have hb := hg.bounds pid p hp
      exact ⟨hb.1, Nat.le_trans hb.2 (Nat.le_trans hpa hab)⟩
    · by_cases hiL : i = s.heap.length
      · rw [if_neg hip, if_pos hiL] at h
        injection h with he
        subst he
        rw [hos, hoe]
        exact ⟨hab, Nat.le_refl b⟩
      · rw [if_neg hip, if_neg hiL] at h
        have hb := hg.bounds i oi h
        exact ⟨hb.1, Nat.le_trans hb.2 (Nat.le_trans hpa hab)⟩
  · intro i oi h c hc
    rw [hget] at h
    by_cases hip : i = pid
    · subst hip
      rw [if_pos rfl] at h
      injection h with he
      subst he
      rcases List.mem_append.mp hc with hcm | hcm
      · rcases hg.kids i p hp c hcm with ⟨co, hco, hcp⟩
        have hcP : c ∉ P := child_not_mem hpP hg.nodup hco hcp
        have hcpid : c ≠ i := fun h2 => hcP (h2 ▸ hpidP)
        have hcL : c ≠ s.heap.length := fun h2 =>
          Nat.lt_irrefl _ (h2 ▸ getN_lt hco)
        refine ⟨co, ?_, hcp⟩
        rw [hget, if_neg hcpid, if_neg hcL]
        exact hco
      · rw [List.mem_singleton] at hcm
        subst hcm
        refine ⟨o, ?_, hop⟩
        have hLp : s.heap.length ≠ i := fun h2 => Nat.lt_irrefl i (h2 ▸ hL)
        rw [hget, if_neg hLp, if_pos rfl]
    · by_cases hiL : i = s.heap.length
      · rw [if_neg hip, if_pos hiL] at h
        injection h with he
        subst he
        rw [hoc] at hc
        exact absurd hc (List.not_mem_nil c)
      · rw [if_neg hip, if_neg hiL] at h
        rcases hg.kids i oi h c hc with ⟨co, hco, hcp⟩
        by_cases hcpid : c = pid
        · subst hcpid
          rw [hp] at hco
          injection hco with he
          subst he
          refine ⟨{ p with children := p.children ++ [s.heap.length] },
            ?_, hcp⟩
          rw [hget, if_pos rfl]
        · have hcL : c ≠ s.heap.length := fun h2 =>
            Nat.lt_irrefl _ (h2 ▸ getN_lt hco)
          refine ⟨co, ?_, hcp⟩
          rw [hget, if_neg hcpid, if_neg hcL]
          exact hco
  · intro i oi h
    rw [hget] at h
    by_cases hip : i = pid
    · rw [if_pos hip] at h
      injection h with he
      subst he
      show (p.children ++ [s.heap.length]).Nodup
      have hnd := hg.kidsNodup pid p hp
      have hnotin : s.heap.length ∉ p.children := fun hm => by
        rcases hg.kids pid p hp _ hm with ⟨co, hco, -⟩
        exact Nat.lt_irrefl _ (getN_lt hco)
      rw [List.nodup_append]
      exact ⟨hnd, List.nodup_singleton _,
        fun x hx hx2 => hnotin (by rwa [List.mem_singleton.mp hx2] at hx)⟩
    · by_cases hiL : i = s.heap.length
      · rw [if_neg hip, if_pos hiL] at h
        injection h with he
        subst he
        rw [hoc]
        exact List.nodup_nil
      · rw [if_neg hip, if_neg hiL] at h
        exact hg.kidsNodup i oi h
  · intro i oi q h hq
    rw [hget] at h
    by_cases hip : i = pid
    · rw [if_pos hip] at h
      injection h with he
      subst he
      have hq2 : p.parent = some q := hq
      rcases hg.pstart pid p q hp hq2 with ⟨qo, hqo, hqs⟩
      by_cases hqp : q = pid
      · subst hqp
        rw [hp] at hqo
        injection hqo with he2
        subst he2
        refine ⟨{ p with children := p.children ++ [s.heap.length] },
          ?_, hqs⟩
        rw [hget, if_pos rfl]
      · have hqL : q ≠ s.heap.length := fun h2 =>
          Nat.lt_irrefl _ (h2 ▸ getN_lt hqo)
        refine ⟨qo, ?_, hqs⟩
        rw [hget, if_neg hqp, if_neg hqL]
        exact hqo
    · by_cases hiL : i = s.heap.length
      · rw [if_neg hip, if_pos hiL] at h
        injection h with he
        subst he
        rw [hop] at hq
        injection hq with he2
        rw [← he2]
        refine ⟨{ p with children := p.children ++ [s.heap.length] },
          ?_, ?_⟩
        · rw [hget, if_pos rfl]
        · show p.nstart ≤ o.nstart
          rw [hos]
          have hb := hg.bounds pid p hp
          exact Nat.le_trans hb.1 (Nat.le_trans hb.2 hpa)
      · rw [if_neg hip, if_neg hiL] at h
        rcases hg.pstart i oi q h hq with ⟨qo, hqo, hqs⟩
        by_cases hqp : q = pid
        · subst hqp
          rw [hp] at hqo
          injection hqo with he
          subst he
          refine ⟨{ p with children := p.children ++ [s.heap.length] },
            ?_, hqs⟩
          rw [hget, if_pos rfl]
        · have hqL : q ≠ s.heap.length := fun h2 =>
            Nat.lt_irrefl _ (h2 ▸ getN_lt hqo)
          refine ⟨qo, ?_, hqs⟩
          rw [hget, if_neg hqp, if_neg hqL]
          exact hqo
  · intro i oi q qo h hiP hq hqo hqP
    rw [hget] at h
    by_cases hip : i = pid
    · exact absurd (hip ▸ hpidP) hiP
    · by_cases hiL : i = s.heap.length
      · rw [if_neg hip, if_pos hiL] at h
        injection h with he
        subst he
        rw [hop] at hq
        injection hq with he2
        exact absurd (he2 ▸ hpidP) hqP
      · rw [if_neg hip, if_neg hiL] at h
        rw [hget] at hqo
        by_cases hqp : q = pid
        · exact absurd (hqp ▸ hpidP) hqP
        · by_cases hqL : q = s.heap.length
          · subst hqL
            rcases hg.pstart i oi _ h hq with ⟨qo2, hqo2, -⟩
            exact absurd (getN_lt hqo2) (Nat.lt_irrefl _)
          · rw [if_neg hqp, if_neg hqL] at hqo
            exact hg.closedEnd i oi q qo h hiP hq hqo hqP
  · intro pr hpr
    have hpr2 : pr ∈ s.exprBuffer := hpr
    rcases hg.buf pr hpr2 with ⟨eo, heo, hep⟩
    by_cases hev : pr.2 = pid
    · rw [hev] at heo ⊢
      rw [hp] at heo
      injection heo with he
      subst he
      refine ⟨{ p with children := p.children ++ [s.heap.length] },
        ?_, hep⟩
      rw [hget, if_pos rfl]
    · have hevL : pr.2 ≠ s.heap.length := fun h2 =>
        Nat.lt_irrefl _ (h2 ▸ getN_lt heo)
      refine ⟨eo, ?_, hep⟩
      rw [hget, if_neg hev, if_neg hevL]
      exact heo
  · intro pr hpr j jo hj
    have hpr2 : pr ∈ s.exprBuffer := hpr
    rcases hg.buf pr hpr2 with ⟨eo, heo, -⟩
    have hvL : pr.2 < s.heap.length := getN_lt heo
    rw [hget] at hj
    by_cases hjp : j = pid
    · rw [if_pos hjp] at hj
      injection hj with he
      subst he
      intro hm
      rcases List.mem_append.mp hm with hm2 | hm2
      · exact hg.bufNotChild pr hpr2 pid p hp hm2
      · rw [List.mem_singleton] at hm2
        exact Nat.lt_irrefl _ (hm2 ▸ hvL)
    · by_cases hjL : j = s.heap.length
      · rw [if_neg hjp, if_pos hjL] at hj
        injection hj with he
        subst he
        rw [hoc]
        exact List.not_mem_nil _
      · rw [if_neg hjp, if_neg hjL] at hj
        exact hg.bufNotChild pr hpr2 j jo hj

/-- `pushChildFocus` of a fresh pristine node extends the cursor chain
and preserves the offset invariant. -/
theorem ginv_pushChildFocus {s : PState} {pos : Nat} {P : List Nat}
    {pid : Nat} {p : NodeObj} {a : Nat} (o : NodeObj) (hg : GInv s pos P)
    (hn : s.node = some pid) (hp : getN s pid = some p) (hpa : pos ≤ a)
    (hop : o.parent = some pid) (hos : o.nstart = a) (hoe : o.nend = a)
    (hor : o.raw = "") (hoc : o.children = []) :
    GInv (pushChildFocus s pid p o).1 a (s.heap.length :: P) := by
  have hor2 : o.raw = sliceCU s.source a a := by
    rw [hor, sliceCU_self]
  have hbase := ginv_pushChild o hg hn hp hpa (Nat.le_refl a) hop hos hoe
    hor2 hoc
  have hpP : PathTo s pid P := by
    have h := hg.path
    rw [PathOk, hn] at h
    exact h
  have hLP : s.heap.length ∉ P := fun hm =>
    Nat.lt_irrefl _ (PathTo_mem_lt hpP _ hm)
  have hL : pid < s.heap.length := getN_lt hp
  have hgetL : getN (pushChild s pid p o).1 s.heap.length = some o := by
    show getN (setN (alloc s o).1 pid
      { p with children := p.children ++ [(alloc s o).2] }) s.heap.length =
      some o
    have hne : ¬(pid = s.heap.length ∧
        pid < (alloc s o).1.heap.length) := by
      intro hh
      rw [hh.1] at hL
      exact Nat.lt_irrefl _ hL
    rw [getN_setN, if_neg hne, getN_alloc, if_pos rfl]
  refine ⟨?_, List.nodup_cons.mpr ⟨hLP, hg.nodup⟩, ?_, ?_, ?_, ?_, ?_, ?_,
    ?_, ?_⟩
  · show PathOk (pushChildFocus s pid p o).1 (s.heap.length :: P)
    have hnode : (pushChildFocus s pid p o).1.node =
        some s.heap.length := rfl
    rw [PathOk, hnode]
    refine PathTo.step hgetL hop ?_
    have hpOk := hbase.path
    rw [PathOk] at hpOk
    have hnode1 : (pushChild s pid p o).1.node = some pid := hn
    rw [hnode1] at hpOk
    exact PathTo_transport hpOk (fun j hj jo hjo => ⟨jo, hjo, rfl⟩)
  · intro i oi h
    exact hbase.raws i oi h
  · intro i oi h
    exact hbase.bounds i oi h
  · intro i oi h c hc
    exact hbase.kids i oi h c hc
  · intro i oi h
    exact hbase.kidsNodup i oi h
  · intro i oi q h hq
    exact hbase.pstart i oi q h hq
  · intro i oi q qo h hiP hq hqo hqP
    exact hbase.closedEnd i oi q qo h
      (fun hm => hiP (List.mem_cons_of_mem _ hm)) hq hqo
      (fun hm => hqP (List.mem_cons_of_mem _ hm))
  · intro pr hpr
    exact hbase.buf pr hpr
  · intro pr hpr j jo hj
    exact hbase.bufNotChild pr hpr j jo hj

/-- Inversion of the cursor chain at its head. -/
theorem PathTo_inv {s : PState} {i : Nat} {P : List Nat} {o : NodeObj}
    (h : PathTo s i P) (ho : getN s i = some o) :
    (o.parent = none ∧ P = [i]) ∨
    (∃ q rest, o.parent = some q ∧ P = i :: rest ∧ PathTo s q rest) := by
  cases h with
  | root h1 h2 =>
    rw [ho] at h1
    injection h1 with he
    subst he
    exact Or.inl ⟨h2, rfl⟩
  | step h1 h2 h3 =>
    rw [ho] at h1
    injection h1 with he
    subst he
    exact Or.inr ⟨_, _, h2, rfl, h3⟩

/-- `leaveToParent` under the cursor-start contract pops the chain head
and preserves the offset invariant. -/
theorem ginv_leaveToParent {s : PState} {pos : Nat} {P : List Nat} {i : Nat}
    {o : NodeObj} {a b : Nat} (hg : GInv s pos P) (hn : s.node = some i)
    (ho : getN s i = some o) (ha : o.nstart = a) (hpb : pos ≤ b) :
    GInv (leaveToParent s i o a b) b P.tail := by
  have hL : i < s.heap.length := getN_lt ho
  have hiP : PathTo s i P := by
    have h := hg.path
    rw [PathOk, hn] at h
    exact h
  rcases PathTo_head hiP with ⟨rest, hPr⟩
  have hiRest : i ∉ rest := by
    have h := hg.nodup
    rw [hPr] at h
    exact (List.nodup_cons.mp h).1
  have hrestnd : rest.Nodup := by
    have h := hg.nodup
    rw [hPr] at h
    exact (List.nodup_cons.mp h).2
  have htail : P.tail = rest := by
    rw [hPr]
    rfl
  have hget : ∀ j, getN (leaveToParent s i o a b) j =
      if j = i then some { o with nend := b, raw := sliceCU s.source a b }
      else getN s j := by
    intro j
    show getN (setN s i { o with nend := b, raw := sliceCU s.source a b }) j
      = _
    rw [getN_setN]
    by_cases hj : j = i
    · subst hj
      rw [if_pos ⟨rfl, hL⟩, if_pos rfl]
    · rw [if_neg (fun hh => hj hh.1.symm), if_neg hj]
  have hb := hg.bounds i o ho
  rw [htail]
  refine ⟨?_, hrestnd, ?_, ?_, ?_, ?_, ?_, ?_, ?_, ?_⟩
  · show PathOk (leaveToParent s i o a b) rest
    have hnode : (leaveToParent s i o a b).node = o.parent := rfl
    rw [PathOk, hnode]
    rcases PathTo_inv hiP ho with ⟨hpn, hPi⟩ | ⟨q, rest2, hpq, hPq, hq3⟩
    · rw [hpn]
      have h2 := hPr.symm.trans hPi
      injection h2 with h3 h4
    · rw [hpq]
      have hre : rest2 = rest := by
        have h2 := hPq.symm.trans hPr
        injection h2 with h3 h4
      subst hre
      refine PathTo_transport hq3 ?_
      intro j hj jo hjo
      have hjne : j ≠ i := fun h2 => hiRest (h2 ▸ hj)
      refine ⟨jo, ?_, rfl⟩
      rw [hget, if_neg hjne]
      exact hjo
  · intro j jo h
    rw [hget] at h
    by_cases hji : j = i
    · rw [if_pos hji] at h
      injection h with he
      subst he
      show sliceCU s.source a b =
        sliceCU (leaveToParent s i o a b).source o.nstart b
      rw [ha]
      rfl
    · rw [if_neg hji] at h
      exact hg.raws j jo h
  · intro j jo h
    rw [hget] at h
    by_cases hji : j = i
    · rw [if_pos hji] at h
      injection h with he
      subst he
      exact ⟨Nat.le_trans hb.1 (Nat.le_trans hb.2 hpb), Nat.le_refl b⟩
    · rw [if_neg hji] at h
      have hb2 := hg.bounds j jo h
      exact ⟨hb2.1, Nat.le_trans hb2.2 hpb⟩
  · intro j jo h c hc
    rw [hget] at h
    by_cases hji : j = i
    · rw [if_pos hji] at h
      injection h with he
      subst he
      subst hji
      have hc2 : c ∈ o.children := hc
      rcases hg.kids j o ho c hc2 with ⟨co, hco, hcp⟩
      by_cases hci : c = j
      · subst hci
        rw [ho] at hco
        injection hco with he2
        subst he2
        refine ⟨{ o with nend := b, raw := sliceCU s.source a b }, ?_, hcp⟩
        rw [hget, if_pos rfl]
      · refine ⟨co, ?_, hcp⟩
        rw [hget, if_neg hci]
        exact hco
    · rw [if_neg hji] at h
      rcases hg.kids j jo h c hc with ⟨co, hco, hcp⟩
      by_cases hci : c = i
      · subst hci
        rw [ho] at hco
        injection hco with he2
        subst he2
        refine ⟨{ o with nend := b, raw := sliceCU s.source a b }, ?_, hcp⟩
        rw [hget, if_pos rfl]
      · refine ⟨co, ?_, hcp⟩
        rw [hget, if_neg hci]
        exact hco
  · intro j jo h
    rw [hget] at h
    by_cases hji : j = i
    · rw [if_pos hji] at h
      injection h with he
      subst he
      exact hg.kidsNodup i o ho
    · rw [if_neg hji] at h
      exact hg.kidsNodup j jo h
  · intro j jo q h hq
    rw [hget] at h
    by_cases hji : j = i
    · rw [if_pos hji] at h
      injection h with he
      subst he
      have hq2 : o.parent = some q := hq
      rcases hg.pstart i o q ho hq2 with ⟨qo, hqo, hqs⟩
      by_cases hqi : q = i
      · subst hqi
        rw [ho] at hqo
        injection hqo with he2
        subst he2
        refine ⟨{ o with nend := b, raw := sliceCU s.source a b }, ?_, hqs⟩
        rw [hget, if_pos rfl]
      · refine ⟨qo, ?_, hqs⟩
        rw [hget, if_neg hqi]
        exact hqo
    · rw [if_neg hji] at h
      rcases hg.pstart j jo q h hq with ⟨qo, hqo, hqs⟩
      by_cases hqi : q = i
      · subst hqi
        rw [ho] at hqo
        injection hqo with he2
        subst he2
        refine ⟨{ o with nend := b, raw := sliceCU s.source a b }, ?_, hqs⟩
        rw [hget, if_pos rfl]
      · refine ⟨qo, ?_, hqs⟩
        rw [hget, if_neg hqi]
        exact hqo
  · intro j jo q qo hj hjR hq hqo hqR
    rw [hget] at hj hqo
    by_cases hji : j = i
    · subst hji
      rw [if_pos rfl] at hj
      injection hj with he
      subst he
      have hq2 : o.parent = some q := hq
      rcases PathTo_inv hiP ho with ⟨hpn, -⟩ | ⟨q2, rest2, hpq, hPq, hq3⟩
      · rw [hpn] at hq2
        exact Option.noConfusion hq2
      · rw [hpq] at hq2
        injection hq2 with he2
        subst he2
        have hre : rest2 = rest := by
          have h2 := hPq.symm.trans hPr
          injection h2 with h3 h4
        rcases PathTo_head hq3 with ⟨r2, hr2⟩
        have hqmem : q2 ∈ rest := by
          rw [← hre, hr2]
          exact List.mem_cons_self _ _
        exact absurd hqmem hqR
    · rw [if_neg hji] at hj
      by_cases hqi : q = i
      · subst hqi
        rw [if_pos rfl] at hqo
        injection hqo with he
        subst he
        show jo.nend ≤ b
        have hbj := hg.bounds j jo hj
        exact Nat.le_trans hbj.2 hpb
      · rw [if_neg hqi] at hqo
        have hjP : j ∉ P := by
          rw [hPr]
          intro hm
          rcases List.mem_cons.mp hm with h2 | h2
          · exact hji h2
          · exact hjR h2
        have hqP : q ∉ P := by
          rw [hPr]
          intro hm
          rcases List.mem_cons.mp hm with h2 | h2
          · exact hqi h2
          · exact hqR h2
        exact hg.closedEnd j jo q qo hj hjP hq hqo hqP
  · intro pr hpr
    have hpr2 : pr ∈ s.exprBuffer := hpr
    rcases hg.buf pr hpr2 with ⟨eo, heo, hep⟩
    by_cases hvi : pr.2 = i
    · rw [hvi] at heo ⊢
      rw [ho] at heo
      injection heo with he
      subst he
      refine ⟨{ o with nend := b, raw := sliceCU s.source a b }, ?_, hep⟩
      rw [hget, if_pos rfl]
    · refine ⟨eo, ?_, hep⟩
      rw [hget, if_neg hvi]
      exact heo
  · intro pr hpr j jo hj
    have hpr2 : pr ∈ s.exprBuffer := hpr
    rw [hget] at hj
    by_cases hji : j = i
    · rw [if_pos hji] at hj
      injection hj with he
      subst he
      exact hg.bufNotChild pr hpr2 i o ho
    · rw [if_neg hji] at hj
      exact hg.bufNotChild pr hpr2 j jo hj

/-- Allocating a closed child that is referenced from the cursor node
by a modifier field (never from a child list) preserves the offset
invariant; `p2` is the cursor record with only such reference fields
changed. -/
theorem ginv_allocRef {s : PState} {pos : Nat} {P : List Nat} {pid : Nat}
    {p : NodeObj} {a b : Nat} (o p2 : NodeObj) (hg : GInv s pos P)
    (hn : s.node = some pid) (hp : getN s pid = some p)
    (hpa : pos ≤ a) (hab : a ≤ b)
    (hop : o.parent = some pid) (hos : o.nstart = a) (hoe : o.nend = b)
    (hor : o.raw = sliceCU s.source a b) (hoc : o.children = [])
    (hp2p : p2.parent = p.parent) (hp2s : p2.nstart = p.nstart)
    (hp2e : p2.nend = p.nend) (hp2r : p2.raw = p.raw)
    (hp2c : p2.children = p.children) :
    GInv (setN (alloc s o).1 pid p2) b P := by
  have hL : pid < s.heap.length := getN_lt hp
  have hpP : PathTo s pid P := by
    have h := hg.path
    rw [PathOk, hn] at h
    exact h
  have hpidP : pid ∈ P := by
    rcases PathTo_head hpP with ⟨t, ht⟩
    rw [ht]
    exact List.mem_cons_self _ _
  have hmemlt := PathTo_mem_lt hpP
  have hget : ∀ j, getN (setN (alloc s o).1 pid p2) j =
      if j = pid then some p2
      else if j = s.heap.length then some o else getN s j := by
    intro j
    rw [getN_setN]
    by_cases hj : j = pid
    · subst hj
      rw [if_pos ⟨rfl, by rw [alloc_heap_length]; exact Nat.lt_succ_of_lt hL⟩,
        if_pos rfl]
    · rw [if_neg (fun hh => hj hh.1.symm), if_neg hj, getN_alloc]
  have hsrc : (setN (alloc s o).1 pid p2).source = s.source := rfl
  refine ⟨?_, hg.nodup, ?_, ?_, ?_, ?_, ?_, ?_, ?_, ?_⟩
  · show PathOk (setN (alloc s o).1 pid p2) P
    have hnode2 : (setN (alloc s o).1 pid p2).node = some pid := hn
    rw [PathOk, hnode2]
    refine PathTo_transport hpP ?_
    intro j hj jo hjo
    by_cases hjp : j = pid
    · subst hjp
      rw [hp] at hjo
      injection hjo with he
      subst he
      refine ⟨p2, ?_, hp2p⟩
      rw [hget, if_pos rfl]
    · refine ⟨jo, ?_, rfl⟩
      have hjL : j ≠ s.heap.length := fun h2 =>
        Nat.lt_irrefl _ (h2 ▸ hmemlt j hj)
      rw [hget, if_neg hjp, if_neg hjL]
      exact hjo
  · intro i oi h
    rw [hget] at h
    by_cases hip : i = pid
    · rw [if_pos hip] at h
      injection h with he
      subst he
      rw [hsrc, hp2r, hp2s, hp2e]
      exact hg.raws pid p hp
    · by_cases hiL : i = s.heap.length
      · rw [if_neg hip, if_pos hiL] at h
        injection h with he
        subst he
        rw [hsrc, hor, hos, hoe]
      · rw [if_neg hip, if_neg hiL] at h
        exact hg.raws i oi h
  · intro i oi h
    rw [hget] at h
    by_cases hip : i = pid
    · rw [if_pos hip] at h
      injection h with he
      subst he
      rw [hp2s, hp2e]
      have hb := hg.bounds pid p hp
      exact ⟨hb.1, Nat.le_trans hb.2 (Nat.le_trans hpa hab)⟩
    · by_cases hiL : i = s.heap.length
      · rw [if_neg hip, if_pos hiL] at h
        injection h with he
        subst he
        rw [hos, hoe]
        exact ⟨hab, Nat.le_refl b⟩
      · rw [if_neg hip, if_neg hiL] at h
        have hb := hg.bounds i oi h
        exact ⟨hb.1, Nat.le_trans hb.2 (Nat.le_trans hpa hab)⟩
  · intro i oi h c hc
    rw [hget] at h
    by_cases hip : i = pid
    · subst hip
      rw [if_pos rfl] at h
      injection h with he
      subst he
      rw [hp2c] at hc
      rcases hg.kids i p hp c hc with ⟨co, hco, hcp⟩
      have hcP : c ∉ P := child_not_mem hpP hg.nodup hco hcp
      have hcpid : c ≠ i := fun h2 => hcP (h2 ▸ hpidP)
      have hcL : c ≠ s.heap.length := fun h2 =>
        Nat.lt_irrefl _ (h2 ▸ getN_lt hco)
      refine ⟨co, ?_, hcp⟩
      rw [hget, if_neg hcpid, if_neg hcL]
      exact hco
    · by_cases hiL : i = s.heap.length
      · rw [if_neg hip, if_pos hiL] at h
        injection h with he
        subst he
        rw [hoc] at hc
        exact absurd hc (List.not_mem_nil c)
      · rw [if_neg hip, if_neg hiL] at h
        rcases hg.kids i oi h c hc with ⟨co, hco, hcp⟩
        by_cases hcpid : c = pid
        · subst hcpid
          rw [hp] at hco
          injection hco with he
          subst he
          refine ⟨p2, ?_, hp2p.trans hcp⟩
          rw [hget, if_pos rfl]
        · have hcL : c ≠ s.heap.length := fun h2 =>
            Nat.lt_irrefl _ (h2 ▸ getN_lt hco)
          refine ⟨co, ?_, hcp⟩
          rw [hget, if_neg hcpid, if_neg hcL]
          exact hco
  · intro i oi h
    rw [hget] at h
    by_cases hip : i = pid
    · rw [if_pos hip] at h
      injection h with he
      subst he
      rw [hp2c]
      exact hg.kidsNodup pid p hp
    · by_cases hiL : i = s.heap.length
      · rw [if_neg hip, if_pos hiL] at h
        injection h with he
        subst he
        rw [hoc]
        exact List.nodup_nil
      · rw [if_neg hip, if_neg hiL] at h
        exact hg.kidsNodup i oi h
  · intro i oi q h hq
    rw [hget] at h
    by_cases hip : i = pid
    · rw [if_pos hip] at h
      injection h with he
      subst he
      rw [hp2p] at hq
      rcases hg.pstart pid p q hp hq with ⟨qo, hqo, hqs⟩
      by_cases hqp : q = pid
      · subst hqp
        rw [hp] at hqo
        injection hqo with he2
        subst he2
        refine ⟨p2, ?_, ?_⟩
        · rw [hget, if_pos rfl]
        · rw [hp2s]
      · have hqL : q ≠ s.heap.length := fun h2 =>
          Nat.lt_irrefl _ (h2 ▸ getN_lt hqo)
        refine ⟨qo, ?_, ?_⟩
        · rw [hget, if_neg hqp, if_neg hqL]
          exact hqo
        · rw [hp2s]
          exact hqs
    · by_cases hiL : i = s.heap.length
      · rw [if_neg hip, if_pos hiL] at h
        injection h with he
        subst he
        rw [hop] at hq
        injection hq with he2
        rw [← he2]
        refine ⟨p2, ?_, ?_⟩
        · rw [hget, if_pos rfl]
        · rw [hp2s, hos]
          have hb := hg.bounds pid p hp
          exact Nat.le_trans hb.1 (Nat.le_trans hb.2 hpa)
      · rw [if_neg hip, if_neg hiL] at h
        rcases hg.pstart i oi q h hq with ⟨qo, hqo, hqs⟩
        by_cases hqp : q = pid
        · subst hqp
          rw [hp] at hqo
          injection hqo with he
          subst he
          refine ⟨p2, ?_, ?_⟩
          · rw [hget, if_pos rfl]
          · rw [hp2s]
            exact hqs
        · have hqL : q ≠ s.heap.length := fun h2 =>
            Nat.lt_irrefl _ (h2 ▸ getN_lt hqo)
          refine ⟨qo, ?_, hqs⟩
          rw [hget, if_neg hqp, if_neg hqL]
          exact hqo
  · intro i oi q qo h hiP hq hqo hqP
    rw [hget] at h
    by_cases hip : i = pid
    · exact absurd (hip ▸ hpidP) hiP
    · by_cases hiL : i = s.heap.length
      · rw [if_neg hip, if_pos hiL] at h
        injection h with he
        subst he
        rw [hop] at hq
        injection hq with he2
        exact absurd (he2 ▸ hpidP) hqP
      · rw [if_neg hip, if_neg hiL] at h
        rw [hget] at hqo
        by_cases hqp : q = pid
        · exact absurd (hqp ▸ hpidP) hqP
        · by_cases hqL : q = s.heap.length
          · subst hqL
            rcases hg.pstart i oi _ h hq with ⟨qo2, hqo2, -⟩
            exact absurd (getN_lt hqo2) (Nat.lt_irrefl _)
          · rw [if_neg hqp, if_neg hqL] at hqo
            exact hg.closedEnd i oi q qo h hiP hq hqo hqP
  · intro pr hpr
    have hpr2 : pr ∈ s.exprBuffer := hpr
    rcases hg.buf pr hpr2 with ⟨eo, heo, hep⟩
    by_cases hev : pr.2 = pid
    · rw [hev] at heo ⊢
      rw [hp] at heo
      injection heo with he
      subst he
      refine ⟨p2, ?_, hp2p.trans hep⟩
      rw [hget, if_pos rfl]
    · have hevL : pr.2 ≠ s.heap.length := fun h2 =>
        Nat.lt_irrefl _ (h2 ▸ getN_lt heo)
      refine ⟨eo, ?_, hep⟩
      rw [hget, if_neg hev, if_neg hevL]
      exact heo
  · intro pr hpr j jo hj
    have hpr2 : pr ∈ s.exprBuffer := hpr
    rw [hget] at hj
    by_cases hjp : j = pid
    · rw [if_pos hjp] at hj
      injection hj with he
      subst he
      rw [hp2c]
      exact hg.bufNotChild pr hpr2 pid p hp
    · by_cases hjL : j = s.heap.length
      · rw [if_neg hjp, if_pos hjL] at hj
        injection hj with he
        subst he
        rw [hoc]
        exact List.not_mem_nil _
      · rw [if_neg hjp, if_neg hjL] at hj
        exact hg.bufNotChild pr hpr2 j jo hj

/-- `onModifiersEnter`-shaped focus: allocate a pristine node referenced
by the cursor's `modifiersF` and focus it. -/
theorem ginv_allocRefFocus {s : PState} {pos : Nat} {P : List Nat}
    {pid : Nat} {p : NodeObj} {a : Nat} (o p2 : NodeObj) (hg : GInv s pos P)
    (hn : s.node = some pid) (hp : getN s pid = some p) (hpa : pos ≤ a)
    (hop : o.parent = some pid) (hos : o.nstart = a) (hoe : o.nend = a)
    (hor : o.raw = "") (hoc : o.children = [])
    (hp2p : p2.parent = p.parent) (hp2s : p2.nstart = p.nstart)
    (hp2e : p2.nend = p.nend) (hp2r : p2.raw = p.raw)
    (hp2c : p2.children = p.children) :
    GInv { setN (alloc s o).1 pid p2 with node := some s.heap.length } a
      (s.heap.length :: P) := by
  have hor2 : o.raw = sliceCU s.source a a := by
    rw [hor, sliceCU_self]
  have hbase := ginv_allocRef o p2 hg hn hp hpa (Nat.le_refl a) hop hos hoe
    hor2 hoc hp2p hp2s hp2e hp2r hp2c
  have hpP : PathTo s pid P := by
    have h := hg.path
    rw [PathOk, hn] at h
    exact h
  have hLP : s.heap.length ∉ P := fun hm =>
    Nat.lt_irrefl _ (PathTo_mem_lt hpP _ hm)
  have hL : pid < s.heap.length := getN_lt hp
  have hgetL : getN (setN (alloc s o).1 pid p2) s.heap.length = some o := by
    have hne : ¬(pid = s.heap.length ∧
        pid < (alloc s o).1.heap.length) := by
      intro hh
      rw [hh.1] at hL
      exact Nat.lt_irrefl _ hL
    rw [getN_setN, if_neg hne, getN_alloc, if_pos rfl]
  refine ⟨?_, List.nodup_cons.mpr ⟨hLP, hg.nodup⟩, ?_, ?_, ?_, ?_, ?_, ?_,
    ?_, ?_⟩
  · show PathOk _ (s.heap.length :: P)
    have hnode : ({ setN (alloc s o).1 pid p2 with
        node := some s.heap.length } : PState).node =
        some s.heap.length := rfl
    rw [PathOk, hnode]
    refine PathTo.step hgetL hop ?_
    have hpOk := hbase.path
    rw [PathOk] at hpOk
    have hnode1 : (setN (alloc s o).1 pid p2).node = some pid := hn
    rw [hnode1] at hpOk
    exact PathTo_transport hpOk (fun j hj jo hjo => ⟨jo, hjo, rfl⟩)
  · intro i oi h
    exact hbase.raws i oi h
  · intro i oi h
    exact hbase.bounds i oi h
  · intro i oi h c hc
    exact hbase.kids i oi h c hc
  · intro i oi h
    exact hbase.kidsNodup i oi h
  · intro i oi q h hq
    exact hbase.pstart i oi q h hq
  · intro i oi q qo h hiP hq hqo hqP
    exact hbase.closedEnd i oi q qo h
      (fun hm => hiP (List.mem_cons_of_mem _ hm)) hq hqo
      (fun hm => hqP (List.mem_cons_of_mem _ hm))
  · intro pr hpr
    exact hbase.buf pr hpr
  · intro pr hpr j jo hj
    exact hbase.bufNotChild pr hpr j jo hj

/-- Allocating a closed parentless node (flags) preserves the offset
invariant. -/
theorem ginv_alloc_orphan {s : PState} {pos : Nat} {P : List Nat}
    {a b : Nat} (o : NodeObj) (hg : GInv s pos P) (hpa : pos ≤ a)
    (hab : a ≤ b) (hop : o.parent = none) (hos : o.nstart = a)
    (hoe : o.nend = b) (hor : o.raw = sliceCU s.source a b)
    (hoc : o.children = []) : GInv (alloc s o).1 b P := by
  have hget : ∀ j, getN (alloc s o).1 j =
      if j = s.heap.length then some o else getN s j := getN_alloc s o
  refine ⟨?_, hg.nodup, ?_, ?_, ?_, ?_, ?_, ?_, ?_, ?_⟩
  · show PathOk (alloc s o).1 P
    have hnode : (alloc s o).1.node = s.node := rfl
    rw [PathOk, hnode]
    have hpath := hg.path
    rw [PathOk] at hpath
    cases hsn : s.node with
    | none =>
      rw [hsn] at hpath
      exact hpath
    | some i =>
      rw [hsn] at hpath
      refine PathTo_transport hpath ?_
      intro j hj jo hjo
      refine ⟨jo, ?_, rfl⟩
      have hjL : j ≠ s.heap.length := fun h2 =>
        Nat.lt_irrefl _ (h2 ▸ PathTo_mem_lt hpath j hj)
      rw [hget, if_neg hjL]
      exact hjo
  · intro i oi h
    rw [hget] at h
    by_cases hiL : i = s.heap.length
    · rw [if_pos hiL] at h
      injection h with he
      subst he
      rw [hor, hos, hoe]
      rfl
    · rw [if_neg hiL] at h
      exact hg.raws i oi h
  · intro i oi h
    rw [hget] at h
    by_cases hiL : i = s.heap.length
    · rw [if_pos hiL] at h
      injection h with he
      subst he
      rw [hos, hoe]
      exact ⟨hab, Nat.le_refl b⟩
    · rw [if_neg hiL] at h
      have hb := hg.bounds i oi h
      exact ⟨hb.1, Nat.le_trans hb.2 (Nat.le_trans hpa hab)⟩
  · intro i oi h c hc
    rw [hget] at h
    by_cases hiL : i = s.heap.length
    · rw [if_pos hiL] at h
      injection h with he
      subst he
      rw [hoc] at hc
      exact absurd hc (List.not_mem_nil c)
    · rw [if_neg hiL] at h
      rcases hg.kids i oi h c hc with ⟨co, hco, hcp⟩
      have hcL : c ≠ s.heap.length := fun h2 =>
        Nat.lt_irrefl _ (h2 ▸ getN_lt hco)
      refine ⟨co, ?_, hcp⟩
      rw [hget, if_neg hcL]
      exact hco
  · intro i oi h
    rw [hget] at h
    by_cases hiL : i = s.heap.length
    · rw [if_pos hiL] at h
      injection h with he
      subst he
      rw [hoc]
      exact List.nodup_nil
    · rw [if_neg hiL] at h
      exact hg.kidsNodup i oi h
  · intro i oi q h hq
    rw [hget] at h
    by_cases hiL : i = s.heap.length
    · rw [if_pos hiL] at h
      injection h with he
      subst he
      rw [hop] at hq
      exact Option.noConfusion hq
    · rw [if_neg hiL] at h
      rcases hg.pstart i oi q h hq with ⟨qo, hqo, hqs⟩
      have hqL : q ≠ s.heap.length := fun h2 =>
        Nat.lt_irrefl _ (h2 ▸ getN_lt hqo)
      refine ⟨qo, ?_, hqs⟩
      rw [hget, if_neg hqL]
      exact hqo
  · intro i oi q qo h hiP hq hqo hqP
    rw [hget] at h hqo
    by_cases hiL : i = s.heap.length
    · rw [if_pos hiL] at h
      injection h with he
      subst he
      rw [hop] at hq
      exact Option.noConfusion hq
    · rw [if_neg hiL] at h
      by_cases hqL : q = s.heap.length
      · subst hqL
        rcases hg.pstart i oi _ h hq with ⟨qo2, hqo2, -⟩
        exact absurd (getN_lt hqo2) (Nat.lt_irrefl _)
      · rw [if_neg hqL] at hqo
        exact hg.closedEnd i oi q qo h hiP hq hqo hqP
  · intro pr hpr
    have hpr2 : pr ∈ s.exprBuffer := hpr
    rcases hg.buf pr hpr2 with ⟨eo, heo, hep⟩
    have hevL : pr.2 ≠ s.heap.length := fun h2 =>
      Nat.lt_irrefl _ (h2 ▸ getN_lt heo)
    refine ⟨eo, ?_, hep⟩
    rw [hget, if_neg hevL]
    exact heo
  · intro pr hpr j jo hj
    have hpr2 : pr ∈ s.exprBuffer := hpr
    rw [hget] at hj
    by_cases hjL : j = s.heap.length
    · rw [if_pos hjL] at hj
      injection hj with he
      subst he
      rw [hoc]
      exact List.not_mem_nil _
    · rw [if_neg hjL] at hj
      exact hg.bufNotChild pr hpr2 j jo hj

/-- `onRegExpFlags` preserves the offset invariant. -/
theorem ginv_onRegExpFlags {s : PState} {pos : Nat} {P : List Nat}
    {a b : Nat} {f : FlagsRec} (hg : GInv s pos P) (hpa : pos ≤ a)
    (hab : a ≤ b) : GInv (onRegExpFlags s a b f) b P := by
  have hbase := ginv_alloc_orphan
    ({ kind := .flagsK f, parent := none, nstart := a, nend := b,
       raw := sliceCU s.source a b, children := [] } : NodeObj)
    hg hpa hab rfl rfl rfl rfl rfl
  exact GInv_fieldPres hbase
    ⟨rfl, rfl, rfl, rfl, fun j jo h => ⟨jo, h, rfl, rfl, rfl, rfl, rfl⟩⟩

/-- `onPatternEnter` under the fresh-cursor contract starts the chain
at the new Pattern node. -/
theorem ginv_onPatternEnter {s : PState} {pos : Nat} {P : List Nat} {a : Nat}
    (hg : GInv s pos P) (hnn : s.node = none) (hpa : pos ≤ a) :
    GInv (onPatternEnter s a) a [s.heap.length] := by
  have hP : P = [] := by
    have h := hg.path
    rw [PathOk, hnn] at h
    exact h
  subst hP
  have hget : ∀ j, getN (onPatternEnter s a) j =
      if j = s.heap.length then
        some ({ kind := .pattern, parent := none, nstart := a, nend := a,
                raw := "", children := [] } : NodeObj)
      else getN s j := fun j => getN_alloc s _ j
  have hnode : (onPatternEnter s a).node = some s.heap.length := rfl
  refine ⟨?_, List.nodup_singleton _, ?_, ?_, ?_, ?_, ?_, ?_, ?_, ?_⟩
  · show PathOk (onPatternEnter s a) [s.heap.length]
    rw [PathOk, hnode]
    have hgetL : getN (onPatternEnter s a) s.heap.length =
        some ({ kind := .pattern, parent := none, nstart := a, nend := a,
                raw := "", children := [] } : NodeObj) := by
      rw [hget, if_pos rfl]
    exact PathTo.root hgetL rfl
  · intro i oi h
    rw [hget] at h
    by_cases hiL : i = s.heap.length
    · rw [if_pos hiL] at h
      injection h with he
      subst he
      show ("" : String) = sliceCU _ a a
      rw [sliceCU_self]
    · rw [if_neg hiL] at h
      exact hg.raws i oi h
  · intro i oi h
    rw [hget] at h
    by_cases hiL : i = s.heap.length
    · rw [if_pos hiL] at h
      injection h with he
      subst he
      exact ⟨Nat.le_refl a, Nat.le_refl a⟩
    · rw [if_neg hiL] at h
      have hb := hg.bounds i oi h
      exact ⟨hb.1, Nat.le_trans hb.2 hpa⟩
  · intro i oi h c hc
    rw [hget] at h
    by_cases hiL : i = s.heap.length
    · rw [if_pos hiL] at h
      injection h with he
      subst he
      exact absurd hc (List.not_mem_nil c)
    · rw [if_neg hiL] at h
      rcases hg.kids i oi h c hc with ⟨co, hco, hcp⟩
      have hcL : c ≠ s.heap.length := fun h2 =>
        Nat.lt_irrefl _ (h2 ▸ getN_lt hco)
      refine ⟨co, ?_, hcp⟩
      rw [hget, if_neg hcL]
      exact hco
  · intro i oi h
    rw [hget] at h
    by_cases hiL : i = s.heap.length
    · rw [if_pos hiL] at h
      injection h with he
      subst he
      exact List.nodup_nil
    · rw [if_neg hiL] at h
      exact hg.kidsNodup i oi h
  · intro i oi q h hq
    rw [hget] at h
    by_cases hiL : i = s.heap.length
    · rw [if_pos hiL] at h
      injection h with he
      subst he
      exact Option.noConfusion hq
    · rw [if_neg hiL] at h
      rcases hg.pstart i oi q h hq with ⟨qo, hqo, hqs⟩
      have hqL : q ≠ s.heap.length := fun h2 =>
        Nat.lt_irrefl _ (h2 ▸ getN_lt hqo)
      refine ⟨qo, ?_, hqs⟩
      rw [hget, if_neg hqL]
      exact hqo
  · intro i oi q qo h hiP hq hqo hqP
    rw [hget] at h hqo
    by_cases hiL : i = s.heap.length
    · rw [if_pos hiL] at h
      injection h with he
      subst he
      exact Option.noConfusion hq
    · rw [if_neg hiL] at h
      by_cases hqL : q = s.heap.length
      · subst hqL
        rcases hg.pstart i oi _ h hq with ⟨qo2, hqo2, -⟩
        exact absurd (getN_lt hqo2) (Nat.lt_irrefl _)
      · rw [if_neg hqL] at hqo
        exact hg.closedEnd i oi q qo h (List.not_mem_nil i) hq hqo
          (List.not_mem_nil q)
  · intro pr hpr
    have hpr2 : pr ∈ s.exprBuffer := hpr
    rcases hg.buf pr hpr2 with ⟨eo, heo, hep⟩
    have hevL : pr.2 ≠ s.heap.length := fun h2 =>
      Nat.lt_irrefl _ (h2 ▸ getN_lt heo)
    refine ⟨eo, ?_, hep⟩
    rw [hget, if_neg hevL]
    exact heo
  · intro pr hpr j jo hj
    have hpr2 : pr ∈ s.exprBuffer := hpr
    rw [hget] at hj
    by_cases hjL : j = s.heap.length
    · rw [if_pos hjL] at hj
      injection hj with he
      subst he
      exact List.not_mem_nil _
    · rw [if_neg hjL] at hj
      exact hg.bufNotChild pr hpr2 j jo hj

/-- `onPatternLeave` under the cursor-start contract finalizes the
root's extent and resolves backreferences, preserving the offset
invariant without popping the chain. -/
theorem ginv_onPatternLeave {s s2 : PState} {pos a b : Nat} {P : List Nat}
    (hg : GInv s pos P) (hca : cursorStart s = some a) (hpb : pos ≤ b)
    (hok : onPatternLeave s a b = .ok s2) : GInv s2 b P := by
  cases hsn : s.node with
  | none =>
    simp only [cursorStart, cursorObj, hsn] at hca
    exact Option.noConfusion hca
  | some i =>
    cases ho : getN s i with
    | none =>
      simp only [cursorStart, cursorObj, hsn, ho] at hca
      exact Option.noConfusion hca
    | some o =>
      have ha : o.nstart = a := by
        simp only [cursorStart, cursorObj, hsn, ho, Option.map_some',
          Option.some.injEq] at hca
        exact hca
      simp only [onPatternLeave, hsn, ho] at hok
      have hL : i < s.heap.length := getN_lt ho
      have hiP : PathTo s i P := by
        have h := hg.path
        rw [PathOk, hsn] at h
        exact h
      have hiPm : i ∈ P := by
        rcases PathTo_head hiP with ⟨t, ht⟩
        rw [ht]
        exact List.mem_cons_self _ _
      have hget : ∀ j,
          getN (setN s i { o with nend := b, raw := sliceCU s.source a b })
            j =
          if j = i then
            some { o with nend := b, raw := sliceCU s.source a b }
          else getN s j := by
        intro j
        rw [getN_setN]
        by_cases hj : j = i
        · subst hj
          rw [if_pos ⟨rfl, hL⟩, if_pos rfl]
        · rw [if_neg (fun hh => hj hh.1.symm), if_neg hj]
      have hb := hg.bounds i o ho
      have h1 : GInv (setN s i
          { o with nend := b, raw := sliceCU s.source a b }) b P := by
        refine ⟨?_, hg.nodup, ?_, ?_, ?_, ?_, ?_, ?_, ?_, ?_⟩
        · show PathOk _ P
          have hnode : (setN s i
              { o with nend := b, raw := sliceCU s.source a b }).node =
              some i := hsn
          rw [PathOk, hnode]
          refine PathTo_transport hiP ?_
          intro j hj jo hjo
          by_cases hji : j = i
          · subst hji
            rw [ho] at hjo
            injection hjo with he
            subst he
            refine ⟨{ o with nend := b, raw := sliceCU s.source a b },
              ?_, rfl⟩
            rw [hget, if_pos rfl]
          · refine ⟨jo, ?_, rfl⟩
            rw [hget, if_neg hji]
            exact hjo
        · intro j jo h
          rw [hget] at h
          by_cases hji : j = i
          · rw [if_pos hji] at h
            injection h with he
            subst he
            show sliceCU s.source a b = sliceCU _ o.nstart b
            rw [ha]
            rfl
          · rw [if_neg hji] at h
            exact hg.raws j jo h
        · intro j jo h
          rw [hget] at h
          by_cases hji : j = i
          · rw [if_pos hji] at h
            injection h with he
            subst he
            exact ⟨Nat.le_trans hb.1 (Nat.le_trans hb.2 hpb),
              Nat.le_refl b⟩
          · rw [if_neg hji] at h
            have hb2 := hg.bounds j jo h
            exact ⟨hb2.1, Nat.le_trans hb2.2 hpb⟩
        · intro j jo h c hc
          rw [hget] at h
          by_cases hji : j = i
          · subst hji
            rw [if_pos rfl] at h
            injection h with he
            subst he
            have hc2 : c ∈ o.children := hc
            rcases hg.kids j o ho c hc2 with ⟨co, hco, hcp⟩
            by_cases hci : c = j
            · subst hci
              rw [ho] at hco
              injection hco with he2
              subst he2
              refine ⟨{ o with nend := b, raw := sliceCU s.source a b },
                ?_, hcp⟩
              rw [hget, if_pos rfl]
            · refine ⟨co, ?_, hcp⟩
              rw [hget, if_neg hci]
              exact hco
          · rw [if_neg hji] at h
            rcases hg.kids j jo h c hc with ⟨co, hco, hcp⟩
            by_cases hci : c = i
            · subst hci
              rw [ho] at hco
              injection hco with he2
              subst he2
              refine ⟨{ o with nend := b, raw := sliceCU s.source a b },
                ?_, hcp⟩
              rw [hget, if_pos rfl]
            · refine ⟨co, ?_, hcp⟩
              rw [hget, if_neg hci]
              exact hco
        · intro j jo h
          rw [hget] at h
          by_cases hji : j = i
          · rw [if_pos hji] at h
            injection h with he
            subst he
            exact hg.kidsNodup i o ho
          · rw [if_neg hji] at h
            exact hg.kidsNodup j jo h
        · intro j jo q h hq
          rw [hget] at h
          by_cases hji : j = i
          · rw [if_pos hji] at h
            injection h with he
            subst he
            have hq2 : o.parent = some q := hq
            rcases hg.pstart i o q ho hq2 with ⟨qo, hqo, hqs⟩
            by_cases hqi : q = i
            · subst hqi
              rw [ho] at hqo
              injection hqo with he2
              subst he2
              refine ⟨{ o with nend := b, raw := sliceCU s.source a b },
                ?_, hqs⟩
              rw [hget, if_pos rfl]
            · refine ⟨qo, ?_, hqs⟩
              rw [hget, if_neg hqi]
              exact hqo
          · rw [if_neg hji] at h
            rcases hg.pstart j jo q h hq with ⟨qo, hqo, hqs⟩
            by_cases hqi : q = i
            · subst hqi
              rw [ho] at hqo
              injection hqo with he2
              subst he2
              refine ⟨{ o with nend := b, raw := sliceCU s.source a b },
                ?_, hqs⟩
              rw [hget, if_pos rfl]
            · refine ⟨qo, ?_, hqs⟩
              rw [hget, if_neg hqi]
              exact hqo
        · intro j jo q qo hj hjP hq hqo hqP
          rw [hget] at hj hqo
          by_cases hji : j = i
          · exact absurd (hji ▸ hiPm) hjP
          · rw [if_neg hji] at hj
            by_cases hqi : q = i
            · exact absurd (hqi ▸ hiPm) hqP
            · rw [if_neg hqi] at hqo
              exact hg.closedEnd j jo q qo hj hjP hq hqo hqP
        · intro pr hpr
          have hpr2 : pr ∈ s.exprBuffer := hpr
          rcases hg.buf pr hpr2 with ⟨eo, heo, hep⟩
          by_cases hvi : pr.2 = i
          · rw [hvi] at heo ⊢
            rw [ho] at heo
            injection heo with he
            subst he
            refine ⟨{ o with nend := b, raw := sliceCU s.source a b },
              ?_, hep⟩
            rw [hget, if_pos rfl]
          · refine ⟨eo, ?_, hep⟩
            rw [hget, if_neg hvi]
            exact heo
        · intro pr hpr j jo hj
          have hpr2 : pr ∈ s.exprBuffer := hpr
          rw [hget] at hj
          by_cases hji : j = i
          · rw [if_pos hji] at hj
            injection hj with he
            subst he
            exact hg.bufNotChild pr hpr2 i o ho
          · rw [if_neg hji] at hj
            exact hg.bufNotChild pr hpr2 j jo hj
      exact GInv_fieldPres h1 (resolveOne_foldlM_fieldPres _ _ s2 hok)

/-- `onQuantifier`-shaped restructure: wrap the cursor's last element in
a fresh node `q` spanning from the element's start to the event end. -/
theorem ginv_quantShape {s : PState} {pos fin : Nat} {P : List Nat}
    {pid eid : Nat} {p e : NodeObj} (q : NodeObj) (hg : GInv s pos P)
    (hn : s.node = some pid) (hp : getN s pid = some p)
    (hlast : p.children.getLast? = some eid) (he : getN s eid = some e)
    (hpb : pos ≤ fin) (hqp : q.parent = some pid)
    (hqs : q.nstart = e.nstart) (hqe : q.nend = fin)
    (hqr : q.raw = sliceCU s.source e.nstart fin) (hqc : q.children = [eid]) :
    GInv (setN (setN (alloc s q).1 pid
        { p with children := p.children.dropLast ++ [(alloc s q).2] }) eid
      { e with parent := some (alloc s q).2 }) fin P := by
  have hL : pid < s.heap.length := getN_lt hp
  have heL : eid < s.heap.length := getN_lt he
  have hpP : PathTo s pid P := by
    have h := hg.path
    rw [PathOk, hn] at h
    exact h
  have hpidP : pid ∈ P := by
    rcases PathTo_head hpP with ⟨t, ht⟩
    rw [ht]
    exact List.mem_cons_self _ _
  have hmemlt := PathTo_mem_lt hpP
  have heid_mem : eid ∈ p.children := List.mem_of_getLast?_eq_some hlast
  have hep : e.parent = some pid := by
    rcases hg.kids pid p hp eid heid_mem with ⟨co, hco, hcp⟩
    rw [he] at hco
    injection hco with he2
    rw [he2]
    exact hcp
  have heP : eid ∉ P := child_not_mem hpP hg.nodup he hep
  have he_pid : eid ≠ pid := fun h2 => heP (h2 ▸ hpidP)
  have hkdn : p.children.Nodup := hg.kidsNodup pid p hp
  have heid_nodrop : eid ∉ p.children.dropLast :=
    nodup_getLast?_not_mem_dropLast hkdn hlast
  have hbe := hg.bounds eid e he
  have hbp := hg.bounds pid p hp
  have hpse : p.nstart ≤ e.nstart := by
    rcases hg.pstart eid e pid he hep with ⟨po, hpo, hps⟩
    rw [hp] at hpo
    injection hpo with he2
    rw [← he2] at hps
    exact hps
  have hkidlt : ∀ c ∈ p.children, c < s.heap.length := by
    intro c hc
    rcases hg.kids pid p hp c hc with ⟨co, hco, -⟩
    exact getN_lt hco
  have hget : ∀ j, getN (setN (setN (alloc s q).1 pid
      { p with children := p.children.dropLast ++ [(alloc s q).2] }) eid
      { e with parent := some (alloc s q).2 }) j =
      if j = eid then some { e with parent := some s.heap.length }
      else if j = pid then
        some { p with children := p.children.dropLast ++ [s.heap.length] }
      else if j = s.heap.length then some q else getN s j := by
    intro j
    rw [getN_setN]
    by_cases hje : j = eid
    · have hlt : eid < (setN (alloc s q).1 pid
          { p with children :=
            p.children.dropLast ++ [(alloc s q).2] }).heap.length := by
        rw [setN_heap_length, alloc_heap_length]
        exact Nat.lt_succ_of_lt heL
      rw [if_pos ⟨hje.symm, hlt⟩, if_pos hje]
      rfl
    · rw [if_neg (fun hh => hje hh.1.symm), if_neg hje, getN_setN]
      by_cases hjp : j = pid
      · have hlt : pid < (alloc s q).1.heap.length := by
          rw [alloc_heap_length]
          exact Nat.lt_succ_of_lt hL
        rw [if_pos ⟨hjp.symm, hlt⟩, if_pos hjp]
        rfl
      · rw [if_neg (fun hh => hjp hh.1.symm), if_neg hjp, getN_alloc]
  refine ⟨?_, hg.nodup, ?_, ?_, ?_, ?_, ?_, ?_, ?_, ?_⟩
  · show PathOk _ P
    have hnode : (setN (setN (alloc s q).1 pid
        { p with children := p.children.dropLast ++ [(alloc s q).2] }) eid
        { e with parent := some (alloc s q).2 }).node = some pid := hn
    rw [PathOk, hnode]
    refine PathTo_transport hpP ?_
    intro j hj jo hjo
    have hjL : j ≠ s.heap.length := fun h2 =>
      Nat.lt_irrefl _ (h2 ▸ hmemlt j hj)
    have hje : j ≠ eid := fun h2 => heP (h2 ▸ hj)
    by_cases hjp : j = pid
    · subst hjp
      rw [hp] at hjo
      injection hjo with he2
      subst he2
      refine ⟨{ p with children := p.children.dropLast ++ [s.heap.length] },
        ?_, rfl⟩
      rw [hget, if_neg hje, if_pos rfl]
    · refine ⟨jo, ?_, rfl⟩
      rw [hget, if_neg hje, if_neg hjp, if_neg hjL]
      exact hjo
  · intro j jo h
    rw [hget] at h
    by_cases hje : j = eid
    · rw [if_pos hje] at h
      injection h with he2
      subst he2
      exact hg.raws eid e he
    · rw [if_neg hje] at h
      by_cases hjp : j = pid
      · rw [if_pos hjp] at h
        injection h with he2
        subst he2
        exact hg.raws pid p hp
      · rw [if_neg hjp] at h
        by_cases hjL : j = s.heap.length
        · rw [if_pos hjL] at h
          injection h with he2
          subst he2
          rw [hqr, hqs, hqe]
          rfl
        · rw [if_neg hjL] at h
          exact hg.raws j jo h
  · intro j jo h
    rw [hget] at h
    by_cases hje : j = eid
    · rw [if_pos hje] at h
      injection h with he2
      subst he2
      exact ⟨hbe.1, Nat.le_trans hbe.2 hpb⟩
    · rw [if_neg hje] at h
      by_cases hjp : j = pid
      · rw [if_pos hjp] at h
        injection h with he2
        subst he2
        exact ⟨hbp.1, Nat.le_trans hbp.2 hpb⟩
      · rw [if_neg hjp] at h
        by_cases hjL : j = s.heap.length
        · rw [if_pos hjL] at h
          injection h with he2
          subst he2
          rw [hqs, hqe]
          exact ⟨Nat.le_trans hbe.1 (Nat.le_trans hbe.2 hpb),
            Nat.le_refl fin⟩
        · rw [if_neg hjL] at h
          have hb2 := hg.bounds j jo h
          exact ⟨hb2.1, Nat.le_trans hb2.2 hpb⟩
  · intro j jo h c hc
    rw [hget] at h
    by_cases hje : j = eid
    · subst hje
      rw [if_pos rfl] at h
      injection h with he2
      subst he2
      have hc2 : c ∈ e.children := hc
      rcases hg.kids j e he c hc2 with ⟨co, hco, hcp⟩
      have hcj : c ≠ j := by
        intro h3
        rw [h3, he] at hco
        injection hco with he3
        rw [← he3, hep] at hcp
        injection hcp with he4
        exact he_pid he4.symm
      have hcpid : c ≠ pid := by
        intro h3
        subst h3
        rw [hp] at hco
        injection hco with he3
        rw [← he3] at hcp
        have := PathTo_parent_mem hpP c hpidP p j hp hcp
        exact heP this
      have hcL : c ≠ s.heap.length := fun h2 =>
        Nat.lt_irrefl _ (h2 ▸ getN_lt hco)
      refine ⟨co, ?_, hcp⟩
      rw [hget, if_neg hcj, if_neg hcpid, if_neg hcL]
      exact hco
    · rw [if_neg hje] at h
      by_cases hjp : j = pid
      · subst hjp
        rw [if_pos rfl] at h
        injection h with he2
        subst he2
        rcases List.mem_append.mp hc with hcm | hcm
        · have hcch : c ∈ p.children := (List.dropLast_sublist _).subset hcm
          rcases hg.kids j p hp c hcch with ⟨co, hco, hcp⟩
          have hcP : c ∉ P := child_not_mem hpP hg.nodup hco hcp
          have hcpid : c ≠ j := fun h2 => hcP (h2 ▸ hpidP)
          have hce : c ≠ eid := fun h2 => heid_nodrop (h2 ▸ hcm)
          have hcL : c ≠ s.heap.length := fun h2 =>
            Nat.lt_irrefl _ (h2 ▸ getN_lt hco)
          refine ⟨co, ?_, hcp⟩
          rw [hget, if_neg hce, if_neg hcpid, if_neg hcL]
          exact hco
        · rw [List.mem_singleton] at hcm
          refine ⟨q, ?_, hqp⟩
          have hLe : s.heap.length ≠ eid := fun h2 =>
            Nat.lt_irrefl _ (h2 ▸ heL)
          have hLp : s.heap.length ≠ j := fun h2 =>
            Nat.lt_irrefl _ (h2 ▸ hL)
          rw [hcm, hget, if_neg hLe, if_neg hLp, if_pos rfl]
      · rw [if_neg hjp] at h
        by_cases hjL : j = s.heap.length
        · subst hjL
          rw [if_pos rfl] at h
          injection h with he2
          subst he2
          rw [hqc] at hc
          rw [List.mem_singleton] at hc
          subst hc
          refine ⟨{ e with parent := some s.heap.length }, ?_, rfl⟩
          rw [hget, if_pos rfl]
        · rw [if_neg hjL] at h
          rcases hg.kids j jo h c hc with ⟨co, hco, hcp⟩
          by_cases hce : c = eid
          · rw [hce, he] at hco
            injection hco with he3
            rw [← he3, hep] at hcp
            injection hcp with he4
            exact absurd he4.symm hjp
          · by_cases hcpid : c = pid
            · subst hcpid
              rw [hp] at hco
              injection hco with he3
              subst he3
              refine ⟨{ p with
                children := p.children.dropLast ++ [s.heap.length] },
                ?_, hcp⟩
              rw [hget, if_neg hce, if_pos rfl]
            · have hcL : c ≠ s.heap.length := fun h2 =>
                Nat.lt_irrefl _ (h2 ▸ getN_lt hco)
              refine ⟨co, ?_, hcp⟩
              rw [hget, if_neg hce, if_neg hcpid, if_neg hcL]
              exact hco
  · intro j jo h
    rw [hget] at h
    by_cases hje : j = eid
    · rw [if_pos hje] at h
      injection h with he2
      subst he2
      exact hg.kidsNodup eid e he
    · rw [if_neg hje] at h
      by_cases hjp : j = pid
      · rw [if_pos hjp] at h
        injection h with he2
        subst he2
        show (p.children.dropLast ++ [s.heap.length]).Nodup
        rw [List.nodup_append]
        refine ⟨hkdn.sublist (List.dropLast_sublist _),
          List.nodup_singleton _, fun x hx hx2 => ?_⟩
        rw [List.mem_singleton] at hx2
        exact Nat.lt_irrefl _ (hkidlt _ ((List.dropLast_sublist _).subset
          (hx2 ▸ hx)))
      · rw [if_neg hjp] at h
        by_cases hjL : j = s.heap.length
        · rw [if_pos hjL] at h
          injection h with he2
          subst he2
          rw [hqc]
          exact List.nodup_singleton _
        · rw [if_neg hjL] at h
          exact hg.kidsNodup j jo h
  · intro j jo q2 h hq2
    rw [hget] at h
    by_cases hje : j = eid
    · rw [if_pos hje] at h
      injection h with he2
      subst he2
      have hq3 : (some s.heap.length : Option Nat) = some q2 := hq2
      injection hq3 with he3
      rw [← he3]
      refine ⟨q, ?_, ?_⟩
      · have hLe : s.heap.length ≠ eid := fun h2 =>
          Nat.lt_irrefl _ (h2 ▸ heL)
        have hLp : s.heap.length ≠ pid := fun h2 =>
          Nat.lt_irrefl _ (h2 ▸ hL)
        rw [hget, if_neg hLe, if_neg hLp, if_pos rfl]
      · rw [hqs]
    · rw [if_neg hje] at h
      by_cases hjp : j = pid
      · rw [if_pos hjp] at h
        injection h with he2
        subst he2
        have hq3 : p.parent = some q2 := hq2
        rcases hg.pstart pid p q2 hp hq3 with ⟨qo, hqo, hqs2⟩
        have hq2e : q2 ≠ eid := by
          intro h3
          subst h3
          exact heP (PathTo_parent_mem hpP pid hpidP p q2 hp hq3)
        by_cases hq2p : q2 = pid
        · subst hq2p
          rw [hp] at hqo
          injection hqo with he3
          subst he3
          refine ⟨{ p with
            children := p.children.dropLast ++ [s.heap.length] }, ?_, hqs2⟩
          rw [hget, if_neg hq2e, if_pos rfl]
        · have hq2L : q2 ≠ s.heap.length := fun h2 =>
            Nat.lt_irrefl _ (h2 ▸ getN_lt hqo)
          refine ⟨qo, ?_, hqs2⟩
          rw [hget, if_neg hq2e, if_neg hq2p, if_neg hq2L]
          exact hqo
      · rw [if_neg hjp] at h
        by_cases hjL : j = s.heap.length
        · rw [if_pos hjL] at h
          injection h with he2
          subst he2
          have hq3 : some pid = some q2 := hqp.symm.trans hq2
          injection hq3 with he3
          rw [← he3]
          refine ⟨{ p with
            children := p.children.dropLast ++ [s.heap.length] }, ?_, ?_⟩
          · have hpe : pid ≠ eid := fun h2 => he_pid h2.symm
            rw [hget, if_neg hpe, if_pos rfl]
          · show p.nstart ≤ q.nstart
            rw [hqs]
            exact hpse
        · rw [if_neg hjL] at h
          rcases hg.pstart j jo q2 h hq2 with ⟨qo, hqo, hqs2⟩
          by_cases hq2e : q2 = eid
          · subst hq2e
            rw [he] at hqo
            injection hqo with he3
            subst he3
            refine ⟨{ e with parent := some s.heap.length }, ?_, hqs2⟩
            rw [hget, if_pos rfl]
          · by_cases hq2p : q2 = pid
            · subst hq2p
              rw [hp] at hqo
              injection hqo with he3
              subst he3
              refine ⟨{ p with
                children := p.children.dropLast ++ [s.heap.length] },
                ?_, hqs2⟩
              rw [hget, if_neg hq2e, if_pos rfl]
            · have hq2L : q2 ≠ s.heap.length := fun h2 =>
                Nat.lt_irrefl _ (h2 ▸ getN_lt hqo)
              refine ⟨qo, ?_, hqs2⟩
              rw [hget, if_neg hq2e, if_neg hq2p, if_neg hq2L]
              exact hqo
  · intro j jo q2 qo h hjP hq2 hqo hqP
    rw [hget] at h hqo
    by_cases hje : j = eid
    · rw [if_pos hje] at h
      injection h with he2
      subst he2
      have hq3 : (some s.heap.length : Option Nat) = some q2 := hq2
      injection hq3 with he3
      subst he3
      have hLe : s.heap.length ≠ eid := fun h2 =>
        Nat.lt_irrefl _ (h2 ▸ heL)
      have hLp : s.heap.length ≠ pid := fun h2 =>
        Nat.lt_irrefl _ (h2 ▸ hL)
      rw [if_neg hLe, if_neg hLp, if_pos rfl] at hqo
      injection hqo with he4
      subst he4
      show e.nend ≤ q.nend
      rw [hqe]
      exact Nat.le_trans hbe.2 hpb
    · rw [if_neg hje] at h
      by_cases hjp : j = pid
      · exact absurd (hjp ▸ hpidP) hjP
      · rw [if_neg hjp] at h
        by_cases hjL : j = s.heap.length
        · rw [if_pos hjL] at h
          injection h with he2
          subst he2
          have hq3 : some pid = some q2 := hqp.symm.trans hq2
          injection hq3 with he3
          exact absurd (he3 ▸ hpidP) hqP
        · rw [if_neg hjL] at h
          by_cases hq2e : q2 = eid
          · subst hq2e
            rw [if_pos rfl] at hqo
            injection hqo with he3
            subst he3
            show jo.nend ≤ e.nend
            exact hg.closedEnd j jo q2 e h hjP hq2 he hqP
          · by_cases hq2p : q2 = pid
            · exact absurd (hq2p ▸ hpidP) hqP
            · rw [if_neg hq2e, if_neg hq2p] at hqo
              by_cases hq2L : q2 = s.heap.length
              · subst hq2L
                rcases hg.pstart j jo _ h hq2 with ⟨qo2, hqo2, -⟩
                exact absurd (getN_lt hqo2) (Nat.lt_irrefl _)
              · rw [if_neg hq2L] at hqo
                exact hg.closedEnd j jo q2 qo h hjP hq2 hqo hqP
  · intro pr hpr
    have hpr2 : pr ∈ s.exprBuffer := hpr
    rcases hg.buf pr hpr2 with ⟨eo, heo, hpe2⟩
    have hve : pr.2 ≠ eid := by
      intro h2
      exact hg.bufNotChild pr hpr2 pid p hp (h2 ▸ heid_mem)
    by_cases hvp : pr.2 = pid
    · rw [hvp] at heo ⊢
      rw [hp] at heo
      injection heo with he2
      subst he2
      refine ⟨{ p with
        children := p.children.dropLast ++ [s.heap.length] }, ?_, hpe2⟩
      have hpe3 : pid ≠ eid := fun h2 => he_pid h2.symm
      rw [hget, if_neg hpe3, if_pos rfl]
    · have hvL : pr.2 ≠ s.heap.length := fun h2 =>
        Nat.lt_irrefl _ (h2 ▸ getN_lt heo)
      refine ⟨eo, ?_, hpe2⟩
      rw [hget, if_neg hve, if_neg hvp, if_neg hvL]
      exact heo
  · intro pr hpr j jo hj
    have hpr2 : pr ∈ s.exprBuffer := hpr
    rcases hg.buf pr hpr2 with ⟨eo, heo, -⟩
    have hvL : pr.2 < s.heap.length := getN_lt heo
    have hve : pr.2 ≠ eid := by
      intro h2
      exact hg.bufNotChild pr hpr2 pid p hp (h2 ▸ heid_mem)
    rw [hget] at hj
    by_cases hje : j = eid
    · rw [if_pos hje] at hj
      injection hj with he2
      subst he2
      exact hg.bufNotChild pr hpr2 eid e he
    · rw [if_neg hje] at hj
      by_cases hjp : j = pid
      · rw [if_pos hjp] at hj
        injection hj with he2
        subst he2
        intro hm
        rcases List.mem_append.mp hm with hm2 | hm2
        · exact hg.bufNotChild pr hpr2 pid p hp
            ((List.dropLast_sublist _).subset hm2)
        · rw [List.mem_singleton] at hm2
          exact Nat.lt_irrefl _ (hm2 ▸ hvL)
      · rw [if_neg hjp] at hj
        by_cases hjL : j = s.heap.length
        · rw [if_pos hjL] at hj
          injection hj with he2
          subst he2
          rw [hqc]
          intro hm
          rw [List.mem_singleton] at hm
          exact hve hm
        · rw [if_neg hjL] at hj
          exact hg.bufNotChild pr hpr2 j jo hj

/-- `onClassIntersection`/`onClassSubtraction`-shaped restructure: pop
the right operand and the left operand (buffered or listed), push a
fresh operator node `K` over both, and buffer it. -/
theorem ginv_classOpShape {s : PState} {pos a b : Nat} {P : List Nat}
    {pid lid rid : Nat} {p l r : NodeObj} {elems2 : List Nat} (K : NodeObj)
    (hg : GInv s pos P) (hn : s.node = some pid) (hp : getN s pid = some p)
    (hlast : p.children.getLast? = some rid) (hr : getN s rid = some r)
    (hl : getN s lid = some l) (hlp : l.parent = some pid)
    (hlrne : lid ≠ rid) (hsub : elems2.Sublist p.children)
    (hlne : lid ∉ elems2) (hrne : rid ∉ elems2)
    (hls : l.nstart = a) (hlr : l.nend ≤ r.nstart) (hrb : r.nend ≤ b)
    (hpb : pos ≤ b)
    (hKp : K.parent = some pid) (hKs : K.nstart = a) (hKe : K.nend = b)
    (hKr : K.raw = sliceCU s.source a b) (hKc : K.children = [lid, rid]) :
    GInv { setN (setN (setN (alloc s K).1 lid
        { l with parent := some (alloc s K).2 }) rid
        { r with parent := some (alloc s K).2 }) pid
        { p with children := elems2 } with
      exprBuffer := bufSet s.exprBuffer pid (alloc s K).2 } b P := by
  have hpL : pid < s.heap.length := getN_lt hp
  have hlL : lid < s.heap.length := getN_lt hl
  have hrL : rid < s.heap.length := getN_lt hr
  have hpP : PathTo s pid P := by
    have h := hg.path
    rw [PathOk, hn] at h
    exact h
  have hpidP : pid ∈ P := by
    rcases PathTo_head hpP with ⟨t, ht⟩
    rw [ht]
    exact List.mem_cons_self _ _
  have hmemlt := PathTo_mem_lt hpP
  have hrid_mem : rid ∈ p.children := List.mem_of_getLast?_eq_some hlast
  have hrp : r.parent = some pid := by
    rcases hg.kids pid p hp rid hrid_mem with ⟨co, hco, hcp⟩
    rw [hr] at hco
    injection hco with he2
    rw [he2]
    exact hcp
  have hrP : rid ∉ P := child_not_mem hpP hg.nodup hr hrp
  have hlP : lid ∉ P := child_not_mem hpP hg.nodup hl hlp
  have hr_pid : rid ≠ pid := fun h2 => hrP (h2 ▸ hpidP)
  have hl_pid : lid ≠ pid := fun h2 => hlP (h2 ▸ hpidP)
  have hbl := hg.bounds lid l hl
  have hbr := hg.bounds rid r hr
  have hbp := hg.bounds pid p hp
  have hab : a ≤ b := by
    rw [← hls]
    exact Nat.le_trans hbl.1 (Nat.le_trans hlr (Nat.le_trans hbr.1 hrb))
  have hpsl : p.nstart ≤ l.nstart := by
    rcases hg.pstart lid l pid hl hlp with ⟨po, hpo, hps⟩
    rw [hp] at hpo
    injection hpo with he2
    rw [← he2] at hps
    exact hps
  have hkidlt : ∀ c ∈ p.children, c < s.heap.length := by
    intro c hc
    rcases hg.kids pid p hp c hc with ⟨co, hco, -⟩
    exact getN_lt hco
  have hget : ∀ j, getN { setN (setN (setN (alloc s K).1 lid
      { l with parent := some (alloc s K).2 }) rid
      { r with parent := some (alloc s K).2 }) pid
      { p with children := elems2 } with
      exprBuffer := bufSet s.exprBuffer pid (alloc s K).2 } j =
      if j = pid then some { p with children := elems2 }
      else if j = rid then some { r with parent := some s.heap.length }
      else if j = lid then some { l with parent := some s.heap.length }
      else if j = s.heap.length then some K else getN s j := by
    intro j
    show getN (setN (setN (setN (alloc s K).1 lid
      { l with parent := some (alloc s K).2 }) rid
      { r with parent := some (alloc s K).2 }) pid
      { p with children := elems2 }) j = _
    rw [getN_setN]
    by_cases hjp : j = pid
    · have hlt : pid < (setN (setN (alloc s K).1 lid
          { l with parent := some (alloc s K).2 }) rid
          { r with parent := some (alloc s K).2 }).heap.length := by
        rw [setN_heap_length, setN_heap_length, alloc_heap_length]
        exact Nat.lt_succ_of_lt hpL
      rw [if_pos ⟨hjp.symm, hlt⟩, if_pos hjp]
    · rw [if_neg (fun hh => hjp hh.1.symm), if_neg hjp, getN_setN]
      by_cases hjr : j = rid
      · have hlt : rid < (setN (alloc s K).1 lid
            { l with parent := some (alloc s K).2 }).heap.length := by
          rw [setN_heap_length, alloc_heap_length]
          exact Nat.lt_succ_of_lt hrL
        rw [if_pos ⟨hjr.symm, hlt⟩, if_pos hjr]
        rfl
      · rw [if_neg (fun hh => hjr hh.1.symm), if_neg hjr, getN_setN]
        by_cases hjl : j = lid
        · have hlt : lid < (alloc s K).1.heap.length := by
            rw [alloc_heap_length]
            exact Nat.lt_succ_of_lt hlL
          rw [if_pos ⟨hjl.symm, hlt⟩, if_pos hjl]
          rfl
        · rw [if_neg (fun hh => hjl hh.1.symm), if_neg hjl, getN_alloc]
  refine ⟨?_, hg.nodup, ?_, ?_, ?_, ?_, ?_, ?_, ?_, ?_⟩
  · show PathOk _ P
    have hnode : ({ setN (setN (setN (alloc s K).1 lid
        { l with parent := some (alloc s K).2 }) rid
        { r with parent := some (alloc s K).2 }) pid
        { p with children := elems2 } with
        exprBuffer := bufSet s.exprBuffer pid (alloc s K).2 } : PState).node
        = some pid := hn
    rw [PathOk, hnode]
    refine PathTo_transport hpP ?_
    intro j hj jo hjo
    have hjL : j ≠ s.heap.length := fun h2 =>
      Nat.lt_irrefl _ (h2 ▸ hmemlt j hj)
    have hjr : j ≠ rid := fun h2 => hrP (h2 ▸ hj)
    have hjl : j ≠ lid := fun h2 => hlP (h2 ▸ hj)
    by_cases hjp : j = pid
    · rw [hjp, hp] at hjo
      injection hjo with he2
      refine ⟨{ p with children := elems2 }, ?_, ?_⟩
      · rw [hget, if_pos hjp]
      · rw [← he2]
    · refine ⟨jo, ?_, rfl⟩
      rw [hget, if_neg hjp, if_neg hjr, if_neg hjl, if_neg hjL]
      exact hjo
  · intro j jo h
    rw [hget] at h
    by_cases hjp : j = pid
    · rw [if_pos hjp] at h
      injection h with he2
      subst he2
      exact hg.raws pid p hp
    · rw [if_neg hjp] at h
      by_cases hjr : j = rid
      · rw [if_pos hjr] at h
        injection h with he2
        subst he2
        exact hg.raws rid r hr
      · rw [if_neg hjr] at h
        by_cases hjl : j = lid
        · rw [if_pos hjl] at h
          injection h with he2
          subst he2
          exact hg.raws lid l hl
        · rw [if_neg hjl] at h
          by_cases hjL : j = s.heap.length
          · rw [if_pos hjL] at h
            injection h with he2
            subst he2
            rw [hKr, hKs, hKe]
            rfl
          · rw [if_neg hjL] at h
            exact hg.raws j jo h
  · intro j jo h
    rw [hget] at h
    by_cases hjp : j = pid
    · rw [if_pos hjp] at h
      injection h with he2
      subst he2
      exact ⟨hbp.1, Nat.le_trans hbp.2 hpb⟩
    · rw [if_neg hjp] at h
      by_cases hjr : j = rid
      · rw [if_pos hjr] at h
        injection h with he2
        subst he2
        exact ⟨hbr.1, Nat.le_trans hbr.2 hpb⟩
      · rw [if_neg hjr] at h
        by_cases hjl : j = lid
        · rw [if_pos hjl] at h
          injection h with he2
          subst he2
          exact ⟨hbl.1, Nat.le_trans hbl.2 hpb⟩
        · rw [if_neg hjl] at h
          by_cases hjL : j = s.heap.length
          · rw [if_pos hjL] at h
            injection h with he2
            subst he2
            rw [hKs, hKe]
            exact ⟨hab, Nat.le_refl b⟩
          · rw [if_neg hjL] at h
            have hb2 := hg.bounds j jo h
            exact ⟨hb2.1, Nat.le_trans hb2.2 hpb⟩
  · intro j jo h c hc
    rw [hget] at h
    by_cases hjp : j = pid
    · rw [if_pos hjp] at h
      injection h with he2
      subst he2
      have hcch : c ∈ p.children := hsub.subset hc
      rcases hg.kids pid p hp c hcch with ⟨co, hco, hcp⟩
      have hcP : c ∉ P := child_not_mem hpP hg.nodup hco hcp
      have hcpid : c ≠ pid := fun h2 => hcP (h2 ▸ hpidP)
      have hcr : c ≠ rid := fun h2 => hrne (h2 ▸ hc)
      have hcl : c ≠ lid := fun h2 => hlne (h2 ▸ hc)
      have hcL : c ≠ s.heap.length := fun h2 =>
        Nat.lt_irrefl _ (h2 ▸ getN_lt hco)
      refine ⟨co, ?_, ?_⟩
      · rw [hget, if_neg hcpid, if_neg hcr, if_neg hcl, if_neg hcL]
        exact hco
      · rw [hjp]
        exact hcp
    · rw [if_neg hjp] at h
      by_cases hjr : j = rid
      · rw [if_pos hjr] at h
        injection h with he2
        subst he2
        have hc2 : c ∈ r.children := hc
        rcases hg.kids rid r hr c hc2 with ⟨co, hco, hcp⟩
        have hcpid : c ≠ pid := by
          intro h2
          rw [h2, hp] at hco
          injection hco with he3
          rw [← he3] at hcp
          exact hrP (PathTo_parent_mem hpP pid hpidP p rid hp hcp)
        have hcr : c ≠ rid := by
          intro h2
          rw [h2, hr] at hco
          injection hco with he3
          rw [← he3, hrp] at hcp
          injection hcp with he4
          exact hr_pid he4.symm
        have hcl : c ≠ lid := by
          intro h2
          rw [h2, hl] at hco
          injection hco with he3
          rw [← he3, hlp] at hcp
          injection hcp with he4
          exact hr_pid he4.symm
        have hcL : c ≠ s.heap.length := fun h2 =>
          Nat.lt_irrefl _ (h2 ▸ getN_lt hco)
        refine ⟨co, ?_, ?_⟩
        · rw [hget, if_neg hcpid, if_neg hcr, if_neg hcl, if_neg hcL]
          exact hco
        · rw [hjr]
          exact hcp
      · rw [if_neg hjr] at h
        by_cases hjl : j = lid
        · rw [if_pos hjl] at h
          injection h with he2
          subst he2
          have hc2 : c ∈ l.children := hc
          rcases hg.kids lid l hl c hc2 with ⟨co, hco, hcp⟩
          have hcpid : c ≠ pid := by
            intro h2
            rw [h2, hp] at hco
            injection hco with he3
            rw [← he3] at hcp
            exact hlP (PathTo_parent_mem hpP pid hpidP p lid hp hcp)
          have hcr : c ≠ rid := by
            intro h2
            rw [h2, hr] at hco
            injection hco with he3
            rw [← he3, hrp] at hcp
            injection hcp with he4
            exact hl_pid he4.symm
          have hcl : c ≠ lid := by
            intro h2
            rw [h2, hl] at hco
            injection hco with he3
            rw [← he3, hlp] at hcp
            injection hcp with he4
            exact hl_pid he4.symm
          have hcL : c ≠ s.heap.length := fun h2 =>
            Nat.lt_irrefl _ (h2 ▸ getN_lt hco)
          refine ⟨co, ?_, ?_⟩
          · rw [hget, if_neg hcpid, if_neg hcr, if_neg hcl, if_neg hcL]
            exact hco
          · rw [hjl]
            exact hcp
        · rw [if_neg hjl] at h
          by_cases hjL : j = s.heap.length
          · rw [if_pos hjL] at h
            injection h with he2
            subst he2
            rw [hKc] at hc
            rcases List.mem_cons.mp hc with hcm | hcm
            · refine ⟨{ l with parent := some s.heap.length }, ?_, ?_⟩
              · rw [hcm, hget, if_neg hl_pid,
                  if_neg (fun h2 => hlrne h2), if_pos rfl]
              · rw [hjL]
            · rw [List.mem_singleton] at hcm
              refine ⟨{ r with parent := some s.heap.length }, ?_, ?_⟩
              · rw [hcm, hget, if_neg hr_pid, if_pos rfl]
              · rw [hjL]
          · rw [if_neg hjL] at h
            rcases hg.kids j jo h c hc with ⟨co, hco, hcp⟩
            have hcr : c ≠ rid := by
              intro h2
              rw [h2, hr] at hco
              injection hco with he3
              rw [← he3, hrp] at hcp
              injection hcp with he4
              exact hjp he4.symm
            have hcl : c ≠ lid := by
              intro h2
              rw [h2, hl] at hco
              injection hco with he3
              rw [← he3, hlp] at hcp
              injection hcp with he4
              exact hjp he4.symm
            by_cases hcpid : c = pid
            · rw [hcpid, hp] at hco
              injection hco with he3
              refine ⟨{ p with children := elems2 }, ?_, ?_⟩
              · rw [hcpid, hget, if_pos rfl]
              · rw [← he3] at hcp
                exact hcp
            · have hcL : c ≠ s.heap.length := fun h2 =>
                Nat.lt_irrefl _ (h2 ▸ getN_lt hco)
              refine ⟨co, ?_, hcp⟩
              rw [hget, if_neg hcpid, if_neg hcr, if_neg hcl, if_neg hcL]
              exact hco
  · intro j jo h
    rw [hget] at h
    by_cases hjp : j = pid
    · rw [if_pos hjp] at h
      injection h with he2
      subst he2
      exact (hg.kidsNodup pid p hp).sublist hsub
    · rw [if_neg hjp] at h
      by_cases hjr : j = rid
      · rw [if_pos hjr] at h
        injection h with he2
        subst he2
        exact hg.kidsNodup rid r hr
      · rw [if_neg hjr] at h
        by_cases hjl : j = lid
        · rw [if_pos hjl] at h
          injection h with he2
          subst he2
          exact hg.kidsNodup lid l hl
        · rw [if_neg hjl] at h
          by_cases hjL : j = s.heap.length
          · rw [if_pos hjL] at h
            injection h with he2
            subst he2
            rw [hKc]
            refine List.nodup_cons.mpr ⟨?_, List.nodup_singleton _⟩
            intro hm
            rw [List.mem_singleton] at hm
            exact hlrne hm
          · rw [if_neg hjL] at h
            exact hg.kidsNodup j jo h
  · intro j jo q2 h hq2
    rw [hget] at h
    by_cases hjp : j = pid
    · rw [if_pos hjp] at h
      injection h with he2
      subst he2
      have hq3 : p.parent = some q2 := hq2
      rcases hg.pstart pid p q2 hp hq3 with ⟨qo, hqo, hqs2⟩
      have hq2r : q2 ≠ rid := by
        intro h3
        exact hrP (h3 ▸ PathTo_parent_mem hpP pid hpidP p q2 hp hq3)
      have hq2l : q2 ≠ lid := by
        intro h3
        exact hlP (h3 ▸ PathTo_parent_mem hpP pid hpidP p q2 hp hq3)
      by_cases hq2p : q2 = pid
      · rw [hq2p, hp] at hqo
        refine ⟨{ p with children := elems2 }, ?_, ?_⟩
        · rw [hq2p, hget, if_pos rfl]
        · exact Nat.le_refl _
      · have hq2L : q2 ≠ s.heap.length := fun h2 =>
          Nat.lt_irrefl _ (h2 ▸ getN_lt hqo)
        refine ⟨qo, ?_, hqs2⟩
        rw [hget, if_neg hq2p, if_neg hq2r, if_neg hq2l, if_neg hq2L]
        exact hqo
    · rw [if_neg hjp] at h
      by_cases hjr : j = rid
      · rw [if_pos hjr] at h
        injection h with he2
        subst he2
        have hq3 : (some s.heap.length : Option Nat) = some q2 := hq2
        injection hq3 with he3
        subst he3
        have hLp : s.heap.length ≠ pid := fun h2 =>
          Nat.lt_irrefl _ (h2 ▸ hpL)
        have hLr : s.heap.length ≠ rid := fun h2 =>
          Nat.lt_irrefl _ (h2 ▸ hrL)
        have hLl : s.heap.length ≠ lid := fun h2 =>
          Nat.lt_irrefl _ (h2 ▸ hlL)
        refine ⟨K, ?_, ?_⟩
        · rw [hget, if_neg hLp, if_neg hLr, if_neg hLl, if_pos rfl]
        · show K.nstart ≤ r.nstart
          rw [hKs, ← hls]
          exact Nat.le_trans hbl.1 hlr
      · rw [if_neg hjr] at h
        by_cases hjl : j = lid
        · rw [if_pos hjl] at h
          injection h with he2
          subst he2
          have hq3 : (some s.heap.length : Option Nat) = some q2 := hq2
          injection hq3 with he3
          subst he3
          have hLp : s.heap.length ≠ pid := fun h2 =>
            Nat.lt_irrefl _ (h2 ▸ hpL)
          have hLr : s.heap.length ≠ rid := fun h2 =>
            Nat.lt_irrefl _ (h2 ▸ hrL)
          have hLl : s.heap.length ≠ lid := fun h2 =>
            Nat.lt_irrefl _ (h2 ▸ hlL)
          refine ⟨K, ?_, ?_⟩
          · rw [hget, if_neg hLp, if_neg hLr, if_neg hLl, if_pos rfl]
          · show K.nstart ≤ l.nstart
            rw [hKs, hls]
        · rw [if_neg hjl] at h
          by_cases hjL : j = s.heap.length
          · rw [if_pos hjL] at h
            injection h with he2
            subst he2
            have hq3 : some pid = some q2 := hKp.symm.trans hq2
            injection hq3 with he3
            subst he3
            refine ⟨{ p with children := elems2 }, ?_, ?_⟩
            · rw [hget, if_pos rfl]
            · show p.nstart ≤ K.nstart
              rw [hKs, ← hls]
              exact hpsl
          · rw [if_neg hjL] at h
            rcases hg.pstart j jo q2 h hq2 with ⟨qo, hqo, hqs2⟩
            by_cases hq2p : q2 = pid
            · rw [hq2p, hp] at hqo
              injection hqo with he3
              refine ⟨{ p with children := elems2 }, ?_, ?_⟩
              · rw [hq2p, hget, if_pos rfl]
              · rw [← he3] at hqs2
                exact hqs2
            · by_cases hq2r : q2 = rid
              · rw [hq2r, hr] at hqo
                injection hqo with he3
                refine ⟨{ r with parent := some s.heap.length }, ?_, ?_⟩
                · rw [hq2r, hget, if_neg hr_pid, if_pos rfl]
                · rw [← he3] at hqs2
                  exact hqs2
              · by_cases hq2l : q2 = lid
                · rw [hq2l, hl] at hqo
                  injection hqo with he3
                  refine ⟨{ l with parent := some s.heap.length }, ?_, ?_⟩
                  · rw [hq2l, hget, if_neg hl_pid,
                      if_neg (fun h2 => hlrne h2), if_pos rfl]
                  · rw [← he3] at hqs2
                    exact hqs2
                · have hq2L : q2 ≠ s.heap.length := fun h2 =>
                    Nat.lt_irrefl _ (h2 ▸ getN_lt hqo)
                  refine ⟨qo, ?_, hqs2⟩
                  rw [hget, if_neg hq2p, if_neg hq2r, if_neg hq2l,
                    if_neg hq2L]
                  exact hqo
  · intro j jo q2 qo h hjP hq2 hqo hqP
    rw [hget] at h hqo
    by_cases hjp : j = pid
    · exact absurd (hjp ▸ hpidP) hjP
    · rw [if_neg hjp] at h
      by_cases hjr : j = rid
      · rw [if_pos hjr] at h
        injection h with he2
        subst he2
        have hq3 : (some s.heap.length : Option Nat) = some q2 := hq2
        injection hq3 with he3
        subst he3
        have hLp : s.heap.length ≠ pid := fun h2 =>
          Nat.lt_irrefl _ (h2 ▸ hpL)
        have hLr : s.heap.length ≠ rid := fun h2 =>
          Nat.lt_irrefl _ (h2 ▸ hrL)
        have hLl : s.heap.length ≠ lid := fun h2 =>
          Nat.lt_irrefl _ (h2 ▸ hlL)
        rw [if_neg hLp, if_neg hLr, if_neg hLl, if_pos rfl] at hqo
        injection hqo with he4
        subst he4
        show r.nend ≤ K.nend
        rw [hKe]
        exact hrb
      · rw [if_neg hjr] at h
        by_cases hjl : j = lid
        · rw [if_pos hjl] at h
          injection h with he2
          subst he2
          have hq3 : (some s.heap.length : Option Nat) = some q2 := hq2
          injection hq3 with he3
          subst he3
          have hLp : s.heap.length ≠ pid := fun h2 =>
            Nat.lt_irrefl _ (h2 ▸ hpL)
          have hLr : s.heap.length ≠ rid := fun h2 =>
            Nat.lt_irrefl _ (h2 ▸ hrL)
          have hLl : s.heap.length ≠ lid := fun h2 =>
            Nat.lt_irrefl _ (h2 ▸ hlL)
          rw [if_neg hLp, if_neg hLr, if_neg hLl, if_pos rfl] at hqo
          injection hqo with he4
          subst he4
          show l.nend ≤ K.nend
          rw [hKe]
          exact Nat.le_trans hbl.2 hpb
        · rw [if_neg hjl] at h
          by_cases hjL : j = s.heap.length
          · rw [if_pos hjL] at h
            injection h with he2
            subst he2
            have hq3 : some pid = some q2 := hKp.symm.trans hq2
            injection hq3 with he3
            exact absurd (he3 ▸ hpidP) hqP
          · rw [if_neg hjL] at h
            by_cases hq2p : q2 = pid
            · exact absurd (hq2p ▸ hpidP) hqP
            · rw [if_neg hq2p] at hqo
              by_cases hq2r : q2 = rid
              · rw [if_pos hq2r] at hqo
                injection hqo with he3
                subst he3
                show jo.nend ≤ r.nend
                rw [hq2r] at hq2 hqP
                exact hg.closedEnd j jo rid r h hjP hq2 hr hqP
              · rw [if_neg hq2r] at hqo
                by_cases hq2l : q2 = lid
                · rw [if_pos hq2l] at hqo
                  injection hqo with he3
                  subst he3
                  show jo.nend ≤ l.nend
                  rw [hq2l] at hq2 hqP
                  exact hg.closedEnd j jo lid l h hjP hq2 hl hqP
                · rw [if_neg hq2l] at hqo
                  by_cases hq2L : q2 = s.heap.length
                  · subst hq2L
                    rcases hg.pstart j jo _ h hq2 with ⟨qo2, hqo2, -⟩
                    exact absurd (getN_lt hqo2) (Nat.lt_irrefl _)
                  · rw [if_neg hq2L] at hqo
                    exact hg.closedEnd j jo q2 qo h hjP hq2 hqo hqP
  · intro pr hpr
    have hpr2 : pr ∈ (pid, (alloc s K).2) ::
        s.exprBuffer.filter (fun pr2 => !(pr2.1 == pid)) := hpr
    rcases List.mem_cons.mp hpr2 with hm | hm
    · have hv : pr.2 = s.heap.length := by
        rw [hm]
        rfl
      have hk : pr.1 = pid := by
        rw [hm]
      refine ⟨K, ?_, ?_⟩
      · rw [hv, hget, if_neg (fun h2 => Nat.lt_irrefl _ (h2 ▸ hpL)),
          if_neg (fun h2 => Nat.lt_irrefl _ (h2 ▸ hrL)),
          if_neg (fun h2 => Nat.lt_irrefl _ (h2 ▸ hlL)), if_pos rfl]
      · rw [hk]
        exact hKp
    · have hmm := List.mem_filter.mp hm
      have hkne : pr.1 ≠ pid := by
        have h2 := hmm.2
        simp only [Bool.not_eq_eq_eq_not, Bool.not_true, beq_eq_false_iff_ne,
          ne_eq] at h2
        exact h2
      rcases hg.buf pr hmm.1 with ⟨eo, heo, hpe2⟩
      have hvr : pr.2 ≠ rid := by
        intro h2
        rw [h2, hr] at heo
        injection heo with he3
        rw [← he3, hrp] at hpe2
        injection hpe2 with he4
        exact hkne he4.symm
      have hvl : pr.2 ≠ lid := by
        intro h2
        rw [h2, hl] at heo
        injection heo with he3
        rw [← he3, hlp] at hpe2
        injection hpe2 with he4
        exact hkne he4.symm
      by_cases hvp : pr.2 = pid
      · rw [hvp, hp] at heo
        injection heo with he3
        refine ⟨{ p with children := elems2 }, ?_, ?_⟩
        · rw [hvp, hget, if_pos rfl]
        · rw [← he3] at hpe2
          exact hpe2
      · have hvL : pr.2 ≠ s.heap.length := fun h2 =>
          Nat.lt_irrefl _ (h2 ▸ getN_lt heo)
        refine ⟨eo, ?_, hpe2⟩
        rw [hget, if_neg hvp, if_neg hvr, if_neg hvl, if_neg hvL]
        exact heo
  · intro pr hpr j jo hj
    have hpr2 : pr ∈ (pid, (alloc s K).2) ::
        s.exprBuffer.filter (fun pr2 => !(pr2.1 == pid)) := hpr
    rw [hget] at hj
    rcases List.mem_cons.mp hpr2 with hm | hm
    · have hv : pr.2 = s.heap.length := by
        rw [hm]
        rfl
      rw [hv]
      by_cases hjp : j = pid
      · rw [if_pos hjp] at hj
        injection hj with he2
        subst he2
        intro hmem
        exact Nat.lt_irrefl _ (hkidlt _ (hsub.subset hmem))
      · rw [if_neg hjp] at hj
        by_cases hjr : j = rid
        · rw [if_pos hjr] at hj
          injection hj with he2
          subst he2
          intro hmem
          rcases hg.kids rid r hr _ hmem with ⟨co, hco, -⟩
          exact Nat.lt_irrefl _ (getN_lt hco)
        · rw [if_neg hjr] at hj
          by_cases hjl : j = lid
          · rw [if_pos hjl] at hj
            injection hj with he2
            subst he2
            intro hmem
            rcases hg.kids lid l hl _ hmem with ⟨co, hco, -⟩
            exact Nat.lt_irrefl _ (getN_lt hco)
          · rw [if_neg hjl] at hj
            by_cases hjL : j = s.heap.length
            · rw [if_pos hjL] at hj
              injection hj with he2
              subst he2
              rw [hKc]
              intro hmem
              rcases List.mem_cons.mp hmem with h3 | h3
              · exact Nat.lt_irrefl _ (h3 ▸ hlL)
              · rw [List.mem_singleton] at h3
                exact Nat.lt_irrefl _ (h3 ▸ hrL)
            · rw [if_neg hjL] at hj
              intro hmem
              rcases hg.kids j jo hj _ hmem with ⟨co, hco, -⟩
              exact Nat.lt_irrefl _ (getN_lt hco)
    · have hmm := List.mem_filter.mp hm
      have hkne : pr.1 ≠ pid := by
        have h2 := hmm.2
        simp only [Bool.not_eq_eq_eq_not, Bool.not_true, beq_eq_false_iff_ne,
          ne_eq] at h2
        exact h2
      rcases hg.buf pr hmm.1 with ⟨eo, heo, hpe2⟩
      have hvr : pr.2 ≠ rid := by
        intro h2
        rw [h2, hr] at heo
        injection heo with he3
        rw [← he3, hrp] at hpe2
        injection hpe2 with he4
        exact hkne he4.symm
      have hvl : pr.2 ≠ lid := by
        intro h2
        rw [h2, hl] at heo
        injection heo with he3
        rw [← he3, hlp] at hpe2
        injection hpe2 with he4
        exact hkne he4.symm
      by_cases hjp : j = pid
      · rw [if_pos hjp] at hj
        injection hj with he2
        subst he2
        intro hmem
        exact hg.bufNotChild pr hmm.1 pid p hp (hsub.subset hmem)
      · rw [if_neg hjp] at hj
        by_cases hjr : j = rid
        · rw [if_pos hjr] at hj
          injection hj with he2
          subst he2
          exact hg.bufNotChild pr hmm.1 rid r hr
        · rw [if_neg hjr] at hj
          by_cases hjl : j = lid
          · rw [if_pos hjl] at hj
            injection hj with he2
            subst he2
            exact hg.bufNotChild pr hmm.1 lid l hl
          · rw [if_neg hjl] at hj
            by_cases hjL : j = s.heap.length
            · rw [if_pos hjL] at hj
              injection hj with he2
              subst he2
              rw [hKc]
              intro hmem
              rcases List.mem_cons.mp hmem with h3 | h3
              · exact hvl h3
              · rw [List.mem_singleton] at h3
                exact hvr h3
            · rw [if_neg hjL] at hj
              exact hg.bufNotChild pr hmm.1 j jo hj

/-- `onCharacterClassRange`-shaped restructure: pop `max` (and under a
hyphen, `min`) and push a fresh range node `K` wrapping both. -/
theorem ginv_rangeShape {s : PState} {pos a b : Nat} {P : List Nat}
    {pid minId maxId : Nat} {p mn mx : NodeObj} {elems3 : List Nat}
    (K : NodeObj) (hg : GInv s pos P) (hn : s.node = some pid)
    (hp : getN s pid = some p)
    (hlast : p.children.getLast? = some maxId) (hmx : getN s maxId = some mx)
    (hmn : getN s minId = some mn) (hmin_mem : minId ∈ p.children)
    (hne : minId ≠ maxId) (hsub : elems3.Sublist p.children)
    (hmne : minId ∉ elems3) (hmxe : maxId ∉ elems3)
    (hmns : mn.nstart = a) (hmm : mn.nend ≤ mx.nstart) (hmxb : mx.nend ≤ b)
    (hpb : pos ≤ b)
    (hKp : K.parent = some pid) (hKs : K.nstart = a) (hKe : K.nend = b)
    (hKr : K.raw = sliceCU s.source a b)
    (hKc : K.children = [minId, maxId]) :
    GInv (setN (setN (setN (alloc s K).1 minId
        { mn with parent := some (alloc s K).2 }) maxId
        { mx with parent := some (alloc s K).2 }) pid
        { p with children := elems3 ++ [(alloc s K).2] }) b P := by
  have hpL : pid < s.heap.length := getN_lt hp
  have hmnL : minId < s.heap.length := getN_lt hmn
  have hmxL : maxId < s.heap.length := getN_lt hmx
  have hpP : PathTo s pid P := by
    have h := hg.path
    rw [PathOk, hn] at h
    exact h
  have hpidP : pid ∈ P := by
    rcases PathTo_head hpP with ⟨t, ht⟩
    rw [ht]
    exact List.mem_cons_self _ _
  have hmemlt := PathTo_mem_lt hpP
  have hmax_mem : maxId ∈ p.children := List.mem_of_getLast?_eq_some hlast
  have hmxp : mx.parent = some pid := by
    rcases hg.kids pid p hp maxId hmax_mem with ⟨co, hco, hcp⟩
    rw [hmx] at hco
    injection hco with he2
    rw [he2]
    exact hcp
  have hmnp : mn.parent = some pid := by
    rcases hg.kids pid p hp minId hmin_mem with ⟨co, hco, hcp⟩
    rw [hmn] at hco
    injection hco with he2
    rw [he2]
    exact hcp
  have hmxP : maxId ∉ P := child_not_mem hpP hg.nodup hmx hmxp
  have hmnP : minId ∉ P := child_not_mem hpP hg.nodup hmn hmnp
  have hmx_pid : maxId ≠ pid := fun h2 => hmxP (h2 ▸ hpidP)
  have hmn_pid : minId ≠ pid := fun h2 => hmnP (h2 ▸ hpidP)
  have hbmn := hg.bounds minId mn hmn
  have hbmx := hg.bounds maxId mx hmx
  have hbp := hg.bounds pid p hp
  have hab : a ≤ b := by
    rw [← hmns]
    exact Nat.le_trans hbmn.1 (Nat.le_trans hmm (Nat.le_trans hbmx.1 hmxb))
  have hpsmn : p.nstart ≤ mn.nstart := by
    rcases hg.pstart minId mn pid hmn hmnp with ⟨po, hpo, hps⟩
    rw [hp] at hpo
    injection hpo with he2
    rw [← he2] at hps
    exact hps
  have hkidlt : ∀ c ∈ p.children, c < s.heap.length := by
    intro c hc
    rcases hg.kids pid p hp c hc with ⟨co, hco, -⟩
    exact getN_lt hco
  have hget : ∀ j, getN (setN (setN (setN (alloc s K).1 minId
      { mn with parent := some (alloc s K).2 }) maxId
      { mx with parent := some (alloc s K).2 }) pid
      { p with children := elems3 ++ [(alloc s K).2] }) j =
      if j = pid then
        some { p with children := elems3 ++ [s.heap.length] }
      else if j = maxId then some { mx with parent := some s.heap.length }
      else if j = minId then some { mn with parent := some s.heap.length }
      else if j = s.heap.length then some K else getN s j := by
    intro j
    rw [getN_setN]
    by_cases hjp : j = pid
    · have hlt : pid < (setN (setN (alloc s K).1 minId
          { mn with parent := some (alloc s K).2 }) maxId
          { mx with parent := some (alloc s K).2 }).heap.length := by
        rw [setN_heap_length, setN_heap_length, alloc_heap_length]
        exact Nat.lt_succ_of_lt hpL
      rw [if_pos ⟨hjp.symm, hlt⟩, if_pos hjp]
      rfl
    · rw [if_neg (fun hh => hjp hh.1.symm), if_neg hjp, getN_setN]
      by_cases hjr : j = maxId
      · have hlt : maxId < (setN (alloc s K).1 minId
            { mn with parent := some (alloc s K).2 }).heap.length := by
          rw [setN_heap_length, alloc_heap_length]
          exact Nat.lt_succ_of_lt hmxL
        rw [if_pos ⟨hjr.symm, hlt⟩, if_pos hjr]
        rfl
      · rw [if_neg (fun hh => hjr hh.1.symm), if_neg hjr, getN_setN]
        by_cases hjl : j = minId
        · have hlt : minId < (alloc s K).1.heap.length := by
            rw [alloc_heap_length]
            exact Nat.lt_succ_of_lt hmnL
          rw [if_pos ⟨hjl.symm, hlt⟩, if_pos hjl]
          rfl
        · rw [if_neg (fun hh => hjl hh.1.symm), if_neg hjl, getN_alloc]
  refine ⟨?_, hg.nodup, ?_, ?_, ?_, ?_, ?_, ?_, ?_, ?_⟩
  · show PathOk _ P
    have hnode : (setN (setN (setN (alloc s K).1 minId
        { mn with parent := some (alloc s K).2 }) maxId
        { mx with parent := some (alloc s K).2 }) pid
        { p with children := elems3 ++ [(alloc s K).2] }).node
        = some pid := hn
    rw [PathOk, hnode]
    refine PathTo_transport hpP ?_
    intro j hj jo hjo
    have hjL : j ≠ s.heap.length := fun h2 =>
      Nat.lt_irrefl _ (h2 ▸ hmemlt j hj)
    have hjr : j ≠ maxId := fun h2 => hmxP (h2 ▸ hj)
    have hjl : j ≠ minId := fun h2 => hmnP (h2 ▸ hj)
    by_cases hjp : j = pid
    · rw [hjp, hp] at hjo
      injection hjo with he2
      refine ⟨{ p with children := elems3 ++ [s.heap.length] }, ?_, ?_⟩
      · rw [hget, if_pos hjp]
      · rw [← he2]
    · refine ⟨jo, ?_, rfl⟩
      rw [hget, if_neg hjp, if_neg hjr, if_neg hjl, if_neg hjL]
      exact hjo
  · intro j jo h
    rw [hget] at h
    by_cases hjp : j = pid
    · rw [if_pos hjp] at h
      injection h with he2
      subst he2
      exact hg.raws pid p hp
    · rw [if_neg hjp] at h
      by_cases hjr : j = maxId
      · rw [if_pos hjr] at h
        injection h with he2
        subst he2
        exact hg.raws maxId mx hmx
      · rw [if_neg hjr] at h
        by_cases hjl : j = minId
        · rw [if_pos hjl] at h
          injection h with he2
          subst he2
          exact hg.raws minId mn hmn
        · rw [if_neg hjl] at h
          by_cases hjL : j = s.heap.length
          · rw [if_pos hjL] at h
            injection h with he2
            subst he2
            rw [hKr, hKs, hKe]
            rfl
          · rw [if_neg hjL] at h
            exact hg.raws j jo h
  · intro j jo h
    rw [hget] at h
    by_cases hjp : j = pid
    · rw [if_pos hjp] at h
      injection h with he2
      subst he2
      exact ⟨hbp.1, Nat.le_trans hbp.2 hpb⟩
    · rw [if_neg hjp] at h
      by_cases hjr : j = maxId
      · rw [if_pos hjr] at h
        injection h with he2
        subst he2
        exact ⟨hbmx.1, Nat.le_trans hbmx.2 hpb⟩
      · rw [if_neg hjr] at h
        by_cases hjl : j = minId
        · rw [if_pos hjl] at h
          injection h with he2
          subst he2
          exact ⟨hbmn.1, Nat.le_trans hbmn.2 hpb⟩
        · rw [if_neg hjl] at h
          by_cases hjL : j = s.heap.length
          · rw [if_pos hjL] at h
            injection h with he2
            subst he2
            rw [hKs, hKe]
            exact ⟨hab, Nat.le_refl b⟩
          · rw [if_neg hjL] at h
            have hb2 := hg.bounds j jo h
            exact ⟨hb2.1, Nat.le_trans hb2.2 hpb⟩
  · intro j jo h c hc
    rw [hget] at h
    by_cases hjp : j = pid
    · rw [if_pos hjp] at h
      injection h with he2
      subst he2
      rcases List.mem_append.mp hc with hcm | hcm
      · have hcch : c ∈ p.children := hsub.subset hcm
        rcases hg.kids pid p hp c hcch with ⟨co, hco, hcp⟩
        have hcP : c ∉ P := child_not_mem hpP hg.nodup hco hcp
        have hcpid : c ≠ pid := fun h2 => hcP (h2 ▸ hpidP)
        have hcr : c ≠ maxId := fun h2 => hmxe (h2 ▸ hcm)
        have hcl : c ≠ minId := fun h2 => hmne (h2 ▸ hcm)
        have hcL : c ≠ s.heap.length := fun h2 =>
          Nat.lt_irrefl _ (h2 ▸ getN_lt hco)
        refine ⟨co, ?_, ?_⟩
        · rw [hget, if_neg hcpid, if_neg hcr, if_neg hcl, if_neg hcL]
          exact hco
        · rw [hjp]
          exact hcp
      · rw [List.mem_singleton] at hcm
        refine ⟨K, ?_, ?_⟩
        · have hLp : s.heap.length ≠ pid := fun h2 =>
            Nat.lt_irrefl _ (h2 ▸ hpL)
          have hLr : s.heap.length ≠ maxId := fun h2 =>
            Nat.lt_irrefl _ (h2 ▸ hmxL)
          have hLl : s.heap.length ≠ minId := fun h2 =>
            Nat.lt_irrefl _ (h2 ▸ hmnL)
          rw [hcm, hget, if_neg hLp, if_neg hLr, if_neg hLl, if_pos rfl]
        · rw [hjp]
          exact hKp
    · rw [if_neg hjp] at h
      by_cases hjr : j = maxId
      · rw [if_pos hjr] at h
        injection h with he2
        subst he2
        have hc2 : c ∈ mx.children := hc
        rcases hg.kids maxId mx hmx c hc2 with ⟨co, hco, hcp⟩
        have hcpid : c ≠ pid := by
          intro h2
          rw [h2, hp] at hco
          injection hco with he3
          rw [← he3] at hcp
          exact hmxP (PathTo_parent_mem hpP pid hpidP p maxId hp hcp)
        have hcr : c ≠ maxId := by
          intro h2
          rw [h2, hmx] at hco
          injection hco with he3
          rw [← he3, hmxp] at hcp
          injection hcp with he4
          exact hmx_pid he4.symm
        have hcl : c ≠ minId := by
          intro h2
          rw [h2, hmn] at hco
          injection hco with he3
          rw [← he3, hmnp] at hcp
          injection hcp with he4
          exact hmx_pid he4.symm
        have hcL : c ≠ s.heap.length := fun h2 =>
          Nat.lt_irrefl _ (h2 ▸ getN_lt hco)
        refine ⟨co, ?_, ?_⟩
        · rw [hget, if_neg hcpid, if_neg hcr, if_neg hcl, if_neg hcL]
          exact hco
        · rw [hjr]
          exact hcp
      · rw [if_neg hjr] at h
        by_cases hjl : j = minId
        · rw [if_pos hjl] at h
          injection h with he2
          subst he2
          have hc2 : c ∈ mn.children := hc
          rcases hg.kids minId mn hmn c hc2 with ⟨co, hco, hcp⟩
          have hcpid : c ≠ pid := by
            intro h2
            rw [h2, hp] at hco
            injection hco with he3
            rw [← he3] at hcp
            exact hmnP (PathTo_parent_mem hpP pid hpidP p minId hp hcp)
          have hcr : c ≠ maxId := by
            intro h2
            rw [h2, hmx] at hco
            injection hco with he3
            rw [← he3, hmxp] at hcp
            injection hcp with he4
            exact hmn_pid he4.symm
          have hcl : c ≠ minId := by
            intro h2
            rw [h2, hmn] at hco
            injection hco with he3
            rw [← he3, hmnp] at hcp
            injection hcp with he4
            exact hmn_pid he4.symm
          have hcL : c ≠ s.heap.length := fun h2 =>
            Nat.lt_irrefl _ (h2 ▸ getN_lt hco)
          refine ⟨co, ?_, ?_⟩
          · rw [hget, if_neg hcpid, if_neg hcr, if_neg hcl, if_neg hcL]
            exact hco
          · rw [hjl]
            exact hcp
        · rw [if_neg hjl] at h
          by_cases hjL : j = s.heap.length
          · rw [if_pos hjL] at h
            injection h with he2
            subst he2
            rw [hKc] at hc
            rcases List.mem_cons.mp hc with hcm | hcm
            · refine ⟨{ mn with parent := some s.heap.length }, ?_, ?_⟩
              · rw [hcm, hget, if_neg hmn_pid,
                  if_neg (fun h2 => hne h2), if_pos rfl]
              · rw [hjL]
            · rw [List.mem_singleton] at hcm
              refine ⟨{ mx with parent := some s.heap.length }, ?_, ?_⟩
              · rw [hcm, hget, if_neg hmx_pid, if_pos rfl]
              · rw [hjL]
          · rw [if_neg hjL] at h
            rcases hg.kids j jo h c hc with ⟨co, hco, hcp⟩
            have hcr : c ≠ maxId := by
              intro h2
              rw [h2, hmx] at hco
              injection hco with he3
              rw [← he3, hmxp] at hcp
              injection hcp with he4
              exact hjp he4.symm
            have hcl : c ≠ minId := by
              intro h2
              rw [h2, hmn] at hco
              injection hco with he3
              rw [← he3, hmnp] at hcp
              injection hcp with he4
              exact hjp he4.symm
            by_cases hcpid : c = pid
            · rw [hcpid, hp] at hco
              injection hco with he3
              refine ⟨{ p with children := elems3 ++ [s.heap.length] },
                ?_, ?_⟩
              · rw [hcpid, hget, if_pos rfl]
              · rw [← he3] at hcp
                exact hcp
            · have hcL : c ≠ s.heap.length := fun h2 =>
                Nat.lt_irrefl _ (h2 ▸ getN_lt hco)
              refine ⟨co, ?_, hcp⟩
              rw [hget, if_neg hcpid, if_neg hcr, if_neg hcl, if_neg hcL]
              exact hco
  · intro j jo h
    rw [hget] at h
    by_cases hjp : j = pid
    · rw [if_pos hjp] at h
      injection h with he2
      subst he2
      show (elems3 ++ [s.heap.length]).Nodup
      rw [List.nodup_append]
      refine ⟨(hg.kidsNodup pid p hp).sublist hsub,
        List.nodup_singleton _, fun x hx hx2 => ?_⟩
      rw [List.mem_singleton] at hx2
      exact Nat.lt_irrefl _ (hkidlt _ (hsub.subset (hx2 ▸ hx)))
    · rw [if_neg hjp] at h
      by_cases hjr : j = maxId
      · rw [if_pos hjr] at h
        injection h with he2
        subst he2
        exact hg.kidsNodup maxId mx hmx
      · rw [if_neg hjr] at h
        by_cases hjl : j = minId
        · rw [if_pos hjl] at h
          injection h with he2
          subst he2
          exact hg.kidsNodup minId mn hmn
        · rw [if_neg hjl] at h
          by_cases hjL : j = s.heap.length
          · rw [if_pos hjL] at h
            injection h with he2
            subst he2
            rw [hKc]
            refine List.nodup_cons.mpr ⟨?_, List.nodup_singleton _⟩
            intro hm
            rw [List.mem_singleton] at hm
            exact hne hm
          · rw [if_neg hjL] at h
            exact hg.kidsNodup j jo h
  · intro j jo q2 h hq2
    rw [hget] at h
    by_cases hjp : j = pid
    · rw [if_pos hjp] at h
      injection h with he2
      subst he2
      have hq3 : p.parent = some q2 := hq2
      rcases hg.pstart pid p q2 hp hq3 with ⟨qo, hqo, hqs2⟩
      have hq2r : q2 ≠ maxId := by
        intro h3
        exact hmxP (h3 ▸ PathTo_parent_mem hpP pid hpidP p q2 hp hq3)
      have hq2l : q2 ≠ minId := by
        intro h3
        exact hmnP (h3 ▸ PathTo_parent_mem hpP pid hpidP p q2 hp hq3)
      by_cases hq2p : q2 = pid
      · rw [hq2p, hp] at hqo
        refine ⟨{ p with children := elems3 ++ [s.heap.length] }, ?_, ?_⟩
        · rw [hq2p, hget, if_pos rfl]
        · exact Nat.le_refl _
      · have hq2L : q2 ≠ s.heap.length := fun h2 =>
          Nat.lt_irrefl _ (h2 ▸ getN_lt hqo)
        refine ⟨qo, ?_, hqs2⟩
        rw [hget, if_neg hq2p, if_neg hq2r, if_neg hq2l, if_neg hq2L]
        exact hqo
    · rw [if_neg hjp] at h
      by_cases hjr : j = maxId
      · rw [if_pos hjr] at h
        injection h with he2
        subst he2
        have hq3 : (some s.heap.length : Option Nat) = some q2 := hq2
        injection hq3 with he3
        subst he3
        have hLp : s.heap.length ≠ pid := fun h2 =>
          Nat.lt_irrefl _ (h2 ▸ hpL)
        have hLr : s.heap.length ≠ maxId := fun h2 =>
          Nat.lt_irrefl _ (h2 ▸ hmxL)
        have hLl : s.heap.length ≠ minId := fun h2 =>
          Nat.lt_irrefl _ (h2 ▸ hmnL)
        refine ⟨K, ?_, ?_⟩
        · rw [hget, if_neg hLp, if_neg hLr, if_neg hLl, if_pos rfl]
        · show K.nstart ≤ mx.nstart
          rw [hKs, ← hmns]
          exact Nat.le_trans hbmn.1 hmm
      · rw [if_neg hjr] at h
        by_cases hjl : j = minId
        · rw [if_pos hjl] at h
          injection h with he2
          subst he2
          have hq3 : (some s.heap.length : Option Nat) = some q2 := hq2
          injection hq3 with he3
          subst he3
          have hLp : s.heap.length ≠ pid := fun h2 =>
            Nat.lt_irrefl _ (h2 ▸ hpL)
          have hLr : s.heap.length ≠ maxId := fun h2 =>
            Nat.lt_irrefl _ (h2 ▸ hmxL)
          have hLl : s.heap.length ≠ minId := fun h2 =>
            Nat.lt_irrefl _ (h2 ▸ hmnL)
          refine ⟨K, ?_, ?_⟩
          · rw [hget, if_neg hLp, if_neg hLr, if_neg hLl, if_pos rfl]
          · show K.nstart ≤ mn.nstart
            rw [hKs, hmns]
        · rw [if_neg hjl] at h
          by_cases hjL : j = s.heap.length
          · rw [if_pos hjL] at h
            injection h with he2
            subst he2
            have hq3 : some pid = some q2 := hKp.symm.trans hq2
            injection hq3 with he3
            subst he3
            refine ⟨{ p with children := elems3 ++ [s.heap.length] },
              ?_, ?_⟩
            · rw [hget, if_pos rfl]
            · show p.nstart ≤ K.nstart
              rw [hKs, ← hmns]
              exact hpsmn
          · rw [if_neg hjL] at h
            rcases hg.pstart j jo q2 h hq2 with ⟨qo, hqo, hqs2⟩
            by_cases hq2p : q2 = pid
            · rw [hq2p, hp] at hqo
              injection hqo with he3
              refine ⟨{ p with children := elems3 ++ [s.heap.length] },
                ?_, ?_⟩
              · rw [hq2p, hget, if_pos rfl]
              · rw [← he3] at hqs2
                exact hqs2
            · by_cases hq2r : q2 = maxId
              · rw [hq2r, hmx] at hqo
                injection hqo with he3
                refine ⟨{ mx with parent := some s.heap.length }, ?_, ?_⟩
                · rw [hq2r, hget, if_neg hmx_pid, if_pos rfl]
                · rw [← he3] at hqs2
                  exact hqs2
              · by_cases hq2l : q2 = minId
                · rw [hq2l, hmn] at hqo
                  injection hqo with he3
                  refine ⟨{ mn with parent := some s.heap.length }, ?_, ?_⟩
                  · rw [hq2l, hget, if_neg hmn_pid,
                      if_neg (fun h2 => hne h2), if_pos rfl]
                  · rw [← he3] at hqs2
                    exact hqs2
                · have hq2L : q2 ≠ s.heap.length := fun h2 =>
                    Nat.lt_irrefl _ (h2 ▸ getN_lt hqo)
                  refine ⟨qo, ?_, hqs2⟩
                  rw [hget, if_neg hq2p, if_neg hq2r, if_neg hq2l,
                    if_neg hq2L]
                  exact hqo
  · intro j jo q2 qo h hjP hq2 hqo hqP
    rw [hget] at h hqo
    by_cases hjp : j = pid
    · exact absurd (hjp ▸ hpidP) hjP
    · rw [if_neg hjp] at h
      by_cases hjr : j = maxId
      · rw [if_pos hjr] at h
        injection h with he2
        subst he2
        have hq3 : (some s.heap.length : Option Nat) = some q2 := hq2
        injection hq3 with he3
        subst he3
        have hLp : s.heap.length ≠ pid := fun h2 =>
          Nat.lt_irrefl _ (h2 ▸ hpL)
        have hLr : s.heap.length ≠ maxId := fun h2 =>
          Nat.lt_irrefl _ (h2 ▸ hmxL)
        have hLl : s.heap.length ≠ minId := fun h2 =>
          Nat.lt_irrefl _ (h2 ▸ hmnL)
        rw [if_neg hLp, if_neg hLr, if_neg hLl, if_pos rfl] at hqo
        injection hqo with he4
        subst he4
        show mx.nend ≤ K.nend
        rw [hKe]
        exact hmxb
      · rw [if_neg hjr] at h
        by_cases hjl : j = minId
        · rw [if_pos hjl] at h
          injection h with he2
          subst he2
          have hq3 : (some s.heap.length : Option Nat) = some q2 := hq2
          injection hq3 with he3
          subst he3
          have hLp : s.heap.length ≠ pid := fun h2 =>
            Nat.lt_irrefl _ (h2 ▸ hpL)
          have hLr : s.heap.length ≠ maxId := fun h2 =>
            Nat.lt_irrefl _ (h2 ▸ hmxL)
          have hLl : s.heap.length ≠ minId := fun h2 =>
            Nat.lt_irrefl _ (h2 ▸ hmnL)
          rw [if_neg hLp, if_neg hLr, if_neg hLl, if_pos rfl] at hqo
          injection hqo with he4
          subst he4
          show mn.nend ≤ K.nend
          rw [hKe]
          exact Nat.le_trans hbmn.2 hpb
        · rw [if_neg hjl] at h
          by_cases hjL : j = s.heap.length
          · rw [if_pos hjL] at h
            injection h with he2
            subst he2
            have hq3 : some pid = some q2 := hKp.symm.trans hq2
            injection hq3 with he3
            exact absurd (he3 ▸ hpidP) hqP
          · rw [if_neg hjL] at h
            by_cases hq2p : q2 = pid
            · exact absurd (hq2p ▸ hpidP) hqP
            · rw [if_neg hq2p] at hqo
              by_cases hq2r : q2 = maxId
              · rw [if_pos hq2r] at hqo
                injection hqo with he3
                subst he3
                show jo.nend ≤ mx.nend
                rw [hq2r] at hq2 hqP
                exact hg.closedEnd j jo maxId mx h hjP hq2 hmx hqP
              · rw [if_neg hq2r] at hqo
                by_cases hq2l : q2 = minId
                · rw [if_pos hq2l] at hqo
                  injection hqo with he3
                  subst he3
                  show jo.nend ≤ mn.nend
                  rw [hq2l] at hq2 hqP
                  exact hg.closedEnd j jo minId mn h hjP hq2 hmn hqP
                · rw [if_neg hq2l] at hqo
                  by_cases hq2L : q2 = s.heap.length
                  · subst hq2L
                    rcases hg.pstart j jo _ h hq2 with ⟨qo2, hqo2, -⟩
                    exact absurd (getN_lt hqo2) (Nat.lt_irrefl _)
                  · rw [if_neg hq2L] at hqo
                    exact hg.closedEnd j jo q2 qo h hjP hq2 hqo hqP
  · intro pr hpr
    have hpr2 : pr ∈ s.exprBuffer := hpr
    rcases hg.buf pr hpr2 with ⟨eo, heo, hpe2⟩
    have hvr : pr.2 ≠ maxId := by
      intro h2
      exact hg.bufNotChild pr hpr2 pid p hp (h2 ▸ hmax_mem)
    have hvl : pr.2 ≠ minId := by
      intro h2
      exact hg.bufNotChild pr hpr2 pid p hp (h2 ▸ hmin_mem)
    by_cases hvp : pr.2 = pid
    · rw [hvp, hp] at heo
      injection heo with he3
      refine ⟨{ p with children := elems3 ++ [s.heap.length] }, ?_, ?_⟩
      · rw [hvp, hget, if_pos rfl]
      · rw [← he3] at hpe2
        exact hpe2
    · have hvL : pr.2 ≠ s.heap.length := fun h2 =>
        Nat.lt_irrefl _ (h2 ▸ getN_lt heo)
      refine ⟨eo, ?_, hpe2⟩
      rw [hget, if_neg hvp, if_neg hvr, if_neg hvl, if_neg hvL]
      exact heo
  · intro pr hpr j jo hj
    have hpr2 : pr ∈ s.exprBuffer := hpr
    rcases hg.buf pr hpr2 with ⟨eo, heo, -⟩
    have hvLlt : pr.2 < s.heap.length := getN_lt heo
    have hvr : pr.2 ≠ maxId := by
      intro h2
      exact hg.bufNotChild pr hpr2 pid p hp (h2 ▸ hmax_mem)
    have hvl : pr.2 ≠ minId := by
      intro h2
      exact hg.bufNotChild pr hpr2 pid p hp (h2 ▸ hmin_mem)
    rw [hget] at hj
    by_cases hjp : j = pid
    · rw [if_pos hjp] at hj
      injection hj with he2
      subst he2
      intro hmem
      rcases List.mem_append.mp hmem with hm2 | hm2
      · exact hg.bufNotChild pr hpr2 pid p hp (hsub.subset hm2)
      · rw [List.mem_singleton] at hm2
        exact Nat.lt_irrefl _ (hm2 ▸ hvLlt)
    · rw [if_neg hjp] at hj
      by_cases hjr : j = maxId
      · rw [if_pos hjr] at hj
        injection hj with he2
        subst he2
        exact hg.bufNotChild pr hpr2 maxId mx hmx
      · rw [if_neg hjr] at hj
        by_cases hjl : j = minId
        · rw [if_pos hjl] at hj
          injection hj with he2
          subst he2
          exact hg.bufNotChild pr hpr2 minId mn hmn
        · rw [if_neg hjl] at hj
          by_cases hjL : j = s.heap.length
          · rw [if_pos hjL] at hj
            injection hj with he2
            subst he2
            rw [hKc]
            intro hmem
            rcases List.mem_cons.mp hmem with h3 | h3
            · exact hvl h3
            · rw [List.mem_singleton] at h3
              exact hvr h3
          · rw [if_neg hjL] at hj
            exact hg.bufNotChild pr hpr2 j jo hj

/-- `onCharacterClassLeave`-shaped restructure (buffered branch): close
the class, replace it in its parent's child list by a fresh
ExpressionCharacterClass wrapping the buffered operator, and clear the
buffer entry. -/
theorem ginv_classLeaveBuf {s : PState} {pos a b : Nat} {P : List Nat}
    {nid pid eid : Nat} {n0 p0 e0 : NodeObj} {neg : Bool} {L2 : Nat}
    (hg : GInv s pos P) (hn : s.node = some nid)
    (hnid : getN s nid = some n0) (hnp : n0.parent = some pid)
    (hp : getN s pid = some p0)
    (hmem : (nid, eid) ∈ s.exprBuffer)
    (he : getN s eid = some e0)
    (hnc : n0.children = [])
    (hlast : p0.children.getLast? = some nid)
    (hstart : n0.nstart = a) (hpb : pos ≤ b)
    (hL2 : L2 = s.heap.length) :
    GInv (setN (setN (alloc
        ({ setN s nid { n0 with nend := b, raw := sliceCU s.source a b } with
           node := some pid,
           exprBuffer := bufDel s.exprBuffer nid } : PState)
        { kind := .expressionCharacterClass neg, parent := some pid,
          nstart := n0.nstart, nend := b, raw := sliceCU s.source a b,
          children := [eid] }).1 eid
      { e0 with parent := some L2 }) pid
      { p0 with children := p0.children.dropLast ++ [L2] }) b P.tail := by
  subst hL2
  have hpL : pid < s.heap.length := getN_lt hp
  have hnL : nid < s.heap.length := getN_lt hnid
  have heL : eid < s.heap.length := getN_lt he
  have he_par : e0.parent = some nid := by
    rcases hg.buf (nid, eid) hmem with ⟨eo, heo, hpe⟩
    rw [he] at heo
    injection heo with h2
    rw [h2]
    exact hpe
  have hnidP : PathTo s nid P := by
    have h := hg.path
    rw [PathOk, hn] at h
    exact h
  rcases PathTo_head hnidP with ⟨rest0, hPr⟩
  have hnid_nr : nid ∉ rest0 := by
    have h := hg.nodup
    rw [hPr] at h
    exact (List.nodup_cons.mp h).1
  have hrestnd : rest0.Nodup := by
    have h := hg.nodup
    rw [hPr] at h
    exact (List.nodup_cons.mp h).2
  have htail : P.tail = rest0 := by
    rw [hPr]
    rfl
  have hq3 : PathTo s pid rest0 := by
    rcases PathTo_inv hnidP hnid with ⟨hpn, -⟩ | ⟨q, rest2, hpq, hPq, hq3⟩
    · rw [hpn] at hnp
      exact Option.noConfusion hnp
    · rw [hpq] at hnp
      injection hnp with he2
      have hre : rest2 = rest0 := by
        have h2 := hPq.symm.trans hPr
        injection h2 with h3 h4
      rw [← he2, ← hre]
      exact hq3
  have hpidmem : pid ∈ rest0 := by
    rcases PathTo_head hq3 with ⟨t, ht⟩
    rw [ht]
    exact List.mem_cons_self _ _
  have hpid_mem_P : pid ∈ P := by
    rw [hPr]
    exact List.mem_cons_of_mem _ hpidmem
  have heidP : eid ∉ P := child_not_mem hnidP hg.nodup he he_par
  have heid_rest : eid ∉ rest0 := by
    intro hm
    apply heidP
    rw [hPr]
    exact List.mem_cons_of_mem _ hm
  have hnid_mem_P : nid ∈ P := by
    rw [hPr]
    exact List.mem_cons_self _ _
  have hpid_ne_nid : pid ≠ nid := fun h2 => hnid_nr (h2 ▸ hpidmem)
  have heid_ne_nid : eid ≠ nid := fun h2 => heidP (h2 ▸ hnid_mem_P)
  have heid_ne_pid : eid ≠ pid := fun h2 => heidP (h2 ▸ hpid_mem_P)
  have hnid_mem : nid ∈ p0.children := List.mem_of_getLast?_eq_some hlast
  have hnid_nodrop : nid ∉ p0.children.dropLast :=
    nodup_getLast?_not_mem_dropLast (hg.kidsNodup pid p0 hp) hlast
  have hbn := hg.bounds nid n0 hnid
  have hbp := hg.bounds pid p0 hp
  have hbe := hg.bounds eid e0 he
  have hpsn : p0.nstart ≤ n0.nstart := by
    rcases hg.pstart nid n0 pid hnid hnp with ⟨po, hpo, hps⟩
    rw [hp] at hpo
    injection hpo with he2
    rw [← he2] at hps
    exact hps
  have hens : n0.nstart ≤ e0.nstart := by
    rcases hg.pstart eid e0 nid he he_par with ⟨po, hpo, hps⟩
    rw [hnid] at hpo
    injection hpo with he2
    rw [← he2] at hps
    exact hps
  have heid_nochild : ∀ j jo, getN s j = some jo → eid ∉ jo.children :=
    hg.bufNotChild (nid, eid) hmem
  have hkidlt : ∀ c ∈ p0.children, c < s.heap.length := by
    intro c hc
    rcases hg.kids pid p0 hp c hc with ⟨co, hco, -⟩
    exact getN_lt hco
  have hlen3 : ({ setN s nid
      { n0 with nend := b, raw := sliceCU s.source a b } with
      node := some pid,
      exprBuffer := bufDel s.exprBuffer nid } : PState).heap.length =
      s.heap.length := by
    simp [setN]
  have hget : ∀ j, getN (setN (setN (alloc
      ({ setN s nid { n0 with nend := b, raw := sliceCU s.source a b } with
         node := some pid,
         exprBuffer := bufDel s.exprBuffer nid } : PState)
      { kind := .expressionCharacterClass neg, parent := some pid,
        nstart := n0.nstart, nend := b, raw := sliceCU s.source a b,
        children := [eid] }).1 eid
      { e0 with parent := some s.heap.length }) pid
      { p0 with children := p0.children.dropLast ++ [s.heap.length] }) j =
      if j = pid then
        some { p0 with children := p0.children.dropLast ++ [s.heap.length] }
      else if j = eid then some { e0 with parent := some s.heap.length }
      else if j = s.heap.length then
        some { kind := .expressionCharacterClass neg, parent := some pid,
               nstart := n0.nstart, nend := b,
               raw := sliceCU s.source a b, children := [eid] }
      else if j = nid then
        some { n0 with nend := b, raw := sliceCU s.source a b }
      else getN s j := by
    intro j
    rw [getN_setN]
    by_cases hjp : j = pid
    · have hlt : pid < (setN (alloc
          ({ setN s nid
             { n0 with nend := b, raw := sliceCU s.source a b } with
             node := some pid,
             exprBuffer := bufDel s.exprBuffer nid } : PState)
          { kind := .expressionCharacterClass neg, parent := some pid,
            nstart := n0.nstart, nend := b, raw := sliceCU s.source a b,
            children := [eid] }).1 eid
          { e0 with parent := some s.heap.length }).heap.length := by
        rw [setN_heap_length, alloc_heap_length, hlen3]
        exact Nat.lt_succ_of_lt hpL
      rw [if_pos ⟨hjp.symm, hlt⟩, if_pos hjp]
    · rw [if_neg (fun hh => hjp hh.1.symm), if_neg hjp, getN_setN]
      by_cases hje : j = eid
      · have hlt : eid < (alloc
            ({ setN s nid
               { n0 with nend := b, raw := sliceCU s.source a b } with
               node := some pid,
               exprBuffer := bufDel s.exprBuffer nid } : PState)
            { kind := .expressionCharacterClass neg, parent := some pid,
              nstart := n0.nstart, nend := b, raw := sliceCU s.source a b,
              children := [eid] }).1.heap.length := by
          rw [alloc_heap_length, hlen3]
          exact Nat.lt_succ_of_lt heL
        rw [if_pos ⟨hje.symm, hlt⟩, if_pos hje]
      · rw [if_neg (fun hh => hje hh.1.symm), if_neg hje, getN_alloc,
          hlen3]
        by_cases hjL : j = s.heap.length
        · rw [if_pos hjL, if_pos hjL]
        · rw [if_neg hjL, if_neg hjL]
          show getN (setN s nid
            { n0 with nend := b, raw := sliceCU s.source a b }) j = _
          rw [getN_setN]
          by_cases hjn : j = nid
          · rw [if_pos ⟨hjn.symm, hnL⟩, if_pos hjn]
          · rw [if_neg (fun hh => hjn hh.1.symm), if_neg hjn]
  rw [htail]
  refine ⟨?_, hrestnd, ?_, ?_, ?_, ?_, ?_, ?_, ?_, ?_⟩
  · show PathOk _ rest0
    have hnode : (setN (setN (alloc
        ({ setN s nid { n0 with nend := b, raw := sliceCU s.source a b } with
           node := some pid,
           exprBuffer := bufDel s.exprBuffer nid } : PState)
        { kind := .expressionCharacterClass neg, parent := some pid,
          nstart := n0.nstart, nend := b, raw := sliceCU s.source a b,
          children := [eid] }).1 eid
        { e0 with parent := some s.heap.length }) pid
        { p0 with children := p0.children.dropLast ++ [s.heap.length] }).node
        = some pid := rfl
    rw [PathOk, hnode]
    refine PathTo_transport hq3 ?_
    intro j hj jo hjo
    have hjL : j ≠ s.heap.length := fun h2 =>
      Nat.lt_irrefl _ (h2 ▸ PathTo_mem_lt hq3 j hj)
    have hje : j ≠ eid := fun h2 => heid_rest (h2 ▸ hj)
    have hjn : j ≠ nid := fun h2 => hnid_nr (h2 ▸ hj)
    by_cases hjp : j = pid
    · rw [hjp, hp] at hjo
      injection hjo with he2
      refine ⟨{ p0 with
        children := p0.children.dropLast ++ [s.heap.length] }, ?_, ?_⟩
      · rw [hget, if_pos hjp]
      · rw [← he2]
    · refine ⟨jo, ?_, rfl⟩
      rw [hget, if_neg hjp, if_neg hje, if_neg hjL, if_neg hjn]
      exact hjo
  · intro j jo h
    rw [hget] at h
    by_cases hjp : j = pid
    · rw [if_pos hjp] at h
      injection h with he2
      subst he2
      exact hg.raws pid p0 hp
    · rw [if_neg hjp] at h
      by_cases hje : j = eid
      · rw [if_pos hje] at h
        injection h with he2
        subst he2
        exact hg.raws eid e0 he
      · rw [if_neg hje] at h
        by_cases hjL : j = s.heap.length
        · rw [if_pos hjL] at h
          injection h with he2
          subst he2
          show sliceCU s.source a b = sliceCU _ n0.nstart b
          rw [hstart]
          rfl
        · rw [if_neg hjL] at h
          by_cases hjn : j = nid
          · rw [if_pos hjn] at h
            injection h with he2
            subst he2
            show sliceCU s.source a b = sliceCU _ n0.nstart b
            rw [hstart]
            rfl
          · rw [if_neg hjn] at h
            exact hg.raws j jo h
  · intro j jo h
    rw [hget] at h
    by_cases hjp : j = pid
    · rw [if_pos hjp] at h
      injection h with he2
      subst he2
      exact ⟨hbp.1, Nat.le_trans hbp.2 hpb⟩
    · rw [if_neg hjp] at h
      by_cases hje : j = eid
      · rw [if_pos hje] at h
        injection h with he2
        subst he2
        exact ⟨hbe.1, Nat.le_trans hbe.2 hpb⟩
      · rw [if_neg hje] at h
        by_cases hjL : j = s.heap.length
        · rw [if_pos hjL] at h
          injection h with he2
          subst he2
          exact ⟨Nat.le_trans hbn.1 (Nat.le_trans hbn.2 hpb),
            Nat.le_refl b⟩
        · rw [if_neg hjL] at h
          by_cases hjn : j = nid
          · rw [if_pos hjn] at h
            injection h with he2
            subst he2
            exact ⟨Nat.le_trans hbn.1 (Nat.le_trans hbn.2 hpb),
              Nat.le_refl b⟩
          · rw [if_neg hjn] at h
            have hb2 := hg.bounds j jo h
            exact ⟨hb2.1, Nat.le_trans hb2.2 hpb⟩
  · intro j jo h c hc
    rw [hget] at h
    by_cases hjp : j = pid
    · rw [if_pos hjp] at h
      injection h with he2
      subst he2
      rcases List.mem_append.mp hc with hcm | hcm
      · have hcch : c ∈ p0.children := (List.dropLast_sublist _).subset hcm
        rcases hg.kids pid p0 hp c hcch with ⟨co, hco, hcp⟩
        have hcP : c ∉ rest0 := child_not_mem hq3 hrestnd hco hcp
        have hcpid : c ≠ pid := fun h2 => hcP (h2 ▸ hpidmem)
        have hce : c ≠ eid := fun h2 =>
          heid_nochild pid p0 hp (h2 ▸ hcch)
        have hcn : c ≠ nid := fun h2 => hnid_nodrop (h2 ▸ hcm)
        have hcL : c ≠ s.heap.length := fun h2 =>
          Nat.lt_irrefl _ (h2 ▸ getN_lt hco)
        refine ⟨co, ?_, ?_⟩
        · rw [hget, if_neg hcpid, if_neg hce, if_neg hcL, if_neg hcn]
          exact hco
        · rw [hjp]
          exact hcp
      · rw [List.mem_singleton] at hcm
        refine
          ⟨{ kind := .expressionCharacterClass neg, parent := some pid,
             nstart := n0.nstart, nend := b, raw := sliceCU s.source a b,
             children := [eid] }, ?_, ?_⟩
        · have hLp : s.heap.length ≠ pid := fun h2 =>
            Nat.lt_irrefl _ (h2 ▸ hpL)
          have hLe : s.heap.length ≠ eid := fun h2 =>
            Nat.lt_irrefl _ (h2 ▸ heL)
          rw [hcm, hget, if_neg hLp, if_neg hLe, if_pos rfl]
        · rw [hjp]
    · rw [if_neg hjp] at h
      by_cases hje : j = eid
      · rw [if_pos hje] at h
        injection h with he2
        subst he2
        have hc2 : c ∈ e0.children := hc
        rcases hg.kids eid e0 he c hc2 with ⟨co, hco, hcp⟩
        have hcpid : c ≠ pid := by
          intro h2
          rw [h2, hp] at hco
          injection hco with he3
          rw [← he3] at hcp
          have := PathTo_parent_mem hq3 pid hpidmem p0 eid hp hcp
          exact heid_rest this
        have hce : c ≠ eid := by
          intro h2
          rw [h2, he] at hco
          injection hco with he3
          rw [← he3, he_par] at hcp
          injection hcp with he4
          exact heid_ne_nid he4.symm
        have hcn : c ≠ nid := by
          intro h2
          rw [h2, hnid] at hco
          injection hco with he3
          rw [← he3, hnp] at hcp
          injection hcp with he4
          exact heid_ne_pid he4.symm
        have hcL : c ≠ s.heap.length := fun h2 =>
          Nat.lt_irrefl _ (h2 ▸ getN_lt hco)
        refine ⟨co, ?_, ?_⟩
        · rw [hget, if_neg hcpid, if_neg hce, if_neg hcL, if_neg hcn]
          exact hco
        · rw [hje]
          exact hcp
      · rw [if_neg hje] at h
        by_cases hjL : j = s.heap.length
        · rw [if_pos hjL] at h
          injection h with he2
          subst he2
          rw [List.mem_singleton] at hc
          refine ⟨{ e0 with parent := some s.heap.length }, ?_, ?_⟩
          · rw [hc, hget, if_neg heid_ne_pid, if_pos rfl]
          · rw [hjL]
        · rw [if_neg hjL] at h
          by_cases hjn : j = nid
          · rw [if_pos hjn] at h
            injection h with he2
            subst he2
            have hc2 : c ∈ n0.children := hc
            rw [hnc] at hc2
            exact absurd hc2 (List.not_mem_nil c)
          · rw [if_neg hjn] at h
            rcases hg.kids j jo h c hc with ⟨co, hco, hcp⟩
            have hce : c ≠ eid := by
              intro h2
              rw [h2, he] at hco
              injection hco with he3
              rw [← he3, he_par] at hcp
              injection hcp with he4
              exact hjn he4.symm
            have hcn : c ≠ nid := by
              intro h2
              rw [h2, hnid] at hco
              injection hco with he3
              rw [← he3, hnp] at hcp
              injection hcp with he4
              exact hjp he4.symm
            by_cases hcpid : c = pid
            · rw [hcpid, hp] at hco
              injection hco with he3
              refine ⟨{ p0 with
                children := p0.children.dropLast ++ [s.heap.length] },
                ?_, ?_⟩
              · rw [hcpid, hget, if_pos rfl]
              · rw [← he3] at hcp
                exact hcp
            · have hcL : c ≠ s.heap.length := fun h2 =>
                Nat.lt_irrefl _ (h2 ▸ getN_lt hco)
              refine ⟨co, ?_, hcp⟩
              rw [hget, if_neg hcpid, if_neg hce, if_neg hcL, if_neg hcn]
              exact hco
  · intro j jo h
    rw [hget] at h
    by_cases hjp : j = pid
    · rw [if_pos hjp] at h
      injection h with he2
      subst he2
      show (p0.children.dropLast ++ [s.heap.length]).Nodup
      rw [List.nodup_append]
      refine ⟨(hg.kidsNodup pid p0 hp).sublist (List.dropLast_sublist _),
        List.nodup_singleton _, fun x hx hx2 => ?_⟩
      rw [List.mem_singleton] at hx2
      exact Nat.lt_irrefl _
        (hkidlt _ ((List.dropLast_sublist _).subset (hx2 ▸ hx)))
    · rw [if_neg hjp] at h
      by_cases hje : j = eid
      · rw [if_pos hje] at h
        injection h with he2
        subst he2
        exact hg.kidsNodup eid e0 he
      · rw [if_neg hje] at h
        by_cases hjL : j = s.heap.length
        · rw [if_pos hjL] at h
          injection h with he2
          subst he2
          exact List.nodup_singleton _
        · rw [if_neg hjL] at h
          by_cases hjn : j = nid
          · rw [if_pos hjn] at h
            injection h with he2
            subst he2
            show n0.children.Nodup
            rw [hnc]
            exact List.nodup_nil
          · rw [if_neg hjn] at h
            exact hg.kidsNodup j jo h
  · intro j jo q2 h hq2
    rw [hget] at h
    by_cases hjp : j = pid
    · rw [if_pos hjp] at h
      injection h with he2
      subst he2
      have hq3b : p0.parent = some q2 := hq2
      rcases hg.pstart pid p0 q2 hp hq3b with ⟨qo, hqo, hqs2⟩
      have hq2e : q2 ≠ eid := by
        intro h3
        exact heid_rest
          (h3 ▸ PathTo_parent_mem hq3 pid hpidmem p0 q2 hp hq3b)
      have hq2n : q2 ≠ nid := by
        intro h3
        exact hnid_nr
          (h3 ▸ PathTo_parent_mem hq3 pid hpidmem p0 q2 hp hq3b)
      by_cases hq2p : q2 = pid
      · rw [hq2p, hp] at hqo
        refine ⟨{ p0 with
          children := p0.children.dropLast ++ [s.heap.length] }, ?_, ?_⟩
        · rw [hq2p, hget, if_pos rfl]
        · exact Nat.le_refl _
      · have hq2L : q2 ≠ s.heap.length := fun h2 =>
          Nat.lt_irrefl _ (h2 ▸ getN_lt hqo)
        refine ⟨qo, ?_, hqs2⟩
        rw [hget, if_neg hq2p, if_neg hq2e, if_neg hq2L, if_neg hq2n]
        exact hqo
    · rw [if_neg hjp] at h
      by_cases hje : j = eid
      · rw [if_pos hje] at h
        injection h with he2
        subst he2
        have hq3b : (some s.heap.length : Option Nat) = some q2 := hq2
        injection hq3b with he3
        subst he3
        have hLp : s.heap.length ≠ pid := fun h2 =>
          Nat.lt_irrefl _ (h2 ▸ hpL)
        have hLe : s.heap.length ≠ eid := fun h2 =>
          Nat.lt_irrefl _ (h2 ▸ heL)
        refine
          ⟨{ kind := .expressionCharacterClass neg, parent := some pid,
             nstart := n0.nstart, nend := b, raw := sliceCU s.source a b,
             children := [eid] }, ?_, ?_⟩
        · rw [hget, if_neg hLp, if_neg hLe, if_pos rfl]
        · show n0.nstart ≤ e0.nstart
          exact hens
      · rw [if_neg hje] at h
        by_cases hjL : j = s.heap.length
        · rw [if_pos hjL] at h
          injection h with he2
          subst he2
          have hq3b : some pid = some q2 := hq2
          injection hq3b with he3
          subst he3
          refine ⟨{ p0 with
            children := p0.children.dropLast ++ [s.heap.length] }, ?_, ?_⟩
          · rw [hget, if_pos rfl]
          · show p0.nstart ≤ n0.nstart
            exact hpsn
        · rw [if_neg hjL] at h
          by_cases hjn : j = nid
          · rw [if_pos hjn] at h
            injection h with he2
            subst he2
            have hq3b : some pid = some q2 := hnp.symm.trans hq2
            injection hq3b with he3
            subst he3
            refine ⟨{ p0 with
              children := p0.children.dropLast ++ [s.heap.length] },
              ?_, ?_⟩
            · rw [hget, if_pos rfl]
            · show p0.nstart ≤ n0.nstart
              exact hpsn
          · rw [if_neg hjn] at h
            rcases hg.pstart j jo q2 h hq2 with ⟨qo, hqo, hqs2⟩
            by_cases hq2p : q2 = pid
            · rw [hq2p, hp] at hqo
              injection hqo with he3
              refine ⟨{ p0 with
                children := p0.children.dropLast ++ [s.heap.length] },
                ?_, ?_⟩
              · rw [hq2p, hget, if_pos rfl]
              · rw [← he3] at hqs2
                exact hqs2
            · by_cases hq2e : q2 = eid
              · rw [hq2e, he] at hqo
                injection hqo with he3
                refine ⟨{ e0 with parent := some s.heap.length }, ?_, ?_⟩
                · rw [hq2e, hget, if_neg heid_ne_pid, if_pos rfl]
                · rw [← he3] at hqs2
                  exact hqs2
              · by_cases hq2n : q2 = nid
                · rw [hq2n, hnid] at hqo
                  injection hqo with he3
                  refine
                    ⟨{ n0 with
                       nend := b, raw := sliceCU s.source a b }, ?_, ?_⟩
                  · rw [hq2n, hget, if_neg hpid_ne_nid.symm,
                      if_neg heid_ne_nid.symm,
                      if_neg (fun h2 => Nat.lt_irrefl _ (h2.symm ▸ hnL)),
                      if_pos rfl]
                  · rw [← he3] at hqs2
                    exact hqs2
                · have hq2L : q2 ≠ s.heap.length := fun h2 =>
                    Nat.lt_irrefl _ (h2 ▸ getN_lt hqo)
                  refine ⟨qo, ?_, hqs2⟩
                  rw [hget, if_neg hq2p, if_neg hq2e, if_neg hq2L,
                    if_neg hq2n]
                  exact hqo
  · intro j jo q2 qo h hjP hq2 hqo hqP
    rw [hget] at h hqo
    by_cases hjp : j = pid
    · exact absurd (hjp ▸ hpidmem) hjP
    · rw [if_neg hjp] at h
      by_cases hje : j = eid
      · rw [if_pos hje] at h
        injection h with he2
        subst he2
        have hq3b : (some s.heap.length : Option Nat) = some q2 := hq2
        injection hq3b with he3
        subst he3
        have hLp : s.heap.length ≠ pid := fun h2 =>
          Nat.lt_irrefl _ (h2 ▸ hpL)
        have hLe : s.heap.length ≠ eid := fun h2 =>
          Nat.lt_irrefl _ (h2 ▸ heL)
        have hLn : s.heap.length ≠ nid := fun h2 =>
          Nat.lt_irrefl _ (h2 ▸ hnL)
        rw [if_neg hLp, if_neg hLe, if_pos rfl] at hqo
        injection hqo with he4
        subst he4
        show e0.nend ≤ b
        exact Nat.le_trans hbe.2 hpb
      · rw [if_neg hje] at h
        by_cases hjL : j = s.heap.length
        · rw [if_pos hjL] at h
          injection h with he2
          subst he2
          have hq3b : some pid = some q2 := hq2
          injection hq3b with he3
          exact absurd (he3 ▸ hpidmem) hqP
        · rw [if_neg hjL] at h
          by_cases hjn : j = nid
          · rw [if_pos hjn] at h
            injection h with he2
            subst he2
            have hq3b : some pid = some q2 := hnp.symm.trans hq2
            injection hq3b with he3
            exact absurd (he3 ▸ hpidmem) hqP
          · rw [if_neg hjn] at h
            by_cases hq2p : q2 = pid
            · exact absurd (hq2p ▸ hpidmem) hqP
            · rw [if_neg hq2p] at hqo
              by_cases hq2e : q2 = eid
              · rw [if_pos hq2e] at hqo
                injection hqo with he3
                subst he3
                show jo.nend ≤ e0.nend
                have hjPP : j ∉ P := by
                  rw [hPr]
                  intro hm
                  rcases List.mem_cons.mp hm with h3 | h3
                  · exact hjn h3
                  · exact hjP h3
                rw [hq2e] at hq2
                exact hg.closedEnd j jo eid e0 h hjPP hq2 he heidP
              · rw [if_neg hq2e] at hqo
                by_cases hq2L : q2 = s.heap.length
                · subst hq2L
                  rcases hg.pstart j jo _ h hq2 with ⟨qo2, hqo2, -⟩
                  exact absurd (getN_lt hqo2) (Nat.lt_irrefl _)
                · rw [if_neg hq2L] at hqo
                  by_cases hq2n : q2 = nid
                  · rw [if_pos hq2n] at hqo
                    injection hqo with he3
                    subst he3
                    show jo.nend ≤ b
                    have hbj := hg.bounds j jo h
                    exact Nat.le_trans hbj.2 hpb
                  · rw [if_neg hq2n] at hqo
                    have hjPP : j ∉ P := by
                      rw [hPr]
                      intro hm
                      rcases List.mem_cons.mp hm with h3 | h3
                      · exact hjn h3
                      · exact hjP h3
                    have hqPP : q2 ∉ P := by
                      rw [hPr]
                      intro hm
                      rcases List.mem_cons.mp hm with h3 | h3
                      · exact hq2n h3
                      · exact hqP h3
                    exact hg.closedEnd j jo q2 qo h hjPP hq2 hqo hqPP
  · intro pr hpr
    have hpr2 : pr ∈ s.exprBuffer.filter (fun p2 => !(p2.1 == nid)) := hpr
    have hmm := List.mem_filter.mp hpr2
    have hkne : pr.1 ≠ nid := by
      have h2 := hmm.2
      simp only [Bool.not_eq_eq_eq_not, Bool.not_true, beq_eq_false_iff_ne,
        ne_eq] at h2
      exact h2
    rcases hg.buf pr hmm.1 with ⟨eo, heo, hpe2⟩
    have hve : pr.2 ≠ eid := by
      intro h2
      rw [h2, he] at heo
      injection heo with he3
      rw [← he3, he_par] at hpe2
      injection hpe2 with he4
      exact hkne he4.symm
    have hvn : pr.2 ≠ nid := by
      intro h2
      exact hg.bufNotChild pr hmm.1 pid p0 hp (h2 ▸ hnid_mem)
    by_cases hvp : pr.2 = pid
    · rw [hvp, hp] at heo
      injection heo with he3
      refine ⟨{ p0 with
        children := p0.children.dropLast ++ [s.heap.length] }, ?_, ?_⟩
      · rw [hvp, hget, if_pos rfl]
      · rw [← he3] at hpe2
        exact hpe2
    · have hvL : pr.2 ≠ s.heap.length := fun h2 =>
        Nat.lt_irrefl _ (h2 ▸ getN_lt heo)
      refine ⟨eo, ?_, hpe2⟩
      rw [hget, if_neg hvp, if_neg hve, if_neg hvL, if_neg hvn]
      exact heo
  · intro pr hpr j jo hj
    have hpr2 : pr ∈ s.exprBuffer.filter (fun p2 => !(p2.1 == nid)) := hpr
    have hmm := List.mem_filter.mp hpr2
    have hkne : pr.1 ≠ nid := by
      have h2 := hmm.2
      simp only [Bool.not_eq_eq_eq_not, Bool.not_true, beq_eq_false_iff_ne,
        ne_eq] at h2
      exact h2
    rcases hg.buf pr hmm.1 with ⟨eo, heo, hpe2⟩
    have hve : pr.2 ≠ eid := by
      intro h2
      rw [h2, he] at heo
      injection heo with he3
      rw [← he3, he_par] at hpe2
      injection hpe2 with he4
      exact hkne he4.symm
    have hvLlt : pr.2 < s.heap.length := getN_lt heo
    rw [hget] at hj
    by_cases hjp : j = pid
    · rw [if_pos hjp] at hj
      injection hj with he2
      subst he2
      intro hmem2
      rcases List.mem_append.mp hmem2 with hm2 | hm2
      · exact hg.bufNotChild pr hmm.1 pid p0 hp
          ((List.dropLast_sublist _).subset hm2)
      · rw [List.mem_singleton] at hm2
        exact Nat.lt_irrefl _ (hm2 ▸ hvLlt)
    · rw [if_neg hjp] at hj
      by_cases hje : j = eid
      · rw [if_pos hje] at hj
        injection hj with he2
        subst he2
        exact hg.bufNotChild pr hmm.1 eid e0 he
      · rw [if_neg hje] at hj
        by_cases hjL : j = s.heap.length
        · rw [if_pos hjL] at hj
          injection hj with he2
          subst he2
          intro hmem2
          rw [List.mem_singleton] at hmem2
          exact hve hmem2
        · rw [if_neg hjL] at hj
          by_cases hjn : j = nid
          · rw [if_pos hjn] at hj
            injection hj with he2
            subst he2
            show pr.2 ∉ n0.children
            rw [hnc]
            exact List.not_mem_nil _
          · rw [if_neg hjn] at hj
            exact hg.bufNotChild pr hmm.1 j jo hj

/-- Contract-checked handler wrappers: each `on*` handler preserves the
offset invariant under its event's `evOk` facts. -/
theorem ginv_onAlternativeEnter {s s2 : PState} {pos a : Nat} {P : List Nat}
    (hg : GInv s pos P) (hpa : pos ≤ a)
    (hok : onAlternativeEnter s a = .ok s2) :
    GInv s2 a (s.heap.length :: P) := by
  cases hsn : s.node with
  | none =>
    simp only [onAlternativeEnter, hsn] at hok
    exact Except.noConfusion hok
  | some pid =>
    cases hp : getN s pid with
    | none =>
      simp only [onAlternativeEnter, hsn, hp] at hok
      exact Except.noConfusion hok
    | some p =>
      simp only [onAlternativeEnter, hsn, hp] at hok
      split at hok
      · injection hok with he
        subst he
        exact ginv_pushChildFocus _ hg hsn hp hpa rfl rfl rfl rfl rfl
      · exact Except.noConfusion hok

theorem ginv_onGroupEnter {s s2 : PState} {pos a : Nat} {P : List Nat}
    (hg : GInv s pos P) (hpa : pos ≤ a)
    (hok : onGroupEnter s a = .ok s2) :
    GInv s2 a (s.heap.length :: P) := by
  cases hsn : s.node with
  | none =>
    simp only [onGroupEnter, hsn] at hok
    exact Except.noConfusion hok
  | some pid =>
    cases hp : getN s pid with
    | none =>
      simp only [onGroupEnter, hsn, hp] at hok
      exact Except.noConfusion hok
    | some p =>
      simp only [onGroupEnter, hsn, hp] at hok
      split at hok
      · injection hok with he
        subst he
        exact ginv_pushChildFocus _ hg hsn hp hpa rfl rfl rfl rfl rfl
      · exact Except.noConfusion hok

theorem ginv_onCapturingGroupEnter {s s2 : PState} {pos a : Nat}
    {P : List Nat} {name : Option String} (hg : GInv s pos P) (hpa : pos ≤ a)
    (hok : onCapturingGroupEnter s a name = .ok s2) :
    GInv s2 a (s.heap.length :: P) := by
  cases hsn : s.node with
  | none =>
    simp only [onCapturingGroupEnter, hsn] at hok
    exact Except.noConfusion hok
  | some pid =>
    cases hp : getN s pid with
    | none =>
      simp only [onCapturingGroupEnter, hsn, hp] at hok
      exact Except.noConfusion hok
    | some p =>
      simp only [onCapturingGroupEnter, hsn, hp] at hok
      split at hok
      · injection hok with he
        subst he
        have hb := ginv_pushChildFocus
          ({ kind := .capturingGroup name, parent := some pid, nstart := a,
             nend := a, raw := "", children := [], references := [] } :
            NodeObj) hg hsn hp hpa rfl rfl rfl rfl rfl
        exact GInv_fieldPres hb
          ⟨rfl, rfl, rfl, rfl, fun j o h => ⟨o, h, rfl, rfl, rfl, rfl, rfl⟩⟩
      · exact Except.noConfusion hok

theorem ginv_onLookaroundAssertionEnter {s s2 : PState} {pos a : Nat}
    {P : List Nat} {k : LookK} {ng : Bool} (hg : GInv s pos P)
    (hpa : pos ≤ a) (hok : onLookaroundAssertionEnter s a k ng = .ok s2) :
    GInv s2 a (s.heap.length :: P) := by
  cases hsn : s.node with
  | none =>
    simp only [onLookaroundAssertionEnter, hsn] at hok
    exact Except.noConfusion hok
  | some pid =>
    cases hp : getN s pid with
    | none =>
      simp only [onLookaroundAssertionEnter, hsn, hp] at hok
      exact Except.noConfusion hok
    | some p =>
      simp only [onLookaroundAssertionEnter, hsn, hp] at hok
      split at hok
      · injection hok with he
        subst he
        exact ginv_pushChildFocus _ hg hsn hp hpa rfl rfl rfl rfl rfl
      · exact Except.noConfusion hok

theorem ginv_onCharacterClassEnter {s s2 : PState} {pos a : Nat}
    {P : List Nat} {ng u : Bool} (hg : GInv s pos P) (hpa : pos ≤ a)
    (hok : onCharacterClassEnter s a ng u = .ok s2) :
    GInv s2 a (s.heap.length :: P) := by
  cases hsn : s.node with
  | none =>
    simp only [onCharacterClassEnter, hsn] at hok
    exact Except.noConfusion hok
  | some pid =>
    cases hp : getN s pid with
    | none =>
      simp only [onCharacterClassEnter, hsn, hp] at hok
      exact Except.noConfusion hok
    | some p =>
      simp only [onCharacterClassEnter, hsn, hp] at hok
      split at hok
      · injection hok with he
        subst he
        exact ginv_pushChildFocus _ hg hsn hp hpa rfl rfl rfl rfl rfl
      · exact Except.noConfusion hok

theorem ginv_onClassStringDisjunctionEnter {s s2 : PState} {pos a : Nat}
    {P : List Nat} (hg : GInv s pos P) (hpa : pos ≤ a)
    (hok : onClassStringDisjunctionEnter s a = .ok s2) :
    GInv s2 a (s.heap.length :: P) := by
  cases hsn : s.node with
  | none =>
    simp only [onClassStringDisjunctionEnter, hsn] at hok
    exact Except.noConfusion hok
  | some pid =>
    cases hp : getN s pid with
    | none =>
      simp only [onClassStringDisjunctionEnter, hsn, hp] at hok
      exact Except.noConfusion hok
    | some p =>
      simp only [onClassStringDisjunctionEnter, hsn, hp] at hok
      split at hok
      · rename_i neg u
        split at hok
        · injection hok with he
          subst he
          exact ginv_pushChildFocus _ hg hsn hp hpa rfl rfl rfl rfl rfl
        · exact Except.noConfusion hok
      · exact Except.noConfusion hok

theorem ginv_onStringAlternativeEnter {s s2 : PState} {pos a : Nat}
    {P : List Nat} (hg : GInv s pos P) (hpa : pos ≤ a)
    (hok : onStringAlternativeEnter s a = .ok s2) :
    GInv s2 a (s.heap.length :: P) := by
  cases hsn : s.node with
  | none =>
    simp only [onStringAlternativeEnter, hsn] at hok
    exact Except.noConfusion hok
  | some pid =>
    cases hp : getN s pid with
    | none =>
      simp only [onStringAlternativeEnter, hsn, hp] at hok
      exact Except.noConfusion hok
    | some p =>
      simp only [onStringAlternativeEnter, hsn, hp] at hok
      split at hok
      · injection hok with he
        subst he
        exact ginv_pushChildFocus _ hg hsn hp hpa rfl rfl rfl rfl rfl
      · exact Except.noConfusion hok

theorem ginv_onEdgeAssertion {s s2 : PState} {pos a b : Nat} {P : List Nat}
    {k : EdgeK} (hg : GInv s pos P) (hpa : pos ≤ a) (hab : a ≤ b)
    (hok : onEdgeAssertion s a b k = .ok s2) : GInv s2 b P := by
  cases hsn : s.node with
  | none =>
    simp only [onEdgeAssertion, hsn] at hok
    exact Except.noConfusion hok
  | some pid =>
    cases hp : getN s pid with
    | none =>
      simp only [onEdgeAssertion, hsn, hp] at hok
      exact Except.noConfusion hok
    | some p =>
      simp only [onEdgeAssertion, hsn, hp] at hok
      split at hok
      · injection hok with he
        subst he
        exact ginv_pushChild _ hg hsn hp hpa hab rfl rfl rfl rfl rfl
      · exact Except.noConfusion hok

theorem ginv_onWordBoundaryAssertion {s s2 : PState} {pos a b : Nat}
    {P : List Nat} {ng : Bool} (hg : GInv s pos P) (hpa : pos ≤ a)
    (hab : a ≤ b) (hok : onWordBoundaryAssertion s a b ng = .ok s2) :
    GInv s2 b P := by
  cases hsn : s.node with
  | none =>
    simp only [onWordBoundaryAssertion, hsn] at hok
    exact Except.noConfusion hok
  | some pid =>
    cases hp : getN s pid with
    | none =>
      simp only [onWordBoundaryAssertion, hsn, hp] at hok
      exact Except.noConfusion hok
    | some p =>
      simp only [onWordBoundaryAssertion, hsn, hp] at hok
      split at hok
      · injection hok with he
        subst he
        exact ginv_pushChild _ hg hsn hp hpa hab rfl rfl rfl rfl rfl
      · exact Except.noConfusion hok

theorem ginv_onAnyCharacterSet {s s2 : PState} {pos a b : Nat}
    {P : List Nat} (hg : GInv s pos P) (hpa : pos ≤ a) (hab : a ≤ b)
    (hok : onAnyCharacterSet s a b = .ok s2) : GInv s2 b P := by
  cases hsn : s.node with
  | none =>
    simp only [onAnyCharacterSet, hsn] at hok
    exact Except.noConfusion hok
  | some pid =>
    cases hp : getN s pid with
    | none =>
      simp only [onAnyCharacterSet, hsn, hp] at hok
      exact Except.noConfusion hok
    | some p =>
      simp only [onAnyCharacterSet, hsn, hp] at hok
      split at hok
      · injection hok with he
        subst he
        exact ginv_pushChild _ hg hsn hp hpa hab rfl rfl rfl rfl rfl
      · exact Except.noConfusion hok

theorem ginv_onEscapeCharacterSet {s s2 : PState} {pos a b : Nat}
    {P : List Nat} {k : EscK} {ng : Bool} (hg : GInv s pos P)
    (hpa : pos ≤ a) (hab : a ≤ b)
    (hok : onEscapeCharacterSet s a b k ng = .ok s2) : GInv s2 b P := by
  cases hsn : s.node with
  | none =>
    simp only [onEscapeCharacterSet, hsn] at hok
    exact Except.noConfusion hok
  | some pid =>
    cases hp : getN s pid with
    | none =>
      simp only [onEscapeCharacterSet, hsn, hp] at hok
      exact Except.noConfusion hok
    | some p =>
      simp only [onEscapeCharacterSet, hsn, hp] at hok
      split at hok
      · injection hok with he
        subst he
        exact ginv_pushChild _ hg hsn hp hpa hab rfl rfl rfl rfl rfl
      · exact Except.noConfusion hok

theorem ginv_onUnicodePropertyCharacterSet {s s2 : PState} {pos a b : Nat}
    {P : List Nat} {key : String} {val : Option String} {ng st : Bool}
    (hg : GInv s pos P) (hpa : pos ≤ a) (hab : a ≤ b)
    (hok : onUnicodePropertyCharacterSet s a b key val ng st = .ok s2) :
    GInv s2 b P := by
  cases hsn : s.node with
  | none =>
    simp only [onUnicodePropertyCharacterSet, hsn] at hok
    exact Except.noConfusion hok
  | some pid =>
    cases hp : getN s pid with
    | none =>
      simp only [onUnicodePropertyCharacterSet, hsn, hp] at hok
      exact Except.noConfusion hok
    | some p =>
      simp only [onUnicodePropertyCharacterSet, hsn, hp] at hok
      split at hok
      · split at hok
        · exact Except.noConfusion hok
        · injection hok with he
          subst he
          exact ginv_pushChild _ hg hsn hp hpa hab rfl rfl rfl rfl rfl
      · exact Except.noConfusion hok

theorem ginv_onCharacter {s s2 : PState} {pos a b v : Nat} {P : List Nat}
    (hg : GInv s pos P) (hpa : pos ≤ a) (hab : a ≤ b)
    (hok : onCharacter s a b v = .ok s2) : GInv s2 b P := by
  cases hsn : s.node with
  | none =>
    simp only [onCharacter, hsn] at hok
    exact Except.noConfusion hok
  | some pid =>
    cases hp : getN s pid with
    | none =>
      simp only [onCharacter, hsn, hp] at hok
      exact Except.noConfusion hok
    | some p =>
      simp only [onCharacter, hsn, hp] at hok
      split at hok
      · injection hok with he
        subst he
        exact ginv_pushChild _ hg hsn hp hpa hab rfl rfl rfl rfl rfl
      · exact Except.noConfusion hok

theorem ginv_onBackreference {s s2 : PState} {pos a b : Nat} {P : List Nat}
    {ref : Ref} (hg : GInv s pos P) (hpa : pos ≤ a) (hab : a ≤ b)
    (hok : onBackreference s a b ref = .ok s2) : GInv s2 b P := by
  cases hsn : s.node with
  | none =>
    simp only [onBackreference, hsn] at hok
    exact Except.noConfusion hok
  | some pid =>
    cases hp : getN s pid with
    | none =>
      simp only [onBackreference, hsn, hp] at hok
      exact Except.noConfusion hok
    | some p =>
      simp only [onBackreference, hsn, hp] at hok
      split at hok
      · injection hok with he
        subst he
        have hb := ginv_pushChild
          ({ kind := .backreference ref false .dummy, parent := some pid,
             nstart := a, nend := b, raw := sliceCU s.source a b,
             children := [] } : NodeObj) hg hsn hp hpa hab rfl rfl rfl rfl
          rfl
        exact GInv_fieldPres hb
          ⟨rfl, rfl, rfl, rfl, fun j o h => ⟨o, h, rfl, rfl, rfl, rfl, rfl⟩⟩
      · exact Except.noConfusion hok

theorem ginv_onAlternativeLeave {s s2 : PState} {pos a b : Nat}
    {P : List Nat} (hg : GInv s pos P) (hca : cursorStart s = some a)
    (hpb : pos ≤ b) (hok : onAlternativeLeave s a b = .ok s2) :
    GInv s2 b P.tail := by
  cases hsn : s.node with
  | none =>
    simp only [cursorStart, cursorObj, hsn] at hca
    exact Option.noConfusion hca
  | some i =>
    cases ho : getN s i with
    | none =>
      simp only [cursorStart, cursorObj, hsn, ho] at hca
      exact Option.noConfusion hca
    | some o =>
      have ha : o.nstart = a := by
        simp only [cursorStart, cursorObj, hsn, ho, Option.map_some',
          Option.some.injEq] at hca
        exact hca
      simp only [onAlternativeLeave, hsn, ho] at hok
      split at hok
      · injection hok with he
        subst he
        exact ginv_leaveToParent hg hsn ho ha hpb
      · exact Except.noConfusion hok

theorem ginv_onGroupLeave {s s2 : PState} {pos a b : Nat} {P : List Nat}
    (hg : GInv s pos P) (hca : cursorStart s = some a) (hpb : pos ≤ b)
    (hok : onGroupLeave s a b = .ok s2) : GInv s2 b P.tail := by
  cases hsn : s.node with
  | none =>
    simp only [cursorStart, cursorObj, hsn] at hca
    exact Option.noConfusion hca
  | some i =>
    cases ho : getN s i with
    | none =>
      simp only [cursorStart, cursorObj, hsn, ho] at hca
      exact Option.noConfusion hca
    | some o =>
      have ha : o.nstart = a := by
        simp only [cursorStart, cursorObj, hsn, ho, Option.map_some',
          Option.some.injEq] at hca
        exact hca
      simp only [onGroupLeave, hsn, ho] at hok
      split at hok
      · injection hok with he
        subst he
        exact ginv_leaveToParent hg hsn ho ha hpb
      · exact Except.noConfusion hok

theorem ginv_onModifiersLeave {s s2 : PState} {pos a b : Nat} {P : List Nat}
    (hg : GInv s pos P) (hca : cursorStart s = some a) (hpb : pos ≤ b)
    (hok : onModifiersLeave s a b = .ok s2) : GInv s2 b P.tail := by
  cases hsn : s.node with
  | none =>
    simp only [cursorStart, cursorObj, hsn] at hca
    exact Option.noConfusion hca
  | some i =>
    cases ho : getN s i with
    | none =>
      simp only [cursorStart, cursorObj, hsn, ho] at hca
      exact Option.noConfusion hca
    | some o =>
      have ha : o.nstart = a := by
        simp only [cursorStart, cursorObj, hsn, ho, Option.map_some',
          Option.some.injEq] at hca
        exact hca
      simp only [onModifiersLeave, hsn, ho] at hok
      split at hok
      · injection hok with he
        subst he
        exact ginv_leaveToParent hg hsn ho ha hpb
      · exact Except.noConfusion hok

theorem ginv_onCapturingGroupLeave {s s2 : PState} {pos a b : Nat}
    {P : List Nat} (hg : GInv s pos P) (hca : cursorStart s = some a)
    (hpb : pos ≤ b) (hok : onCapturingGroupLeave s a b = .ok s2) :
    GInv s2 b P.tail := by
  cases hsn : s.node with
  | none =>
    simp only [cursorStart, cursorObj, hsn] at hca
    exact Option.noConfusion hca
  | some i =>
    cases ho : getN s i with
    | none =>
      simp only [cursorStart, cursorObj, hsn, ho] at hca
      exact Option.noConfusion hca
    | some o =>
      have ha : o.nstart = a := by
        simp only [cursorStart, cursorObj, hsn, ho, Option.map_some',
          Option.some.injEq] at hca
        exact hca
      simp only [onCapturingGroupLeave, hsn, ho] at hok
      split at hok
      · injection hok with he
        subst he
        exact ginv_leaveToParent hg hsn ho ha hpb
      · exact Except.noConfusion hok

theorem ginv_onLookaroundAssertionLeave {s s2 : PState} {pos a b : Nat}
    {P : List Nat} (hg : GInv s pos P) (hca : cursorStart s = some a)
    (hpb : pos ≤ b) (hok : onLookaroundAssertionLeave s a b = .ok s2) :
    GInv s2 b P.tail := by
  cases hsn : s.node with
  | none =>
    simp only [cursorStart, cursorObj, hsn] at hca
    exact Option.noConfusion hca
  | some i =>
    cases ho : getN s i with
    | none =>
      simp only [cursorStart, cursorObj, hsn, ho] at hca
      exact Option.noConfusion hca
    | some o =>
      have ha : o.nstart = a := by
        simp only [cursorStart, cursorObj, hsn, ho, Option.map_some',
          Option.some.injEq] at hca
        exact hca
      simp only [onLookaroundAssertionLeave, hsn, ho] at hok
      split at hok
      · injection hok with he
        subst he
        exact ginv_leaveToParent hg hsn ho ha hpb
      · exact Except.noConfusion hok

theorem ginv_onClassStringDisjunctionLeave {s s2 : PState} {pos a b : Nat}
    {P : List Nat} (hg : GInv s pos P) (hca : cursorStart s = some a)
    (hpb : pos ≤ b) (hok : onClassStringDisjunctionLeave s a b = .ok s2) :
    GInv s2 b P.tail := by
  cases hsn : s.node with
  | none =>
    simp only [cursorStart, cursorObj, hsn] at hca
    exact Option.noConfusion hca
  | some i =>
    cases ho : getN s i with
    | none =>
      simp only [cursorStart, cursorObj, hsn, ho] at hca
      exact Option.noConfusion hca
    | some o =>
      have ha : o.nstart = a := by
        simp only [cursorStart, cursorObj, hsn, ho, Option.map_some',
          Option.some.injEq] at hca
        exact hca
      simp only [onClassStringDisjunctionLeave, hsn, ho] at hok
      split at hok
      · injection hok with he
        subst he
        exact ginv_leaveToParent hg hsn ho ha hpb
      · exact Except.noConfusion hok

theorem ginv_onStringAlternativeLeave {s s2 : PState} {pos a b : Nat}
    {P : List Nat} (hg : GInv s pos P) (hca : cursorStart s = some a)
    (hpb : pos ≤ b) (hok : onStringAlternativeLeave s a b = .ok s2) :
    GInv s2 b P.tail := by
  cases hsn : s.node with
  | none =>
    simp only [cursorStart, cursorObj, hsn] at hca
    exact Option.noConfusion hca
  | some i =>
    cases ho : getN s i with
    | none =>
      simp only [cursorStart, cursorObj, hsn, ho] at hca
      exact Option.noConfusion hca
    | some o =>
      have ha : o.nstart = a := by
        simp only [cursorStart, cursorObj, hsn, ho, Option.map_some',
          Option.some.injEq] at hca
        exact hca
      simp only [onStringAlternativeLeave, hsn, ho] at hok
      split at hok
      · injection hok with he
        subst he
        exact ginv_leaveToParent hg hsn ho ha hpb
      · exact Except.noConfusion hok

theorem ginv_onModifiersEnter {s s2 : PState} {pos a : Nat} {P : List Nat}
    (hg : GInv s pos P) (hpa : pos ≤ a)
    (hok : onModifiersEnter s a = .ok s2) :
    GInv s2 a (s.heap.length :: P) := by
  cases hsn : s.node with
  | none =>
    simp only [onModifiersEnter, hsn] at hok
    exact Except.noConfusion hok
  | some pid =>
    cases hp : getN s pid with
    | none =>
      simp only [onModifiersEnter, hsn, hp] at hok
      exact Except.noConfusion hok
    | some p =>
      simp only [onModifiersEnter, hsn, hp] at hok
      split at hok
      · injection hok with he
        subst he
        refine ginv_allocRefFocus
          ({ kind := .modifiers, parent := some pid, nstart := a,
             nend := a, raw := "", children := [] } : NodeObj)
          _ hg hsn hp hpa rfl rfl rfl rfl rfl ?_ ?_ ?_ ?_ ?_ <;> rfl
      · exact Except.noConfusion hok

theorem ginv_onAddModifiers {s s2 : PState} {pos a b : Nat} {P : List Nat}
    {ic ml da : Bool} (hg : GInv s pos P) (hpa : pos ≤ a) (hab : a ≤ b)
    (hok : onAddModifiers s a b ic ml da = .ok s2) : GInv s2 b P := by
  cases hsn : s.node with
  | none =>
    simp only [onAddModifiers, hsn] at hok
    exact Except.noConfusion hok
  | some pid =>
    cases hp : getN s pid with
    | none =>
      simp only [onAddModifiers, hsn, hp] at hok
      exact Except.noConfusion hok
    | some p =>
      simp only [onAddModifiers, hsn, hp] at hok
      split at hok
      · injection hok with he
        subst he
        refine ginv_allocRef
          ({ kind := .modifierFlags ic ml da, parent := some pid,
             nstart := a, nend := b, raw := sliceCU s.source a b,
             children := [] } : NodeObj)
          _ hg hsn hp hpa hab rfl rfl rfl rfl rfl ?_ ?_ ?_ ?_ ?_ <;> rfl
      · exact Except.noConfusion hok

theorem ginv_onRemoveModifiers {s s2 : PState} {pos a b : Nat}
    {P : List Nat} {ic ml da : Bool} (hg : GInv s pos P) (hpa : pos ≤ a)
    (hab : a ≤ b) (hok : onRemoveModifiers s a b ic ml da = .ok s2) :
    GInv s2 b P := by
  cases hsn : s.node with
  | none =>
    simp only [onRemoveModifiers, hsn] at hok
    exact Except.noConfusion hok
  | some pid =>
    cases hp : getN s pid with
    | none =>
      simp only [onRemoveModifiers, hsn, hp] at hok
      exact Except.noConfusion hok
    | some p =>
      simp only [onRemoveModifiers, hsn, hp] at hok
      split at hok
      · injection hok with he
        subst he
        refine ginv_allocRef
          ({ kind := .modifierFlags ic ml da, parent := some pid,
             nstart := a, nend := b, raw := sliceCU s.source a b,
             children := [] } : NodeObj)
          _ hg hsn hp hpa hab rfl rfl rfl rfl rfl ?_ ?_ ?_ ?_ ?_ <;> rfl
      · exact Except.noConfusion hok

theorem ginv_onQuantifier {s s2 : PState} {pos st fin mn : Nat}
    {mx : Option Nat} {gr : Bool} {P : List Nat} (hg : GInv s pos P)
    (hpb : pos ≤ fin) (hok : onQuantifier s st fin mn mx gr = .ok s2) :
    GInv s2 fin P := by
  cases hsn : s.node with
  | none =>
    simp only [onQuantifier, hsn] at hok
    exact Except.noConfusion hok
  | some pid =>
    cases hp : getN s pid with
    | none =>
      simp only [onQuantifier, hsn, hp] at hok
      exact Except.noConfusion hok
    | some p =>
      simp only [onQuantifier, hsn, hp] at hok
      split at hok
      · cases hlast : p.children.getLast? with
        | none =>
          simp only [hlast] at hok
          exact Except.noConfusion hok
        | some eid =>
          simp only [hlast] at hok
          cases he : getN s eid with
          | none =>
            simp only [he] at hok
            exact Except.noConfusion hok
          | some e =>
            simp only [he] at hok
            split at hok
            · exact Except.noConfusion hok
            · injection hok with heq
              subst heq
              exact ginv_quantShape
                ({ kind := .quantifier mn mx gr, parent := some pid,
                   nstart := e.nstart, nend := fin,
                   raw := sliceCU s.source e.nstart fin,
                   children := [eid] } : NodeObj)
                hg hsn hp hlast he hpb rfl rfl rfl rfl rfl
      · exact Except.noConfusion hok

theorem ginv_onClassIntersection {s s2 : PState} {pos a b : Nat}
    {P : List Nat} (hg : GInv s pos P) (hca : opLeftStart s = some a)
    (h2 : optLeO (opLeftEnd s) (lastChildStart s) = true)
    (h3 : optLe (lastChildEnd s) b = true) (hpb : pos ≤ b)
    (hok : onClassIntersection s a b = .ok s2) : GInv s2 b P := by
  cases hsn : s.node with
  | none =>
    simp only [onClassIntersection, hsn] at hok
    exact Except.noConfusion hok
  | some pid =>
    cases hp : getN s pid with
    | none =>
      simp only [onClassIntersection, hsn, hp] at hok
      exact Except.noConfusion hok
    | some p =>
      simp only [onClassIntersection, hsn, hp] at hok
      split at hok
      · rename_i neg uset hk
        split at hok
        · exact Except.noConfusion hok
        · cases hlast : p.children.getLast? with
          | none =>
            simp only [hlast] at hok
            exact Except.noConfusion hok
          | some rid =>
            simp only [hlast] at hok
            have hkdn : p.children.Nodup := hg.kidsNodup pid p hp
            have hrne1 : rid ∉ p.children.dropLast :=
              nodup_getLast?_not_mem_dropLast hkdn hlast
            cases hbg : bufGet s.exprBuffer pid with
            | some l0 =>
              simp only [hbg] at hok
              cases hl : getN s l0 with
              | none =>
                simp only [hl] at hok
                exact Except.noConfusion hok
              | some l =>
                cases hr : getN s rid with
                | none =>
                  simp only [hl, hr] at hok
                  exact Except.noConfusion hok
                | some r =>
                  simp only [hl, hr] at hok
                  split at hok
                  · exact Except.noConfusion hok
                  · injection hok with heq
                    subst heq
                    have hmem := bufGet_mem hbg
                    have hlnc : l0 ∉ p.children :=
                      hg.bufNotChild (pid, l0) hmem pid p hp
                    have hlrne : l0 ≠ rid := fun hh =>
                      hlnc (hh ▸ List.mem_of_getLast?_eq_some hlast)
                    have hlp : l.parent = some pid := by
                      rcases hg.buf (pid, l0) hmem with ⟨eo, heo, hpe⟩
                      rw [hl] at heo
                      injection heo with h4
                      rw [← h4] at hpe
                      exact hpe
                    have hr2 : getN (setN (alloc s
                        { kind := .classIntersection, parent := some pid,
                          nstart := a, nend := b,
                          raw := sliceCU s.source a b,
                          children := [l0, rid] }).1 l0
                        { l with parent := some (alloc s
                          { kind := .classIntersection, parent := some pid,
                            nstart := a, nend := b,
                            raw := sliceCU s.source a b,
                            children := [l0, rid] }).2 }) rid = some r := by
                      rw [getN_setN_ne _ _ hlrne,
                        getN_alloc_of_lt _ (getN_lt hr), hr]
                    simp only [hr2]
                    have hls : l.nstart = a := by
                      simp only [opLeftStart, hsn, hp, hbg, hl,
                        Option.map_some', Option.some.injEq] at hca
                      exact hca
                    have hlr : l.nend ≤ r.nstart := by
                      simp only [opLeftEnd, lastChildStart, cursorObj, hsn,
                        hp, hbg, hlast, hl, hr, Option.map_some', optLeO,
                        decide_eq_true_eq] at h2
                      exact h2
                    have hrb : r.nend ≤ b := by
                      simp only [optLe, lastChildEnd, cursorObj, hsn, hp,
                        hlast, hr, Option.map_some', decide_eq_true_eq] at h3
                      exact h3
                    exact ginv_classOpShape
                      ({ kind := .classIntersection, parent := some pid,
                         nstart := a, nend := b,
                         raw := sliceCU s.source a b,
                         children := [l0, rid] } : NodeObj)
                      hg hsn hp hlast hr hl hlp hlrne
                      (List.dropLast_sublist _)
                      (fun hh => hlnc ((List.dropLast_sublist _).subset hh))
                      hrne1 hls hlr hrb hpb rfl rfl rfl rfl rfl
            | none =>
              simp only [hbg] at hok
              cases hl2 : p.children.dropLast.getLast? with
              | none =>
                simp only [hl2] at hok
                exact Except.noConfusion hok
              | some l0 =>
                simp only [hl2] at hok
                cases hl : getN s l0 with
                | none =>
                  simp only [hl] at hok
                  exact Except.noConfusion hok
                | some l =>
                  cases hr : getN s rid with
                  | none =>
                    simp only [hl, hr] at hok
                    exact Except.noConfusion hok
                  | some r =>
                    simp only [hl, hr] at hok
                    split at hok
                    · exact Except.noConfusion hok
                    · injection hok with heq
                      subst heq
                      have hl0mem : l0 ∈ p.children :=
                        (List.dropLast_sublist _).subset
                          (List.mem_of_getLast?_eq_some hl2)
                      have hlrne : l0 ≠ rid := fun hh =>
                        hrne1 (hh ▸ List.mem_of_getLast?_eq_some hl2)
                      have hlp : l.parent = some pid := by
                        rcases hg.kids pid p hp l0 hl0mem with ⟨co, hco, hcp⟩
                        rw [hl] at hco
                        injection hco with h4
                        rw [← h4] at hcp
                        exact hcp
                      have helems1nd : p.children.dropLast.Nodup :=
                        hkdn.sublist (List.dropLast_sublist _)
                      have hlne : l0 ∉ p.children.dropLast.dropLast :=
                        nodup_getLast?_not_mem_dropLast helems1nd hl2
                      have hr2 : getN (setN (alloc s
                          { kind := .classIntersection, parent := some pid,
                            nstart := a, nend := b,
                            raw := sliceCU s.source a b,
                            children := [l0, rid] }).1 l0
                          { l with parent := some (alloc s
                            { kind := .classIntersection, parent := some pid,
                              nstart := a, nend := b,
                              raw := sliceCU s.source a b,
                              children := [l0, rid] }).2 }) rid = some r := by
                        rw [getN_setN_ne _ _ hlrne,
                          getN_alloc_of_lt _ (getN_lt hr), hr]
                      simp only [hr2]
                      have hls : l.nstart = a := by
                        simp only [opLeftStart, hsn, hp, hbg, hl2, hl,
                          Option.map_some', Option.some.injEq] at hca
                        exact hca
                      have hlr : l.nend ≤ r.nstart := by
                        simp only [opLeftEnd, lastChildStart, cursorObj, hsn,
                          hp, hbg, hl2, hlast, hl, hr, Option.map_some',
                          optLeO, decide_eq_true_eq] at h2
                        exact h2
                      have hrb : r.nend ≤ b := by
                        simp only [optLe, lastChildEnd, cursorObj, hsn, hp,
                          hlast, hr, Option.map_some', decide_eq_true_eq]
                          at h3
                        exact h3
                      exact ginv_classOpShape
                        ({ kind := .classIntersection, parent := some pid,
                           nstart := a, nend := b,
                           raw := sliceCU s.source a b,
                           children := [l0, rid] } : NodeObj)
                        hg hsn hp hlast hr hl hlp hlrne
                        ((List.dropLast_sublist _).trans
                          (List.dropLast_sublist _))
                        hlne
                        (fun hh =>
                          hrne1 ((List.dropLast_sublist _).subset hh))
                        hls hlr hrb hpb rfl rfl rfl rfl rfl
      · exact Except.noConfusion hok

theorem ginv_onClassSubtraction {s s2 : PState} {pos a b : Nat}
    {P : List Nat} (hg : GInv s pos P) (hca : opLeftStart s = some a)
    (h2 : optLeO (opLeftEnd s) (lastChildStart s) = true)
    (h3 : optLe (lastChildEnd s) b = true) (hpb : pos ≤ b)
    (hok : onClassSubtraction s a b = .ok s2) : GInv s2 b P := by
  cases hsn : s.node with
  | none =>
    simp only [onClassSubtraction, hsn] at hok
    exact Except.noConfusion hok
  | some pid =>
    cases hp : getN s pid with
    | none =>
      simp only [onClassSubtraction, hsn, hp] at hok
      exact Except.noConfusion hok
    | some p =>
      simp only [onClassSubtraction, hsn, hp] at hok
      split at hok
      · rename_i neg uset hk
        split at hok
        · exact Except.noConfusion hok
        · cases hlast : p.children.getLast? with
          | none =>
            simp only [hlast] at hok
            exact Except.noConfusion hok
          | some rid =>
            simp only [hlast] at hok
            have hkdn : p.children.Nodup := hg.kidsNodup pid p hp
            have hrne1 : rid ∉ p.children.dropLast :=
              nodup_getLast?_not_mem_dropLast hkdn hlast
            cases hbg : bufGet s.exprBuffer pid with
            | some l0 =>
              simp only [hbg] at hok
              cases hl : getN s l0 with
              | none =>
                simp only [hl] at hok
                exact Except.noConfusion hok
              | some l =>
                cases hr : getN s rid with
                | none =>
                  simp only [hl, hr] at hok
                  exact Except.noConfusion hok
                | some r =>
                  simp only [hl, hr] at hok
                  split at hok
                  · exact Except.noConfusion hok
                  · injection hok with heq
                    subst heq
                    have hmem := bufGet_mem hbg
                    have hlnc : l0 ∉ p.children :=
                      hg.bufNotChild (pid, l0) hmem pid p hp
                    have hlrne : l0 ≠ rid := fun hh =>
                      hlnc (hh ▸ List.mem_of_getLast?_eq_some hlast)
                    have hlp : l.parent = some pid := by
                      rcases hg.buf (pid, l0) hmem with ⟨eo, heo, hpe⟩
                      rw [hl] at heo
                      injection heo with h4
                      rw [← h4] at hpe
                      exact hpe
                    have hr2 : getN (setN (alloc s
                        { kind := .classSubtraction, parent := some pid,
                          nstart := a, nend := b,
                          raw := sliceCU s.source a b,
                          children := [l0, rid] }).1 l0
                        { l with parent := some (alloc s
                          { kind := .classSubtraction, parent := some pid,
                            nstart := a, nend := b,
                            raw := sliceCU s.source a b,
                            children := [l0, rid] }).2 }) rid = some r := by
                      rw [getN_setN_ne _ _ hlrne,
                        getN_alloc_of_lt _ (getN_lt hr), hr]
                    simp only [hr2]
                    have hls : l.nstart = a := by
                      simp only [opLeftStart, hsn, hp, hbg, hl,
                        Option.map_some', Option.some.injEq] at hca
                      exact hca
                    have hlr : l.nend ≤ r.nstart := by
                      simp only [opLeftEnd, lastChildStart, cursorObj, hsn,
                        hp, hbg, hlast, hl, hr, Option.map_some', optLeO,
                        decide_eq_true_eq] at h2
                      exact h2
                    have hrb : r.nend ≤ b := by
                      simp only [optLe, lastChildEnd, cursorObj, hsn, hp,
                        hlast, hr, Option.map_some', decide_eq_true_eq] at h3
                      exact h3
                    exact ginv_classOpShape
                      ({ kind := .classSubtraction, parent := some pid,
                         nstart := a, nend := b,
                         raw := sliceCU s.source a b,
                         children := [l0, rid] } : NodeObj)
                      hg hsn hp hlast hr hl hlp hlrne
                      (List.dropLast_sublist _)
                      (fun hh => hlnc ((List.dropLast_sublist _).subset hh))
                      hrne1 hls hlr hrb hpb rfl rfl rfl rfl rfl
            | none =>
              simp only [hbg] at hok
              cases hl2 : p.children.dropLast.getLast? with
              | none =>
                simp only [hl2] at hok
                exact Except.noConfusion hok
              | some l0 =>
                simp only [hl2] at hok
                cases hl : getN s l0 with
                | none =>
                  simp only [hl] at hok
                  exact Except.noConfusion hok
                | some l =>
                  cases hr : getN s rid with
                  | none =>
                    simp only [hl, hr] at hok
                    exact Except.noConfusion hok
                  | some r =>
                    simp only [hl, hr] at hok
                    split at hok
                    · exact Except.noConfusion hok
                    · injection hok with heq
                      subst heq
                      have hl0mem : l0 ∈ p.children :=
                        (List.dropLast_sublist _).subset
                          (List.mem_of_getLast?_eq_some hl2)
                      have hlrne : l0 ≠ rid := fun hh =>
                        hrne1 (hh ▸ List.mem_of_getLast?_eq_some hl2)
                      have hlp : l.parent = some pid := by
                        rcases hg.kids pid p hp l0 hl0mem with ⟨co, hco, hcp⟩
                        rw [hl] at hco
                        injection hco with h4
                        rw [← h4] at hcp
                        exact hcp
                      have helems1nd : p.children.dropLast.Nodup :=
                        hkdn.sublist (List.dropLast_sublist _)
                      have hlne : l0 ∉ p.children.dropLast.dropLast :=
                        nodup_getLast?_not_mem_dropLast helems1nd hl2
                      have hr2 : getN (setN (alloc s
                          { kind := .classSubtraction, parent := some pid,
                            nstart := a, nend := b,
                            raw := sliceCU s.source a b,
                            children := [l0, rid] }).1 l0
                          { l with parent := some (alloc s
                            { kind := .classSubtraction, parent := some pid,
                              nstart := a, nend := b,
                              raw := sliceCU s.source a b,
                              children := [l0, rid] }).2 }) rid = some r := by
                        rw [getN_setN_ne _ _ hlrne,
                          getN_alloc_of_lt _ (getN_lt hr), hr]
                      simp only [hr2]
                      have hls : l.nstart = a := by
                        simp only [opLeftStart, hsn, hp, hbg, hl2, hl,
                          Option.map_some', Option.some.injEq] at hca
                        exact hca
                      have hlr : l.nend ≤ r.nstart := by
                        simp only [opLeftEnd, lastChildStart, cursorObj, hsn,
                          hp, hbg, hl2, hlast, hl, hr, Option.map_some',
                          optLeO, decide_eq_true_eq] at h2
                        exact h2
                      have hrb : r.nend ≤ b := by
                        simp only [optLe, lastChildEnd, cursorObj, hsn, hp,
                          hlast, hr, Option.map_some', decide_eq_true_eq]
                          at h3
                        exact h3
                      exact ginv_classOpShape
                        ({ kind := .classSubtraction, parent := some pid,
                           nstart := a, nend := b,
                           raw := sliceCU s.source a b,
                           children := [l0, rid] } : NodeObj)
                        hg hsn hp hlast hr hl hlp hlrne
                        ((List.dropLast_sublist _).trans
                          (List.dropLast_sublist _))
                        hlne
                        (fun hh =>
                          hrne1 ((List.dropLast_sublist _).subset hh))
                        hls hlr hrb hpb rfl rfl rfl rfl rfl
      · exact Except.noConfusion hok

theorem ginv_onCharacterClassRange {s s2 : PState} {pos a b : Nat}
    {P : List Nat} (hg : GInv s pos P) (hca : rangeMinStart s = some a)
    (h2 : optLeO (rangeMinEnd s) (lastChildStart s) = true)
    (h3 : optLe (lastChildEnd s) b = true) (hpb : pos ≤ b)
    (hok : onCharacterClassRange s a b = .ok s2) : GInv s2 b P := by
  cases hsn : s.node with
  | none =>
    simp only [onCharacterClassRange, hsn] at hok
    exact Except.noConfusion hok
  | some pid =>
    cases hp : getN s pid with
    | none =>
      simp only [onCharacterClassRange, hsn, hp] at hok
      exact Except.noConfusion hok
    | some p =>
      simp only [onCharacterClassRange, hsn, hp] at hok
      split at hok
      · rename_i neg uset hk
        cases hlast : p.children.getLast? with
        | none =>
          simp only [hlast] at hok
          exact Except.noConfusion hok
        | some maxId =>
          simp only [hlast] at hok
          cases hmx0 : getN s maxId with
          | none =>
            simp only [hmx0] at hok
            exact Except.noConfusion hok
          | some mx =>
            simp only [hmx0] at hok
            split at hok
            · rename_i c1 hk1
              have hkdn : p.children.Nodup := hg.kidsNodup pid p hp
              have hrne1 : maxId ∉ p.children.dropLast :=
                nodup_getLast?_not_mem_dropLast hkdn hlast
              have helems1nd : p.children.dropLast.Nodup :=
                hkdn.sublist (List.dropLast_sublist _)
              cases uset with
              | true =>
                simp only [if_true] at hok
                cases hminl : p.children.dropLast.getLast? with
                | none =>
                  simp only [hminl] at hok
                  exact Except.noConfusion hok
                | some minId =>
                  simp only [hminl] at hok
                  cases hmn0 : getN s minId with
                  | none =>
                    simp only [hmn0] at hok
                    exact Except.noConfusion hok
                  | some mn =>
                    simp only [hmn0] at hok
                    split at hok
                    · rename_i c2 hk2
                      injection hok with heq
                      subst heq
                      have hmin_in1 : minId ∈ p.children.dropLast :=
                        List.mem_of_getLast?_eq_some hminl
                      have hne : minId ≠ maxId := fun hh =>
                        hrne1 (hh ▸ hmin_in1)
                      have hmx2 : getN (setN (alloc s
                          { kind := .characterClassRange, parent := some pid,
                            nstart := a, nend := b,
                            raw := sliceCU s.source a b,
                            children := [minId, maxId] }).1 minId
                          { mn with parent := some (alloc s
                            { kind := .characterClassRange,
                              parent := some pid, nstart := a, nend := b,
                              raw := sliceCU s.source a b,
                              children := [minId, maxId] }).2 }) maxId =
                          some mx := by
                        rw [getN_setN_ne _ _ hne,
                          getN_alloc_of_lt _ (getN_lt hmx0), hmx0]
                      simp only [hmx2]
                      have hmns : mn.nstart = a := by
                        simp only [rangeMinStart, cursorObj, hsn, hp, hk,
                          classUnicodeSetsK, if_true, hminl, hmn0,
                          Option.map_some', Option.some.injEq] at hca
                        exact hca
                      have hmm : mn.nend ≤ mx.nstart := by
                        simp only [rangeMinEnd, lastChildStart, cursorObj,
                          hsn, hp, hk, classUnicodeSetsK, if_true, hminl,
                          hlast, hmn0, hmx0, Option.map_some', optLeO,
                          decide_eq_true_eq] at h2
                        exact h2
                      have hmxb : mx.nend ≤ b := by
                        simp only [optLe, lastChildEnd, cursorObj, hsn, hp,
                          hlast, hmx0, Option.map_some', decide_eq_true_eq]
                          at h3
                        exact h3
                      exact ginv_rangeShape
                        ({ kind := .characterClassRange, parent := some pid,
                           nstart := a, nend := b,
                           raw := sliceCU s.source a b,
                           children := [minId, maxId] } : NodeObj)
                        hg hsn hp hlast hmx0 hmn0
                        ((List.dropLast_sublist _).subset hmin_in1) hne
                        ((List.dropLast_sublist _).trans
                          (List.dropLast_sublist _))
                        (nodup_getLast?_not_mem_dropLast helems1nd hminl)
                        (fun hh =>
                          hrne1 ((List.dropLast_sublist _).subset hh))
                        hmns hmm hmxb hpb rfl rfl rfl rfl rfl
                    · exact Except.noConfusion hok
              | false =>
                simp only [Bool.false_eq_true, if_false] at hok
                cases hhyl : p.children.dropLast.getLast? with
                | none =>
                  simp only [hhyl] at hok
                  exact Except.noConfusion hok
                | some hid =>
                  simp only [hhyl] at hok
                  cases hh0 : getN s hid with
                  | none =>
                    simp only [hh0] at hok
                    exact Except.noConfusion hok
                  | some h =>
                    simp only [hh0] at hok
                    by_cases hhk : h.kind = .character HYPHEN_MINUS
                    · simp only [if_pos hhk] at hok
                      cases hminl : p.children.dropLast.dropLast.getLast? with
                      | none =>
                        simp only [hminl] at hok
                        exact Except.noConfusion hok
                      | some minId =>
                        simp only [hminl] at hok
                        cases hmn0 : getN s minId with
                        | none =>
                          simp only [hmn0] at hok
                          exact Except.noConfusion hok
                        | some mn =>
                          simp only [hmn0] at hok
                          split at hok
                          · rename_i c2 hk2
                            injection hok with heq
                            subst heq
                            have hel2nd :
                                p.children.dropLast.dropLast.Nodup :=
                              helems1nd.sublist (List.dropLast_sublist _)
                            have hmin_in2 :
                                minId ∈ p.children.dropLast.dropLast :=
                              List.mem_of_getLast?_eq_some hminl
                            have hmin_in1 : minId ∈ p.children.dropLast :=
                              (List.dropLast_sublist _).subset hmin_in2
                            have hne : minId ≠ maxId := fun hh =>
                              hrne1 (hh ▸ hmin_in1)
                            have hmx2 : getN (setN (alloc s
                                { kind := .characterClassRange,
                                  parent := some pid, nstart := a,
                                  nend := b, raw := sliceCU s.source a b,
                                  children := [minId, maxId] }).1 minId
                                { mn with parent := some (alloc s
                                  { kind := .characterClassRange,
                                    parent := some pid, nstart := a,
                                    nend := b, raw := sliceCU s.source a b,
                                    children := [minId, maxId] }).2 })
                                maxId = some mx := by
                              rw [getN_setN_ne _ _ hne,
                                getN_alloc_of_lt _ (getN_lt hmx0), hmx0]
                            simp only [hmx2]
                            have hmns : mn.nstart = a := by
                              simp only [rangeMinStart, cursorObj, hsn, hp,
                                hk, classUnicodeSetsK, Bool.false_eq_true,
                                if_false, hminl, hmn0, Option.map_some',
                                Option.some.injEq] at hca
                              exact hca
                            have hmm : mn.nend ≤ mx.nstart := by
                              simp only [rangeMinEnd, lastChildStart,
                                cursorObj, hsn, hp, hk, classUnicodeSetsK,
                                Bool.false_eq_true, if_false, hminl, hlast,
                                hmn0, hmx0, Option.map_some', optLeO,
                                decide_eq_true_eq] at h2
                              exact h2
                            have hmxb : mx.nend ≤ b := by
                              simp only [optLe, lastChildEnd, cursorObj,
                                hsn, hp, hlast, hmx0, Option.map_some',
                                decide_eq_true_eq] at h3
                              exact h3
                            exact ginv_rangeShape
                              ({ kind := .characterClassRange,
                                 parent := some pid, nstart := a, nend := b,
                                 raw := sliceCU s.source a b,
                                 children := [minId, maxId] } : NodeObj)
                              hg hsn hp hlast hmx0 hmn0
                              ((List.dropLast_sublist _).subset hmin_in1)
                              hne
                              (((List.dropLast_sublist _).trans
                                (List.dropLast_sublist _)).trans
                                (List.dropLast_sublist _))
                              (nodup_getLast?_not_mem_dropLast hel2nd hminl)
                              (fun hh => hrne1
                                ((List.dropLast_sublist _).subset
                                  ((List.dropLast_sublist _).subset hh)))
                              hmns hmm hmxb hpb rfl rfl rfl rfl rfl
                          · exact Except.noConfusion hok
                    · simp only [if_neg hhk] at hok
                      exact Except.noConfusion hok
            · exact Except.noConfusion hok
      · exact Except.noConfusion hok

theorem ginv_onCharacterClassLeave {s s2 : PState} {pos a b : Nat}
    {P : List Nat} (hg : GInv s pos P) (hca : cursorStart s = some a)
    (hpb : pos ≤ b) (hok : onCharacterClassLeave s a b = .ok s2) :
    GInv s2 b P.tail := by
  cases hsn : s.node with
  | none =>
    simp only [onCharacterClassLeave, hsn] at hok
    exact Except.noConfusion hok
  | some nid =>
    cases hnid : getN s nid with
    | none =>
      simp only [onCharacterClassLeave, hsn, hnid] at hok
      exact Except.noConfusion hok
    | some n0 =>
      simp only [cursorStart, cursorObj, hsn, hnid, Option.map_some',
        Option.some.injEq] at hca
      simp only [onCharacterClassLeave, hsn, hnid] at hok
      split at hok
      · rename_i neg u2 hk
        split at hok
        · exact Except.noConfusion hok
        · rename_i pid hnp0
          cases hp0 : getN s pid with
          | none =>
            simp only [hp0] at hok
            exact Except.noConfusion hok
          | some p0 =>
            simp only [hp0] at hok
            split at hok
            · cases hbg : bufGet s.exprBuffer nid with
              | none =>
                simp only [setN_exprBuffer, hbg] at hok
                injection hok with heq
                subst heq
                have hlv := ginv_leaveToParent hg hsn hnid hca hpb
                have heq2 : leaveToParent s nid n0 a b =
                    { setN s nid { n0 with
                        nend := b, raw := sliceCU s.source a b } with
                      node := some pid } := by
                  rw [← hnp0]
                  rfl
                exact heq2 ▸ hlv
              | some eid =>
                simp only [setN_exprBuffer, hbg] at hok
                split at hok
                · exact Except.noConfusion hok
                · rename_i hnc
                  have hnc2 : n0.children = [] := not_not.mp hnc
                  have hmem : (nid, eid) ∈ s.exprBuffer := bufGet_mem hbg
                  rcases hg.buf (nid, eid) hmem with ⟨e0, he0, hep⟩
                  have heL : eid < s.heap.length := getN_lt he0
                  have hpathn : PathTo s nid P := by
                    have h := hg.path
                    rw [PathOk, hsn] at h
                    exact h
                  have hnidP : nid ∈ P := by
                    rcases PathTo_head hpathn with ⟨t, ht⟩
                    rw [ht]
                    exact List.mem_cons_self _ _
                  have hneid : eid ≠ nid := by
                    intro hh
                    rw [hh, hnid] at he0
                    injection he0 with h4
                    rw [← h4] at hep
                    exact child_not_mem hpathn hg.nodup hnid hep hnidP
                  have hpne : pid ≠ nid := by
                    intro hh
                    rw [hh] at hnp0
                    exact child_not_mem hpathn hg.nodup hnid hnp0 hnidP
                  have hpidP : pid ∈ P :=
                    PathTo_parent_mem hpathn nid hnidP n0 pid hnid hnp0
                  have heidP : eid ∉ P :=
                    child_not_mem hpathn hg.nodup he0 hep
                  have hepne : eid ≠ pid := fun hh => heidP (hh ▸ hpidP)
                  have he0b : getN s eid = some e0 := he0
                  have hepb : e0.parent = some nid := hep
                  split at hok
                  · exact Except.noConfusion hok
                  · rename_i e1 heq
                    have heq2 : getN s eid = some e1 := by
                      rw [← heq]
                      simp [getN, alloc, setN, List.get?_eq_getElem?,
                        List.getElem?_append, List.length_set, heL,
                        Nat.ne_of_lt heL,
                        List.getElem?_set_ne (Ne.symm hneid)]
                    rw [he0b] at heq2
                    injection heq2 with h5
                    subst h5
                    split at hok
                    · exact Except.noConfusion hok
                    · rename_i p1 heqB
                      have heqB2 : getN s pid = some p1 := by
                        rw [← heqB]
                        have hpL : pid < s.heap.length := getN_lt hp0
                        simp [getN, alloc, setN, List.get?_eq_getElem?,
                          List.getElem?_append, List.length_set, hpL, heL,
                          Nat.ne_of_lt hpL, List.getElem?_set_ne hepne,
                          List.getElem?_set_ne (Ne.symm hpne)]
                      rw [hp0] at heqB2
                      injection heqB2 with h6
                      subst h6
                      split at hok
                      · rename_i lastId hlastw
                        split at hok
                        · rename_i hle
                          injection hok with heq9
                          subst heq9
                          have hlast2 : p0.children.getLast? = some nid :=
                            hle ▸ hlastw
                          refine ginv_classLeaveBuf hg hsn hnid hnp0 hp0
                            hmem he0b hnc2 hlast2 hca hpb ?_
                          simp
                        · exact Except.noConfusion hok
                      · exact Except.noConfusion hok
            · exact Except.noConfusion hok
      · exact Except.noConfusion hok

/-- One contract-checked step preserves the offset invariant (for some
updated cursor chain). -/
theorem ginv_step {s s2 : PState} {pos : Nat} {P : List Nat} {ev : Ev}
    (hg : GInv s pos P) (hev : evOk s pos ev = true)
    (hok : step s ev = .ok s2) : ∃ P2, GInv s2 (evPos ev) P2 := by
  cases ev with
  | regExpFlags a b f =>
    simp only [evOk, Bool.and_eq_true, decide_eq_true_eq] at hev
    simp only [step] at hok
    injection hok with he
    subst he
    exact ⟨P, ginv_onRegExpFlags hg hev.1 hev.2⟩
  | patternEnter a =>
    simp only [evOk, Bool.and_eq_true, beq_iff_eq, decide_eq_true_eq] at hev
    simp only [step] at hok
    injection hok with he
    subst he
    exact ⟨[s.heap.length], ginv_onPatternEnter hg hev.1 hev.2⟩
  | patternLeave a b =>
    simp only [evOk, Bool.and_eq_true, beq_iff_eq, decide_eq_true_eq] at hev
    exact ⟨P, ginv_onPatternLeave hg hev.1 hev.2 hok⟩
  | alternativeEnter a =>
    simp only [evOk, decide_eq_true_eq] at hev
    exact ⟨s.heap.length :: P, ginv_onAlternativeEnter hg hev hok⟩
  | alternativeLeave a b =>
    simp only [evOk, Bool.and_eq_true, beq_iff_eq, decide_eq_true_eq] at hev
    exact ⟨P.tail, ginv_onAlternativeLeave hg hev.1 hev.2 hok⟩
  | groupEnter a =>
    simp only [evOk, decide_eq_true_eq] at hev
    exact ⟨s.heap.length :: P, ginv_onGroupEnter hg hev hok⟩
  | groupLeave a b =>
    simp only [evOk, Bool.and_eq_true, beq_iff_eq, decide_eq_true_eq] at hev
    exact ⟨P.tail, ginv_onGroupLeave hg hev.1 hev.2 hok⟩
  | modifiersEnter a =>
    simp only [evOk, decide_eq_true_eq] at hev
    exact ⟨s.heap.length :: P, ginv_onModifiersEnter hg hev hok⟩
  | modifiersLeave a b =>
    simp only [evOk, Bool.and_eq_true, beq_iff_eq, decide_eq_true_eq] at hev
    exact ⟨P.tail, ginv_onModifiersLeave hg hev.1 hev.2 hok⟩
  | addModifiers a b ic ml da =>
    simp only [evOk, Bool.and_eq_true, decide_eq_true_eq] at hev
    exact ⟨P, ginv_onAddModifiers hg hev.1 hev.2 hok⟩
  | removeModifiers a b ic ml da =>
    simp only [evOk, Bool.and_eq_true, decide_eq_true_eq] at hev
    exact ⟨P, ginv_onRemoveModifiers hg hev.1 hev.2 hok⟩
  | capturingGroupEnter a n =>
    simp only [evOk, decide_eq_true_eq] at hev
    exact ⟨s.heap.length :: P, ginv_onCapturingGroupEnter hg hev hok⟩
  | capturingGroupLeave a b =>
    simp only [evOk, Bool.and_eq_true, beq_iff_eq, decide_eq_true_eq] at hev
    exact ⟨P.tail, ginv_onCapturingGroupLeave hg hev.1 hev.2 hok⟩
  | quantifier a b mi ma g =>
    simp only [evOk, decide_eq_true_eq] at hev
    have hok2 : onQuantifier s a b mi ma g = .ok s2 := hok
    exact ⟨P, ginv_onQuantifier hg hev hok2⟩
  | lookaroundEnter a k n =>
    simp only [evOk, decide_eq_true_eq] at hev
    exact ⟨s.heap.length :: P, ginv_onLookaroundAssertionEnter hg hev hok⟩
  | lookaroundLeave a b =>
    simp only [evOk, Bool.and_eq_true, beq_iff_eq, decide_eq_true_eq] at hev
    exact ⟨P.tail, ginv_onLookaroundAssertionLeave hg hev.1 hev.2 hok⟩
  | edgeAssertion a b k =>
    simp only [evOk, Bool.and_eq_true, decide_eq_true_eq] at hev
    exact ⟨P, ginv_onEdgeAssertion hg hev.1 hev.2 hok⟩
  | wordBoundaryAssertion a b n =>
    simp only [evOk, Bool.and_eq_true, decide_eq_true_eq] at hev
    exact ⟨P, ginv_onWordBoundaryAssertion hg hev.1 hev.2 hok⟩
  | anyCharacterSet a b =>
    simp only [evOk, Bool.and_eq_true, decide_eq_true_eq] at hev
    exact ⟨P, ginv_onAnyCharacterSet hg hev.1 hev.2 hok⟩
  | escapeCharacterSet a b k n =>
    simp only [evOk, Bool.and_eq_true, decide_eq_true_eq] at hev
    exact ⟨P, ginv_onEscapeCharacterSet hg hev.1 hev.2 hok⟩
  | unicodePropertySet a b k v n st =>
    simp only [evOk, Bool.and_eq_true, decide_eq_true_eq] at hev
    exact ⟨P, ginv_onUnicodePropertyCharacterSet hg hev.1 hev.2 hok⟩
  | character a b v =>
    simp only [evOk, Bool.and_eq_true, decide_eq_true_eq] at hev
    exact ⟨P, ginv_onCharacter hg hev.1 hev.2 hok⟩
  | backreference a b r =>
    simp only [evOk, Bool.and_eq_true, decide_eq_true_eq] at hev
    exact ⟨P, ginv_onBackreference hg hev.1 hev.2 hok⟩
  | characterClassEnter a n u =>
    simp only [evOk, decide_eq_true_eq] at hev
    exact ⟨s.heap.length :: P, ginv_onCharacterClassEnter hg hev hok⟩
  | characterClassLeave a b =>
    simp only [evOk, Bool.and_eq_true, beq_iff_eq, decide_eq_true_eq] at hev
    exact ⟨P.tail, ginv_onCharacterClassLeave hg hev.1 hev.2 hok⟩
  | characterClassRange a b =>
    simp only [evOk, Bool.and_eq_true, beq_iff_eq, decide_eq_true_eq] at hev
    exact ⟨P, ginv_onCharacterClassRange hg hev.1.1.1 hev.1.1.2 hev.1.2
      hev.2 hok⟩
  | classIntersection a b =>
    simp only [evOk, Bool.and_eq_true, beq_iff_eq, decide_eq_true_eq] at hev
    exact ⟨P, ginv_onClassIntersection hg hev.1.1.1 hev.1.1.2 hev.1.2
      hev.2 hok⟩
  | classSubtraction a b =>
    simp only [evOk, Bool.and_eq_true, beq_iff_eq, decide_eq_true_eq] at hev
    exact ⟨P, ginv_onClassSubtraction hg hev.1.1.1 hev.1.1.2 hev.1.2
      hev.2 hok⟩
  | classStringDisjunctionEnter a =>
    simp only [evOk, decide_eq_true_eq] at hev
    exact ⟨s.heap.length :: P, ginv_onClassStringDisjunctionEnter hg hev hok⟩
  | classStringDisjunctionLeave a b =>
    simp only [evOk, Bool.and_eq_true, beq_iff_eq, decide_eq_true_eq] at hev
    exact ⟨P.tail, ginv_onClassStringDisjunctionLeave hg hev.1 hev.2 hok⟩
  | stringAlternativeEnter a =>
    simp only [evOk, decide_eq_true_eq] at hev
    exact ⟨s.heap.length :: P, ginv_onStringAlternativeEnter hg hev hok⟩
  | stringAlternativeLeave a b =>
    simp only [evOk, Bool.and_eq_true, beq_iff_eq, decide_eq_true_eq] at hev
    exact ⟨P.tail, ginv_onStringAlternativeLeave hg hev.1 hev.2 hok⟩

theorem ginv_gstep {c c2 : PState × Nat} {P : List Nat} {ev : Ev}
    (hg : GInv c.1 c.2 P) (hok : gstep c ev = some c2) :
    ∃ P2, GInv c2.1 c2.2 P2 := by
  unfold gstep at hok
  split at hok
  · rename_i hev
    split at hok
    · rename_i s3 hstep
      injection hok with he
      subst he
      exact ginv_step hg hev hstep
    · exact Option.noConfusion hok
  · exact Option.noConfusion hok

/-- The offset invariant holds (for some cursor chain) after any
contract-checked run that starts in an invariant state. -/
theorem ginv_grun {evs : List Ev} : ∀ {c c2 : PState × Nat} {P : List Nat},
    GInv c.1 c.2 P → grun c evs = some c2 →
    ∃ P2, GInv c2.1 c2.2 P2 := by
  induction evs with
  | nil =>
    intro c c2 P hg hok
    injection hok with he
    subst he
    exact ⟨P, hg⟩
  | cons ev rest ih =>
    intro c c2 P hg hok
    rw [grun, List.foldlM_cons] at hok
    cases hst : gstep c ev with
    | none =>
      rw [hst] at hok
      exact Option.noConfusion hok
    | some c1 =>
      rw [hst] at hok
      rcases ginv_gstep hg hst with ⟨P1, hg1⟩
      exact ih hg1 hok

theorem ginv_initState (source : String) (strict : Bool) (e : Nat) :
    GInv (initState source strict e) 0 [] := by
  have hget : ∀ i, getN (initState source strict e) i = none := by
    intro i
    simp [getN, initState]
  refine ⟨?_, List.nodup_nil, ?_, ?_, ?_, ?_, ?_, ?_, ?_, ?_⟩
  · show PathOk (initState source strict e) []
    exact rfl
  · intro i o h
    rw [hget i] at h
    exact Option.noConfusion h
  · intro i o h
    rw [hget i] at h
    exact Option.noConfusion h
  · intro i o h
    rw [hget i] at h
    exact Option.noConfusion h
  · intro i o h
    rw [hget i] at h
    exact Option.noConfusion h
  · intro i o p h
    rw [hget i] at h
    exact Option.noConfusion h
  · intro i o p po h
    rw [hget i] at h
    exact Option.noConfusion h
  · intro pr hpr
    exact absurd hpr (List.not_mem_nil pr)
  · intro pr hpr
    exact absurd hpr (List.not_mem_nil pr)

theorem step_source {s s2 : PState} {ev : Ev} (hok : step s ev = .ok s2) :
    s2.source = s.source := by
  cases ev
  case patternLeave a b =>
    have hok2 : onPatternLeave s a b = .ok s2 := hok
    rw [onPatternLeave] at hok2
    have hfp := resolveOne_foldlM_fieldPres _ _ _ hok2
    have hsrc := hfp.2.1
    cases hn : s.node with
    | none =>
      simp only [hn] at hsrc
      exact hsrc
    | some i =>
      cases ho : getN s i with
      | none =>
        simp only [hn, ho] at hsrc
        exact hsrc
      | some o =>
        simp only [hn, ho, setN_source] at hsrc
        exact hsrc
  all_goals
    simp only [step, onRegExpFlags, onPatternEnter, onAlternativeEnter,
      onAlternativeLeave, onGroupEnter, onGroupLeave, onModifiersEnter,
      onModifiersLeave, onAddModifiers, onRemoveModifiers,
      onCapturingGroupEnter, onCapturingGroupLeave, onQuantifier,
      onLookaroundAssertionEnter, onLookaroundAssertionLeave,
      onEdgeAssertion, onWordBoundaryAssertion, onAnyCharacterSet,
      onEscapeCharacterSet, onUnicodePropertyCharacterSet, onCharacter,
      onBackreference, onCharacterClassEnter, onCharacterClassLeave,
      onCharacterClassRange, onClassIntersection, onClassSubtraction,
      onClassStringDisjunctionEnter, onClassStringDisjunctionLeave,
      onStringAlternativeEnter, onStringAlternativeLeave] at hok
  all_goals repeat' split at hok
  all_goals
    first
    | exact Except.noConfusion hok
    | (injection hok with he
       subst he
       rfl)

theorem gstep_source {c c2 : PState × Nat} {ev : Ev}
    (hok : gstep c ev = some c2) : c2.1.source = c.1.source := by
  unfold gstep at hok
  split at hok
  · split at hok
    · rename_i s3 hstep
      injection hok with he
      subst he
      exact step_source hstep
    · exact Option.noConfusion hok
  · exact Option.noConfusion hok

theorem grun_source {evs : List Ev} : ∀ {c c2 : PState × Nat},
    grun c evs = some c2 → c2.1.source = c.1.source := by
  induction evs with
  | nil =>
    intro c c2 hok
    injection hok with he
    subst he
    rfl
  | cons ev rest ih =>
    intro c c2 hok
    rw [grun, List.foldlM_cons] at hok
    cases hst : gstep c ev with
    | none =>
      rw [hst] at hok
      exact Option.noConfusion hok
    | some c1 =>
      rw [hst] at hok
      exact (ih hok).trans (gstep_source hst)

theorem createSimple_raw {source : String} {start fin : Nat}
    (h1 : start ≤ fin) (h2 : fin ≤ source.data.length) :
    ∀ i o, (createSimpleLiteralAST (sliceCU source start fin) start
        fin).1.get? i = some o →
      o.raw = sliceCU source o.nstart o.nend := by
  have key : ∀ (P : String), P = sliceCU source start fin →
      ∀ i o, (createSimpleLiteralAST P start fin).1.get? i = some o →
        o.raw = sliceCU source o.nstart o.nend := by
    intro P hPe i o h
    have hPdata : P.data = (source.data.drop start).take (fin - start) := by
      rw [hPe]
      rfl
    have hPlen : P.data.length = fin - start := by
      rw [hPdata, List.length_take, List.length_drop]
      omega
    have hclen : ((List.range P.data.length).map (fun j =>
        ({ kind := .character (charCodeAt (P.data.getD j ' ')),
           parent := some P.data.length, nstart := start + j,
           nend := start + j + 1, raw := String.mk [P.data.getD j ' '],
           children := [] } : NodeObj))).length = P.data.length := by
      simp
    simp only [createSimpleLiteralAST] at h
    by_cases hi : i < P.data.length
    · rw [List.get?_append (by rw [hclen]; exact hi), List.get?_map,
        List.get?_range hi] at h
      injection h with he
      subst he
      show String.mk [P.data.getD i ' '] =
        sliceCU source (start + i) (start + i + 1)
      have hifs : i < fin - start := by
        rw [hPlen] at hi
        exact hi
      have hlt : start + i < source.data.length := by omega
      rw [slice_one hlt]
      have hch : P.data.getD i ' ' = source.data.getD (start + i) ' ' := by
        rw [hPdata, List.getD_eq_getElem?_getD, List.getD_eq_getElem?_getD,
          List.getElem?_take, if_pos hifs, List.getElem?_drop]
      rw [hch]
    · rw [List.get?_append_right (by rw [hclen]; omega), hclen] at h
      rcases hm : i - P.data.length with _ | k
      · rw [hm] at h
        injection h with he
        subst he
        exact hPe
      · rcases k with _ | k2
        · rw [hm] at h
          injection h with he
          subst he
          exact hPe
        · rw [hm] at h
          exact Option.noConfusion h
  exact key _ rfl

/-- C7: for every node of an AST produced by a successful contract-checked
assembler run, and for every node of a fast-path AST built from a source
slice, `raw` equals the half-open code-unit source slice
`source[nstart..nend)`. -/
theorem c7_raw_slice_and_fast_path :
    (∀ (source : String) (strict : Bool) (ecma : Nat) (evs : List Ev)
        (st : PState) (pos : Nat),
        grun (initState source strict ecma, 0) evs = some (st, pos) →
        ∀ i o, getN st i = some o →
          o.raw = sliceCU source o.nstart o.nend) ∧
    (∀ (source : String) (start fin : Nat), start ≤ fin →
        fin ≤ source.data.length →
        ∀ i o, (createSimpleLiteralAST (sliceCU source start fin) start
            fin).1.get? i = some o →
          o.raw = sliceCU source o.nstart o.nend) := by
  constructor
  · intro source strict ecma evs st pos hrun i o hget
    rcases ginv_grun (ginv_initState source strict ecma) hrun with ⟨P2, hg⟩
    have hg2 : GInv st pos P2 := hg
    have hraw := hg2.raws i o hget
    have hsrc : st.source = source := grun_source hrun
    rw [hsrc] at hraw
    exact hraw
  · exact fun source start fin h1 h2 => createSimple_raw h1 h2

/-- C7 witness: the character node of the assembled `"ab"` parse and the
first fast-path node both satisfy the raw/slice equation. -/
theorem c7_raw_slice_witness :
    c7Node.raw = sliceCU "ab" c7Node.nstart c7Node.nend ∧
    c7FNode.raw = sliceCU "ab" c7FNode.nstart c7FNode.nend :=
  ⟨c7_raw_slice_and_fast_path.1 "ab" false 2024 (simpleStream "ab" 0 2)
      c7St.1 c7St.2 (by decide) 2 c7Node (by decide),
   c7_raw_slice_and_fast_path.2 "ab" 0 2 (by decide) (by decide) 0 c7FNode
      (by decide)⟩

/-- C7 counterexample: on the fast-path AST for `"ab"` (which
`tryFastPath` returns for this source), the concatenation of `raw` over a
depth-first left-to-right traversal is `"ababab"`, not the parsed slice
`"ab"`: the Pattern and Alternative repeat the slice the Characters
already spell. -/
theorem c7_dfs_concat_counterexample :
    tryFastPath "ab" 0 2 = some (createSimpleLiteralAST "ab" 0 2) ∧
    dfsRaw (createSimpleLiteralAST "ab" 0 2).1 6
      (createSimpleLiteralAST "ab" 0 2).2 = "ababab" ∧
    sliceCU "ab" 0 2 = "ab" ∧
    dfsRaw (createSimpleLiteralAST "ab" 0 2).1 6
      (createSimpleLiteralAST "ab" 0 2).2 ≠ sliceCU "ab" 0 2 := by
  refine ⟨by decide, by decide, by decide, ?_⟩
  intro hh
  exact absurd hh (by decide)

/-- C8: after a successful contract-checked run whose cursor rests on a
root node (no parent) spanning up to the final position, every node with
a parent satisfies `parent.nstart ≤ nstart ≤ nend ≤ parent.nend`. -/
theorem c8_parent_bounds_weak :
    ∀ (source : String) (strict : Bool) (ecma : Nat) (evs : List Ev)
      (st : PState) (pos : Nat),
      grun (initState source strict ecma, 0) evs = some (st, pos) →
      ∀ root ro, st.node = some root → getN st root = some ro →
        ro.parent = none → ro.nend = pos →
        ∀ i o p po, getN st i = some o → o.parent = some p →
          getN st p = some po →
          po.nstart ≤ o.nstart ∧ o.nstart ≤ o.nend ∧ o.nend ≤ po.nend := by
  intro source strict ecma evs st pos hrun root ro hnode hro hrp hre
    i o p po hi hip hp
  rcases ginv_grun (ginv_initState source strict ecma) hrun with ⟨P2, hg⟩
  have hg2 : GInv st pos P2 := hg
  have hpath : PathTo st root P2 := by
    have h := hg2.path
    rw [PathOk, hnode] at h
    exact h
  have hP : P2 = [root] := by
    rcases PathTo_inv hpath hro with ⟨hn, hPl⟩ | ⟨q, rest, hq, hPl, hrest⟩
    · exact hPl
    · rw [hrp] at hq
      exact Option.noConfusion hq
  rcases hg2.pstart i o p hi hip with ⟨po2, hpo2, hle⟩
  rw [hp] at hpo2
  injection hpo2 with he
  subst he
  refine ⟨hle, (hg2.bounds i o hi).1, ?_⟩
  by_cases hpr : p = root
  · subst hpr
    rw [hro] at hp
    injection hp with he2
    subst he2
    rw [hre]
    exact (hg2.bounds i o hi).2
  · have hiP : i ∉ P2 := by
      rw [hP]
      intro hmem
      rw [List.mem_singleton] at hmem
      subst hmem
      rw [hro] at hi
      injection hi with he3
      rw [← he3] at hip
      rw [hrp] at hip
      exact Option.noConfusion hip
    have hpP : p ∉ P2 := by
      rw [hP]
      intro hmem
      rw [List.mem_singleton] at hmem
      exact hpr hmem
    exact hg2.closedEnd i o p po hi hiP hip hp hpP

/-- C8 witness: in the assembled `"a|"` parse the `a` character sits
inside its alternative's span. -/
theorem c8_parent_bounds_weak_witness :
    c8Alt1Node.nstart ≤ c8CharNode.nstart ∧
    c8CharNode.nstart ≤ c8CharNode.nend ∧
    c8CharNode.nend ≤ c8Alt1Node.nend :=
  c8_parent_bounds_weak "a|" false 2024 c8Evs c8St.1 c8St.2 (by decide)
    0 c8PatNode (by decide) (by decide) (by decide) (by decide)
    2 c8CharNode 1 c8Alt1Node (by decide) (by decide) (by decide)

/-- C8 counterexample: the parse of `"a|"` succeeds and its second
(empty) Alternative has `nstart = nend = 2`, refuting the strict
`nstart < nend` part of the claim. -/
theorem c8_empty_alternative_counterexample :
    grun (initState "a|" false 2024, 0) c8Evs = some (c8St.1, c8St.2) ∧
    getN c8St.1 3 = some c8EmptyAltNode ∧
    c8EmptyAltNode.parent = some 0 ∧ c8EmptyAltNode.nstart = 2 ∧
    c8EmptyAltNode.nend = 2 ∧
    ¬ c8EmptyAltNode.nstart < c8EmptyAltNode.nend := by
  refine ⟨by decide, by decide, by decide, by decide, by decide, ?_⟩
  intro hh
  exact absurd hh (by decide)

end Regexpp
